import Mathlib

/-!
A conservative mark-and-sweep collector over a K&R free-list allocator.

Shallow embedding of `gc.hpp`.  Memory is a map from byte addresses to 64-bit
words.  A `Header` occupies two words: the word at the header address holds the
32-bit `size` field in its low half (x86-64, little endian, four bytes of
padding above it), the word eight bytes further holds `next`.  Pointer
arithmetic on `Header*` moves in steps of `sizeof(Header) = 16` bytes and wraps
at `2^64`; the `size` field wraps at `2^32`.  Every loop of the source is a
function that is structurally recursive on a fuel argument and returns `none`
when the fuel runs out.  The heap ends at the program break: `scan_heap`, whose
word loop runs one header unit past the end of a block, also returns `none` when
it reads a word that does not lie below the break.
-/

namespace GarbageCollector

/-- Memory: the word stored at each byte address. -/
abbrev Mem := Nat → Nat

/-- Store one word. -/
def write (m : Mem) (a v : Nat) : Mem := fun x => if x = a then v else m x

/-- Read of `h->size` (an `unsigned int`: the low 32 bits of the first word). -/
def getSize (m : Mem) (h : Nat) : Nat := m h % 4294967296

/-- Read of `h->next` (the second word of the header). -/
def getNext (m : Mem) (h : Nat) : Nat := m (h + 8)

/-- Assignment `h->size = v`: a 32-bit store, the padding above it is kept. -/
def setSize (m : Mem) (h v : Nat) : Mem :=
  write m h (m h / 4294967296 * 4294967296 + v % 4294967296)

/-- Assignment `h->next = v`. -/
def setNext (m : Mem) (h v : Nat) : Mem := write m (h + 8) (v % 18446744073709551616)

/-- Pointer arithmetic `p + k` on `Header*`: `k` headers of 16 bytes, wrapping at `2^64`. -/
def padd (p k : Nat) : Nat := (p + 16 * k) % 18446744073709551616

/-- The macro `UNTAG(p)`, `p & ~0x3`: clears the two low bits. -/
def UNTAG (p : Nat) : Nat := p / 4 * 4

/-- The expression `v | 1`: sets the low bit. -/
def setMark (v : Nat) : Nat := v / 2 * 2 + 1

/-- The expression `v & ~1`: clears the low bit. -/
def clearMark (v : Nat) : Nat := v / 2 * 2

/-- The expression `v & 1`: the low bit. -/
def markBit (v : Nat) : Nat := v % 2

/-- The expression `p | b` for a one-bit value `b` (`b` is `0` or `1`). -/
def orBit (p b : Nat) : Nat := p / 2 * 2 + max (p % 2) (b % 2)

/-- The environment of the allocator: the address of the static sentinel `base`
and the behaviour of the memory-extension call. -/
structure Env where
  /-- Address of the static variable `base`. -/
  base : Nat
  /-- Whether `sbrk` grants a request: `grant brk inc` for the current break and
  the requested byte count. -/
  grant : Nat → Nat → Bool

/-- The global state: memory, the statics `freep`, `usedp`, `stack_bottom`, the
flag `initted` of `GC_init`, and the program break. -/
structure State where
  mem : Mem
  freep : Nat
  usedp : Nat
  stack_bottom : Nat
  initted : Bool
  brk : Nat

/-- Modelled from the spec: `sbrk`, the external memory-extension call, which is
not part of the repository.  It grows the contiguous region by `inc` bytes from
its current end and returns the start of the new region, or it fails. -/
def sbrk (E : Env) (s : State) (inc : Nat) : Option (Nat × State) :=
  if E.grant s.brk inc = true then
    some (s.brk, { s with brk := (s.brk + inc) % 18446744073709551616 })
  else none

/-- The `for` loop of `add_to_free_list`: returns the `p` at which it stops. -/
def findSlot : Nat → Mem → Nat → Nat → Option Nat
  | 0, _, _, _ => none
  | k + 1, m, bp, p =>
    if bp > p ∧ bp < getNext m p then some p
    else if p ≥ getNext m p ∧ (bp > p ∨ bp < getNext m p) then some p
    else findSlot k m bp (getNext m p)

/-- The two coalescing steps of `add_to_free_list` once `p` is found. -/
def linkIn (m : Mem) (bp p : Nat) : Mem :=
  let m1 :=
    if padd bp (getSize m bp) = getNext m p then
      let ma := setSize m bp ((getSize m bp + getSize m (getNext m p)) % 4294967296)
      setNext ma bp (getNext ma (getNext ma p))
    else setNext m bp (getNext m p)
  if padd p (getSize m1 p) = bp then
    let mb := setSize m1 p ((getSize m1 p + getSize m1 bp) % 4294967296)
    setNext mb p (getNext mb bp)
  else setNext m1 p bp

/-- The function `add_to_free_list(bp)`. -/
def add_to_free_list (fuel : Nat) (s : State) (bp : Nat) : Option State :=
  match findSlot fuel s.mem bp s.freep with
  | none => none
  | some p => some { s with mem := linkIn s.mem bp p, freep := p }

/-- The constant `MIN_ALLOC_SIZE / sizeof(Header)`. -/
def MIN_UNITS : Nat := 4096 / 16

/-- The function `morecore(num_units)`.  The outer `none` is fuel exhaustion, the
inner `none` is the `nullptr` result; on success the result is the new state,
whose `freep` is the returned pointer. -/
def morecore (fuel : Nat) (E : Env) (s : State) (num_units : Nat) : Option (Option State) :=
  let nu := if num_units < MIN_UNITS then MIN_UNITS else num_units
  match sbrk E s ((nu * 16) % 18446744073709551616) with
  | none => some none
  | some (up, s1) =>
    match add_to_free_list fuel { s1 with mem := setSize s1.mem up nu } up with
    | none => none
    | some s2 => some (some s2)

/-- The unit count `(alloc_size + sizeof(Header) - 1) / sizeof(Header) + 1` in `size_t`. -/
def num_units (alloc_size : Nat) : Nat :=
  ((alloc_size + 16 - 1) % 18446744073709551616) / 16 + 1

/-- The first half of the success branch of `GC_malloc`: the free block `p` gives
`num` units, either whole (it is unlinked from `prevp`) or from its tail.  The
result is the memory and the block that is handed out. -/
def carve (m : Mem) (num prevp p : Nat) : Mem × Nat :=
  if getSize m p = num then (setNext m prevp (getNext m p), p)
  else
    let m1 := setSize m p (getSize m p - num)
    let q := padd p (getSize m1 p)
    (setSize m1 q num, q)

/-- The second half of the success branch of `GC_malloc`: `freep = prevp`, the
block `q` is linked into the registry, and `q + 1` is returned. -/
def register (s : State) (m : Mem) (prevp q : Nat) : State × Nat :=
  if s.usedp = 0 then
    ({ s with mem := setNext m q q, freep := prevp, usedp := q }, padd q 1)
  else
    ({ s with mem := setNext (setNext m q (getNext m s.usedp)) s.usedp q, freep := prevp },
      padd q 1)

/-- The success branch of `GC_malloc`. -/
def takeBlock (s : State) (num prevp p : Nat) : State × Nat :=
  register s (carve s.mem num prevp p).1 prevp (carve s.mem num prevp p).2

/-- The search loop of `GC_malloc`.  The result is the final state and the
returned pointer (`0` for `nullptr`). -/
def mallocLoop : Nat → Env → State → Nat → Nat → Nat → Option (State × Nat)
  | 0, _, _, _, _, _ => none
  | k + 1, E, s, num, prevp, p =>
    if getSize s.mem p ≥ num then some (takeBlock s num prevp p)
    else if p = s.freep then
      match morecore k E s num with
      | none => none
      | some none => some (s, 0)
      | some (some s1) => mallocLoop k E s1 num s1.freep (getNext s1.mem s1.freep)
    else mallocLoop k E s num p (getNext s.mem p)

/-- The function `GC_malloc(alloc_size)`. -/
def GC_malloc (fuel : Nat) (E : Env) (s : State) (alloc_size : Nat) : Option (State × Nat) :=
  let s0 : State :=
    if s.freep = 0 then
      { s with mem := setSize (setNext s.mem E.base E.base) E.base 0, freep := E.base }
    else s
  mallocLoop fuel E s0 (num_units alloc_size) s0.freep (getNext s0.mem s0.freep)

/-- The containment test of the scanners: `(uintptr_t)(bp + 1) <= v` and
`(uintptr_t)(bp + 1 + bp->size) > v`. -/
def hits (m : Mem) (bp v : Nat) : Prop :=
  padd bp 1 ≤ v ∧ v < padd bp (1 + getSize m bp)

instance (m : Mem) (bp v : Nat) : Decidable (hits m bp v) := by
  unfold hits; infer_instance

/-- The `do ... while` loop of `scan_region` for one word value `v`. -/
def markWalk : Nat → Mem → Nat → Nat → Nat → Option Mem
  | 0, _, _, _, _ => none
  | k + 1, m, usedp, v, bp =>
    if hits m bp v then some (setNext m bp (setMark (getNext m bp)))
    else if UNTAG (getNext m bp) ≠ usedp then markWalk k m usedp v (UNTAG (getNext m bp))
    else some m

/-- The words of the scanned range are handed over as the list of their values. -/
def scanWords : Nat → Mem → Nat → List Nat → Option Mem
  | _, m, _, [] => some m
  | fuel, m, usedp, v :: vs =>
    match markWalk fuel m usedp v usedp with
    | none => none
    | some m1 => scanWords fuel m1 usedp vs

/-- The function `scan_region(sp, end)`, on the values stored in `[sp, end)`. -/
def scan_region (fuel : Nat) (s : State) (ws : List Nat) : Option State :=
  match scanWords fuel s.mem s.usedp ws with
  | none => none
  | some m => some { s with mem := m }

/-- The `do ... while` loop of `scan_heap` for one word value `v` read in `bp`. -/
def heapMark : Nat → Mem → Nat → Nat → Nat → Nat → Option Mem
  | 0, _, _, _, _, _ => none
  | k + 1, m, usedp, bp, v, up =>
    if up ≠ bp ∧ hits m up v then some (setNext m up (setMark (getNext m up)))
    else if UNTAG (getNext m up) ≠ usedp then heapMark k m usedp bp v (UNTAG (getNext m up))
    else some m

/-- The loop of `scan_heap` over the words `vp` of the block `bp`.  The loop bound
`bp + 1 + bp->size` lies one header unit past the end of the block, so the last
two words read belong to whatever follows the block.  The heap ends at the break
`brk`: a word that does not lie below the break is not part of it, the read
`*vp` has no defined result there (the access may fault), and the loop yields no
result. -/
def heapWords : Nat → Mem → Nat → Nat → Nat → Nat → Option Mem
  | 0, _, _, _, _, _ => none
  | k + 1, m, brk, usedp, bp, vp =>
    if vp < padd bp (1 + getSize m bp) then
      if vp + 8 ≤ brk then
        match heapMark k m usedp bp (m vp) (UNTAG (getNext m usedp)) with
        | none => none
        | some m1 => heapWords k m1 brk usedp bp ((vp + 8) % 18446744073709551616)
      else none
    else some m

/-- The outer loop of `scan_heap` over the registry blocks `bp`. -/
def heapBlocks : Nat → Mem → Nat → Nat → Nat → Option Mem
  | 0, _, _, _, _ => none
  | k + 1, m, brk, usedp, bp =>
    if bp ≠ usedp then
      if markBit (getNext m bp) = 0 then heapBlocks k m brk usedp (UNTAG (getNext m bp))
      else
        match heapWords k m brk usedp bp (padd bp 1) with
        | none => none
        | some m1 => heapBlocks k m1 brk usedp (UNTAG (getNext m1 bp))
    else some m

/-- The function `scan_heap()`. -/
def scan_heap (fuel : Nat) (s : State) : Option State :=
  match heapBlocks fuel s.mem s.brk s.usedp (UNTAG (getNext s.mem s.usedp)) with
  | none => none
  | some m => some { s with mem := m }

/-- The sweep loop of `GC_collect`, entered at the label `next_chunk` with the
current `prevp` and `p`.  Next to the final state it returns the blocks handed to
`add_to_free_list`, in that order. -/
def sweep : Nat → State → Nat → Nat → Option (State × List Nat)
  | 0, _, _, _ => none
  | k + 1, s, prevp, p =>
    if markBit (getNext s.mem p) = 0 then
      match add_to_free_list k s p with
      | none => none
      | some s1 =>
        if s1.usedp = p then some ({ s1 with usedp := 0 }, [p])
        else
          let q := UNTAG (getNext s.mem p)
          let m := setNext s1.mem prevp (orBit q (markBit (getNext s1.mem prevp)))
          match sweep k { s1 with mem := m } prevp q with
          | none => none
          | some (s2, l) => some (s2, p :: l)
    else
      let m := setNext s.mem p (clearMark (getNext s.mem p))
      if p = s.usedp then some ({ s with mem := m }, [])
      else sweep k { s with mem := m } p (UNTAG (getNext m p))

/-- The function `GC_collect()`, given the values stored in the static data
segment and on the stack.  The second component lists the reclaimed blocks. -/
def GC_collect (fuel : Nat) (s : State) (statics stack : List Nat) :
    Option (State × List Nat) :=
  if s.usedp = 0 then some (s, [])
  else
    match scan_region fuel s statics with
    | none => none
    | some s1 =>
      match scan_region fuel s1 stack with
      | none => none
      | some s2 =>
        match scan_heap fuel s2 with
        | none => none
        | some s3 => sweep fuel s3 s3.usedp (UNTAG (getNext s3.mem s3.usedp))

/-- The function `GC_init()`; `sb` is the stack start read from `/proc/self/stat`. -/
def GC_init (E : Env) (s : State) (sb : Nat) : State :=
  if s.initted = true then s
  else
    { s with
      initted := true
      stack_bottom := sb
      usedp := 0
      mem := setSize (setNext s.mem E.base E.base) E.base 0
      freep := E.base }

/-- The state of a freshly loaded process: zeroed statics, memory `m`, break `b`. -/
def boot (m : Mem) (b : Nat) : State :=
  { mem := m, freep := 0, usedp := 0, stack_bottom := 0, initted := false, brk := b }

/-! ## Invariants -/

/-- The invariant of the free list.  `F` lists the free blocks other than the
sentinel.  Every block is 16-byte aligned and lies between the sentinel and the
break; distinct free blocks are separated by a gap (they neither overlap nor
touch); the links form the address-ordered cycle through the sentinel. -/
structure FRep (E : Env) (s : State) (F : List Nat) : Prop where
  brk_le : s.brk ≤ 9223372036854775808
  nodup : F.Nodup
  blk : ∀ x ∈ F, x % 16 = 0 ∧ E.base + 16 ≤ x ∧ x + 16 ≤ s.brk ∧
    x + 16 * getSize s.mem x ≤ s.brk
  disj : ∀ x ∈ F, ∀ y ∈ F, x < y → x + 16 * getSize s.mem x < y
  base_size : getSize s.mem E.base = 0
  freep_mem : s.freep = E.base ∨ s.freep ∈ F
  next_mem : ∀ x, (x = E.base ∨ x ∈ F) →
    (getNext s.mem x = E.base ∨ getNext s.mem x ∈ F)
  next_ord : ∀ x, (x = E.base ∨ x ∈ F) →
    (x < getNext s.mem x ∧ ∀ z ∈ F, z ≤ x ∨ getNext s.mem x ≤ z) ∨
    (getNext s.mem x = E.base ∧ ∀ z ∈ F, z ≤ x)

/-- A block that may be handed to `add_to_free_list`: aligned, inside the heap,
not a free block, and overlapping no free block. -/
structure Fresh (E : Env) (s : State) (F : List Nat) (bp : Nat) : Prop where
  al : bp % 16 = 0
  lo : E.base + 16 ≤ bp
  hi : bp + 16 ≤ s.brk
  hi_sz : bp + 16 * getSize s.mem bp ≤ s.brk
  new : bp ∉ F
  above : ∀ y ∈ F, bp < y → bp + 16 * getSize s.mem bp ≤ y
  below : ∀ y ∈ F, y < bp → y + 16 * getSize s.mem y ≤ bp

/-- The sum of the `size` fields of a list of blocks. -/
def sizeSum (m : Mem) (l : List Nat) : Nat := (l.map (getSize m)).sum


/-- A registry link from `x` to `y`: the `next` field of `x` holds the address
`y`, possibly with the mark bit set. -/
def lnk (m : Mem) (x y : Nat) : Prop := getNext m x = y ∨ getNext m x = y + 1

/-- The blocks of `l` are linked in this order, the last one to `e`. -/
def Links (m : Mem) : List Nat → Nat → Prop
  | [], _ => True
  | x :: l, e => lnk m x (l.headD e) ∧ Links m l e

/-- The invariant of the live registry.  `U` lists its blocks in link order,
starting with the anchor `usedp`; it is empty exactly when `usedp` is null. -/
structure URep (E : Env) (s : State) (U : List Nat) : Prop where
  nodup : U.Nodup
  blk : ∀ x ∈ U, x % 16 = 0 ∧ E.base + 16 ≤ x ∧ x + 16 * getSize s.mem x ≤ s.brk ∧
    1 ≤ getSize s.mem x
  disj : ∀ x ∈ U, ∀ y ∈ U, x < y → x + 16 * getSize s.mem x ≤ y
  head : s.usedp = U.headD 0
  links : Links s.mem U (U.headD 0)

/-- The invariant of the allocator: free list `F`, registry `U`, and no overlap
between a free block and a registered block. -/
structure Rep (E : Env) (s : State) (F U : List Nat) : Prop where
  free : FRep E s F
  used : URep E s U
  ne : ∀ x ∈ F, x ∉ U
  fu : ∀ x ∈ F, ∀ y ∈ U, x < y → x + 16 * getSize s.mem x ≤ y
  uf : ∀ x ∈ F, ∀ y ∈ U, y < x → y + 16 * getSize s.mem y ≤ x
  brk_al : s.brk % 16 = 0
  base_pos : 0 < E.base
  base_lt : E.base + 16 ≤ s.brk

/-- No block of `U` carries a mark. -/
def Clear (s : State) (U : List Nat) : Prop := ∀ x ∈ U, markBit (getNext s.mem x) = 0

/-- The allocator invariant at rest. -/
def Inv (E : Env) (s : State) : Prop := ∃ F U, Rep E s F U ∧ Clear s U

/-- The environment grants only requests that it can serve inside the address
space, and a granted region holds at least the header `morecore` writes into it. -/
def WellBehaved (E : Env) : Prop :=
  ∀ b inc, E.grant b inc = true → 16 ≤ inc ∧ b + inc ≤ 9223372036854775808

/-- The registry after `q` has been linked in behind the anchor. -/
def regInsert (U : List Nat) (q : Nat) : List Nat :=
  match U with
  | [] => [q]
  | u :: R => u :: q :: R

/-- Memory `m'` differs from `m` at most by mark bits that were set in the `next`
fields of blocks of `U`. -/
def SameLinks (U : List Nat) (m m' : Mem) : Prop :=
  (∀ a, (∀ x ∈ U, a ≠ x + 8) → m' a = m a) ∧
  (∀ x ∈ U, getNext m' x = getNext m x ∨
    (getNext m' x = getNext m x + 1 ∧ getNext m x % 2 = 0))

/-- Memory `m'` differs from `m` at most in the mark bits of the `next` fields of
blocks of `U`. -/
def MarkEq (U : List Nat) (m m' : Mem) : Prop :=
  (∀ a, (∀ x ∈ U, a ≠ x + 8) → m' a = m a) ∧
  (∀ x ∈ U, getNext m' x / 2 = getNext m x / 2)

/-- The block reached from `p` after `k` steps along the registry links. -/
def regIter (m : Mem) : Nat → Nat → Nat
  | 0, p => p
  | k + 1, p => regIter m k (UNTAG (getNext m p))

/-- The block `x` is in the live registry: it is reached from the anchor `usedp`. -/
def InRegistry (s : State) (x : Nat) : Prop :=
  s.usedp ≠ 0 ∧ ∃ k, regIter s.mem k s.usedp = x

/-- The node reached from `p` after `k` steps along the free-list links. -/
def freeIter (m : Mem) : Nat → Nat → Nat
  | 0, p => p
  | k + 1, p => freeIter m k (getNext m p)

/-- The node `x` is in the free list: it is reached from the cursor `freep`. -/
def InFree (s : State) (x : Nat) : Prop := ∃ k, freeIter s.mem k s.freep = x

/-- The word at address `a` lies in the payload of a registered block. -/
def InPayload (s : State) (a : Nat) : Prop :=
  ∃ x, InRegistry s x ∧ x + 16 ≤ a ∧ a + 8 ≤ x + 16 * getSize s.mem x

/-- The states the allocator reaches: `GC_init` in a fresh process whose break is
16-byte aligned and lies above the sentinel, followed by any sequence of
`GC_init`, `GC_malloc` and `GC_collect` calls that return, with arbitrary root
contents at each collection, and of stores of the program into the payload of
registered blocks. -/
inductive Reach (E : Env) : State → Prop
  | init (m : Mem) (b sb : Nat) (h0 : 0 < E.base) (h1 : E.base + 16 ≤ b) (h2 : b % 16 = 0)
      (h3 : b ≤ 9223372036854775808) : Reach E (GC_init E (boot m b) sb)
  | reinit (s : State) (sb : Nat) (h : Reach E s) : Reach E (GC_init E s sb)
  | malloc (s s' : State) (k n r : Nat) (h : Reach E s)
      (hm : GC_malloc k E s n = some (s', r)) : Reach E s'
  | collect (s s' : State) (k : Nat) (statics stack l : List Nat) (h : Reach E s)
      (hc : GC_collect k s statics stack = some (s', l)) : Reach E s'
  | store (s : State) (a v : Nat) (h : Reach E s) (ha : InPayload s a) :
      Reach E { s with mem := write s.mem a v }

/-- The block `b` is referenced from the roots: it is registered and the value of
a root word lies in its payload. -/
def RootRef (s : State) (roots : List Nat) (b : Nat) : Prop :=
  InRegistry s b ∧ ∃ v ∈ roots, b + 16 ≤ v ∧ v < b + 16 * getSize s.mem b

/-- The block `b` is referenced from the block `a`: it is registered and the value
of a word in the payload of `a` lies in its payload. -/
def HeapRef (s : State) (a b : Nat) : Prop :=
  InRegistry s b ∧ ∃ w, w % 8 = 0 ∧ a + 16 ≤ w ∧ w + 8 ≤ a + 16 * getSize s.mem a ∧
    b + 16 ≤ s.mem w ∧ s.mem w < b + 16 * getSize s.mem b

/-! ## A concrete run -/

/-- An environment whose sentinel lies at address 1024 and whose break may grow
up to one mebibyte. -/
def demoEnv : Env :=
  { base := 1024, grant := fun b inc => decide (16 ≤ inc ∧ b + inc ≤ 1048576) }

/-- The state after `GC_init` in a process with zeroed memory and break 8192. -/
def demoInit : State := GC_init demoEnv (boot (fun _ => 0) 8192) 0

/-- The state after `n` calls `GC_malloc(64)` from `demoInit`. -/
def demoAlloc : Nat → State
  | 0 => demoInit
  | n + 1 => ((GC_malloc 8 demoEnv (demoAlloc n) 64).getD (demoInit, 0)).1

/-- The state and the reclaimed blocks after a `GC_collect` that returns; the
state itself when it does not. -/
def collectD (fuel : Nat) (s : State) (statics stack : List Nat) : State :=
  ((GC_collect fuel s statics stack).getD (s, [])).1

/-- The state after `n` further calls `GC_malloc(64)` from `s`. -/
def allocMore (s : State) : Nat → State
  | 0 => s
  | n + 1 => ((GC_malloc 8 demoEnv (allocMore s n) 64).getD (s, 0)).1

/-- Three blocks are allocated; a collection with the second block as the only
root drops the registry (its anchor is unmarked) and leaves a gap in the heap;
four more blocks are allocated. -/
def gapState : State := allocMore (collectD 16 (demoAlloc 3) [] [12144]) 4

/-- An environment whose sentinel lies at address 1024 and whose break may grow
up to `2^37`. -/
def bigEnv : Env :=
  { base := 1024, grant := fun b inc => decide (16 ≤ inc ∧ b + inc ≤ 137438953472) }

/-- The state after `GC_init` in a process with zeroed memory and break 8192,
in the environment `bigEnv`. -/
def bigInit : State := GC_init bigEnv (boot (fun _ => 0) 8192) 0

/-- The sum of the `size` fields along the free-list links from `p` up to the
node `stop`. -/
def sumFrom (m : Mem) (stop : Nat) : Nat → Nat → Option Nat
  | 0, _ => none
  | k + 1, p =>
    if p = stop then some 0
    else (sumFrom m stop k (getNext m p)).map (fun t => getSize m p + t)

/-- The total size, in units, of the free-list blocks: the walk starts behind the
sentinel and ends when it comes back to it. -/
def freeTotal (fuel : Nat) (E : Env) (s : State) : Option Nat :=
  sumFrom s.mem E.base fuel (getNext s.mem E.base)

/-- The blocks of `l` are linked in this order by their `next` fields, the last
one to `e`. -/
def ExactLinks (m : Mem) : List Nat → Nat → Prop
  | [], _ => True
  | x :: l, e => getNext m x = l.headD e ∧ ExactLinks m l e

/-- The state after `c` successive calls `GC_malloc(n)` from `s` that all return
an address, as in the allocation loop of `main`; `none` when one of the calls
returns the null pointer or does not return. -/
def allocRun (fuel : Nat) (E : Env) (n : Nat) : Nat → State → Option State
  | 0, s => some s
  | c + 1, s =>
    match allocRun fuel E n c s with
    | none => none
    | some s1 =>
      match GC_malloc fuel E s1 n with
      | none => none
      | some (s2, r) => if r = 0 then none else some s2

/-- The addresses returned by the ten calls `GC_malloc(64)` of the concrete run. -/
def demoRoots : List Nat :=
  [12224, 12144, 12064, 11984, 11904, 11824, 11744, 11664, 11584, 11504]

/-- An environment whose sentinel lies at address 1024 and whose break may grow
up to `2^38`. -/
def hugeEnv : Env :=
  { base := 1024, grant := fun b inc => decide (16 ≤ inc ∧ b + inc ≤ 274877906944) }

/-- One block is allocated and, with no root at all, collected again: the free
list holds the single block `8192` of 256 units, which ends at the break. -/
def hugeFreed : State :=
  ((GC_collect 16
    ((GC_malloc 8 hugeEnv (GC_init hugeEnv (boot (fun _ => 0) 8192) 0) 64).getD
      (boot (fun _ => 0) 8192, 0)).1 [] []).getD (boot (fun _ => 0) 8192, [])).1

/-- The concrete run after ten allocations and the root scan of a collection
whose stack holds the ten returned addresses. -/
def demoScanned : State := (scan_region 32 (demoAlloc 10) demoRoots).getD demoInit

/-- The concrete run after ten allocations and the mark phase of a collection
whose stack holds the ten returned addresses. -/
def demoMarked : State := (scan_heap 32 demoScanned).getD demoInit

/-- An environment whose sentinel lies at address 1024 and whose extension call
grants every request. -/
def freeEnv : Env := { base := 1024, grant := fun _ _ => true }

/-- The state after `GC_init` in a process with zeroed memory and break 8192,
in the environment `freeEnv`. -/
def freeInit : State := GC_init freeEnv (boot (fun _ => 0) 8192) 0

/-- Three blocks are allocated; the program stores into the first word of block
`12128` a pointer into block `12048`. -/
def refState : State := { demoAlloc 3 with mem := write (demoAlloc 3).mem 12144 12064 }

/-- Three blocks are allocated; the program stores into the first word of the
anchor `12208` a pointer into block `12048`. -/
def anchorState : State := { demoAlloc 3 with mem := write (demoAlloc 3).mem 12224 12064 }

/-- The words of the allocator's own static variables, which lie in the static
data that `GC_collect` scans: `base.size`, `base.next`, `freep`, `usedp`,
`stack_bottom` and `initted`. -/
def ownStatics (E : Env) (s : State) : List Nat :=
  [s.mem E.base, getNext s.mem E.base, s.freep, s.usedp, s.stack_bottom,
    if s.initted = true then 1 else 0]

/-- Three blocks are allocated and a collection with roots into the anchor
`12208` and into block `12048` has run; it reclaimed nothing. -/
def keptState : State := collectD 16 (demoAlloc 3) [12224] [12064]

/-- A well-formed registry: the invariant `URep` of the live registry (aligned,
pairwise disjoint blocks of positive size below the break, linked in a cycle from
the anchor, mark bits arbitrary) in a heap that ends in the lower half of the
address space. -/
def RegOK (E : Env) (s : State) (U : List Nat) : Prop :=
  URep E s U ∧ s.brk ≤ 9223372036854775808

/-- One step of a scan that marks every match: the block `bp` is marked when
it passes the containment test for the value `v`. -/
def markIf (m : Mem) (bp v : Nat) : Mem :=
  if hits m bp v then setNext m bp (setMark (getNext m bp)) else m

/-- The walk of a scan that marks every matching block: like the `do ... while`
loop of `scan_region`, without the `break` at the first match. -/
def markEveryWalk : Nat → Mem → Nat → Nat → Nat → Option Mem
  | 0, _, _, _, _ => none
  | k + 1, m, usedp, v, bp =>
    if UNTAG (getNext (markIf m bp v) bp) ≠ usedp then
      markEveryWalk k (markIf m bp v) usedp v (UNTAG (getNext (markIf m bp v) bp))
    else some (markIf m bp v)

/-- The scan that marks every matching block, over the word values of the range. -/
def scanEveryWords : Nat → Mem → Nat → List Nat → Option Mem
  | _, m, _, [] => some m
  | fuel, m, usedp, v :: vs =>
    match markEveryWalk fuel m usedp v usedp with
    | none => none
    | some m1 => scanEveryWords fuel m1 usedp vs

/-- The counterpart of `scan_region` that marks every matching block. -/
def scan_region_every (fuel : Nat) (s : State) (ws : List Nat) : Option State :=
  match scanEveryWords fuel s.mem s.usedp ws with
  | none => none
  | some m => some { s with mem := m }

/-- Three blocks are allocated; the program stores into the first word of block
`12128` a pointer to the payload of the anchor `12208`. -/
def toAnchorState : State := { demoAlloc 3 with mem := write (demoAlloc 3).mem 12144 12224 }

/-- The address `a` lies in a block of the free list. -/
def FreeCovers (s : State) (a : Nat) : Prop :=
  ∃ x, InFree s x ∧ x ≤ a ∧ a < x + 16 * getSize s.mem x

/-- The outcome of a sweep that starts in state `s` and ends in state `s'` after
handing the blocks `l` to `add_to_free_list`: `l` lists each block once, it holds
exactly the registered blocks that are unmarked in `s`, none of them is registered
in `s'`, and a node of the free list of `s'` covers each of them. -/
def Reclaims (s s' : State) (l : List Nat) : Prop :=
  l.Nodup ∧ (∀ b, b ∈ l ↔ (InRegistry s b ∧ markBit (getNext s.mem b) = 0)) ∧
    ∀ b ∈ l, ¬ InRegistry s' b ∧
      ∃ y, InFree s' y ∧ y ≤ b ∧ b + 16 * getSize s.mem b ≤ y + 16 * getSize s'.mem y

/-- In the environment `hugeEnv`: the state after `GC_init` and `GC_malloc(64)`. -/
def hugeOne : State :=
  ((GC_malloc 8 hugeEnv (GC_init hugeEnv (boot (fun _ => 0) 8192) 0) 64).getD
    (boot (fun _ => 0) 8192, 0)).1

/-- The state after a further `GC_malloc(2^36 - 32)`, a request of `2^32 - 1`
units: the registry holds the blocks `12208` (5 units) and `12288`
(`2^32 - 1` units), the free list the block `8192` (251 units). -/
def hugeTwo : State := ((GC_malloc 8 hugeEnv hugeOne 68719476704).getD (hugeOne, 0)).1

/-- The state `hugeTwo` after `add_to_free_list` of the block `12288`, as in the
first step of a sweep: the free list holds `8192` (251 units) and `12288`
(`2^32 - 1` units). -/
def hugeMid : State := (add_to_free_list 8 hugeTwo 12288).getD hugeTwo

/-- The state after three allocations and the root scan of the word `12224`, which
marks the anchor `12208`. -/
def anchorMarked : State := (scan_region 16 (demoAlloc 3) [12224]).getD demoInit

/-- Position `i` of the single pass of `scan_heap`: `b` is the `i`-th successor of
the anchor along the registry links, with `i ≥ 1`, and none of the successors up
to the `i`-th is the anchor, whose reappearance ends the pass. -/
def WalkAt (s : State) (i b : Nat) : Prop :=
  1 ≤ i ∧ regIter s.mem i s.usedp = b ∧
    ∀ j, 1 ≤ j → j ≤ i → regIter s.mem j s.usedp ≠ s.usedp

/-- The block `b` at position `i` of the pass of `scan_heap` is marked when the
pass visits it: it is referenced from the roots, or from the payload of a block
of this kind at an earlier position of the pass. -/
inductive FwdReach (s : State) (roots : List Nat) : Nat → Nat → Prop
  | root (i b : Nat) (hi : WalkAt s i b) (hr : RootRef s roots b) : FwdReach s roots i b
  | step (i a j b : Nat) (ha : FwdReach s roots i a) (hij : i < j) (hj : WalkAt s j b)
      (hr : HeapRef s a b) : FwdReach s roots j b

/-- The blocks that the marking of `GC_collect` is bound to keep: those referenced
from the roots, and those other than the anchor that are referenced from the
payload of a block which is marked when the pass of `scan_heap` visits it. -/
def Kept (s : State) (roots : List Nat) (b : Nat) : Prop :=
  RootRef s roots b ∨ (b ≠ s.usedp ∧ ∃ i a, FwdReach s roots i a ∧ HeapRef s a b)

/-- The state after `GC_init`, `GC_malloc(4080)`, which takes the whole first
extension as the block `8192` (the anchor), and `GC_malloc(64)`, which takes the
block `16304` from the end of the second extension: this block ends at the break
`16384`. -/
def edgeState : State :=
  ((GC_malloc 8 demoEnv ((GC_malloc 8 demoEnv demoInit 4080).getD (demoInit, 0)).1 64).getD
    (demoInit, 0)).1

/-- The environment grants only requests that end inside the address space. -/
def Bounded (E : Env) : Prop :=
  ∀ b inc, E.grant b inc = true → b + inc ≤ 9223372036854775808

/-- The byte count that `morecore` passes to `sbrk` on behalf of
`GC_malloc(alloc_size)`: `max(num_units, 256) * sizeof(Header)` in `size_t`. -/
def request (alloc_size : Nat) : Nat :=
  ((if num_units alloc_size < MIN_UNITS then MIN_UNITS else num_units alloc_size) * 16) %
    18446744073709551616

/-- The environment `E` with every request of fewer than 16 bytes refused. -/
def restrictEnv (E : Env) : Env :=
  { base := E.base, grant := fun b inc => E.grant b inc && decide (16 ≤ inc) }

/-- An environment whose sentinel lies at address 1024 and whose break may grow up
to one mebibyte; like the system call, it grants the request of zero bytes. -/
def zeroEnv : Env :=
  { base := 1024, grant := fun b inc => decide (b + inc ≤ 1048576) }

/-- The state after `GC_init` in a process with zeroed memory and break 8192, in
the environment `zeroEnv`. -/
def zeroInit : State := GC_init zeroEnv (boot (fun _ => 0) 8192) 0
/-! ## Reading and writing header fields -/

theorem getSize_lt (m : Mem) (h : Nat) : getSize m h < 4294967296 := by
  unfold getSize; omega

theorem getSize_setSize_same (m : Mem) (h v : Nat) :
    getSize (setSize m h v) h = v % 4294967296 := by
  simp [getSize, setSize, write]; omega

theorem getSize_setSize_ne (m : Mem) (h v x : Nat) (hx : x ≠ h) :
    getSize (setSize m h v) x = getSize m x := by
  simp [getSize, setSize, write, hx]

theorem getSize_setNext (m : Mem) (h v x : Nat) (hx : x ≠ h + 8) :
    getSize (setNext m h v) x = getSize m x := by
  simp [getSize, setNext, write, hx]

theorem getNext_setSize (m : Mem) (h v x : Nat) (hx : x + 8 ≠ h) :
    getNext (setSize m h v) x = getNext m x := by
  simp [getNext, setSize, write, hx]

theorem getNext_setNext_same (m : Mem) (h v : Nat) :
    getNext (setNext m h v) h = v % 18446744073709551616 := by
  simp [getNext, setNext, write]

theorem getNext_setNext_ne (m : Mem) (h v x : Nat) (hx : x ≠ h) :
    getNext (setNext m h v) x = getNext m x := by
  simp [getNext, setNext, write, hx]

theorem setSize_other (m : Mem) (h v a : Nat) (ha : a ≠ h) : setSize m h v a = m a := by
  simp [setSize, write, ha]

theorem setNext_other (m : Mem) (h v a : Nat) (ha : a ≠ h + 8) : setNext m h v a = m a := by
  simp [setNext, write, ha]

/-- The loop of `add_to_free_list` stops at a node of the list, at which its exit
condition holds. -/
theorem findSlot_spec (E : Env) (s : State) (F : List Nat) (hF : FRep E s F) (bp : Nat) :
    ∀ (k p r : Nat), (p = E.base ∨ p ∈ F) → findSlot k s.mem bp p = some r →
      (r = E.base ∨ r ∈ F) ∧
      ((bp > r ∧ bp < getNext s.mem r) ∨
        (r ≥ getNext s.mem r ∧ (bp > r ∨ bp < getNext s.mem r))) := by
  intro k
  induction k with
  | zero => intro p r _ h; simp [findSlot] at h
  | succ k ih =>
    intro p r hp h
    unfold findSlot at h
    split_ifs at h with h1 h2
    · cases h; exact ⟨hp, Or.inl h1⟩
    · cases h; exact ⟨hp, Or.inr h2⟩
    · exact ih _ _ (hF.next_mem p hp) h

/-- Where the loop of `add_to_free_list` stops: `bp` lies above `r`, no free block
lies between `r` and `bp`, and the successor of `r` is the lowest free block
above `bp` (or the sentinel when there is none). -/
theorem slot_place (E : Env) (s : State) (F : List Nat) (hF : FRep E s F) (bp r : Nat)
    (hlo : E.base + 16 ≤ bp) (hr : r = E.base ∨ r ∈ F)
    (hx : (bp > r ∧ bp < getNext s.mem r) ∨
        (r ≥ getNext s.mem r ∧ (bp > r ∨ bp < getNext s.mem r))) :
    r < bp ∧ (∀ z ∈ F, z ≤ r ∨ getNext s.mem r ≤ z) ∧
      ((bp < getNext s.mem r ∧ getNext s.mem r ∈ F) ∨
        (getNext s.mem r = E.base ∧ ∀ z ∈ F, z ≤ r)) := by
  have hnm := hF.next_mem r hr
  rcases hF.next_ord r hr with ⟨h1, h2⟩ | ⟨h1, h2⟩
  · have hb : bp > r ∧ bp < getNext s.mem r := by omega
    refine ⟨hb.1, h2, Or.inl ⟨hb.2, ?_⟩⟩
    rcases hnm with h | h
    · omega
    · exact h
  · have hb : bp > r := by omega
    refine ⟨hb, ?_, Or.inr ⟨h1, h2⟩⟩
    intro z hz
    exact Or.inl (h2 z hz)

/-- The header fields after the two coalescing steps, for a block `bp` whose
header is apart from the header of `r` and of the successor of `r`. -/
theorem linkIn_vals (m : Mem) (bp r : Nat) (h1 : r ≠ bp) (h2 : r + 8 ≠ bp) (h3 : bp + 8 ≠ r)
    (h4 : getNext m r + 8 ≠ bp) :
    getSize (linkIn m bp r) bp =
        (if padd bp (getSize m bp) = getNext m r
          then (getSize m bp + getSize m (getNext m r)) % 4294967296 else getSize m bp) ∧
      getNext (linkIn m bp r) bp =
        (if padd bp (getSize m bp) = getNext m r
          then getNext m (getNext m r) else getNext m r) % 18446744073709551616 ∧
      getSize (linkIn m bp r) r =
        (if padd r (getSize m r) = bp
          then (getSize m r + (if padd bp (getSize m bp) = getNext m r
            then (getSize m bp + getSize m (getNext m r)) % 4294967296 else getSize m bp))
              % 4294967296
          else getSize m r) ∧
      getNext (linkIn m bp r) r =
        (if padd r (getSize m r) = bp
          then (if padd bp (getSize m bp) = getNext m r
            then getNext m (getNext m r) else getNext m r) else bp) % 18446744073709551616 := by
  have e1 : getNext (setSize m bp ((getSize m bp + getSize m (getNext m r)) % 4294967296)) r
      = getNext m r := getNext_setSize _ _ _ _ h2
  have e2 : getNext (setSize m bp ((getSize m bp + getSize m (getNext m r)) % 4294967296))
      (getNext m r) = getNext m (getNext m r) := getNext_setSize _ _ _ _ h4
  unfold linkIn
  simp only [e1, e2]
  by_cases hup : padd bp (getSize m bp) = getNext m r
  · simp only [hup, if_true]
    have e3 : getSize (setNext (setSize m bp ((getSize m bp + getSize m (getNext m r)) %
        4294967296)) bp (getNext m (getNext m r))) r = getSize m r := by
      rw [getSize_setNext _ _ _ _ (by omega), getSize_setSize_ne _ _ _ _ h1]
    simp only [e3]
    by_cases hdn : padd r (getSize m r) = bp
    · simp only [hdn, if_true]
      refine ⟨?_, ?_, ?_, ?_⟩
      · rw [getSize_setNext _ _ _ _ (by omega), getSize_setSize_ne _ _ _ _ (Ne.symm h1),
          getSize_setNext _ _ _ _ (by omega), getSize_setSize_same]
        omega
      · rw [getNext_setNext_ne _ _ _ _ (Ne.symm h1), getNext_setSize _ _ _ _ h3,
          getNext_setNext_same]
      · rw [getSize_setNext _ _ _ _ (by omega), getSize_setSize_same,
          getSize_setNext _ _ _ _ (by omega), getSize_setSize_same]
        omega
      · rw [getNext_setNext_same, getNext_setSize _ _ _ _ h3, getNext_setNext_same]
        omega
    · simp only [hdn, if_false]
      refine ⟨?_, ?_, ?_, ?_⟩
      · rw [getSize_setNext _ _ _ _ (by omega), getSize_setNext _ _ _ _ (by omega),
          getSize_setSize_same]
        omega
      · rw [getNext_setNext_ne _ _ _ _ (Ne.symm h1), getNext_setNext_same]
      · rw [getSize_setNext _ _ _ _ (by omega), e3]
      · rw [getNext_setNext_same]
  · simp only [hup, if_false]
    have e3 : getSize (setNext m bp (getNext m r)) r = getSize m r :=
      getSize_setNext _ _ _ _ (by omega)
    simp only [e3]
    by_cases hdn : padd r (getSize m r) = bp
    · simp only [hdn, if_true]
      refine ⟨?_, ?_, ?_, ?_⟩
      · rw [getSize_setNext _ _ _ _ (by omega), getSize_setSize_ne _ _ _ _ (Ne.symm h1),
          getSize_setNext _ _ _ _ (by omega)]
      · rw [getNext_setNext_ne _ _ _ _ (Ne.symm h1), getNext_setSize _ _ _ _ h3,
          getNext_setNext_same]
      · rw [getSize_setNext _ _ _ _ (by omega), getSize_setSize_same,
          getSize_setNext _ _ _ _ (by omega)]
        omega
      · rw [getNext_setNext_same, getNext_setSize _ _ _ _ h3, getNext_setNext_same]
        omega
    · simp only [hdn, if_false]
      refine ⟨?_, ?_, ?_, ?_⟩
      · rw [getSize_setNext _ _ _ _ (by omega), getSize_setNext _ _ _ _ (by omega)]
      · rw [getNext_setNext_ne _ _ _ _ (Ne.symm h1), getNext_setNext_same]
      · rw [getSize_setNext _ _ _ _ (by omega), e3]
      · rw [getNext_setNext_same]

/-- The coalescing steps write only the two header words of `bp` and of `r`. -/
theorem linkIn_frame (m : Mem) (bp r a : Nat) (h1 : a ≠ bp) (h2 : a ≠ bp + 8) (h3 : a ≠ r)
    (h4 : a ≠ r + 8) : linkIn m bp r a = m a := by
  unfold linkIn
  simp only []
  split_ifs <;> simp [setNext, setSize, write, h1, h2, h3, h4]

/-- Nodes of the free list lie below the break, hence below `2^63`, once a fresh
block lies above the sentinel. -/
theorem FRep.node_lt {E : Env} {s : State} {F : List Nat} (hF : FRep E s F) (x : Nat)
    (hx : x = E.base ∨ x ∈ F) (hb : E.base + 16 ≤ s.brk) : x + 16 ≤ s.brk := by
  rcases hx with h | h
  · omega
  · exact (hF.blk x h).2.2.1

/-- Headers of two distinct nodes of the free list share no word. -/
theorem FRep.node_sep {E : Env} {s : State} {F : List Nat} (hF : FRep E s F) (x y : Nat)
    (hx : x = E.base ∨ x ∈ F) (hy : y = E.base ∨ y ∈ F) :
    x + 8 ≠ y ∧ x ≠ y + 8 := by
  rcases hx with h | h <;> rcases hy with h' | h'
  · omega
  · have := hF.blk y h'; omega
  · have := hF.blk x h; omega
  · have := hF.blk y h'; have := hF.blk x h; omega

/-- The header of a fresh block shares no word with the header of a node. -/
theorem Fresh.sep_node {E : Env} {s : State} {F : List Nat} {bp : Nat} (hF : FRep E s F)
    (hb : Fresh E s F bp) (x : Nat) (hx : x = E.base ∨ x ∈ F) :
    x ≠ bp ∧ x + 8 ≠ bp ∧ x ≠ bp + 8 := by
  have h1 := hb.lo
  have h2 := hb.al
  rcases hx with h | h
  · omega
  · have := hF.blk x h
    have : x ≠ bp := fun e => hb.new (e ▸ h)
    omega

theorem sizeSum_cons (m : Mem) (x : Nat) (l : List Nat) :
    sizeSum m (x :: l) = getSize m x + sizeSum m l := by
  simp [sizeSum]

theorem sizeSum_erase (m : Mem) (x : Nat) (l : List Nat) (h : x ∈ l) :
    getSize m x + sizeSum m (l.erase x) = sizeSum m l :=
  List.sum_map_erase (getSize m) h

theorem sizeSum_congr (m m' : Mem) (l : List Nat) (h : ∀ x ∈ l, getSize m' x = getSize m x) :
    sizeSum m' l = sizeSum m l := by
  unfold sizeSum
  rw [List.map_congr_left h]

theorem sizeSum_mem_le (m : Mem) (x : Nat) (l : List Nat) (h : x ∈ l) :
    getSize m x ≤ sizeSum m l := by
  have := sizeSum_erase m x l h
  omega

theorem linkIn_FRep (E : Env) (s : State) (F : List Nat) (hF : FRep E s F) (bp r : Nat)
    (hb : Fresh E s F bp) (hr : r = E.base ∨ r ∈ F)
    (hx : (bp > r ∧ bp < getNext s.mem r) ∨
        (r ≥ getNext s.mem r ∧ (bp > r ∨ bp < getNext s.mem r))) :
    ∃ F', FRep E { s with mem := linkIn s.mem bp r, freep := r } F' ∧
      (∀ y ∈ F', y = bp ∨ y ∈ F) ∧
      (∀ z, z ≠ bp → z ∉ F →
        (∀ x, (x = bp ∨ x ∈ F) → x < z → x + 16 * getSize s.mem x ≤ z) →
        ∀ y ∈ F', y < z → y + 16 * getSize (linkIn s.mem bp r) y ≤ z) ∧
      (sizeSum s.mem F + getSize s.mem bp < 4294967296 →
        sizeSum (linkIn s.mem bp r) F' = sizeSum s.mem F + getSize s.mem bp ∧
        (∀ x, (x = bp ∨ x ∈ F) → ∃ y ∈ F', y ≤ x ∧
          x + 16 * getSize s.mem x ≤ y + 16 * getSize (linkIn s.mem bp r) y) ∧
        ((getNext (linkIn s.mem bp r) r = bp ∧
            getSize s.mem bp ≤ getSize (linkIn s.mem bp r) bp) ∨
          (r + 16 * getSize s.mem r = bp ∧
            getSize s.mem r + getSize s.mem bp ≤ getSize (linkIn s.mem bp r) r))) := by
  obtain ⟨hrb, ha, halt⟩ := slot_place E s F hF bp r hb.lo hr hx
  have hbrk := hF.brk_le
  have hblo := hb.lo
  have hbal := hb.al
  have hbhi := hb.hi
  have hbhs := hb.hi_sz
  have hnx : getNext s.mem r = E.base ∨ getNext s.mem r ∈ F := hF.next_mem r hr
  have hrs := Fresh.sep_node hF hb r hr
  have hns := Fresh.sep_node hF hb _ hnx
  have hrend : r + 16 * getSize s.mem r ≤ bp := by
    rcases hr with h | h
    · have := hF.base_size; rw [← h] at this; omega
    · exact hb.below r h hrb
  obtain ⟨vsb, vnb, vsr, vnr⟩ := linkIn_vals s.mem bp r hrs.1 hrs.2.1 (by omega) hns.2.1
  have hpb : padd bp (getSize s.mem bp) = bp + 16 * getSize s.mem bp := by
    unfold padd; omega
  have hpr : padd r (getSize s.mem r) = r + 16 * getSize s.mem r := by
    unfold padd; omega
  rw [hpb] at vsb vnb vsr vnr; rw [hpr] at vsr vnr
  have hnlt : ∀ x, (x = E.base ∨ x ∈ F) → x < 9223372036854775808 := by
    intro x hx
    have := hF.node_lt x hx (by omega); omega
  have hfr : ∀ x, (x = E.base ∨ x ∈ F) → x ≠ r →
      getSize (linkIn s.mem bp r) x = getSize s.mem x ∧
      getNext (linkIn s.mem bp r) x = getNext s.mem x := by
    intro x hx hxr
    have h1 := Fresh.sep_node hF hb x hx
    have h2 := hF.node_sep x r hx hr
    have h3 := hF.node_sep r x hr hx
    unfold getSize getNext
    rw [linkIn_frame _ _ _ _ h1.1 h1.2.2 hxr h2.2,
      linkIn_frame _ _ _ _ h1.2.1 (by omega) h2.1 (by omega)]
    exact ⟨rfl, rfl⟩
  -- first step: `bp` is linked to its successor, absorbing it when adjacent
  have stageA : ∃ (F0 : List Nat) (SB NB : Nat),
      getSize (linkIn s.mem bp r) bp = SB ∧ getNext (linkIn s.mem bp r) bp = NB ∧
      getSize (linkIn s.mem bp r) r =
        (if r + 16 * getSize s.mem r = bp then (getSize s.mem r + SB) % 4294967296
          else getSize s.mem r) ∧
      getNext (linkIn s.mem bp r) r = (if r + 16 * getSize s.mem r = bp then NB else bp) ∧
      (∀ z ∈ F0, z ∈ F) ∧ F0.Nodup ∧
      (∀ z ∈ F0, z ≤ r ∨ (bp + 16 * SB < z ∧ NB ≤ z ∧ NB ∈ F0)) ∧
      (NB = E.base ∨ (NB ∈ F0 ∧ bp < NB)) ∧
      (NB = E.base → ∀ z ∈ F0, z ≤ r) ∧
      bp + 16 * SB ≤ s.brk ∧
      (∀ x, (x = E.base ∨ x ∈ F0) → x ≠ r →
        (getNext s.mem x = E.base ∨ getNext s.mem x ∈ F0)) ∧
      (r ∈ F → r ∈ F0) ∧
      (sizeSum s.mem F + getSize s.mem bp < 4294967296 →
        sizeSum s.mem F0 + SB = sizeSum s.mem F + getSize s.mem bp ∧
        getSize s.mem bp ≤ SB ∧
        ∀ x ∈ F, x ∈ F0 ∨ (bp ≤ x ∧ x + 16 * getSize s.mem x ≤ bp + 16 * SB)) ∧
      (∀ z, z ≠ bp → z ∉ F →
        (∀ x, (x = bp ∨ x ∈ F) → x < z → x + 16 * getSize s.mem x ≤ z) →
        bp < z → bp + 16 * SB ≤ z) := by
    by_cases hup : bp + 16 * getSize s.mem bp = getNext s.mem r
    · simp only [hup, if_true] at vsb vnb vsr vnr
      have hnF : getNext s.mem r ∈ F := by
        rcases hnx with h | h
        · omega
        · exact h
      have hnb := hF.blk _ hnF
      have hno := hF.next_ord _ (Or.inr hnF)
      have hnm := hF.next_mem _ (Or.inr hnF)
      have hnn := hnlt _ hnm
      have hmem : ∀ z, z ∈ F.erase (getNext s.mem r) ↔ z ≠ getNext s.mem r ∧ z ∈ F :=
        fun z => hF.nodup.mem_erase_iff
      have hNBm : getNext s.mem (getNext s.mem r) = E.base ∨
          (getNext s.mem (getNext s.mem r) ∈ F.erase (getNext s.mem r) ∧
            bp < getNext s.mem (getNext s.mem r)) := by
        rcases hno with ⟨h1, _⟩ | ⟨h1, _⟩
        · rcases hnm with h | h
          · omega
          · exact Or.inr ⟨(hmem _).2 ⟨by omega, h⟩, by omega⟩
        · exact Or.inl h1
      refine ⟨F.erase (getNext s.mem r),
        (getSize s.mem bp + getSize s.mem (getNext s.mem r)) % 4294967296,
        getNext s.mem (getNext s.mem r), vsb, by rw [vnb]; omega, vsr,
        by rw [vnr]; split_ifs <;> omega, ?_, hF.nodup.erase _, ?_, hNBm, ?_, by omega, ?_, ?_,
        ?_, ?_⟩
      · intro z hz; exact ((hmem z).1 hz).2
      · intro z hz
        obtain ⟨hz1, hz2⟩ := (hmem z).1 hz
        rcases ha z hz2 with h | h
        · exact Or.inl h
        · right
          have h3 := hF.disj _ hnF z hz2 (by omega)
          rcases hno with ⟨h1, h2⟩ | ⟨h1, h2⟩
          · have h4 : getNext s.mem (getNext s.mem r) ≤ z := by
              rcases h2 z hz2 with h5 | h5 <;> omega
            rcases hNBm with h6 | h6
            · omega
            · exact ⟨by omega, h4, h6.1⟩
          · have := h2 z hz2; omega
      · intro hb0 z hz
        obtain ⟨hz1, hz2⟩ := (hmem z).1 hz
        rcases hno with ⟨h1, h2⟩ | ⟨h1, h2⟩
        · omega
        · have := h2 z hz2
          rcases ha z hz2 with h | h <;> omega
      · intro x hx hxr
        have hx' : x = E.base ∨ x ∈ F := by
          rcases hx with h | h
          · exact Or.inl h
          · exact Or.inr ((hmem x).1 h).2
        rcases hF.next_mem x hx' with h | h
        · exact Or.inl h
        · right
          refine (hmem _).2 ⟨?_, h⟩
          intro heq
          rcases hF.next_ord x hx' with ⟨h1, h2⟩ | ⟨h1, h2⟩
          · rw [heq] at h1 h2
            rcases hx' with h3 | h3 <;> rcases hr with h4 | h4
            · omega
            · have := h2 r h4; have := hF.blk r h4; omega
            · have := ha x h3; have := hF.blk x h3; omega
            · have := h2 r h4; have := ha x h3; omega
          · omega
      · intro h; exact (hmem r).2 ⟨by omega, h⟩
      · intro hsum
        have h1 := sizeSum_erase s.mem _ F hnF
        refine ⟨by omega, by omega, ?_⟩
        intro x hx
        by_cases hxn : x = getNext s.mem r
        · right; subst hxn; omega
        · left; exact (hmem x).2 ⟨hxn, hx⟩
      · intro z hzb hzF hext hbz
        have h1 := hext bp (Or.inl rfl) hbz
        have h2 : getNext s.mem r ≠ z := fun e => hzF (e ▸ hnF)
        have h3 := hext _ (Or.inr hnF) (by omega)
        omega
    · simp only [hup, if_false] at vsb vnb vsr vnr
      have hNBm : getNext s.mem r = E.base ∨ (getNext s.mem r ∈ F ∧ bp < getNext s.mem r) := by
        rcases halt with ⟨h2, h3⟩ | ⟨h2, h3⟩
        · exact Or.inr ⟨h3, h2⟩
        · exact Or.inl h2
      refine ⟨F, getSize s.mem bp, getNext s.mem r, vsb, by rw [vnb]; have := hnlt _ hnx; omega,
        vsr, by rw [vnr]; have := hnlt _ hnx; split_ifs <;> omega, fun z hz => hz, hF.nodup,
        ?_, hNBm, ?_, hbhs, ?_, fun h => h, ?_, ?_⟩
      · intro z hz
        rcases halt with ⟨h2, h3⟩ | ⟨h2, h3⟩
        · rcases ha z hz with h | h
          · exact Or.inl h
          · have := hb.above _ h3 h2
            exact Or.inr ⟨by omega, h, h3⟩
        · exact Or.inl (h3 z hz)
      · intro hb0 z hz
        rcases halt with ⟨h2, h3⟩ | ⟨h2, h3⟩
        · omega
        · exact h3 z hz
      · intro x hx _; exact hF.next_mem x hx
      · intro _; exact ⟨rfl, le_refl _, fun x hx => Or.inl hx⟩
      · intro z _ _ hext hbz; exact hext bp (Or.inl rfl) hbz
  obtain ⟨F0, SB, NB, hSB, hNB, hSR, hNR, a1, a2, a3, a4, a5, a6, a7, a8, a9, a11⟩ := stageA
  clear vsb vnb vsr vnr
  have hbF0 : bp ∉ F0 := fun h => hb.new (a1 _ h)
  have hnode : ∀ x, (x = E.base ∨ x ∈ F0) → (x = E.base ∨ x ∈ F) := by
    intro x hx
    rcases hx with h | h
    · exact Or.inl h
    · exact Or.inr (a1 x h)
  -- the links of the nodes other than `r`, seen in the new list
  have hord : ∀ x, (x = E.base ∨ x ∈ F0) → x ≠ r →
      (x < getNext s.mem x ∧ (bp ≤ x ∨ getNext s.mem x ≤ r) ∧
        ∀ z ∈ F0, z ≤ x ∨ getNext s.mem x ≤ z) ∨
      (getNext s.mem x = E.base ∧ bp ≤ x ∧ ∀ z ∈ F0, z ≤ x) := by
    intro x hx hxr
    have hxr' : x < r ∨ (x ∈ F0 ∧ r < x) := by
      rcases hx with h | h
      · rcases hr with h' | h'
        · omega
        · have := hF.blk r h'; omega
      · by_cases hlt : x < r
        · exact Or.inl hlt
        · exact Or.inr ⟨h, by omega⟩
    rcases hF.next_ord x (hnode x hx) with ⟨h1, h2⟩ | ⟨h1, h2⟩
    · left
      refine ⟨h1, ?_, fun z hz => h2 z (a1 z hz)⟩
      rcases hxr' with h | ⟨h, h'⟩
      · have hrF : r ∈ F := by
          rcases hr with h3 | h3
          · rcases hnode x hx with h4 | h4
            · omega
            · have := hF.blk x h4; omega
          · exact h3
        have := h2 r hrF
        omega
      · rcases a3 x h with h3 | h3 <;> omega
    · right
      refine ⟨h1, ?_, fun z hz => h2 z (a1 z hz)⟩
      rcases hxr' with h | ⟨h, h'⟩
      · have hrF : r ∈ F := by
          rcases hr with h3 | h3
          · rcases hnode x hx with h4 | h4
            · omega
            · have := hF.blk x h4; omega
          · exact h3
        have := h2 r hrF
        omega
      · rcases a3 x h with h3 | h3 <;> omega
  by_cases hdn : r + 16 * getSize s.mem r = bp
  · simp only [hdn, if_true] at hSR hNR
    have hrF : r ∈ F := by
      rcases hr with h | h
      · have := hF.base_size; rw [← h] at this; omega
      · exact h
    have hrF0 : r ∈ F0 := a8 hrF
    have hsz : ∀ x, (x = E.base ∨ x ∈ F0) → x ≠ r →
        getSize (linkIn s.mem bp r) x = getSize s.mem x :=
      fun x hx hxr => (hfr x (hnode x hx) hxr).1
    have hSRle : getSize (linkIn s.mem bp r) r ≤ getSize s.mem r + SB := by
      rw [hSR]; omega
    have hbne : E.base ≠ r := by have := hF.blk r hrF; omega
    refine ⟨F0, ⟨hbrk, a2, ?_, ?_, ?_, ?_, ?_, ?_⟩, ?_, ?_, ?_⟩
    · -- blk
      intro x hx
      have := hF.blk x (a1 x hx)
      refine ⟨this.1, this.2.1, this.2.2.1, ?_⟩
      show x + 16 * getSize (linkIn s.mem bp r) x ≤ s.brk
      by_cases hxr : x = r
      · rw [hxr]; omega
      · rw [hsz x (Or.inr hx) hxr]; exact this.2.2.2
    · -- disj
      intro x hx y hy hxy
      show x + 16 * getSize (linkIn s.mem bp r) x < y
      by_cases hxr : x = r
      · rw [hxr]; rw [hxr] at hxy
        rcases a3 y hy with h1 | h1 <;> omega
      · rw [hsz x (Or.inr hx) hxr]; exact hF.disj x (a1 x hx) y (a1 y hy) hxy
    · -- base_size
      show getSize (linkIn s.mem bp r) E.base = 0
      rw [hsz _ (Or.inl rfl) hbne]; exact hF.base_size
    · -- freep
      exact Or.inr hrF0
    · -- next_mem
      intro x hx
      show getNext (linkIn s.mem bp r) x = E.base ∨ getNext (linkIn s.mem bp r) x ∈ F0
      by_cases hxr : x = r
      · rw [hxr, hNR]
        rcases a4 with h | h
        · exact Or.inl h
        · exact Or.inr h.1
      · rw [(hfr x (hnode x hx) hxr).2]
        exact a7 x hx hxr
    · -- next_ord
      intro x hx
      show (x < getNext (linkIn s.mem bp r) x ∧
          ∀ z ∈ F0, z ≤ x ∨ getNext (linkIn s.mem bp r) x ≤ z) ∨
        (getNext (linkIn s.mem bp r) x = E.base ∧ ∀ z ∈ F0, z ≤ x)
      by_cases hxr : x = r
      · rw [hxr, hNR]
        rcases a4 with h2 | ⟨h2, h3⟩
        · exact Or.inr ⟨h2, a5 h2⟩
        · left
          refine ⟨by omega, ?_⟩
          intro z hz
          rcases a3 z hz with h5 | h5
          · exact Or.inl h5
          · exact Or.inr h5.2.1
      · rw [(hfr x (hnode x hx) hxr).2]
        rcases hord x hx hxr with ⟨h1, _, h3⟩ | ⟨h1, _, h3⟩
        · exact Or.inl ⟨h1, h3⟩
        · exact Or.inr ⟨h1, h3⟩
    · -- subset
      intro y hy; exact Or.inr (a1 y hy)
    · -- blocks outside the list stay clear of the free blocks
      intro z hzb hzF hext y hy hyz
      by_cases hyr : y = r
      · rw [hyr]; rw [hyr] at hyz
        have h1 := hext r (Or.inr hrF) hyz
        have h2 := a11 z hzb hzF hext (by omega)
        omega
      · rw [hsz y (Or.inr hy) hyr]; exact hext y (Or.inr (a1 y hy)) hyz
    · -- sum and cover
      intro hsum
      obtain ⟨s1, s2, s3⟩ := a9 hsum
      have h1 := sizeSum_erase s.mem r F0 hrF0
      have h2 := sizeSum_erase (linkIn s.mem bp r) r F0 hrF0
      have h3 : sizeSum (linkIn s.mem bp r) (F0.erase r) = sizeSum s.mem (F0.erase r) := by
        apply sizeSum_congr
        intro x hx
        have hx' := (a2.mem_erase_iff).1 hx
        exact hsz x (Or.inr hx'.2) hx'.1
      have h4 : getSize (linkIn s.mem bp r) r = getSize s.mem r + SB := by
        rw [hSR]; omega
      refine ⟨by omega, ?_, Or.inr ⟨hdn, by omega⟩⟩
      intro x hx
      have hcov : ∀ y ∈ F0, ∃ w ∈ F0, w ≤ y ∧
          y + 16 * getSize s.mem y ≤ w + 16 * getSize (linkIn s.mem bp r) w := by
        intro y hy
        by_cases hyr : y = r
        · exact ⟨r, hrF0, by omega, by rw [hyr]; omega⟩
        · exact ⟨y, hy, le_refl _, by rw [hsz y (Or.inr hy) hyr]⟩
      rcases hx with h | h
      · exact ⟨r, hrF0, by omega, by rw [h]; omega⟩
      · rcases s3 x h with h5 | h5
        · exact hcov x h5
        · exact ⟨r, hrF0, by omega, by omega⟩
  · simp only [hdn, if_false] at hSR hNR
    have hsz : ∀ x, (x = E.base ∨ x ∈ F0) →
        getSize (linkIn s.mem bp r) x = getSize s.mem x := by
      intro x hx
      by_cases hxr : x = r
      · rw [hxr, hSR]
      · exact (hfr x (hnode x hx) hxr).1
    have hsplit : ∀ x, (x = E.base ∨ x ∈ bp :: F0) → x = bp ∨ (x ≠ bp ∧ (x = E.base ∨ x ∈ F0)) := by
      intro x hx
      by_cases hxb : x = bp
      · exact Or.inl hxb
      · right
        refine ⟨hxb, ?_⟩
        rcases hx with h | h
        · exact Or.inl h
        · rcases List.mem_cons.1 h with h | h
          · exact absurd h hxb
          · exact Or.inr h
    refine ⟨bp :: F0, ⟨hbrk, List.nodup_cons.2 ⟨hbF0, a2⟩, ?_, ?_, ?_, ?_, ?_, ?_⟩, ?_, ?_, ?_⟩
    · -- blk
      intro x hx
      rcases List.mem_cons.1 hx with h | h
      · subst h; exact ⟨hbal, hblo, hbhi, by rw [hSB]; exact a6⟩
      · have := hF.blk x (a1 x h)
        exact ⟨this.1, this.2.1, this.2.2.1, by rw [hsz x (Or.inr h)]; exact this.2.2.2⟩
    · -- disj
      intro x hx y hy hxy
      show x + 16 * getSize (linkIn s.mem bp r) x < y
      rcases List.mem_cons.1 hx with h | h <;> rcases List.mem_cons.1 hy with h' | h'
      · omega
      · rw [h, hSB]
        rcases a3 y h' with h1 | h1 <;> omega
      · rw [hsz x (Or.inr h)]
        have hle : x ≤ r := by
          rcases a3 x h with h1 | h1 <;> omega
        by_cases hxr : x = r
        · rw [hxr]; omega
        · rcases hr with h6 | h6
          · have := hF.blk x (a1 x h); omega
          · have := hF.disj x (a1 x h) r h6 (by omega); omega
      · rw [hsz x (Or.inr h)]; exact hF.disj x (a1 x h) y (a1 y h') hxy
    · -- base_size
      show getSize (linkIn s.mem bp r) E.base = 0
      rw [hsz _ (Or.inl rfl)]; exact hF.base_size
    · -- freep
      show r = E.base ∨ r ∈ bp :: F0
      rcases hr with h | h
      · exact Or.inl h
      · exact Or.inr (List.mem_cons_of_mem _ (a8 h))
    · -- next_mem
      intro x hx
      show getNext (linkIn s.mem bp r) x = E.base ∨ getNext (linkIn s.mem bp r) x ∈ bp :: F0
      rcases hsplit x hx with h | ⟨hxb, hx'⟩
      · rw [h, hNB]
        rcases a4 with h | h
        · exact Or.inl h
        · exact Or.inr (List.mem_cons_of_mem _ h.1)
      · by_cases hxr : x = r
        · rw [hxr, hNR]; exact Or.inr (List.mem_cons_self _ _)
        · rw [(hfr x (hnode x hx') hxr).2]
          rcases a7 x hx' hxr with h | h
          · exact Or.inl h
          · exact Or.inr (List.mem_cons_of_mem _ h)
    · -- next_ord
      intro x hx
      show (x < getNext (linkIn s.mem bp r) x ∧
          ∀ z ∈ bp :: F0, z ≤ x ∨ getNext (linkIn s.mem bp r) x ≤ z) ∨
        (getNext (linkIn s.mem bp r) x = E.base ∧ ∀ z ∈ bp :: F0, z ≤ x)
      rcases hsplit x hx with h | ⟨hxb, hx'⟩
      · rw [h, hNB]
        rcases a4 with h2 | ⟨h2, h3⟩
        · right
          refine ⟨h2, ?_⟩
          intro z hz
          rcases List.mem_cons.1 hz with h | h
          · omega
          · have := a5 h2 z h; omega
        · left
          refine ⟨h3, ?_⟩
          intro z hz
          rcases List.mem_cons.1 hz with h | h
          · omega
          · rcases a3 z h with h5 | h5 <;> omega
      · by_cases hxr : x = r
        · rw [hxr, hNR]
          left
          refine ⟨hrb, ?_⟩
          intro z hz
          rcases List.mem_cons.1 hz with h | h
          · omega
          · rcases a3 z h with h5 | h5 <;> omega
        · rw [(hfr x (hnode x hx') hxr).2]
          rcases hord x hx' hxr with ⟨h1, h2, h3⟩ | ⟨h1, h2, h3⟩
          · left
            refine ⟨h1, ?_⟩
            intro z hz
            rcases List.mem_cons.1 hz with h | h
            · omega
            · exact h3 z h
          · right
            refine ⟨h1, ?_⟩
            intro z hz
            rcases List.mem_cons.1 hz with h | h
            · omega
            · exact h3 z h
    · -- subset
      intro y hy
      rcases List.mem_cons.1 hy with h | h
      · exact Or.inl h
      · exact Or.inr (a1 y h)
    · -- blocks outside the list stay clear of the free blocks
      intro z hzb hzF hext y hy hyz
      rcases List.mem_cons.1 hy with h | h
      · rw [h, hSB]; rw [h] at hyz; exact a11 z hzb hzF hext hyz
      · rw [hsz y (Or.inr h)]; exact hext y (Or.inr (a1 y h)) hyz
    · -- sum and cover
      intro hsum
      obtain ⟨s1, s2, s3⟩ := a9 hsum
      refine ⟨?_, ?_, Or.inl ⟨hNR, by rw [hSB]; exact s2⟩⟩
      · rw [sizeSum_cons, hSB, sizeSum_congr s.mem _ F0 (fun x hx => hsz x (Or.inr hx))]
        omega
      · intro x hx
        rcases hx with h | h
        · exact ⟨bp, List.mem_cons_self _ _, by omega, by rw [h, hSB]; omega⟩
        · rcases s3 x h with h1 | h1
          · exact ⟨x, List.mem_cons_of_mem _ h1, le_refl _, by rw [hsz x (Or.inr h1)]⟩
          · exact ⟨bp, List.mem_cons_self _ _, h1.1, by rw [hSB]; exact h1.2⟩

/-! ## The arithmetic definitions of the bit operations agree with `&` and `|` -/

theorem markBit_eq_and (v : Nat) : markBit v = v &&& 1 :=
  (Nat.and_one_is_mod v).symm

/-- The macro `UNTAG` is `p & ~0x3` on 64-bit values. -/
theorem UNTAG_eq_and (p : Nat) (hp : p < 18446744073709551616) :
    UNTAG p = p &&& 18446744073709551612 := by
  unfold UNTAG
  apply Nat.eq_of_testBit_eq
  intro i
  have e1 : p / 4 * 4 = 2 ^ 2 * (p >>> 2) := by
    rw [Nat.shiftRight_eq_div_pow]; ring
  have e2 : (18446744073709551612 : Nat) = 2 ^ 64 - (3 + 1) := by norm_num
  rw [e1, Nat.testBit_and, e2, Nat.testBit_two_pow_sub_succ (by norm_num), Nat.testBit_mul_pow_two,
    Nat.testBit_shiftRight]
  by_cases h2 : 2 ≤ i
  · have e3 : 2 + (i - 2) = i := by omega
    by_cases h64 : i < 64
    · have h3 : Nat.testBit 3 i = false := by
        have : 3 < 2 ^ i := by
          calc 3 < 2 ^ 2 := by norm_num
            _ ≤ 2 ^ i := Nat.pow_le_pow_right (by norm_num) h2
        exact Nat.testBit_lt_two_pow this
      simp [h2, e3, h64, h3]
    · have hpi : Nat.testBit p i = false := by
        have : p < 2 ^ i := by
          calc p < 2 ^ 64 := hp
            _ ≤ 2 ^ i := Nat.pow_le_pow_right (by norm_num) (by omega)
        exact Nat.testBit_lt_two_pow this
      simp [h2, e3, h64, hpi]
  · have : i = 0 ∨ i = 1 := by omega
    rcases this with h | h <;> subst h <;> simp [Nat.testBit]

/-- The expression `v & ~1` on 64-bit values. -/
theorem clearMark_eq_and (p : Nat) (hp : p < 18446744073709551616) :
    clearMark p = p &&& 18446744073709551614 := by
  unfold clearMark
  apply Nat.eq_of_testBit_eq
  intro i
  have e1 : p / 2 * 2 = 2 ^ 1 * (p >>> 1) := by
    rw [Nat.shiftRight_eq_div_pow]; ring
  have e2 : (18446744073709551614 : Nat) = 2 ^ 64 - (1 + 1) := by norm_num
  rw [e1, Nat.testBit_and, e2, Nat.testBit_two_pow_sub_succ (by norm_num), Nat.testBit_mul_pow_two,
    Nat.testBit_shiftRight]
  by_cases h2 : 1 ≤ i
  · have e3 : 1 + (i - 1) = i := by omega
    by_cases h64 : i < 64
    · have h3 : Nat.testBit 1 i = false := by
        have : 1 < 2 ^ i := by
          calc 1 < 2 ^ 1 := by norm_num
            _ ≤ 2 ^ i := Nat.pow_le_pow_right (by norm_num) h2
        exact Nat.testBit_lt_two_pow this
      simp [h2, e3, h64, h3]
    · have hpi : Nat.testBit p i = false := by
        have : p < 2 ^ i := by
          calc p < 2 ^ 64 := hp
            _ ≤ 2 ^ i := Nat.pow_le_pow_right (by norm_num) (by omega)
        exact Nat.testBit_lt_two_pow this
      simp [h2, e3, h64, hpi]
  · have : i = 0 := by omega
    subst this; simp [Nat.testBit]

/-- The expression `v | 1`. -/
theorem setMark_eq_or (p : Nat) : setMark p = p ||| 1 := by
  unfold setMark
  apply Nat.eq_of_testBit_eq
  intro i
  rw [Nat.testBit_or]
  cases i with
  | zero => simp [Nat.testBit]; omega
  | succ i =>
    have h1 : Nat.testBit 1 (i + 1) = false := by
      apply Nat.testBit_lt_two_pow
      calc 1 < 2 ^ 1 := by norm_num
        _ ≤ 2 ^ (i + 1) := Nat.pow_le_pow_right (by norm_num) (by omega)
    rw [h1, Bool.or_false, Nat.testBit_succ, Nat.testBit_succ]
    congr 1
    omega

/-- The expression `p | b` for a one-bit value `b`. -/
theorem orBit_eq_or (p b : Nat) (hb : b < 2) : orBit p b = p ||| b := by
  have hb' : b = 0 ∨ b = 1 := by omega
  rcases hb' with h | h
  · subst h
    unfold orBit
    rw [Nat.or_zero]
    omega
  · subst h
    rw [← setMark_eq_or]
    unfold orBit setMark
    omega

/-! ## Frame lemmas -/

theorem FRep.congr_free {E : Env} {s s' : State} {F : List Nat} (hF : FRep E s F)
    (hbrk : s.brk ≤ s'.brk) (hbrk' : s'.brk ≤ 9223372036854775808) (hfp : s'.freep = s.freep)
    (hsz : ∀ x, (x = E.base ∨ x ∈ F) → getSize s'.mem x = getSize s.mem x)
    (hnx : ∀ x, (x = E.base ∨ x ∈ F) → getNext s'.mem x = getNext s.mem x) :
    FRep E s' F := by
  refine ⟨hbrk', hF.nodup, ?_, ?_, ?_, ?_, ?_, ?_⟩
  · intro x hx
    have := hF.blk x hx
    rw [hsz x (Or.inr hx)]
    omega
  · intro x hx y hy hxy
    rw [hsz x (Or.inr hx)]
    exact hF.disj x hx y hy hxy
  · rw [hsz _ (Or.inl rfl)]; exact hF.base_size
  · rw [hfp]; exact hF.freep_mem
  · intro x hx; rw [hnx x hx]; exact hF.next_mem x hx
  · intro x hx; rw [hnx x hx]; exact hF.next_ord x hx

theorem Links.congr_links {m m' : Mem} : ∀ {l : List Nat} {e : Nat},
    (∀ x ∈ l, getNext m' x = getNext m x) → Links m l e → Links m' l e
  | [], _, _, _ => trivial
  | x :: l, e, h, hl => by
    refine ⟨?_, Links.congr_links (fun y hy => h y (List.mem_cons_of_mem _ hy)) hl.2⟩
    have := hl.1
    unfold lnk at this ⊢
    rw [h x (List.mem_cons_self _ _)]
    exact this

theorem URep.congr_used {E : Env} {s s' : State} {U : List Nat} (hU : URep E s U)
    (hbrk : s.brk ≤ s'.brk) (hup : s'.usedp = s.usedp)
    (hsz : ∀ x ∈ U, getSize s'.mem x = getSize s.mem x)
    (hnx : ∀ x ∈ U, getNext s'.mem x = getNext s.mem x) :
    URep E s' U := by
  refine ⟨hU.nodup, ?_, ?_, ?_, ?_⟩
  · intro x hx
    have := hU.blk x hx
    rw [hsz x hx]
    omega
  · intro x hx y hy hxy
    rw [hsz x hx]
    exact hU.disj x hx y hy hxy
  · rw [hup]; exact hU.head
  · exact Links.congr_links hnx hU.links

/-- The successor of a registry block is a registry block. -/
theorem Links.next_mem {m : Mem} : ∀ {l : List Nat} {e : Nat}, Links m l e →
    ∀ x ∈ l, ∃ y, (y = e ∨ y ∈ l) ∧ lnk m x y
  | [], _, _, x, hx => by simp at hx
  | a :: l, e, hl, x, hx => by
    rcases List.mem_cons.1 hx with h | h
    · subst h
      refine ⟨l.headD e, ?_, hl.1⟩
      cases l with
      | nil => exact Or.inl rfl
      | cons b t => exact Or.inr (by simp)
    · obtain ⟨y, hy, hxy⟩ := Links.next_mem hl.2 x h
      refine ⟨y, ?_, hxy⟩
      rcases hy with h1 | h1
      · exact Or.inl h1
      · exact Or.inr (List.mem_cons_of_mem _ h1)

theorem lnk_untag {m : Mem} {x y : Nat} (h : lnk m x y) (hy : y % 16 = 0) :
    UNTAG (getNext m x) = y := by
  unfold UNTAG
  rcases h with h | h <;> rw [h] <;> omega

/-- Following a link inside the registry stays inside the registry. -/
theorem URep.untag_next_mem {E : Env} {s : State} {U : List Nat} (hU : URep E s U) (x : Nat)
    (hx : x ∈ U) : UNTAG (getNext s.mem x) ∈ U := by
  obtain ⟨y, hy, hxy⟩ := Links.next_mem hU.links x hx
  have hyU : y ∈ U := by
    rcases hy with h | h
    · cases U with
      | nil => simp at hx
      | cons a t => simp [h]
    · exact h
  rw [lnk_untag hxy (hU.blk y hyU).1]
  exact hyU

/-! ## `add_to_free_list` keeps the free-list invariant -/

theorem add_to_free_list_spec (E : Env) (s s' : State) (F : List Nat) (bp k : Nat)
    (hF : FRep E s F) (hb : Fresh E s F bp) (h : add_to_free_list k s bp = some s') :
    ∃ F', FRep E s' F' ∧
      s'.usedp = s.usedp ∧ s'.brk = s.brk ∧ s'.stack_bottom = s.stack_bottom ∧
      s'.initted = s.initted ∧
      (∀ y ∈ F', y = bp ∨ y ∈ F) ∧
      (∀ a, a ≠ bp → a ≠ bp + 8 → (∀ x, (x = E.base ∨ x ∈ F) → a ≠ x ∧ a ≠ x + 8) →
        s'.mem a = s.mem a) ∧
      (∀ z, z ≠ bp → z ∉ F →
        (∀ x, (x = bp ∨ x ∈ F) → x < z → x + 16 * getSize s.mem x ≤ z) →
        ∀ y ∈ F', y < z → y + 16 * getSize s'.mem y ≤ z) ∧
      (sizeSum s.mem F + getSize s.mem bp < 4294967296 →
        sizeSum s'.mem F' = sizeSum s.mem F + getSize s.mem bp ∧
        (∀ x, (x = bp ∨ x ∈ F) → ∃ y ∈ F', y ≤ x ∧
          x + 16 * getSize s.mem x ≤ y + 16 * getSize s'.mem y) ∧
        ((getNext s'.mem s'.freep = bp ∧ getSize s.mem bp ≤ getSize s'.mem bp) ∨
          (s'.freep + 16 * getSize s.mem s'.freep = bp ∧
            getSize s.mem s'.freep + getSize s.mem bp ≤ getSize s'.mem s'.freep))) := by
  unfold add_to_free_list at h
  cases hfs : findSlot k s.mem bp s.freep with
  | none => rw [hfs] at h; cases h
  | some r =>
    rw [hfs] at h
    cases h
    obtain ⟨hr, hx⟩ := findSlot_spec E s F hF bp k s.freep r hF.freep_mem hfs
    obtain ⟨F', h1, h2, h3, h4⟩ := linkIn_FRep E s F hF bp r hb hr hx
    refine ⟨F', h1, rfl, rfl, rfl, rfl, h2, ?_, h3, h4⟩
    intro a ha1 ha2 ha3
    have := ha3 r hr
    exact linkIn_frame s.mem bp r a ha1 ha2 this.1 this.2

/-- Header fields of an aligned block that is neither `bp` nor a free block are
not touched by `add_to_free_list`. -/
theorem frame_header (E : Env) (s s' : State) (F : List Nat) (bp : Nat) (hF : FRep E s F)
    (hbal : bp % 16 = 0)
    (hfr : ∀ a, a ≠ bp → a ≠ bp + 8 → (∀ x, (x = E.base ∨ x ∈ F) → a ≠ x ∧ a ≠ x + 8) →
        s'.mem a = s.mem a)
    (z : Nat) (hz : z % 16 = 0) (hzb : E.base + 16 ≤ z) (hne : z ≠ bp) (hzF : z ∉ F) :
    getSize s'.mem z = getSize s.mem z ∧ getNext s'.mem z = getNext s.mem z := by
  have hsep : ∀ x, (x = E.base ∨ x ∈ F) → z ≠ x ∧ z ≠ x + 8 ∧ z + 8 ≠ x := by
    intro x hx
    rcases hx with h | h
    · omega
    · have := hF.blk x h
      have : z ≠ x := fun e => hzF (e ▸ h)
      omega
  unfold getSize getNext
  rw [hfr z hne (by omega) (fun x hx => ⟨(hsep x hx).1, (hsep x hx).2.1⟩),
    hfr (z + 8) (by omega) (by omega) (fun x hx => ⟨(hsep x hx).2.2, by have := hsep x hx; omega⟩)]
  exact ⟨rfl, rfl⟩

/-! ## Taking a block out of the free list -/

/-- Two nodes with the same successor in the free list are equal, when that
successor is a free block. -/
theorem FRep.next_inj {E : Env} {s : State} {F : List Nat} (hF : FRep E s F) (x y : Nat)
    (hx : x = E.base ∨ x ∈ F) (hy : y = E.base ∨ y ∈ F)
    (hxy : getNext s.mem x = getNext s.mem y) (hp : getNext s.mem y ∈ F) : x = y := by
  have hpb := hF.blk _ hp
  rcases hF.next_ord x hx with ⟨h1, h2⟩ | ⟨h1, _⟩
  · rcases hF.next_ord y hy with ⟨h3, h4⟩ | ⟨h3, _⟩
    · rw [hxy] at h1 h2
      rcases hx with h5 | h5 <;> rcases hy with h6 | h6
      · omega
      · have := h2 y h6; have := hF.blk y h6; omega
      · have := h4 x h5; have := hF.blk x h5; omega
      · have := h2 y h6; have := h4 x h5; omega
    · omega
  · omega

/-- Unlinking the successor `p` of `prevp` (the exact-fit case of `GC_malloc`). -/
theorem unlink_FRep (E : Env) (s : State) (F : List Nat) (hF : FRep E s F) (prevp p : Nat)
    (hpp : prevp = E.base ∨ prevp ∈ F) (hp : p = getNext s.mem prevp) (hpF : p ∈ F)
    (m' : Mem)
    (hsz : ∀ x, (x = E.base ∨ x ∈ F) → getSize m' x = getSize s.mem x)
    (hnp : getNext m' prevp = getNext s.mem p)
    (hnx : ∀ x, (x = E.base ∨ x ∈ F) → x ≠ prevp → x ≠ p → getNext m' x = getNext s.mem x)
    (s' : State) (hm : s'.mem = m') (hfp : s'.freep = prevp) (hbrk : s'.brk = s.brk) :
    FRep E s' (F.erase p) := by
  have hmem : ∀ z, z ∈ F.erase p ↔ z ≠ p ∧ z ∈ F := fun z => hF.nodup.mem_erase_iff
  have hpb := hF.blk p hpF
  have hnode : ∀ x, (x = E.base ∨ x ∈ F.erase p) → (x = E.base ∨ x ∈ F) ∧ x ≠ p := by
    intro x hx
    rcases hx with h | h
    · exact ⟨Or.inl h, by omega⟩
    · exact ⟨Or.inr ((hmem x).1 h).2, ((hmem x).1 h).1⟩
  have hpo := hF.next_ord prevp hpp
  rw [← hp] at hpo
  have hpo' : prevp < p ∧ ∀ z ∈ F, z ≤ prevp ∨ p ≤ z := by
    rcases hpo with h | h
    · exact h
    · omega
  have hno := hF.next_ord p (Or.inr hpF)
  have hnm := hF.next_mem p (Or.inr hpF)
  have hnn : getNext s.mem p = E.base ∨ (getNext s.mem p ∈ F.erase p ∧ p < getNext s.mem p) := by
    rcases hno with ⟨h1, _⟩ | ⟨h1, _⟩
    · rcases hnm with h | h
      · omega
      · exact Or.inr ⟨(hmem _).2 ⟨by omega, h⟩, h1⟩
    · exact Or.inl h1
  refine ⟨by rw [hbrk]; exact hF.brk_le, hF.nodup.erase _, ?_, ?_, ?_, ?_, ?_, ?_⟩
  · intro x hx
    have hx' := (hmem x).1 hx
    have := hF.blk x hx'.2
    rw [hm, hsz x (Or.inr hx'.2), hbrk]
    exact this
  · intro x hx y hy hxy
    have hx' := (hmem x).1 hx
    rw [hm, hsz x (Or.inr hx'.2)]
    exact hF.disj x hx'.2 y ((hmem y).1 hy).2 hxy
  · rw [hm, hsz _ (Or.inl rfl)]; exact hF.base_size
  · rw [hfp]
    rcases hpp with h | h
    · exact Or.inl h
    · exact Or.inr ((hmem _).2 ⟨by omega, h⟩)
  · intro x hx
    obtain ⟨hx1, hx2⟩ := hnode x hx
    rw [hm]
    by_cases hxp : x = prevp
    · rw [hxp, hnp]
      rcases hnn with h | h
      · exact Or.inl h
      · exact Or.inr h.1
    · rw [hnx x hx1 hxp hx2]
      rcases hF.next_mem x hx1 with h | h
      · exact Or.inl h
      · right
        refine (hmem _).2 ⟨?_, h⟩
        intro heq
        exact hxp (hF.next_inj x prevp hx1 hpp (by rw [heq, hp]) (by rw [← hp]; exact hpF))
  · intro x hx
    obtain ⟨hx1, hx2⟩ := hnode x hx
    rw [hm]
    by_cases hxp : x = prevp
    · rw [hxp, hnp]
      rcases hno with ⟨h1, h2⟩ | ⟨h1, h2⟩
      · left
        refine ⟨by omega, ?_⟩
        intro z hz
        obtain ⟨hz1, hz2⟩ := (hmem z).1 hz
        rcases hpo'.2 z hz2 with h | h
        · exact Or.inl h
        · rcases h2 z hz2 with h' | h'
          · omega
          · exact Or.inr h'
      · right
        refine ⟨h1, ?_⟩
        intro z hz
        obtain ⟨hz1, hz2⟩ := (hmem z).1 hz
        have := h2 z hz2
        rcases hpo'.2 z hz2 with h | h <;> omega
    · rw [hnx x hx1 hxp hx2]
      rcases hF.next_ord x hx1 with ⟨h1, h2⟩ | ⟨h1, h2⟩
      · exact Or.inl ⟨h1, fun z hz => h2 z ((hmem z).1 hz).2⟩
      · exact Or.inr ⟨h1, fun z hz => h2 z ((hmem z).1 hz).2⟩

/-- The free-list invariant survives a change of memory that leaves the links
alone and does not enlarge any free block. -/
theorem FRep.mono_free {E : Env} {s s' : State} {F : List Nat} (hF : FRep E s F)
    (hbrk : s.brk ≤ s'.brk) (hbrk' : s'.brk ≤ 9223372036854775808)
    (hfp : s'.freep = E.base ∨ s'.freep ∈ F)
    (hsz : ∀ x, (x = E.base ∨ x ∈ F) → getSize s'.mem x ≤ getSize s.mem x)
    (hnx : ∀ x, (x = E.base ∨ x ∈ F) → getNext s'.mem x = getNext s.mem x) :
    FRep E s' F := by
  refine ⟨hbrk', hF.nodup, ?_, ?_, ?_, hfp, ?_, ?_⟩
  · intro x hx
    have := hF.blk x hx
    have := hsz x (Or.inr hx)
    omega
  · intro x hx y hy hxy
    have := hsz x (Or.inr hx)
    have := hF.disj x hx y hy hxy
    omega
  · have := hsz _ (Or.inl rfl); have := hF.base_size; omega
  · intro x hx; rw [hnx x hx]; exact hF.next_mem x hx
  · intro x hx; rw [hnx x hx]; exact hF.next_ord x hx

/-- What `carve` achieves: the free list stays well formed, and the block handed
out is aligned, holds `num` units, lies inside the free block it was taken from,
and is no longer part of the free list. -/
theorem carve_spec (E : Env) (s : State) (F U : List Nat) (hR : Rep E s F U)
    (num prevp p : Nat) (hnum : 1 ≤ num) (hpp : prevp = E.base ∨ prevp ∈ F)
    (hp : p = getNext s.mem prevp) (hsz : num ≤ getSize s.mem p) :
    ∃ F', Rep E { s with mem := (carve s.mem num prevp p).1, freep := prevp } F' U ∧
      (∀ y ∈ F', y ∈ F) ∧
      (carve s.mem num prevp p).2 % 16 = 0 ∧
      p ≤ (carve s.mem num prevp p).2 ∧
      (carve s.mem num prevp p).2 + 16 * num = p + 16 * getSize s.mem p ∧
      p ∈ F ∧
      getSize (carve s.mem num prevp p).1 (carve s.mem num prevp p).2 = num ∧
      (carve s.mem num prevp p).2 ∉ F' ∧
      (∀ y ∈ F', y < (carve s.mem num prevp p).2 →
        y + 16 * getSize (carve s.mem num prevp p).1 y ≤ (carve s.mem num prevp p).2) ∧
      (∀ y ∈ F', (carve s.mem num prevp p).2 < y →
        (carve s.mem num prevp p).2 + 16 * num ≤ y) ∧
      (∀ x ∈ U, getSize (carve s.mem num prevp p).1 x = getSize s.mem x ∧
        getNext (carve s.mem num prevp p).1 x = getNext s.mem x) ∧
      sizeSum (carve s.mem num prevp p).1 F' + num = sizeSum s.mem F := by
  have hF := hR.free
  have hU := hR.used
  have hpn : p = E.base ∨ p ∈ F := by rw [hp]; exact hF.next_mem prevp hpp
  have hpF : p ∈ F := by
    rcases hpn with h | h
    · have := hF.base_size; rw [← h] at this; omega
    · exact h
  have hpb := hF.blk p hpF
  have hlt := getSize_lt s.mem p
  have hbrk := hF.brk_le
  have hppne : prevp ≠ p := by
    intro e
    rcases hF.next_ord prevp hpp with ⟨h1, _⟩ | ⟨h1, _⟩
    · rw [← hp] at h1; omega
    · rw [← hp] at h1; omega
  have hsepU : ∀ x ∈ U, ∀ y, (y = E.base ∨ y ∈ F) → x ≠ y ∧ x ≠ y + 8 ∧ x + 8 ≠ y := by
    intro x hx y hy
    have hxb := hU.blk x hx
    rcases hy with h | h
    · omega
    · have := hF.blk y h
      have : x ≠ y := fun e => hR.ne y h (e ▸ hx)
      omega
  unfold carve
  by_cases hex : getSize s.mem p = num
  · simp only [hex, if_true]
    have hsz' : ∀ x, getSize (setNext s.mem prevp (getNext s.mem p)) x = getSize s.mem x ∨
        x = prevp + 8 := by
      intro x
      by_cases h : x = prevp + 8
      · exact Or.inr h
      · exact Or.inl (getSize_setNext _ _ _ _ h)
    have hszn : ∀ x, (x = E.base ∨ x ∈ F) →
        getSize (setNext s.mem prevp (getNext s.mem p)) x = getSize s.mem x := by
      intro x hx
      exact getSize_setNext _ _ _ _ (hF.node_sep x prevp hx hpp).2
    have hFR : FRep E { s with mem := setNext s.mem prevp (getNext s.mem p), freep := prevp }
        (F.erase p) := by
      refine unlink_FRep E s F hF prevp p hpp hp hpF _ hszn ?_ ?_ _ rfl rfl rfl
      · rw [getNext_setNext_same]
        have := hF.node_lt _ (hF.next_mem p (Or.inr hpF)) hR.base_lt
        omega
      · intro x _ hxp _
        exact getNext_setNext_ne _ _ _ _ hxp
    have hmem : ∀ z, z ∈ F.erase p ↔ z ≠ p ∧ z ∈ F := fun z => hF.nodup.mem_erase_iff
    have hUf : ∀ x ∈ U, getSize (setNext s.mem prevp (getNext s.mem p)) x = getSize s.mem x ∧
        getNext (setNext s.mem prevp (getNext s.mem p)) x = getNext s.mem x := by
      intro x hx
      have := hsepU x hx prevp hpp
      exact ⟨getSize_setNext _ _ _ _ this.2.1, getNext_setNext_ne _ _ _ _ this.1⟩
    refine ⟨F.erase p, ⟨hFR, hU.congr_used (le_refl _) rfl (fun x hx => (hUf x hx).1)
      (fun x hx => (hUf x hx).2), ?_, ?_, ?_, hR.brk_al, hR.base_pos, hR.base_lt⟩,
      fun y hy => ((hmem y).1 hy).2, hpb.1, le_refl _, trivial, hpF, ?_, ?_, ?_, ?_, hUf, ?_⟩
    · intro x hx; exact hR.ne x ((hmem x).1 hx).2
    · intro x hx y hy hxy
      show x + 16 * getSize (setNext s.mem prevp (getNext s.mem p)) x ≤ y
      rw [hszn x (Or.inr ((hmem x).1 hx).2)]
      exact hR.fu x ((hmem x).1 hx).2 y hy hxy
    · intro x hx y hy hxy
      show y + 16 * getSize (setNext s.mem prevp (getNext s.mem p)) y ≤ x
      rw [(hUf y hy).1]
      exact hR.uf x ((hmem x).1 hx).2 y hy hxy
    · rw [hszn p (Or.inr hpF)]; exact hex
    · intro h; exact ((hmem p).1 h).1 rfl
    · intro y hy hyp
      rw [hszn y (Or.inr ((hmem y).1 hy).2)]
      have := hF.disj y ((hmem y).1 hy).2 p hpF hyp
      omega
    · intro y hy hyp
      have := hF.disj p hpF y ((hmem y).1 hy).2 hyp
      omega
    · have h1 := sizeSum_erase s.mem p F hpF
      have h2 : sizeSum (setNext s.mem prevp (getNext s.mem p)) (F.erase p) =
          sizeSum s.mem (F.erase p) :=
        sizeSum_congr _ _ _ (fun x hx => hszn x (Or.inr ((hmem x).1 hx).2))
      omega
  · simp only [hex, if_false]
    have hs1 : getSize (setSize s.mem p (getSize s.mem p - num)) p = getSize s.mem p - num := by
      rw [getSize_setSize_same]; omega
    rw [hs1]
    have hq : padd p (getSize s.mem p - num) = p + 16 * (getSize s.mem p - num) := by
      unfold padd; omega
    rw [hq]
    have hqin : p + 16 ≤ p + 16 * (getSize s.mem p - num) := by omega
    obtain ⟨m2, hm2⟩ : ∃ m2, m2 = setSize (setSize s.mem p (getSize s.mem p - num))
        (p + 16 * (getSize s.mem p - num)) num := ⟨_, rfl⟩
    rw [← hm2]
    have hqF : ∀ x, (x = E.base ∨ x ∈ F) → x ≠ p + 16 * (getSize s.mem p - num) ∧
        x + 8 ≠ p + 16 * (getSize s.mem p - num) := by
      intro x hx
      rcases hx with h | h
      · omega
      · have := hF.blk x h
        by_cases hxp : x < p
        · omega
        · by_cases hxe : x = p
          · omega
          · have := hF.disj p hpF x h (by omega); omega
    have hqU : ∀ x ∈ U, x ≠ p + 16 * (getSize s.mem p - num) ∧
        x + 8 ≠ p + 16 * (getSize s.mem p - num) := by
      intro x hx
      have := hU.blk x hx
      by_cases hxp : x < p
      · omega
      · have := hR.fu p hpF x hx (by have := hsepU x hx p (Or.inr hpF); omega); omega
    have hszn : ∀ x, (x = E.base ∨ x ∈ F) → x ≠ p →
        getSize (m2) x = getSize s.mem x := by
      intro x hx hxp
      rw [hm2, getSize_setSize_ne _ _ _ _ (hqF x hx).1, getSize_setSize_ne _ _ _ _ hxp]
    have hszp : getSize (m2) p = getSize s.mem p - num := by
      rw [hm2, getSize_setSize_ne _ _ _ _ (by omega), hs1]
    have hnxn : ∀ x, (x = E.base ∨ x ∈ F) →
        getNext (m2) x = getNext s.mem x := by
      intro x hx
      rw [hm2, getNext_setSize _ _ _ _ (hqF x hx).2,
        getNext_setSize _ _ _ _ (hF.node_sep x p hx (Or.inr hpF)).1]
    have hszle : ∀ x, (x = E.base ∨ x ∈ F) →
        getSize (m2) x ≤ getSize s.mem x := by
      intro x hx
      by_cases hxp : x = p
      · rw [hxp, hszp]; omega
      · rw [hszn x hx hxp]
    have hUf : ∀ x ∈ U, getSize (m2) x = getSize s.mem x ∧
        getNext (m2) x = getNext s.mem x := by
      intro x hx
      have h1 := hsepU x hx p (Or.inr hpF)
      have h2 := hqU x hx
      exact ⟨by rw [hm2, getSize_setSize_ne _ _ _ _ h2.1, getSize_setSize_ne _ _ _ _ h1.1],
        by rw [hm2, getNext_setSize _ _ _ _ h2.2, getNext_setSize _ _ _ _ h1.2.2]⟩
    have hFR : FRep E { s with mem := m2, freep := prevp } F :=
      hF.mono_free (le_refl _) hbrk hpp hszle hnxn
    refine ⟨F, ⟨hFR, hU.congr_used (le_refl _) rfl (fun x hx => (hUf x hx).1)
      (fun x hx => (hUf x hx).2), hR.ne, ?_, ?_, hR.brk_al, hR.base_pos, hR.base_lt⟩,
      fun y hy => hy, by omega, by omega, by omega, hpF, ?_, ?_, ?_, ?_, hUf, ?_⟩
    · intro x hx y hy hxy
      have := hszle x (Or.inr hx)
      have := hR.fu x hx y hy hxy
      show x + 16 * getSize (m2) x ≤ y
      omega
    · intro x hx y hy hxy
      show y + 16 * getSize (m2) y ≤ x
      rw [(hUf y hy).1]
      exact hR.uf x hx y hy hxy
    · rw [hm2, getSize_setSize_same]; omega
    · intro h; exact (hqF _ (Or.inr h)).1 rfl
    · intro y hy hyq
      by_cases hyp : y = p
      · rw [hyp, hszp]
      · rw [hszn y (Or.inr hy) hyp]
        by_cases hlt' : y < p
        · have := hF.disj y hy p hpF hlt'; omega
        · have := hF.disj p hpF y hy (by omega); omega
    · intro y hy hyq
      have := hF.disj p hpF y hy (by omega)
      omega
    · have h1 := sizeSum_erase s.mem p F hpF
      have h2 := sizeSum_erase (m2) p F hpF
      have hmem : ∀ z, z ∈ F.erase p ↔ z ≠ p ∧ z ∈ F := fun z => hF.nodup.mem_erase_iff
      have h3 : sizeSum (m2) (F.erase p) = sizeSum s.mem (F.erase p) :=
        sizeSum_congr _ _ _ (fun x hx => hszn x (Or.inr ((hmem x).1 hx).2) ((hmem x).1 hx).1)
      omega

theorem mem_regInsert (U : List Nat) (q x : Nat) : x ∈ regInsert U q ↔ x = q ∨ x ∈ U := by
  cases U with
  | nil => simp [regInsert]
  | cons u R =>
    simp only [regInsert, List.mem_cons]
    tauto

/-- What `register` achieves: the block `q` joins the registry right behind the
anchor (or becomes the anchor of an empty registry). -/
theorem register_spec (E : Env) (s : State) (F U : List Nat) (m : Mem) (prevp q num : Nat)
    (hR : Rep E { s with mem := m, freep := prevp } F U)
    (hq : q % 16 = 0) (hqlo : E.base + 16 ≤ q) (hqsz : getSize m q = num) (hnum : 1 ≤ num)
    (hqhi : q + 16 * num ≤ s.brk) (hqF : q ∉ F) (hqU : q ∉ U)
    (hFb : ∀ y ∈ F, y < q → y + 16 * getSize m y ≤ q)
    (hFa : ∀ y ∈ F, q < y → q + 16 * num ≤ y)
    (hUb : ∀ y ∈ U, y < q → y + 16 * getSize m y ≤ q)
    (hUa : ∀ y ∈ U, q < y → q + 16 * num ≤ y) :
    Rep E (register s m prevp q).1 F (regInsert U q) ∧
      (register s m prevp q).2 = q + 16 ∧
      (Clear { s with mem := m, freep := prevp } U →
        Clear (register s m prevp q).1 (regInsert U q)) ∧
      (∀ x, (x = E.base ∨ x ∈ F) → getSize (register s m prevp q).1.mem x = getSize m x) ∧
      getSize (register s m prevp q).1.mem q = num ∧
      (register s m prevp q).1.brk = s.brk ∧
      (register s m prevp q).1.freep = prevp ∧
      (register s m prevp q).1.initted = s.initted ∧
      (register s m prevp q).1.stack_bottom = s.stack_bottom := by
  have hF := hR.free
  have hU := hR.used
  have hbrk : s.brk ≤ 9223372036854775808 := hF.brk_le
  have hUblk : ∀ x ∈ U, x % 16 = 0 ∧ E.base + 16 ≤ x ∧ x + 16 * getSize m x ≤ s.brk ∧
      1 ≤ getSize m x := hU.blk
  have hFblk : ∀ x ∈ F, x % 16 = 0 ∧ E.base + 16 ≤ x ∧ x + 16 ≤ s.brk ∧
      x + 16 * getSize m x ≤ s.brk := hF.blk
  have hpq : padd q 1 = q + 16 := by unfold padd; omega
  have hFsep : ∀ x, (x = E.base ∨ x ∈ F) → x ≠ q ∧ x ≠ q + 8 ∧ x + 8 ≠ q := by
    intro x hx
    rcases hx with h | h
    · omega
    · have := hFblk x h
      have : x ≠ q := fun e => hqF (e ▸ h)
      omega
  have hUsep : ∀ x ∈ U, x ≠ q ∧ x ≠ q + 8 ∧ x + 8 ≠ q := by
    intro x hx
    have := hUblk x hx
    have : x ≠ q := fun e => hqU (e ▸ hx)
    omega
  have hFU : ∀ x, (x = E.base ∨ x ∈ F) → ∀ y ∈ U, x ≠ y ∧ x ≠ y + 8 ∧ x + 8 ≠ y := by
    intro x hx y hy
    have hyb := hUblk y hy
    rcases hx with h | h
    · omega
    · have := hFblk x h
      have : x ≠ y := fun e => hR.ne x h (e ▸ hy)
      omega
  have hhead : s.usedp = U.headD 0 := hU.head
  unfold register
  cases hUc : U with
  | nil =>
    rw [hUc] at hhead
    have hu0 : s.usedp = 0 := hhead
    rw [if_pos hu0]
    show Rep E _ F [q] ∧ _ ∧ (_ → Clear _ [q]) ∧ _
    have hsz : ∀ x, x ≠ q + 8 → getSize (setNext m q q) x = getSize m x :=
      fun x hx => getSize_setNext _ _ _ _ hx
    refine ⟨⟨?_, ?_, ?_, ?_, ?_, hR.brk_al, hR.base_pos, hR.base_lt⟩, hpq, ?_, ?_, ?_, rfl, rfl,
      rfl, rfl⟩
    · exact hF.congr_free (le_refl _) hbrk rfl (fun x hx => hsz x (hFsep x hx).2.1)
        (fun x hx => getNext_setNext_ne _ _ _ _ (hFsep x hx).1)
    · refine ⟨List.nodup_singleton _, ?_, ?_, rfl, ?_⟩
      · intro x hx
        rw [List.mem_singleton] at hx
        subst hx
        show x % 16 = 0 ∧ E.base + 16 ≤ x ∧ x + 16 * getSize (setNext m x x) x ≤ s.brk ∧
          1 ≤ getSize (setNext m x x) x
        rw [hsz x (by omega), hqsz]
        exact ⟨hq, hqlo, hqhi, hnum⟩
      · intro x hx y hy hxy
        rw [List.mem_singleton] at hx hy
        omega
      · show lnk (setNext m q q) q q ∧ True
        refine ⟨Or.inl ?_, trivial⟩
        rw [getNext_setNext_same]; omega
    · intro x hx hxq
      rw [List.mem_singleton] at hxq
      exact hqF (hxq ▸ hx)
    · intro x hx y hy hxy
      rw [List.mem_singleton] at hy
      show x + 16 * getSize (setNext m q q) x ≤ y
      rw [hsz x (hFsep x (Or.inr hx)).2.1, hy]
      exact hFb x hx (by omega)
    · intro x hx y hy hxy
      rw [List.mem_singleton] at hy
      show y + 16 * getSize (setNext m q q) y ≤ x
      rw [hy, hsz q (by omega), hqsz]
      exact hFa x hx (by omega)
    · intro _ x hx
      rw [List.mem_singleton] at hx
      show markBit (getNext (setNext m q q) x) = 0
      rw [hx, getNext_setNext_same]
      unfold markBit; omega
    · intro x hx
      exact hsz x (hFsep x hx).2.1
    · show getSize (setNext m q q) q = num
      rw [hsz q (by omega)]; exact hqsz
  | cons u R =>
    rw [hUc] at hhead hU hUsep hFU hUb hUa hUblk
    have hub := hUblk u (List.mem_cons_self _ _)
    have hu0 : s.usedp = u := hhead
    have hune : ¬ s.usedp = 0 := by rw [hu0]; omega
    rw [if_neg hune, hu0]
    show Rep E _ F (u :: q :: R) ∧ _ ∧ (_ → Clear _ (u :: q :: R)) ∧ _
    have huq := hUsep u (List.mem_cons_self _ _)
    have hsz : ∀ x, x ≠ q + 8 → x ≠ u + 8 →
        getSize (setNext (setNext m q (getNext m u)) u q) x = getSize m x := by
      intro x h1 h2
      rw [getSize_setNext _ _ _ _ h2, getSize_setNext _ _ _ _ h1]
    have hnx : ∀ x, x ≠ q → x ≠ u →
        getNext (setNext (setNext m q (getNext m u)) u q) x = getNext m x := by
      intro x h1 h2
      rw [getNext_setNext_ne _ _ _ _ h2, getNext_setNext_ne _ _ _ _ h1]
    have hlu : lnk m u (R.headD u) := hU.links.1
    have hnu : getNext (setNext (setNext m q (getNext m u)) u q) u = q := by
      rw [getNext_setNext_same]; omega
    have hhd : R.headD u % 16 = 0 ∧ R.headD u + 16 ≤ s.brk := by
      cases R with
      | nil => exact ⟨hub.1, by simp only [List.headD_nil]; omega⟩
      | cons a t =>
        have := hUblk a (by simp)
        exact ⟨this.1, by simp only [List.headD_cons]; omega⟩
    have hnq : getNext (setNext (setNext m q (getNext m u)) u q) q = getNext m u := by
      rw [getNext_setNext_ne _ _ _ _ (by omega), getNext_setNext_same]
      rcases hlu with h | h <;> rw [h] <;> omega
    have hUsz : ∀ x ∈ u :: R,
        getSize (setNext (setNext m q (getNext m u)) u q) x = getSize m x := by
      intro x hx
      have h1 := hUsep x hx
      have h2 := hUblk x hx
      exact hsz x h1.2.1 (by omega)
    refine ⟨⟨?_, ?_, ?_, ?_, ?_, hR.brk_al, hR.base_pos, hR.base_lt⟩, hpq, ?_, ?_, ?_, rfl, rfl,
      rfl, rfl⟩
    · exact hF.congr_free (le_refl _) hbrk rfl
        (fun x hx => hsz x (hFsep x hx).2.1 (hFU x hx u (List.mem_cons_self _ _)).2.1)
        (fun x hx => hnx x (hFsep x hx).1 (hFU x hx u (List.mem_cons_self _ _)).1)
    · have hnd : (u :: q :: R).Nodup := by
        have h1 := hU.nodup
        rw [List.nodup_cons] at h1 ⊢
        refine ⟨?_, List.nodup_cons.2 ⟨fun h => hqU (hUc ▸ List.mem_cons_of_mem _ h), h1.2⟩⟩
        intro h
        rcases List.mem_cons.1 h with h' | h'
        · omega
        · exact h1.1 h'
      have hmem : ∀ x, x ∈ u :: q :: R → x = q ∨ x ∈ u :: R := by
        intro x hx
        simp only [List.mem_cons] at hx ⊢
        tauto
      refine ⟨hnd, ?_, ?_, rfl, ?_⟩
      · intro x hx
        show x % 16 = 0 ∧ E.base + 16 ≤ x ∧
          x + 16 * getSize (setNext (setNext m q (getNext m u)) u q) x ≤ s.brk ∧
          1 ≤ getSize (setNext (setNext m q (getNext m u)) u q) x
        rcases hmem x hx with h | h
        · rw [h, hsz q (by omega) (by omega), hqsz]
          exact ⟨hq, hqlo, hqhi, hnum⟩
        · rw [hUsz x h]; exact hUblk x h
      · intro x hx y hy hxy
        show x + 16 * getSize (setNext (setNext m q (getNext m u)) u q) x ≤ y
        rcases hmem x hx with h | h <;> rcases hmem y hy with h' | h'
        · omega
        · rw [h, hsz q (by omega) (by omega), hqsz]
          exact hUa y h' (by omega)
        · rw [hUsz x h, h']
          exact hUb x h (by omega)
        · rw [hUsz x h]; exact hU.disj x h y h' hxy
      · show lnk _ u q ∧ lnk _ q (R.headD u) ∧ Links _ R u
        refine ⟨Or.inl hnu, ?_, ?_⟩
        · unfold lnk; rw [hnq]; exact hlu
        · refine Links.congr_links ?_ hU.links.2
          intro x hx
          have h1 := hUsep x (List.mem_cons_of_mem _ hx)
          have h2 : x ≠ u := fun e => (List.nodup_cons.1 hU.nodup).1 (e ▸ hx)
          exact hnx x h1.1 h2
    · intro x hx hxU
      have hxU' : x = q ∨ x ∈ u :: R := by
        simp only [List.mem_cons] at hxU ⊢
        tauto
      rcases hxU' with h | h
      · exact hqF (h ▸ hx)
      · exact hR.ne x hx (hUc ▸ h)
    · intro x hx y hy hxy
      show x + 16 * getSize (setNext (setNext m q (getNext m u)) u q) x ≤ y
      rw [hsz x (hFsep x (Or.inr hx)).2.1 (hFU x (Or.inr hx) u (List.mem_cons_self _ _)).2.1]
      have hy' : y = q ∨ y ∈ u :: R := by
        simp only [List.mem_cons] at hy ⊢
        tauto
      rcases hy' with h | h
      · rw [h]; exact hFb x hx (by omega)
      · exact hR.fu x hx y (hUc ▸ h) hxy
    · intro x hx y hy hxy
      show y + 16 * getSize (setNext (setNext m q (getNext m u)) u q) y ≤ x
      have hy' : y = q ∨ y ∈ u :: R := by
        simp only [List.mem_cons] at hy ⊢
        tauto
      rcases hy' with h | h
      · rw [h, hsz q (by omega) (by omega), hqsz]; exact hFa x hx (by omega)
      · rw [hUsz y h]; exact hR.uf x hx y (hUc ▸ h) hxy
    · intro hcl x hx
      show markBit (getNext (setNext (setNext m q (getNext m u)) u q) x) = 0
      have hcu : markBit (getNext m u) = 0 := hcl u (List.mem_cons_self _ _)
      have hx' : x = u ∨ x = q ∨ x ∈ R := by
        simp only [List.mem_cons] at hx
        tauto
      rcases hx' with h | h | h
      · rw [h, hnu]; unfold markBit; omega
      · rw [h, hnq]; exact hcu
      · have h1 := hUsep x (List.mem_cons_of_mem _ h)
        have h2 : x ≠ u := fun e => (List.nodup_cons.1 hU.nodup).1 (e ▸ h)
        rw [hnx x h1.1 h2]
        exact hcl x (List.mem_cons_of_mem _ h)
    · intro x hx
      exact hsz x (hFsep x hx).2.1 (hFU x hx u (List.mem_cons_self _ _)).2.1
    · show getSize (setNext (setNext m q (getNext m u)) u q) q = num
      rw [hsz q (by omega) (by omega)]; exact hqsz

/-- The success branch of `GC_malloc` keeps the allocator invariant: the block
handed out has `num` units, was part of the free block `p`, and is registered. -/
theorem takeBlock_spec (E : Env) (s : State) (F U : List Nat) (hR : Rep E s F U)
    (num prevp p : Nat) (hnum : 1 ≤ num) (hpp : prevp = E.base ∨ prevp ∈ F)
    (hp : p = getNext s.mem prevp) (hsz : num ≤ getSize s.mem p) :
    ∃ F' q, Rep E (takeBlock s num prevp p).1 F' (regInsert U q) ∧
      (takeBlock s num prevp p).2 = q + 16 ∧
      (Clear s U → Clear (takeBlock s num prevp p).1 (regInsert U q)) ∧
      getSize (takeBlock s num prevp p).1.mem q = num ∧
      q ∉ U ∧
      (takeBlock s num prevp p).1.brk = s.brk ∧
      (takeBlock s num prevp p).1.initted = s.initted ∧
      (takeBlock s num prevp p).1.stack_bottom = s.stack_bottom ∧
      sizeSum (takeBlock s num prevp p).1.mem F' + num = sizeSum s.mem F ∧
      (∀ y ∈ F', y ∈ F) ∧
      p ∈ F ∧ p ≤ q ∧ q + 16 * num = p + 16 * getSize s.mem p := by
  obtain ⟨F', h1, h2, h3, h4, h5, h6, h7, h8, h9, h10, h11, h12⟩ :=
    carve_spec E s F U hR num prevp p hnum hpp hp hsz
  have hpb := hR.free.blk p h6
  have hUq : ∀ y ∈ U, (y < (carve s.mem num prevp p).2 →
        y + 16 * getSize s.mem y ≤ (carve s.mem num prevp p).2) ∧
      ((carve s.mem num prevp p).2 < y → (carve s.mem num prevp p).2 + 16 * num ≤ y) ∧
      y ≠ (carve s.mem num prevp p).2 := by
    intro y hy
    have hyp : y ≠ p := fun e => hR.ne p h6 (e ▸ hy)
    have hyb := hR.used.blk y hy
    by_cases hlt : y < p
    · have := hR.uf p h6 y hy hlt
      omega
    · have := hR.fu p h6 y hy (by omega)
      omega
  obtain ⟨r1, r2, r3, r4, r5, r6, r7, r8, r9⟩ := register_spec E s F' U (carve s.mem num prevp p).1
    prevp (carve s.mem num prevp p).2 num h1 h3 (by omega) h7 hnum (by omega) h8
    (fun h => (hUq _ h).2.2 rfl) h9 h10
    (fun y hy hlt => by rw [(h11 y hy).1]; exact (hUq y hy).1 hlt)
    (fun y hy hlt => (hUq y hy).2.1 hlt)
  refine ⟨F', (carve s.mem num prevp p).2, r1, r2, ?_, r5, fun h => (hUq _ h).2.2 rfl, r6, r8, r9,
    ?_, h2, h6, h4, h5⟩
  · intro hcl
    apply r3
    intro x hx
    show markBit (getNext (carve s.mem num prevp p).1 x) = 0
    rw [(h11 x hx).2]
    exact hcl x hx
  · have : sizeSum (takeBlock s num prevp p).1.mem F' = sizeSum (carve s.mem num prevp p).1 F' :=
      sizeSum_congr _ _ _ (fun x hx => r4 x (Or.inr hx))
    rw [this]
    exact h12

/-! ## `morecore` -/

/-- The unit count `morecore` asks for. -/
theorem morecore_refused (k : Nat) (E : Env) (s : State) (num : Nat)
    (h : morecore k E s num = some none) :
    E.grant s.brk (((if num < MIN_UNITS then MIN_UNITS else num) * 16) %
      18446744073709551616) = false := by
  obtain ⟨nu, hnu⟩ : ∃ nu, nu = (if num < MIN_UNITS then MIN_UNITS else num) := ⟨_, rfl⟩
  rw [← hnu]
  unfold morecore sbrk at h
  simp only [← hnu] at h
  by_cases hg : E.grant s.brk (nu * 16 % 18446744073709551616) = true
  · rw [if_pos hg] at h
    simp only [] at h
    cases hadd : add_to_free_list k _ s.brk with
    | none => rw [hadd] at h; cases h
    | some s2 => rw [hadd] at h; cases h
  · simpa using hg

/-- A granted extension keeps the allocator invariant; the new region joins the
free list and the registry is untouched. -/
theorem morecore_spec (E : Env) (s : State) (F U : List Nat) (hR : Rep E s F U)
    (hW : WellBehaved E) (k num : Nat) (s2 : State)
    (h : morecore k E s num = some (some s2)) :
    ∃ F', Rep E s2 F' U ∧
      (∀ x ∈ U, getSize s2.mem x = getSize s.mem x ∧ getNext s2.mem x = getNext s.mem x) ∧
      s2.usedp = s.usedp ∧ s2.initted = s.initted ∧ s2.stack_bottom = s.stack_bottom ∧
      E.grant s.brk (((if num < MIN_UNITS then MIN_UNITS else num) * 16) %
        18446744073709551616) = true ∧
      s2.brk = s.brk + ((if num < MIN_UNITS then MIN_UNITS else num) * 16) %
        18446744073709551616 ∧
      (∀ y ∈ F', y = s.brk ∨ y ∈ F) ∧
      (sizeSum s.mem F + (if num < MIN_UNITS then MIN_UNITS else num) < 4294967296 →
        sizeSum s2.mem F' = sizeSum s.mem F + (if num < MIN_UNITS then MIN_UNITS else num) ∧
        (num ≤ getSize s2.mem s2.freep ∨ num ≤ getSize s2.mem (getNext s2.mem s2.freep))) := by
  have hF := hR.free
  have hU := hR.used
  have hbrk := hF.brk_le
  have hal := hR.brk_al
  have hbl := hR.base_lt
  obtain ⟨nu, hnu⟩ : ∃ nu, nu = (if num < MIN_UNITS then MIN_UNITS else num) := ⟨_, rfl⟩
  rw [← hnu]
  unfold morecore sbrk at h
  simp only [← hnu] at h
  by_cases hg : E.grant s.brk (nu * 16 % 18446744073709551616) = true
  swap
  · rw [if_neg hg] at h; cases h
  rw [if_pos hg] at h
  simp only [] at h
  have hnum : num ≤ nu := by rw [hnu]; unfold MIN_UNITS; split_ifs <;> omega
  obtain ⟨hw1, hw2⟩ := hW _ _ hg
  have hb' : (s.brk + nu * 16 % 18446744073709551616) % 18446744073709551616 =
      s.brk + nu * 16 % 18446744073709551616 := by omega
  rw [hb'] at h
  cases hadd : add_to_free_list k { mem := setSize s.mem s.brk nu, freep := s.freep, usedp := s.usedp, stack_bottom := s.stack_bottom, initted := s.initted, brk := s.brk + nu * 16 % 18446744073709551616 } s.brk with
  | none => rw [hadd] at h; cases h
  | some s3 =>
    rw [hadd] at h
    cases h
    have hFsep : ∀ x, (x = E.base ∨ x ∈ F) → x ≠ s.brk ∧ x + 8 ≠ s.brk := by
      intro x hx
      rcases hx with h | h
      · omega
      · have := hF.blk x h; omega
    have hUsep : ∀ x ∈ U, x ≠ s.brk ∧ x + 8 ≠ s.brk ∧ x + 16 ≤ s.brk := by
      intro x hx
      have := hU.blk x hx; omega
    have hF1 : FRep E { mem := setSize s.mem s.brk nu, freep := s.freep, usedp := s.usedp, stack_bottom := s.stack_bottom, initted := s.initted, brk := s.brk + nu * 16 % 18446744073709551616 } F :=
      hF.congr_free (by show s.brk ≤ s.brk + _; omega) hw2 rfl
        (fun x hx => getSize_setSize_ne _ _ _ _ (hFsep x hx).1)
        (fun x hx => getNext_setSize _ _ _ _ (hFsep x hx).2)
    have hsu : getSize (setSize s.mem s.brk nu) s.brk = nu % 4294967296 :=
      getSize_setSize_same _ _ _
    have hfresh : Fresh E { mem := setSize s.mem s.brk nu, freep := s.freep, usedp := s.usedp, stack_bottom := s.stack_bottom, initted := s.initted, brk := s.brk + nu * 16 % 18446744073709551616 } F s.brk := by
      refine ⟨hal, hbl, by show s.brk + 16 ≤ s.brk + _; omega, ?_, ?_, ?_, ?_⟩
      · show s.brk + 16 * getSize (setSize s.mem s.brk nu) s.brk ≤ s.brk + _
        rw [hsu]; omega
      · intro hmem; have := hF.blk _ hmem; omega
      · intro y hy hlt; have := hF.blk y hy; omega
      · intro y hy _
        show y + 16 * getSize (setSize s.mem s.brk nu) y ≤ s.brk
        rw [getSize_setSize_ne _ _ _ _ (hFsep y (Or.inr hy)).1]
        exact (hF.blk y hy).2.2.2
    obtain ⟨F', f1, f2, f3, f4, f5, f6, f7, f8, f9⟩ :=
      add_to_free_list_spec E _ s2 F s.brk k hF1 hfresh hadd
    have hUf : ∀ x ∈ U, getSize s2.mem x = getSize s.mem x ∧
        getNext s2.mem x = getNext s.mem x := by
      intro x hx
      have hxb := hU.blk x hx
      have hxs := hUsep x hx
      have := frame_header E _ s2 F s.brk hF1 hal f7 x hxb.1 hxb.2.1 hxs.1
        (fun hm => hR.ne x hm hx)
      rw [this.1, this.2]
      exact ⟨getSize_setSize_ne _ _ _ _ hxs.1, getNext_setSize _ _ _ _ hxs.2.1⟩
    refine ⟨F', ⟨f1, ?_, ?_, ?_, ?_, ?_, hR.base_pos, ?_⟩, hUf, f2, f5, f4, hg, f3, f6, ?_⟩
    · exact hU.congr_used (by rw [f3]; show s.brk ≤ s.brk + _; omega) f2 (fun x hx => (hUf x hx).1)
        (fun x hx => (hUf x hx).2)
    · intro x hx hxU
      rcases f6 x hx with h | h
      · have := hUsep x hxU; omega
      · exact hR.ne x h hxU
    · intro x hx y hy hxy
      refine f8 y (hUsep y hy).1 (fun hm => hR.ne y hm hy) ?_ x hx hxy
      intro z hz hzy
      rcases hz with h | h
      · have := hUsep y hy; omega
      · show z + 16 * getSize (setSize s.mem s.brk nu) z ≤ y
        rw [getSize_setSize_ne _ _ _ _ (hFsep z (Or.inr h)).1]
        exact hR.fu z h y hy hzy
    · intro x hx y hy hxy
      rw [(hUf y hy).1]
      rcases f6 x hx with h | h
      · have := hU.blk y hy; omega
      · exact hR.uf x h y hy hxy
    · rw [f3]; show (s.brk + nu * 16 % 18446744073709551616) % 16 = 0; omega
    · rw [f3]; show E.base + 16 ≤ s.brk + _; omega
    · intro hsum
      have hs1 : sizeSum (setSize s.mem s.brk nu) F = sizeSum s.mem F :=
        sizeSum_congr _ _ _ (fun x hx => getSize_setSize_ne _ _ _ _ (hFsep x (Or.inr hx)).1)
      have hnu' : nu % 4294967296 = nu := by omega
      obtain ⟨g1, _, g3⟩ := f9 (by
        show sizeSum (setSize s.mem s.brk nu) F + getSize (setSize s.mem s.brk nu) s.brk < _
        rw [hs1, hsu]; omega)
      refine ⟨?_, ?_⟩
      · rw [g1]
        show sizeSum (setSize s.mem s.brk nu) F + getSize (setSize s.mem s.brk nu) s.brk = _
        rw [hs1, hsu, hnu']
      · rcases g3 with ⟨g4, g5⟩ | ⟨g4, g5⟩
        · right
          rw [g4]
          have : getSize (setSize s.mem s.brk nu) s.brk ≤ getSize s2.mem s.brk := g5
          rw [hsu] at this
          omega
        · left
          have : getSize (setSize s.mem s.brk nu) s2.freep +
              getSize (setSize s.mem s.brk nu) s.brk ≤ getSize s2.mem s2.freep := g5
          rw [hsu] at this
          omega

/-! ## `GC_malloc` keeps the allocator invariant -/

theorem mallocLoop_Rep (E : Env) (hW : WellBehaved E) (num : Nat) (hnum : 1 ≤ num) :
    ∀ (k : Nat) (s : State) (F U : List Nat) (prevp p : Nat) (s' : State) (r : Nat),
      Rep E s F U → Clear s U → (prevp = E.base ∨ prevp ∈ F) → p = getNext s.mem prevp →
      mallocLoop k E s num prevp p = some (s', r) →
      ∃ F' U', Rep E s' F' U' ∧ Clear s' U' ∧ s'.initted = s.initted ∧
        s'.stack_bottom = s.stack_bottom ∧ s.brk ≤ s'.brk ∧
        ((r = 0 ∧ U' = U) ∨
          (∃ q, r = q + 16 ∧ U' = regInsert U q ∧ q ∉ U ∧ getSize s'.mem q = num)) := by
  intro k
  induction k with
  | zero => intro s F U prevp p s' r _ _ _ _ h; simp [mallocLoop] at h
  | succ k ih =>
    intro s F U prevp p s' r hR hC hpp hp h
    unfold mallocLoop at h
    by_cases hsz : getSize s.mem p ≥ num
    · rw [if_pos hsz] at h
      have h0 := Option.some.inj h
      have e1 : (takeBlock s num prevp p).1 = s' := congrArg Prod.fst h0
      have e2 : (takeBlock s num prevp p).2 = r := congrArg Prod.snd h0
      subst e1 e2
      obtain ⟨F', q, t1, t2, t3, t4, t5, t6, t7, t8, _⟩ :=
        takeBlock_spec E s F U hR num prevp p hnum hpp hp hsz
      exact ⟨F', regInsert U q, t1, t3 hC, t7, t8, by omega, Or.inr ⟨q, t2, rfl, t5, t4⟩⟩
    · rw [if_neg hsz] at h
      by_cases hpf : p = s.freep
      · rw [if_pos hpf] at h
        cases hmc : morecore k E s num with
        | none => rw [hmc] at h; cases h
        | some o =>
          cases o with
          | none =>
            rw [hmc] at h
            cases h
            exact ⟨F, U, hR, hC, rfl, rfl, le_refl _, Or.inl ⟨rfl, rfl⟩⟩
          | some s1 =>
            rw [hmc] at h
            obtain ⟨F1, m1, m2, m3, m4, m5, _, m7, _⟩ := morecore_spec E s F U hR hW k num s1 hmc
            have hC1 : Clear s1 U := by
              intro x hx
              rw [(m2 x hx).2]
              exact hC x hx
            obtain ⟨F', U', i1, i2, i3, i4, i5, i6⟩ :=
              ih s1 F1 U s1.freep _ s' r m1 hC1 m1.free.freep_mem rfl h
            exact ⟨F', U', i1, i2, by rw [i3, m4], by rw [i4, m5], by omega, i6⟩
      · rw [if_neg hpf] at h
        have hpn : p = E.base ∨ p ∈ F := by rw [hp]; exact hR.free.next_mem prevp hpp
        exact ih s F U p _ s' r hR hC hpn rfl h

/-- The unit count is at least one and at most `2^60`. -/
theorem num_units_bounds (n : Nat) : 1 ≤ num_units n ∧ num_units n ≤ 1152921504606846976 := by
  unfold num_units; omega

theorem GC_malloc_Inv (E : Env) (hW : WellBehaved E) (k : Nat) (s s' : State) (n r : Nat)
    (hI : Inv E s) (h : GC_malloc k E s n = some (s', r)) : Inv E s' := by
  obtain ⟨F, U, hR, hC⟩ := hI
  unfold GC_malloc at h
  have hfp : s.freep ≠ 0 := by
    rcases hR.free.freep_mem with h1 | h1
    · have := hR.base_pos; omega
    · have := hR.free.blk _ h1; omega
  simp only [if_neg hfp] at h
  obtain ⟨F', U', h1, h2, _⟩ := mallocLoop_Rep E hW (num_units n) (num_units_bounds n).1 k s F U
    s.freep _ s' r hR hC hR.free.freep_mem rfl h
  exact ⟨F', U', h1, h2⟩

/-! ## Marking changes mark bits only -/

theorem SameLinks.refl (U : List Nat) (m : Mem) : SameLinks U m m :=
  ⟨fun _ _ => rfl, fun _ _ => Or.inl rfl⟩

theorem SameLinks.trans {U : List Nat} {m1 m2 m3 : Mem} (h1 : SameLinks U m1 m2)
    (h2 : SameLinks U m2 m3) : SameLinks U m1 m3 := by
  refine ⟨fun a ha => by rw [h2.1 a ha, h1.1 a ha], ?_⟩
  intro x hx
  rcases h1.2 x hx with h | ⟨h, h'⟩ <;> rcases h2.2 x hx with g | ⟨g, g'⟩
  · left; rw [g, h]
  · right; rw [g, h]; exact ⟨rfl, by rw [← h]; exact g'⟩
  · right; rw [g, h]; exact ⟨rfl, h'⟩
  · omega

/-- Setting the mark of one block of `U`. -/
theorem SameLinks.mark (U : List Nat) (m : Mem) (b : Nat) (hb : b ∈ U)
    (hlt : getNext m b < 18446744073709551615) :
    SameLinks U m (setNext m b (setMark (getNext m b))) := by
  refine ⟨?_, ?_⟩
  · intro a ha
    exact setNext_other _ _ _ _ (ha b hb)
  · intro x _
    by_cases hxb : x = b
    · rw [hxb, getNext_setNext_same]
      unfold setMark
      by_cases hev : getNext m b % 2 = 0
      · right; omega
      · left; omega
    · left; exact getNext_setNext_ne _ _ _ _ hxb

/-- Marks are never lost by marking. -/
theorem SameLinks.mark_mono {U : List Nat} {m m' : Mem} (h : SameLinks U m m') (x : Nat)
    (hx : x ∈ U) (hm : markBit (getNext m x) = 1) : markBit (getNext m' x) = 1 := by
  unfold markBit at hm ⊢
  rcases h.2 x hx with h1 | h1 <;> omega

theorem SameLinks.lnk_keep {U : List Nat} {m m' : Mem} (h : SameLinks U m m') (x y : Nat)
    (hx : x ∈ U) (hy : y % 2 = 0) (hl : lnk m x y) : lnk m' x y := by
  unfold GarbageCollector.lnk at hl ⊢
  rcases h.2 x hx with h1 | h1 <;> omega

theorem SameLinks.untag {U : List Nat} {m m' : Mem} (h : SameLinks U m m') (x : Nat)
    (hx : x ∈ U) (hev : UNTAG (getNext m x) % 16 = 0) (hl : getNext m x < UNTAG (getNext m x) + 2) :
    UNTAG (getNext m' x) = UNTAG (getNext m x) := by
  unfold UNTAG at hev hl ⊢
  rcases h.2 x hx with h1 | h1 <;> omega

theorem SameLinks.toMarkEq {U : List Nat} {m m' : Mem} (h : SameLinks U m m') : MarkEq U m m' := by
  refine ⟨h.1, ?_⟩
  intro x hx
  rcases h.2 x hx with h1 | h1 <;> omega

theorem MarkEq.lnk_same {U : List Nat} {m m' : Mem} (h : MarkEq U m m') (x y : Nat)
    (hx : x ∈ U) (hy : y % 2 = 0) (hl : lnk m x y) : lnk m' x y := by
  unfold GarbageCollector.lnk at hl ⊢
  have := h.2 x hx
  rcases hl with h1 | h1 <;> omega

theorem Links.mono_links {U : List Nat} {m m' : Mem} (h : MarkEq U m m') :
    ∀ {l : List Nat} {e : Nat}, (∀ x ∈ l, x ∈ U) → (∀ x ∈ l, x % 2 = 0) → e % 2 = 0 →
      Links m l e → Links m' l e
  | [], _, _, _, _, _ => trivial
  | x :: l, e, hU, hev, he, hl => by
    refine ⟨?_, Links.mono_links h (fun y hy => hU y (List.mem_cons_of_mem _ hy))
      (fun y hy => hev y (List.mem_cons_of_mem _ hy)) he hl.2⟩
    refine h.lnk_same x _ (hU x (List.mem_cons_self _ _)) ?_ hl.1
    cases l with
    | nil => exact he
    | cons a t => exact hev a (by simp)

/-- The allocator invariant does not depend on the mark bits. -/
theorem Rep.of_markEq {E : Env} {s s' : State} {F U : List Nat} (hR : Rep E s F U)
    (hS : MarkEq U s.mem s'.mem) (hfp : s'.freep = s.freep) (hup : s'.usedp = s.usedp)
    (hbrk : s'.brk = s.brk) : Rep E s' F U := by
  have hF := hR.free
  have hU := hR.used
  have hsep : ∀ x, (x = E.base ∨ x ∈ F) → ∀ y ∈ U, x ≠ y + 8 ∧ x + 8 ≠ y + 8 := by
    intro x hx y hy
    have hyb := hU.blk y hy
    rcases hx with h | h
    · omega
    · have := hF.blk x h
      have : x ≠ y := fun e => hR.ne x h (e ▸ hy)
      omega
  have hszU : ∀ x ∈ U, getSize s'.mem x = getSize s.mem x := by
    intro x hx
    unfold getSize
    rw [hS.1 x (fun y hy => by have := hU.blk x hx; have := hU.blk y hy; omega)]
  have hszF : ∀ x, (x = E.base ∨ x ∈ F) → getSize s'.mem x = getSize s.mem x := by
    intro x hx
    unfold getSize
    rw [hS.1 x (fun y hy => (hsep x hx y hy).1)]
  refine ⟨?_, ?_, hR.ne, ?_, ?_, by rw [hbrk]; exact hR.brk_al, hR.base_pos,
    by rw [hbrk]; exact hR.base_lt⟩
  · refine hF.congr_free (by omega) (by rw [hbrk]; exact hF.brk_le) hfp hszF ?_
    intro x hx
    unfold getNext
    rw [hS.1 (x + 8) (fun y hy => (hsep x hx y hy).2)]
  · refine ⟨hU.nodup, ?_, ?_, by rw [hup]; exact hU.head, ?_⟩
    · intro x hx
      rw [hszU x hx, hbrk]
      exact hU.blk x hx
    · intro x hx y hy hxy
      rw [hszU x hx]
      exact hU.disj x hx y hy hxy
    · refine Links.mono_links hS (fun x hx => hx) (fun x hx => by have := hU.blk x hx; omega) ?_
        hU.links
      cases hUc : U with
      | nil => simp
      | cons a t =>
        have := hU.blk a (by rw [hUc]; simp)
        simp only [List.headD_cons]; omega
  · intro x hx y hy hxy
    rw [hszF x (Or.inr hx)]
    exact hR.fu x hx y hy hxy
  · intro x hx y hy hxy
    rw [hszU y hy]
    exact hR.uf x hx y hy hxy

theorem Rep.marks {E : Env} {s s' : State} {F U : List Nat} (hR : Rep E s F U)
    (hS : SameLinks U s.mem s'.mem) (hfp : s'.freep = s.freep) (hup : s'.usedp = s.usedp)
    (hbrk : s'.brk = s.brk) : Rep E s' F U :=
  hR.of_markEq hS.toMarkEq hfp hup hbrk

/-- The `next` field of a registry block holds the address of a registry block,
possibly with the mark bit. -/
theorem URep.next_val {E : Env} {s : State} {U : List Nat} (hU : URep E s U) (x : Nat)
    (hx : x ∈ U) : ∃ y ∈ U, lnk s.mem x y := by
  obtain ⟨y, hy, hxy⟩ := Links.next_mem hU.links x hx
  refine ⟨y, ?_, hxy⟩
  rcases hy with h | h
  · cases U with
    | nil => simp at hx
    | cons a t => simp [h]
  · exact h

theorem Rep.next_lt {E : Env} {s : State} {F U : List Nat} (hR : Rep E s F U) (x : Nat)
    (hx : x ∈ U) : getNext s.mem x < 18446744073709551615 := by
  obtain ⟨y, hy, hxy⟩ := hR.used.next_val x hx
  have := hR.used.blk y hy
  have := hR.free.brk_le
  rcases hxy with h | h <;> omega

theorem Rep.with_marks {E : Env} {s : State} {F U : List Nat} (hR : Rep E s F U) (m' : Mem)
    (hS : SameLinks U s.mem m') : Rep E { s with mem := m' } F U :=
  hR.marks hS rfl rfl rfl

theorem markWalk_same (E : Env) (s : State) (F U : List Nat) (hR : Rep E s F U) (v : Nat) :
    ∀ (k bp : Nat) (m' : Mem), bp ∈ U → markWalk k s.mem s.usedp v bp = some m' →
      SameLinks U s.mem m' := by
  intro k
  induction k with
  | zero => intro bp m' _ h; simp [markWalk] at h
  | succ k ih =>
    intro bp m' hbp h
    unfold markWalk at h
    split_ifs at h with h1 h2
    · cases h
      exact SameLinks.mark U s.mem bp hbp (hR.next_lt bp hbp)
    · exact ih _ m' (hR.used.untag_next_mem bp hbp) h
    · cases h
      exact SameLinks.refl U s.mem

theorem scanWords_same (E : Env) (F U : List Nat) (k : Nat) :
    ∀ (ws : List Nat) (s : State) (m' : Mem), Rep E s F U → s.usedp ∈ U →
      scanWords k s.mem s.usedp ws = some m' → SameLinks U s.mem m' := by
  intro ws
  induction ws with
  | nil =>
    intro s m' _ _ h
    simp only [scanWords] at h
    cases h
    exact SameLinks.refl U s.mem
  | cons v vs ih =>
    intro s m' hR hu h
    simp only [scanWords] at h
    cases hmw : markWalk k s.mem s.usedp v s.usedp with
    | none => rw [hmw] at h; cases h
    | some m1 =>
      rw [hmw] at h
      have h1 := markWalk_same E s F U hR v k s.usedp m1 hu hmw
      have h2 := ih { s with mem := m1 } m' (hR.with_marks m1 h1) hu h
      exact h1.trans h2

theorem heapMark_same (E : Env) (s : State) (F U : List Nat) (hR : Rep E s F U) (bp v : Nat) :
    ∀ (k up : Nat) (m' : Mem), up ∈ U → heapMark k s.mem s.usedp bp v up = some m' →
      SameLinks U s.mem m' := by
  intro k
  induction k with
  | zero => intro up m' _ h; simp [heapMark] at h
  | succ k ih =>
    intro up m' hup h
    unfold heapMark at h
    split_ifs at h with h1 h2
    · cases h
      exact SameLinks.mark U s.mem up hup (hR.next_lt up hup)
    · exact ih _ m' (hR.used.untag_next_mem up hup) h
    · cases h
      exact SameLinks.refl U s.mem

theorem heapWords_same (E : Env) (F U : List Nat) (bp : Nat) :
    ∀ (k : Nat) (s : State) (vp : Nat) (m' : Mem), Rep E s F U → s.usedp ∈ U →
      heapWords k s.mem s.brk s.usedp bp vp = some m' → SameLinks U s.mem m' := by
  intro k
  induction k with
  | zero => intro s vp m' _ _ h; simp [heapWords] at h
  | succ k ih =>
    intro s vp m' hR hu h
    unfold heapWords at h
    split_ifs at h with h1 h2
    · cases hm : heapMark k s.mem s.usedp bp (s.mem vp) (UNTAG (getNext s.mem s.usedp)) with
      | none => rw [hm] at h; cases h
      | some m1 =>
        rw [hm] at h
        have g1 := heapMark_same E s F U hR bp (s.mem vp) k _ m1
          (hR.used.untag_next_mem _ hu) hm
        have g2 := ih { s with mem := m1 } _ m' (hR.with_marks m1 g1) hu h
        exact g1.trans g2
    · cases h
      exact SameLinks.refl U s.mem

theorem Rep.untag_same {E : Env} {s : State} {F U : List Nat} (hR : Rep E s F U) (m' : Mem)
    (hS : SameLinks U s.mem m') (x : Nat) (hx : x ∈ U) :
    UNTAG (getNext m' x) = UNTAG (getNext s.mem x) := by
  obtain ⟨y, hy, hxy⟩ := hR.used.next_val x hx
  have hyb := hR.used.blk y hy
  have e := lnk_untag hxy hyb.1
  refine hS.untag x hx (by rw [e]; exact hyb.1) ?_
  rw [e]
  rcases hxy with h | h <;> omega

theorem heapBlocks_same (E : Env) (F U : List Nat) :
    ∀ (k : Nat) (s : State) (bp : Nat) (m' : Mem), Rep E s F U → s.usedp ∈ U → bp ∈ U →
      heapBlocks k s.mem s.brk s.usedp bp = some m' → SameLinks U s.mem m' := by
  intro k
  induction k with
  | zero => intro s bp m' _ _ _ h; simp [heapBlocks] at h
  | succ k ih =>
    intro s bp m' hR hu hbp h
    unfold heapBlocks at h
    split_ifs at h with h1 h2
    · exact ih s _ m' hR hu (hR.used.untag_next_mem bp hbp) h
    · cases hm : heapWords k s.mem s.brk s.usedp bp (padd bp 1) with
      | none => rw [hm] at h; cases h
      | some m1 =>
        rw [hm] at h
        have g1 := heapWords_same E F U bp k s _ m1 hR hu hm
        have hmem : UNTAG (getNext m1 bp) ∈ U := by
          rw [hR.untag_same m1 g1 bp hbp]
          exact hR.used.untag_next_mem bp hbp
        have g2 := ih { s with mem := m1 } _ m' (hR.with_marks m1 g1) hu hmem h
        exact g1.trans g2
    · cases h
      exact SameLinks.refl U s.mem

/-- The anchor of a non-empty registry is a registry block. -/
theorem URep.usedp_mem {E : Env} {s : State} {U : List Nat} (hU : URep E s U)
    (h : s.usedp ≠ 0) : s.usedp ∈ U := by
  have := hU.head
  cases U with
  | nil => simp at this; exact absurd this h
  | cons a t => simp at this; simp [this]

theorem scan_region_Rep (E : Env) (s s' : State) (F U : List Nat) (k : Nat) (ws : List Nat)
    (hR : Rep E s F U) (hu : s.usedp ≠ 0) (h : scan_region k s ws = some s') :
    Rep E s' F U ∧ SameLinks U s.mem s'.mem ∧ s'.usedp = s.usedp ∧ s'.freep = s.freep ∧
      s'.brk = s.brk ∧ s'.initted = s.initted ∧ s'.stack_bottom = s.stack_bottom := by
  unfold scan_region at h
  cases hm : scanWords k s.mem s.usedp ws with
  | none => rw [hm] at h; cases h
  | some m1 =>
    rw [hm] at h
    cases h
    have g := scanWords_same E F U k ws s m1 hR (hR.used.usedp_mem hu) hm
    exact ⟨hR.with_marks m1 g, g, rfl, rfl, rfl, rfl, rfl⟩

theorem scan_heap_Rep (E : Env) (s s' : State) (F U : List Nat) (k : Nat)
    (hR : Rep E s F U) (hu : s.usedp ≠ 0) (h : scan_heap k s = some s') :
    Rep E s' F U ∧ SameLinks U s.mem s'.mem ∧ s'.usedp = s.usedp ∧ s'.freep = s.freep ∧
      s'.brk = s.brk ∧ s'.initted = s.initted ∧ s'.stack_bottom = s.stack_bottom := by
  unfold scan_heap at h
  cases hm : heapBlocks k s.mem s.brk s.usedp (UNTAG (getNext s.mem s.usedp)) with
  | none => rw [hm] at h; cases h
  | some m1 =>
    rw [hm] at h
    cases h
    have hum := hR.used.usedp_mem hu
    have g := heapBlocks_same E F U k s _ m1 hR hum (hR.used.untag_next_mem _ hum) hm
    exact ⟨hR.with_marks m1 g, g, rfl, rfl, rfl, rfl, rfl⟩

/-! ## The sweep -/

theorem headD_append (l1 l2 : List Nat) (e : Nat) :
    (l1 ++ l2).headD e = l1.headD (l2.headD e) := by
  cases l1 <;> simp

theorem Links.append {m : Mem} : ∀ (l1 l2 : List Nat) (e : Nat),
    Links m (l1 ++ l2) e ↔ Links m l1 (l2.headD e) ∧ Links m l2 e
  | [], l2, e => by simp [Links]
  | x :: l1, l2, e => by
    have ih := Links.append (m := m) l1 l2 e
    show lnk m x ((l1 ++ l2).headD e) ∧ Links m (l1 ++ l2) e ↔
      (lnk m x (l1.headD (l2.headD e)) ∧ Links m l1 (l2.headD e)) ∧ Links m l2 e
    rw [ih, headD_append]
    tauto

theorem getLastD_mem : ∀ (K : List Nat) (a : Nat), K.getLastD a ∈ a :: K
  | [], a => by simp
  | b :: K, a => by
    have := getLastD_mem K b
    simp only [List.getLastD_cons]
    exact List.mem_cons_of_mem _ this

theorem Links.set_last {m m' : Mem} : ∀ (K : List Nat) (a e e' : Nat), (a :: K).Nodup →
    Links m (a :: K) e → (∀ x ∈ a :: K, x ≠ K.getLastD a → getNext m' x = getNext m x) →
    lnk m' (K.getLastD a) e' → Links m' (a :: K) e'
  | [], a, e, e', _, _, _, hl => by
    simp only [List.getLastD_nil] at hl
    exact ⟨hl, trivial⟩
  | b :: K, a, e, e', hnd, hL, hfr, hl => by
    simp only [List.getLastD_cons] at hl hfr
    have hnd' := List.nodup_cons.1 hnd
    have hlast := getLastD_mem K b
    have hane : a ≠ K.getLastD b := fun h => hnd'.1 (h ▸ hlast)
    refine ⟨?_, Links.set_last K b e e' hnd'.2 hL.2
      (fun x hx hne => hfr x (List.mem_cons_of_mem _ hx) hne) hl⟩
    have := hL.1
    unfold lnk at this ⊢
    rw [hfr a (List.mem_cons_self _ _) hane]
    exact this

theorem orBit_even (q b : Nat) (hq : q % 2 = 0) (hb : b < 2) : orBit q b = q + b := by
  unfold orBit
  have : max (q % 2) (b % 2) = b := by
    rw [hq, Nat.mod_eq_of_lt hb]; exact Nat.zero_max b
  rw [this]; omega

/-- A registered block may be handed to `add_to_free_list`. -/
theorem Rep.fresh {E : Env} {s : State} {F U : List Nat} (hR : Rep E s F U) (p : Nat)
    (hp : p ∈ U) : Fresh E s F p := by
  have hb := hR.used.blk p hp
  refine ⟨hb.1, hb.2.1, by omega, hb.2.2.1, fun h => hR.ne p h hp, ?_, ?_⟩
  · intro y hy hlt
    exact hR.uf y hy p hp hlt
  · intro y hy hlt
    exact hR.fu y hy p hp hlt

/-- Clearing the mark of a registered block. -/
theorem MarkEq.clear (U : List Nat) (m : Mem) (p : Nat) (hp : p ∈ U)
    (hlt : getNext m p < 18446744073709551616) :
    MarkEq U m (setNext m p (clearMark (getNext m p))) := by
  refine ⟨fun a ha => setNext_other _ _ _ _ (ha p hp), ?_⟩
  intro x _
  by_cases hxp : x = p
  · rw [hxp, getNext_setNext_same]
    unfold clearMark
    omega
  · rw [getNext_setNext_ne _ _ _ _ hxp]

/-- One reclaiming step of the sweep: the unmarked block `p` behind the kept
blocks `u0 :: K` goes to the free list and is unlinked from the registry. -/
theorem sweep_free_step (E : Env) (s s1 : State) (F K Q : List Nat) (u0 p k : Nat)
    (hR : Rep E s F (u0 :: K ++ p :: Q)) (hK : ∀ x ∈ K, markBit (getNext s.mem x) = 0)
    (hadd : add_to_free_list k s p = some s1) :
    ∃ F1, Rep E { s1 with mem := setNext s1.mem (K.getLastD u0) (orBit (UNTAG (getNext s.mem p)) (markBit (getNext s1.mem (K.getLastD u0)))) } F1
        (u0 :: K ++ Q) ∧
      (∀ x ∈ K, markBit (getNext (setNext s1.mem (K.getLastD u0)
          (orBit (UNTAG (getNext s.mem p)) (markBit (getNext s1.mem (K.getLastD u0))))) x) = 0) ∧
      UNTAG (getNext s.mem p) = Q.headD u0 ∧ s1.usedp = u0 ∧ p ≠ u0 ∧
      (∀ b, b ∈ u0 :: K ++ Q → markBit (getNext (setNext s1.mem (K.getLastD u0)
          (orBit (UNTAG (getNext s.mem p)) (markBit (getNext s1.mem (K.getLastD u0))))) b) =
        markBit (getNext s.mem b)) ∧
      s1.brk = s.brk ∧ s1.initted = s.initted ∧ s1.stack_bottom = s.stack_bottom ∧
      F1.length ≤ F.length + 1 ∧
      (∀ b, b ∈ u0 :: K ++ Q → getSize (setNext s1.mem (K.getLastD u0)
          (orBit (UNTAG (getNext s.mem p)) (markBit (getNext s1.mem (K.getLastD u0))))) b =
        getSize s.mem b) ∧
      (sizeSum s.mem F + getSize s.mem p < 4294967296 →
        ∀ x, (x = p ∨ x ∈ F) → ∃ y ∈ F1, y ≤ x ∧
          x + 16 * getSize s.mem x ≤ y + 16 * getSize (setNext s1.mem (K.getLastD u0)
            (orBit (UNTAG (getNext s.mem p)) (markBit (getNext s1.mem (K.getLastD u0))))) y) := by
  have hF := hR.free
  have hU := hR.used
  have hpU : p ∈ u0 :: K ++ p :: Q := by simp
  obtain ⟨F1, f1, f2, f3, f4, f5, f6, f7, f8, f9⟩ :=
    add_to_free_list_spec E s s1 F p k hF (hR.fresh p hpU) hadd
  have hpb := hU.blk p hpU
  -- the registry without `p`
  have hnd : (u0 :: K ++ p :: Q).Nodup := hU.nodup
  have hsub : ∀ x, x ∈ u0 :: K ++ Q → x ∈ u0 :: K ++ p :: Q ∧ x ≠ p := by
    intro x hx
    have hnd' : ((u0 :: K) ++ p :: Q).Nodup := hnd
    rw [List.nodup_append] at hnd'
    have hpQ := List.nodup_cons.1 hnd'.2.1
    have hx' : x ∈ u0 :: K ∨ x ∈ Q := by
      have : x ∈ (u0 :: K) ++ Q := hx
      exact List.mem_append.1 this
    rcases hx' with h | h
    · refine ⟨List.mem_append_left _ h, ?_⟩
      intro e
      exact hnd'.2.2 h (by rw [e]; exact List.mem_cons_self _ _)
    · refine ⟨List.mem_append_right _ (List.mem_cons_of_mem _ h), ?_⟩
      intro e
      exact hpQ.1 (e ▸ h)
  have hnd2 : (u0 :: K ++ Q).Nodup := by
    have hnd' : ((u0 :: K) ++ p :: Q).Nodup := hnd
    rw [List.nodup_append] at hnd'
    have : ((u0 :: K) ++ Q).Nodup := by
      rw [List.nodup_append]
      exact ⟨hnd'.1, (List.nodup_cons.1 hnd'.2.1).2,
        fun a ha hb => hnd'.2.2 ha (List.mem_cons_of_mem _ hb)⟩
    exact this
  have hlast : K.getLastD u0 ∈ u0 :: K := getLastD_mem K u0
  have hlastU : K.getLastD u0 ∈ u0 :: K ++ Q := List.mem_append_left _ hlast
  have hlb := hU.blk _ (hsub _ hlastU).1
  have hlp : K.getLastD u0 ≠ p := (hsub _ hlastU).2
  have hu0p : p ≠ u0 := fun e => (hsub u0 (List.mem_cons_self _ _)).2 e.symm
  -- header fields of the remaining blocks after `add_to_free_list`
  have hfr : ∀ x, x ∈ u0 :: K ++ Q → getSize s1.mem x = getSize s.mem x ∧
      getNext s1.mem x = getNext s.mem x := by
    intro x hx
    have hx' := hsub x hx
    have hxb := hU.blk x hx'.1
    exact frame_header E s s1 F p hF hpb.1 f7 x hxb.1 hxb.2.1 hx'.2
      (fun hm => hR.ne x hm hx'.1)
  -- the links around `p`
  have hL : Links s.mem ((u0 :: K) ++ p :: Q) u0 := hU.links
  rw [Links.append] at hL
  obtain ⟨hL1, hL2⟩ := hL
  have hq : UNTAG (getNext s.mem p) = Q.headD u0 := by
    refine lnk_untag hL2.1 ?_
    cases Q with
    | nil => exact (hU.blk u0 (List.mem_cons_self _ _)).1
    | cons a t =>
      exact (hU.blk a (List.mem_append_right _ (List.mem_cons_of_mem _
        (List.mem_cons_self _ _)))).1
  have hqb : Q.headD u0 % 16 = 0 ∧ Q.headD u0 + 16 ≤ s.brk := by
    cases Q with
    | nil =>
      have := hU.blk u0 (List.mem_cons_self _ _)
      exact ⟨this.1, by simp only [List.headD_nil]; omega⟩
    | cons a t =>
      have := hU.blk a (List.mem_append_right _ (List.mem_cons_of_mem _
        (List.mem_cons_self _ _)))
      exact ⟨this.1, by simp only [List.headD_cons]; omega⟩
  have hbrk := hF.brk_le
  obtain ⟨m2, hm2⟩ : ∃ m2, m2 = setNext s1.mem (K.getLastD u0)
      (orBit (UNTAG (getNext s.mem p)) (markBit (getNext s1.mem (K.getLastD u0)))) := ⟨_, rfl⟩
  rw [← hm2]
  have hmb : markBit (getNext s1.mem (K.getLastD u0)) = markBit (getNext s.mem (K.getLastD u0)) := by
    rw [(hfr _ hlastU).2]
  have hnl : getNext m2 (K.getLastD u0) =
      Q.headD u0 + markBit (getNext s.mem (K.getLastD u0)) := by
    rw [hm2, getNext_setNext_same, hq, hmb, orBit_even _ _ (by omega) (by unfold markBit; omega)]
    unfold markBit; omega
  have hsz2 : ∀ x, x % 16 = 0 → getSize m2 x = getSize s1.mem x := by
    intro x hx
    rw [hm2]
    exact getSize_setNext _ _ _ _ (by omega)
  have hnx2 : ∀ x, x ≠ K.getLastD u0 → getNext m2 x = getNext s1.mem x := by
    intro x hx
    rw [hm2]
    exact getNext_setNext_ne _ _ _ _ hx
  have hF1al : ∀ y, y ∈ F1 → y % 16 = 0 ∧ y ≠ K.getLastD u0 := by
    intro y hy
    refine ⟨(f1.blk y hy).1, ?_⟩
    rcases f6 y hy with h | h
    · rw [h]; exact hlp.symm
    · intro e; exact hR.ne y h (e ▸ (hsub _ hlastU).1)
  refine ⟨F1, ⟨?_, ?_, ?_, ?_, ?_, ?_, hR.base_pos, ?_⟩, ?_, hq, by rw [f2]; exact hU.head, hu0p,
    ?_, f3, f5, f4, ?_, ?_, ?_⟩
  · -- free list
    refine f1.congr_free (le_refl _) f1.brk_le rfl ?_ ?_
    · intro x hx
      show getSize m2 x = getSize s1.mem x
      rw [hm2]
      refine getSize_setNext _ _ _ _ ?_
      rcases hx with h | h
      · omega
      · have := hF1al x h; omega
    · intro x hx
      show getNext m2 x = getNext s1.mem x
      refine hnx2 x ?_
      rcases hx with h | h
      · omega
      · exact (hF1al x h).2
  · -- registry
    refine ⟨hnd2, ?_, ?_, ?_, ?_⟩
    · intro x hx
      have hxb := hU.blk x (hsub x hx).1
      show x % 16 = 0 ∧ E.base + 16 ≤ x ∧ x + 16 * getSize m2 x ≤ s1.brk ∧ 1 ≤ getSize m2 x
      rw [hsz2 x hxb.1, (hfr x hx).1, f3]
      exact hxb
    · intro x hx y hy hxy
      have hxb := hU.blk x (hsub x hx).1
      show x + 16 * getSize m2 x ≤ y
      rw [hsz2 x hxb.1, (hfr x hx).1]
      exact hU.disj x (hsub x hx).1 y (hsub y hy).1 hxy
    · show s1.usedp = _
      rw [f2]; exact hU.head
    · show Links m2 ((u0 :: K) ++ Q) (List.headD (u0 :: K ++ Q) 0)
      rw [Links.append]
      have hh : List.headD (u0 :: K ++ Q) 0 = u0 := rfl
      rw [hh]
      refine ⟨?_, ?_⟩
      · refine Links.set_last K u0 _ _ ?_ hL1 ?_ ?_
        · have hnd' : ((u0 :: K) ++ p :: Q).Nodup := hnd
          rw [List.nodup_append] at hnd'
          exact hnd'.1
        · intro x hx hne
          rw [hnx2 x hne, (hfr x (List.mem_append_left _ hx)).2]
        · unfold lnk
          rw [hnl]
          unfold markBit
          omega
      · refine Links.congr_links ?_ hL2.2
        intro x hx
        have hxU : x ∈ u0 :: K ++ Q := List.mem_append_right (u0 :: K) hx
        have hne : x ≠ K.getLastD u0 := by
          intro e
          have hnd' : ((u0 :: K) ++ Q).Nodup := hnd2
          rw [List.nodup_append] at hnd'
          exact hnd'.2.2 hlast (e ▸ hx)
        rw [hnx2 x hne, (hfr x hxU).2]
  · -- no free block is registered
    intro x hx hxU
    rcases f6 x hx with h | h
    · exact (hsub x hxU).2 h
    · exact hR.ne x h (hsub x hxU).1
  · intro x hx y hy hxy
    show x + 16 * getSize m2 x ≤ y
    rw [hsz2 x (hF1al x hx).1]
    have hy' := hsub y hy
    refine f8 y hy'.2 (fun hm => hR.ne y hm hy'.1) ?_ x hx hxy
    intro z hz hzy
    rcases hz with h | h
    · rw [h]; rw [h] at hzy; exact hU.disj p hpU y hy'.1 hzy
    · exact hR.fu z h y hy'.1 hzy
  · intro x hx y hy hxy
    have hy' := hsub y hy
    have hyb := hU.blk y hy'.1
    show y + 16 * getSize m2 y ≤ x
    rw [hsz2 y hyb.1, (hfr y hy).1]
    rcases f6 x hx with h | h
    · rw [h]; rw [h] at hxy; exact hU.disj y hy'.1 p hpU hxy
    · exact hR.uf x h y hy'.1 hxy
  · show s1.brk % 16 = 0
    rw [f3]; exact hR.brk_al
  · show E.base + 16 ≤ s1.brk
    rw [f3]; exact hR.base_lt
  · -- the kept blocks stay unmarked
    intro x hx
    have hxU : x ∈ u0 :: K ++ Q := List.mem_append_left _ (List.mem_cons_of_mem _ hx)
    by_cases hxl : x = K.getLastD u0
    · rw [hxl, hnl]
      have := hK x hx
      rw [hxl] at this
      rw [this]
      unfold markBit; omega
    · rw [hnx2 x hxl, (hfr x hxU).2]
      exact hK x hx
  · -- marks are kept
    intro b hb
    by_cases hbl : b = K.getLastD u0
    · rw [hbl, hnl]
      unfold markBit; omega
    · rw [hnx2 b hbl, (hfr b hb).2]
  · -- at most one block joins the free list
    have hsubF : F1 ⊆ p :: F := by
      intro y hy
      rcases f6 y hy with h | h
      · rw [h]; exact List.mem_cons_self _ _
      · exact List.mem_cons_of_mem _ h
    have := (List.subperm_of_subset f1.nodup hsubF).length_le
    simpa using this
  · -- sizes of the remaining blocks
    intro b hb
    have hbb := hU.blk b (hsub b hb).1
    rw [hsz2 b hbb.1]
    exact (hfr b hb).1
  · -- the reclaimed block and the old free blocks are covered
    intro hsum x hx
    obtain ⟨y, hy, h1, h2⟩ := (f9 hsum).2.1 x hx
    exact ⟨y, hy, h1, by rw [hsz2 y (hF1al y hy).1]; exact h2⟩

theorem getLastD_append_singleton (K : List Nat) (a u : Nat) : (K ++ [a]).getLastD u = a := by
  induction K generalizing u with
  | nil => simp
  | cons b K ih => rw [List.cons_append, List.getLastD_cons]; exact ih b

/-- The sweep loop re-establishes the allocator invariant at rest.  It reclaims
only blocks that were unmarked when the loop was entered. -/
theorem sweep_spec (E : Env) :
    ∀ (k : Nat) (s : State) (F K Q : List Nat) (u0 : Nat) (s' : State) (l : List Nat),
      Rep E s F (u0 :: K ++ Q) → (∀ x ∈ K, markBit (getNext s.mem x) = 0) →
      sweep k s (K.getLastD u0) (Q.headD u0) = some (s', l) →
      ∃ F' U', Rep E s' F' U' ∧ Clear s' U' ∧ s'.brk = s.brk ∧ s'.initted = s.initted ∧
        s'.stack_bottom = s.stack_bottom ∧
        (∀ b ∈ l, b ∈ u0 :: Q ∧ markBit (getNext s.mem b) = 0) ∧
        (∀ x ∈ U', x ∈ u0 :: K ++ Q) := by
  intro k
  induction k with
  | zero => intro s F K Q u0 s' l _ _ h; simp [sweep] at h
  | succ k ih =>
    intro s F K Q u0 s' l hR hK h
    have hU := hR.used
    have hus : s.usedp = u0 := hU.head
    cases Q with
    | nil =>
      simp only [List.headD_nil, List.append_nil] at h hR hU ⊢
      have hu0 : u0 ∈ u0 :: K := List.mem_cons_self _ _
      unfold sweep at h
      by_cases hm : markBit (getNext s.mem u0) = 0
      · rw [if_pos hm] at h
        cases hadd : add_to_free_list k s u0 with
        | none => rw [hadd] at h; cases h
        | some s1 =>
          rw [hadd] at h
          obtain ⟨F1, f1, f2, f3, f4, f5, _⟩ :=
            add_to_free_list_spec E s s1 F u0 k hR.free (hR.fresh u0 hu0) hadd
          have hs1 : s1.usedp = u0 := by rw [f2]; exact hus
          simp only [if_pos hs1] at h
          have h0 := Option.some.inj h
          have e1 := congrArg Prod.fst h0
          have e2 := congrArg Prod.snd h0
          simp only at e1 e2
          subst e1 e2
          refine ⟨F1, [], ⟨f1.congr_free (le_refl _) f1.brk_le rfl (fun _ _ => rfl) (fun _ _ => rfl),
            ⟨List.nodup_nil, ?_, ?_, rfl, trivial⟩, ?_, ?_, ?_, ?_, hR.base_pos, ?_⟩, ?_, f3, f5,
            f4, ?_, ?_⟩
          · intro x hx; simp at hx
          · intro x hx; simp at hx
          · intro x _ hx; simp at hx
          · intro x _ y hy; simp at hy
          · intro x _ y hy; simp at hy
          · show s1.brk % 16 = 0; rw [f3]; exact hR.brk_al
          · show E.base + 16 ≤ s1.brk; rw [f3]; exact hR.base_lt
          · intro x hx; simp at hx
          · intro b hb
            rw [List.mem_singleton] at hb
            rw [hb]
            exact ⟨List.mem_singleton.2 rfl, hm⟩
          · intro x hx; simp at hx
      · rw [if_neg hm] at h
        simp only [if_pos hus.symm] at h
        have h0 := Option.some.inj h
        have e1 := congrArg Prod.fst h0
        have e2 := congrArg Prod.snd h0
        simp only at e1 e2
        subst e1 e2
        have hME := MarkEq.clear (u0 :: K) s.mem u0 hu0 (by have := hR.next_lt u0 hu0; omega)
        refine ⟨F, u0 :: K, hR.of_markEq hME rfl rfl rfl, ?_, rfl, rfl, rfl, ?_, fun x hx => hx⟩
        · intro x hx
          show markBit (getNext (setNext s.mem u0 (clearMark (getNext s.mem u0))) x) = 0
          by_cases hxu : x = u0
          · rw [hxu, getNext_setNext_same]
            unfold markBit clearMark; omega
          · rw [getNext_setNext_ne _ _ _ _ hxu]
            rcases List.mem_cons.1 hx with h1 | h1
            · exact absurd h1 hxu
            · exact hK x h1
        · intro b hb; simp at hb
    | cons a Q' =>
      simp only [List.headD_cons] at h
      have haU : a ∈ u0 :: K ++ a :: Q' := by simp
      have hau : a ≠ u0 := by
        intro e
        have hnd : ((u0 :: K) ++ a :: Q').Nodup := hU.nodup
        rw [List.nodup_append] at hnd
        exact hnd.2.2 (List.mem_cons_self _ _) (by rw [e]; exact List.mem_cons_self _ _)
      unfold sweep at h
      by_cases hm : markBit (getNext s.mem a) = 0
      · rw [if_pos hm] at h
        cases hadd : add_to_free_list k s a with
        | none => rw [hadd] at h; cases h
        | some s1 =>
          rw [hadd] at h
          obtain ⟨F1, g1, g2, g3, g4, g5, g6, g7, g8, g9, _⟩ :=
            sweep_free_step E s s1 F K Q' u0 a k hR hK hadd
          have hs1 : ¬ s1.usedp = a := by rw [g4]; exact fun e => hau e.symm
          simp only [if_neg hs1] at h
          rw [g3] at h g1 g2 g6
          cases hrec : sweep k { s1 with mem := setNext s1.mem (K.getLastD u0) (orBit (Q'.headD u0) (markBit (getNext s1.mem (K.getLastD u0)))) } (K.getLastD u0) (Q'.headD u0) with
          | none => rw [hrec] at h; cases h
          | some res =>
            rw [hrec] at h
            obtain ⟨s2, l2⟩ := res
            have h0 := Option.some.inj h
            have e1 := congrArg Prod.fst h0
            have e2 := congrArg Prod.snd h0
            simp only at e1 e2
            subst e1 e2
            obtain ⟨F', U', i1, i2, i3, i4, i5, i6, i7⟩ := ih _ F1 K Q' u0 s2 l2 g1 g2 hrec
            refine ⟨F', U', i1, i2, by rw [i3]; exact g7, by rw [i4]; exact g8,
              by rw [i5]; exact g9, ?_, ?_⟩
            · intro b hb
              rcases List.mem_cons.1 hb with h1 | h1
              · rw [h1]
                exact ⟨by simp, hm⟩
              · obtain ⟨j1, j2⟩ := i6 b h1
                have hbU : b ∈ u0 :: K ++ Q' := by
                  rcases List.mem_cons.1 j1 with h2 | h2
                  · rw [h2]; exact List.mem_cons_self _ _
                  · exact List.mem_append_right _ h2
                refine ⟨?_, ?_⟩
                · rcases List.mem_cons.1 j1 with h2 | h2
                  · rw [h2]; exact List.mem_cons_self _ _
                  · exact List.mem_cons_of_mem _ (List.mem_cons_of_mem _ h2)
                · rw [← g6 b hbU]; exact j2
            · intro x hx
              have := i7 x hx
              have hx' : x ∈ (u0 :: K) ++ Q' := this
              rcases List.mem_append.1 hx' with h1 | h1
              · exact List.mem_append_left _ h1
              · exact List.mem_append_right _ (List.mem_cons_of_mem _ h1)
      · rw [if_neg hm] at h
        have hne : ¬ a = s.usedp := by rw [hus]; exact hau
        simp only [if_neg hne] at h
        have hME := MarkEq.clear (u0 :: K ++ a :: Q') s.mem a haU
          (by have := hR.next_lt a haU; omega)
        have hR2 : Rep E { s with mem := setNext s.mem a (clearMark (getNext s.mem a)) } F
            (u0 :: (K ++ [a]) ++ Q') := by
          have : u0 :: (K ++ [a]) ++ Q' = u0 :: K ++ a :: Q' := by simp
          rw [this]
          exact hR.of_markEq hME rfl rfl rfl
        have hL : Links s.mem ((u0 :: K) ++ a :: Q') u0 := hU.links
        rw [Links.append] at hL
        have hq : UNTAG (getNext (setNext s.mem a (clearMark (getNext s.mem a))) a) =
            Q'.headD u0 := by
          have hl := hL.2.1
          have hev : Q'.headD u0 % 16 = 0 := by
            cases Q' with
            | nil => exact (hU.blk u0 (List.mem_cons_self _ _)).1
            | cons c t =>
              exact (hU.blk c (List.mem_append_right _ (List.mem_cons_of_mem _
                (List.mem_cons_self _ _)))).1
          have hlt := hR.next_lt a haU
          rw [getNext_setNext_same]
          unfold lnk at hl
          unfold UNTAG clearMark
          rcases hl with h1 | h1 <;> rw [h1] <;> omega
        rw [hq] at h
        have hK2 : ∀ x ∈ K ++ [a],
            markBit (getNext (setNext s.mem a (clearMark (getNext s.mem a))) x) = 0 := by
          intro x hx
          by_cases hxa : x = a
          · rw [hxa, getNext_setNext_same]
            unfold markBit clearMark; omega
          · rw [getNext_setNext_ne _ _ _ _ hxa]
            rcases List.mem_append.1 hx with h1 | h1
            · exact hK x h1
            · rw [List.mem_singleton] at h1; exact absurd h1 hxa
        have hcall : sweep k { s with mem := setNext s.mem a (clearMark (getNext s.mem a)) }
            ((K ++ [a]).getLastD u0) (Q'.headD u0) = some (s', l) := by
          rw [getLastD_append_singleton]; exact h
        obtain ⟨F', U', i1, i2, i3, i4, i5, i6, i7⟩ := ih _ F (K ++ [a]) Q' u0 s' l hR2 hK2 hcall
        refine ⟨F', U', i1, i2, i3, i4, i5, ?_, ?_⟩
        · intro b hb
          obtain ⟨j1, j2⟩ := i6 b hb
          have hba : b ≠ a := by
            intro e
            have hnd : ((u0 :: K) ++ a :: Q').Nodup := hU.nodup
            rw [List.nodup_append] at hnd
            rcases List.mem_cons.1 j1 with h2 | h2
            · exact hau (by rw [← e, h2])
            · exact (List.nodup_cons.1 hnd.2.1).1 (e ▸ h2)
          refine ⟨?_, ?_⟩
          · rcases List.mem_cons.1 j1 with h2 | h2
            · rw [h2]; exact List.mem_cons_self _ _
            · exact List.mem_cons_of_mem _ (List.mem_cons_of_mem _ h2)
          · have : getNext (setNext s.mem a (clearMark (getNext s.mem a))) b = getNext s.mem b :=
              getNext_setNext_ne _ _ _ _ hba
            rw [← this]; exact j2
        · intro x hx
          have := i7 x hx
          simpa using this

/-! ## `GC_collect`, `GC_init` and program stores keep the invariant -/

theorem GC_collect_spec (E : Env) (k : Nat) (s s' : State) (statics stack l : List Nat)
    (F U : List Nat) (hR : Rep E s F U) (h : GC_collect k s statics stack = some (s', l)) :
    ∃ F' U', Rep E s' F' U' ∧ Clear s' U' ∧ s'.brk = s.brk ∧ s'.initted = s.initted ∧
      s'.stack_bottom = s.stack_bottom ∧ (∀ x ∈ U', x ∈ U) := by
  unfold GC_collect at h
  by_cases hu : s.usedp = 0
  · rw [if_pos hu] at h
    have h0 := Option.some.inj h
    have e1 := congrArg Prod.fst h0
    simp only at e1
    subst e1
    have hUe : U = [] := by
      cases hUc : U with
      | nil => rfl
      | cons a t =>
        have := hR.used.head
        rw [hUc] at this
        have hb := hR.used.blk a (by rw [hUc]; simp)
        simp only [List.headD_cons] at this
        omega
    subst hUe
    exact ⟨F, [], hR, fun x hx => by simp at hx, rfl, rfl, rfl, fun x hx => hx⟩
  · rw [if_neg hu] at h
    cases h1 : scan_region k s statics with
    | none => rw [h1] at h; cases h
    | some s1 =>
      rw [h1] at h
      simp only [] at h
      obtain ⟨r1, _, u1, _, b1, i1, t1⟩ := scan_region_Rep E s s1 F U k statics hR hu h1
      cases h2 : scan_region k s1 stack with
      | none => rw [h2] at h; cases h
      | some s2 =>
        rw [h2] at h
        simp only [] at h
        obtain ⟨r2, _, u2, _, b2, i2, t2⟩ :=
          scan_region_Rep E s1 s2 F U k stack r1 (by rw [u1]; exact hu) h2
        cases h3 : scan_heap k s2 with
        | none => rw [h3] at h; cases h
        | some s3 =>
          rw [h3] at h
          simp only [] at h
          obtain ⟨r3, _, u3, _, b3, i3, t3⟩ :=
            scan_heap_Rep E s2 s3 F U k r2 (by rw [u2, u1]; exact hu) h3
          cases hUc : U with
          | nil =>
            have := hR.used.head
            rw [hUc] at this
            exact absurd this hu
          | cons u0 R =>
            rw [hUc] at r3
            have hus : s3.usedp = u0 := r3.used.head
            have hl : lnk s3.mem u0 (R.headD u0) := r3.used.links.1
            have hev : R.headD u0 % 16 = 0 := by
              cases R with
              | nil => exact (r3.used.blk u0 (List.mem_cons_self _ _)).1
              | cons c t => exact (r3.used.blk c (by simp)).1
            rw [hus, lnk_untag hl hev] at h
            have hcall : sweep k s3 (([] : List Nat).getLastD u0) (R.headD u0) = some (s', l) := h
            obtain ⟨F', U', j1, j2, j3, j4, j5, _, j7⟩ :=
              sweep_spec E k s3 F [] R u0 s' l r3 (fun x hx => by simp at hx) hcall
            exact ⟨F', U', j1, j2, by rw [j3, b3, b2, b1], by rw [j4, i3, i2, i1],
              by rw [j5, t3, t2, t1], j7⟩

theorem GC_collect_Inv (E : Env) (k : Nat) (s s' : State) (statics stack l : List Nat)
    (hI : Inv E s) (h : GC_collect k s statics stack = some (s', l)) : Inv E s' := by
  obtain ⟨F, U, hR, _⟩ := hI
  obtain ⟨F', U', h1, h2, _⟩ := GC_collect_spec E k s s' statics stack l F U hR h
  exact ⟨F', U', h1, h2⟩

theorem GC_init_boot_Inv (E : Env) (m : Mem) (b sb : Nat) (h0 : 0 < E.base)
    (h1 : E.base + 16 ≤ b) (h2 : b % 16 = 0) (h3 : b ≤ 9223372036854775808) :
    Inv E (GC_init E (boot m b) sb) ∧ (GC_init E (boot m b) sb).initted = true := by
  have hn : getNext (setSize (setNext m E.base E.base) E.base 0) E.base = E.base := by
    rw [getNext_setSize _ _ _ _ (by omega), getNext_setNext_same]; omega
  have hs : getSize (setSize (setNext m E.base E.base) E.base 0) E.base = 0 := by
    rw [getSize_setSize_same]
  refine ⟨⟨[], [], ⟨⟨h3, List.nodup_nil, ?_, ?_, hs, Or.inl rfl, ?_, ?_⟩,
    ⟨List.nodup_nil, ?_, ?_, rfl, trivial⟩, ?_, ?_, ?_, h2, h0, h1⟩, ?_⟩, rfl⟩
  · intro x hx; simp at hx
  · intro x hx; simp at hx
  · intro x hx
    rcases hx with h | h
    · left; rw [h]; exact hn
    · simp at h
  · intro x hx
    rcases hx with h | h
    · right; rw [h]; exact ⟨hn, fun z hz => by simp at hz⟩
    · simp at h
  · intro x hx; simp at hx
  · intro x hx; simp at hx
  · intro x hx; simp at hx
  · intro x hx; simp at hx
  · intro x hx; simp at hx
  · intro x hx; simp at hx

theorem regIter_mem {E : Env} {s : State} {U : List Nat} (hU : URep E s U) :
    ∀ (k x : Nat), x ∈ U → regIter s.mem k x ∈ U := by
  intro k
  induction k with
  | zero => intro x hx; exact hx
  | succ k ih => intro x hx; exact ih _ (hU.untag_next_mem x hx)

theorem InRegistry.mem_reg {E : Env} {s : State} {U : List Nat} (hU : URep E s U) {x : Nat}
    (h : InRegistry s x) : x ∈ U := by
  obtain ⟨h1, k, h2⟩ := h
  rw [← h2]
  exact regIter_mem hU k _ (hU.usedp_mem h1)

theorem freeIter_mem {E : Env} {s : State} {F : List Nat} (hF : FRep E s F) :
    ∀ (k x : Nat), (x = E.base ∨ x ∈ F) →
      (freeIter s.mem k x = E.base ∨ freeIter s.mem k x ∈ F) := by
  intro k
  induction k with
  | zero => intro x hx; exact hx
  | succ k ih => intro x hx; exact ih _ (hF.next_mem x hx)

theorem InFree.mem_free {E : Env} {s : State} {F : List Nat} (hF : FRep E s F) {x : Nat}
    (h : InFree s x) : x = E.base ∨ x ∈ F := by
  obtain ⟨k, h2⟩ := h
  rw [← h2]
  exact freeIter_mem hF k _ hF.freep_mem

/-- A store into the payload of a registered block touches no header. -/
theorem store_Inv (E : Env) (s : State) (a v : Nat) (hI : Inv E s) (ha : InPayload s a) :
    Inv E { s with mem := write s.mem a v } := by
  obtain ⟨F, U, hR, hC⟩ := hI
  obtain ⟨x, hx, h1, h2⟩ := ha
  have hxU := hx.mem_reg hR.used
  have hxb := hR.used.blk x hxU
  have hU : ∀ y ∈ U, a ≠ y ∧ a ≠ y + 8 := by
    intro y hy
    have hyb := hR.used.blk y hy
    by_cases hlt : y < x
    · have := hR.used.disj y hy x hxU hlt; omega
    · by_cases he : y = x
      · omega
      · have := hR.used.disj x hxU y hy (by omega); omega
  have hF : ∀ y, (y = E.base ∨ y ∈ F) → a ≠ y ∧ a ≠ y + 8 := by
    intro y hy
    rcases hy with h | h
    · omega
    · have hyb := hR.free.blk y h
      by_cases hlt : y < x
      · omega
      · have hne : y ≠ x := fun e => hR.ne y h (e ▸ hxU)
        have := hR.uf y h x hxU (by omega); omega
  have hw : ∀ b, b ≠ a → write s.mem a v b = s.mem b := by
    intro b hb; unfold write; rw [if_neg hb]
  have hsz : ∀ y, a ≠ y → getSize (write s.mem a v) y = getSize s.mem y := by
    intro y hy; unfold getSize; rw [hw y (Ne.symm hy)]
  have hnx : ∀ y, a ≠ y + 8 → getNext (write s.mem a v) y = getNext s.mem y := by
    intro y hy; unfold getNext; rw [hw (y + 8) (Ne.symm hy)]
  refine ⟨F, U, ⟨?_, ?_, hR.ne, ?_, ?_, hR.brk_al, hR.base_pos, hR.base_lt⟩, ?_⟩
  · exact hR.free.congr_free (le_refl _) hR.free.brk_le rfl (fun y hy => hsz y (hF y hy).1)
      (fun y hy => hnx y (hF y hy).2)
  · exact hR.used.congr_used (le_refl _) rfl (fun y hy => hsz y (hU y hy).1)
      (fun y hy => hnx y (hU y hy).2)
  · intro y hy z hz hyz
    show y + 16 * getSize (write s.mem a v) y ≤ z
    rw [hsz y (hF y (Or.inr hy)).1]
    exact hR.fu y hy z hz hyz
  · intro y hy z hz hyz
    show z + 16 * getSize (write s.mem a v) z ≤ y
    rw [hsz z (hU z hz).1]
    exact hR.uf y hy z hz hyz
  · intro y hy
    show markBit (getNext (write s.mem a v) y) = 0
    rw [hnx y (hU y hy).2]
    exact hC y hy

/-- Every reachable state satisfies the allocator invariant. -/
theorem Reach.inv {E : Env} (hW : WellBehaved E) {s : State} (h : Reach E s) :
    Inv E s ∧ s.initted = true := by
  induction h with
  | init m b sb h0 h1 h2 h3 => exact GC_init_boot_Inv E m b sb h0 h1 h2 h3
  | reinit s sb _ ih =>
    have : GC_init E s sb = s := by unfold GC_init; rw [if_pos ih.2]
    rw [this]; exact ih
  | malloc s s' k n r _ hm ih =>
    refine ⟨GC_malloc_Inv E hW k s s' n r ih.1 hm, ?_⟩
    obtain ⟨F, U, hR, hC⟩ := ih.1
    unfold GC_malloc at hm
    have hfp : s.freep ≠ 0 := by
      rcases hR.free.freep_mem with h1 | h1
      · have := hR.base_pos; omega
      · have := hR.free.blk _ h1; omega
    simp only [if_neg hfp] at hm
    obtain ⟨_, _, _, _, h3, _⟩ := mallocLoop_Rep E hW (num_units n) (num_units_bounds n).1 k s F U
      s.freep _ s' r hR hC hR.free.freep_mem rfl hm
    rw [h3]; exact ih.2
  | collect s s' k statics stack l _ hc ih =>
    obtain ⟨F, U, hR, _⟩ := ih.1
    obtain ⟨F', U', h1, h2, _, h4, _⟩ := GC_collect_spec E k s s' statics stack l F U hR hc
    exact ⟨⟨F', U', h1, h2⟩, by rw [h4]; exact ih.2⟩
  | store s a v _ ha ih => exact ⟨store_Inv E s a v ih.1 ha, ih.2⟩

/-! ## The concrete run is a reachable run -/

theorem demoEnv_wellBehaved : WellBehaved demoEnv := by
  intro b inc h
  simp only [demoEnv, decide_eq_true_eq] at h
  omega

theorem demoInit_reach : Reach demoEnv demoInit :=
  Reach.init _ 8192 0 (by decide) (by decide) (by decide) (by decide)

theorem demoAlloc_step1 : GC_malloc 8 demoEnv demoInit 64 = some (demoAlloc 1, 12224) := rfl

theorem demoAlloc_step2 : GC_malloc 8 demoEnv (demoAlloc 1) 64 = some (demoAlloc 2, 12144) := rfl

theorem demoAlloc2_reach : Reach demoEnv (demoAlloc 2) :=
  Reach.malloc _ _ 8 64 12144 (Reach.malloc _ _ 8 64 12224 demoInit_reach demoAlloc_step1)
    demoAlloc_step2

/-! ## C2: live blocks never overlap -/

/-- C2 (live isolation): in every reachable state, two distinct blocks of the live
registry have disjoint address ranges `[header, header + 16 * size)`. -/
theorem live_isolation (E : Env) (hW : WellBehaved E) (s : State) (h : Reach E s) (A B : Nat)
    (hA : InRegistry s A) (hB : InRegistry s B) (hAB : A ≠ B) :
    A + 16 * getSize s.mem A ≤ B ∨ B + 16 * getSize s.mem B ≤ A := by
  obtain ⟨F, U, hR, _⟩ := (h.inv hW).1
  have hAU := hA.mem_reg hR.used
  have hBU := hB.mem_reg hR.used
  by_cases hlt : A < B
  · exact Or.inl (hR.used.disj A hAU B hBU hlt)
  · exact Or.inr (hR.used.disj B hBU A hAU (by omega))

theorem live_isolation_witness :
    WellBehaved demoEnv ∧ Reach demoEnv (demoAlloc 2) ∧ InRegistry (demoAlloc 2) 12208 ∧
      InRegistry (demoAlloc 2) 12128 ∧
      (12208 + 16 * getSize (demoAlloc 2).mem 12208 ≤ 12128 ∨
        12128 + 16 * getSize (demoAlloc 2).mem 12128 ≤ 12208) :=
  ⟨demoEnv_wellBehaved, demoAlloc2_reach, ⟨by decide, 0, by decide⟩, ⟨by decide, 1, by decide⟩,
    live_isolation demoEnv demoEnv_wellBehaved (demoAlloc 2) demoAlloc2_reach 12208 12128
      ⟨by decide, 0, by decide⟩ ⟨by decide, 1, by decide⟩ (by decide)⟩

/-! ## C8: free blocks never touch -/

/-- C8 (free-list coalescing invariant): in every reachable state, no two distinct
nodes `p`, `q` of the free list satisfy `p + 16 * p.size = q`. -/
theorem free_list_no_adjacent (E : Env) (hW : WellBehaved E) (s : State) (h : Reach E s)
    (p q : Nat) (hp : InFree s p) (hq : InFree s q) (hpq : p ≠ q) :
    p + 16 * getSize s.mem p ≠ q := by
  obtain ⟨F, U, hR, _⟩ := (h.inv hW).1
  have hF := hR.free
  rcases hp.mem_free hF with h1 | h1 <;> rcases hq.mem_free hF with h2 | h2
  · omega
  · have := hF.base_size; rw [← h1] at this; omega
  · have := hF.blk p h1; omega
  · by_cases hlt : p < q
    · have := hF.disj p h1 q h2 hlt; omega
    · omega

theorem free_list_no_adjacent_witness :
    WellBehaved demoEnv ∧ Reach demoEnv (demoAlloc 2) ∧ InFree (demoAlloc 2) 1024 ∧
      InFree (demoAlloc 2) 8192 ∧ 1024 + 16 * getSize (demoAlloc 2).mem 1024 ≠ 8192 :=
  ⟨demoEnv_wellBehaved, demoAlloc2_reach, ⟨0, by decide⟩, ⟨1, by decide⟩,
    free_list_no_adjacent demoEnv demoEnv_wellBehaved (demoAlloc 2) demoAlloc2_reach 1024 8192
      ⟨0, by decide⟩ ⟨1, by decide⟩ (by decide)⟩

/-! ## C3: the size of an allocated block -/

/-- A block put into the registry by `register` is reached from the anchor in at
most one step. -/
theorem regInsert_inRegistry (E : Env) (s : State) (F U : List Nat) (q : Nat)
    (hR : Rep E s F (regInsert U q)) : InRegistry s q := by
  have hU := hR.used
  cases U with
  | nil =>
    have hh : s.usedp = q := hU.head
    have hb := hU.blk q (by simp [regInsert])
    exact ⟨by omega, 0, hh⟩
  | cons u R =>
    have hh : s.usedp = u := hU.head
    have hb := hU.blk u (by simp [regInsert])
    have hq := hU.blk q (by simp [regInsert])
    have hl : lnk s.mem u q := hU.links.1
    refine ⟨by omega, 1, ?_⟩
    show UNTAG (getNext s.mem s.usedp) = q
    rw [hh]
    exact lnk_untag hl hq.1

/-- What a returning `GC_malloc` does in a state that satisfies the invariant:
either it returns null, or it returns the payload address of a registered block
of exactly `num_units n` units. -/
theorem GC_malloc_result (E : Env) (hW : WellBehaved E) (k : Nat) (s s' : State) (n r : Nat)
    (hI : Inv E s) (h : GC_malloc k E s n = some (s', r)) :
    r = 0 ∨ (16 ≤ r ∧ InRegistry s' (r - 16) ∧ getSize s'.mem (r - 16) = num_units n) := by
  obtain ⟨F, U, hR, hC⟩ := hI
  unfold GC_malloc at h
  have hfp : s.freep ≠ 0 := by
    rcases hR.free.freep_mem with h1 | h1
    · have := hR.base_pos; omega
    · have := hR.free.blk _ h1; omega
  simp only [if_neg hfp] at h
  obtain ⟨F', U', h1, _, _, _, _, h6⟩ := mallocLoop_Rep E hW (num_units n) (num_units_bounds n).1
    k s F U s.freep _ s' r hR hC hR.free.freep_mem rfl h
  rcases h6 with ⟨h7, _⟩ | ⟨q, h7, h8, _, h10⟩
  · exact Or.inl h7
  · right
    rw [h8] at h1
    have : r - 16 = q := by omega
    rw [this]
    exact ⟨by omega, regInsert_inRegistry E s' F' U q h1, h10⟩

/-- C3 (amended): for a byte count `n` with `n + 15 < 2^64`, whenever `GC_malloc n`
returns an address in a reachable state, the block handed out is registered, has
`ceil(n / 16) + 1` units, and its payload holds at least `n` bytes. -/
theorem allocation_size (E : Env) (hW : WellBehaved E) (s : State) (h : Reach E s)
    (k n : Nat) (s' : State) (r : Nat) (hn : n + 15 < 18446744073709551616)
    (hm : GC_malloc k E s n = some (s', r)) (hr : r ≠ 0) :
    16 ≤ r ∧ InRegistry s' (r - 16) ∧ getSize s'.mem (r - 16) = (n + 15) / 16 + 1 ∧
      n ≤ 16 * (getSize s'.mem (r - 16) - 1) := by
  rcases GC_malloc_result E hW k s s' n r (h.inv hW).1 hm with h0 | ⟨h1, h2, h3⟩
  · exact absurd h0 hr
  · have hnu : num_units n = (n + 15) / 16 + 1 := by unfold num_units; omega
    rw [hnu] at h3
    refine ⟨h1, h2, h3, ?_⟩
    rw [h3]; omega

theorem allocation_size_witness :
    16 ≤ 12224 ∧ InRegistry (demoAlloc 1) (12224 - 16) ∧
      getSize (demoAlloc 1).mem (12224 - 16) = (64 + 15) / 16 + 1 ∧
      64 ≤ 16 * (getSize (demoAlloc 1).mem (12224 - 16) - 1) :=
  allocation_size demoEnv demoEnv_wellBehaved demoInit demoInit_reach 8 64 (demoAlloc 1) 12224
    (by decide) demoAlloc_step1 (by decide)

/-- C3 (counterexample): `GC_malloc(2^64 - 1)` in the initial state returns the
address `12288` of a registered block of one unit, with no byte of payload,
whereas `ceil(n / 16) + 1` is `2^60 + 1`: the sum `n + 15` wraps to `14`. -/
theorem allocation_size_wraps :
    WellBehaved demoEnv ∧ Reach demoEnv demoInit ∧
      (GC_malloc 8 demoEnv demoInit 18446744073709551615).map
        (fun x => (x.2, getSize x.1.mem (x.2 - 16), x.1.usedp)) = some (12288, 1, 12272) ∧
      (18446744073709551615 + 15) / 16 + 1 ≠ 1 :=
  ⟨demoEnv_wellBehaved, demoInit_reach, by decide, by decide⟩

/-! ## C1: blocks referenced from the roots survive a collection -/

theorem Rep.hits_iff {E : Env} {s : State} {F U : List Nat} (hR : Rep E s F U) (b v : Nat)
    (hb : b ∈ U) : hits s.mem b v ↔ b + 16 ≤ v ∧ v < b + 16 + 16 * getSize s.mem b := by
  have hbb := hR.used.blk b hb
  have := hR.free.brk_le
  unfold hits padd
  constructor <;> intro h <;> omega

/-- The containment test of the scanners holds for at most one registered block. -/
theorem Rep.hits_unique {E : Env} {s : State} {F U : List Nat} (hR : Rep E s F U) (x y v : Nat)
    (hx : x ∈ U) (hy : y ∈ U) (h1 : hits s.mem x v) (h2 : hits s.mem y v) : x = y := by
  rw [hR.hits_iff x v hx] at h1
  rw [hR.hits_iff y v hy] at h2
  by_cases hlt : x < y
  · have := hR.used.disj x hx y hy hlt; omega
  · by_cases hgt : y < x
    · have := hR.used.disj y hy x hx hgt; omega
    · omega

theorem markWalk_hit (E : Env) (s : State) (F U : List Nat) (hR : Rep E s F U) (v b : Nat)
    (hb : b ∈ U) (hh : hits s.mem b v) :
    ∀ (l done : List Nat) (k : Nat) (m' : Mem), U = done ++ l → b ∈ l →
      markWalk k s.mem s.usedp v (l.headD 0) = some m' → markBit (getNext m' b) = 1 := by
  intro l
  induction l with
  | nil => intro done k m' _ hbl _; simp at hbl
  | cons bp rest ih =>
    intro done k m' hUl hbl h
    have hU := hR.used
    have hbpU : bp ∈ U := by rw [hUl]; simp
    cases k with
    | zero => simp [markWalk] at h
    | succ k =>
      simp only [List.headD_cons] at h
      unfold markWalk at h
      by_cases hhit : hits s.mem bp v
      · rw [if_pos hhit] at h
        have hm := Option.some.inj h
        have hbe : bp = b := hR.hits_unique bp b v hbpU hb hhit hh
        rw [← hm, ← hbe, getNext_setNext_same]
        have := hR.next_lt bp hbpU
        unfold markBit setMark
        omega
      · rw [if_neg hhit] at h
        have hne : b ≠ bp := fun e => hhit (e ▸ hh)
        have hbr : b ∈ rest := by
          rcases List.mem_cons.1 hbl with h1 | h1
          · exact absurd h1 hne
          · exact h1
        cases rest with
        | nil => simp at hbr
        | cons c rest' =>
          have hcU : c ∈ U := by rw [hUl]; simp
          have hL : Links s.mem U (U.headD 0) := hU.links
          have hL' : Links s.mem (done ++ bp :: c :: rest') (U.headD 0) := by rw [← hUl]; exact hL
          rw [Links.append] at hL'
          have hl : lnk s.mem bp c := hL'.2.1
          have hnx : UNTAG (getNext s.mem bp) = c := lnk_untag hl (hU.blk c hcU).1
          have hcu : c ≠ s.usedp := by
            intro e
            have hnd : (done ++ bp :: c :: rest').Nodup := by rw [← hUl]; exact hU.nodup
            have hhead : s.usedp = (done ++ bp :: c :: rest').headD 0 := by
              rw [← hUl]; exact hU.head
            rw [List.nodup_append] at hnd
            cases done with
            | nil =>
              simp only [List.nil_append, List.headD_cons] at hhead
              have := (List.nodup_cons.1 hnd.2.1).1
              apply this
              rw [← hhead, ← e]
              exact List.mem_cons_self _ _
            | cons d done' =>
              simp only [List.cons_append, List.headD_cons] at hhead
              exact hnd.2.2 (by rw [← hhead, ← e]; exact List.mem_cons_self _ _)
                (List.mem_cons_of_mem _ (List.mem_cons_self _ _))
          rw [hnx, if_pos hcu] at h
          exact ih (done ++ [bp]) k m' (by rw [hUl]; simp) hbr h

theorem SameLinks.size_eq {E : Env} {s : State} {F U : List Nat} (hR : Rep E s F U) {m' : Mem}
    (hS : SameLinks U s.mem m') (b : Nat) (hb : b ∈ U) : getSize m' b = getSize s.mem b := by
  unfold getSize
  rw [hS.1 b (fun y hy => by have := hR.used.blk b hb; have := hR.used.blk y hy; omega)]

theorem scanWords_hit (E : Env) (F U : List Nat) (k v b : Nat) (hb : b ∈ U) :
    ∀ (ws : List Nat) (s : State) (m' : Mem), Rep E s F U → s.usedp ≠ 0 → v ∈ ws →
      hits s.mem b v → scanWords k s.mem s.usedp ws = some m' → markBit (getNext m' b) = 1 := by
  intro ws
  induction ws with
  | nil => intro s m' _ _ hv _ _; simp at hv
  | cons w ws ih =>
    intro s m' hR hu hv hh h
    simp only [scanWords] at h
    have hum := hR.used.usedp_mem hu
    cases hmw : markWalk k s.mem s.usedp w s.usedp with
    | none => rw [hmw] at h; cases h
    | some m1 =>
      rw [hmw] at h
      have g1 := markWalk_same E s F U hR w k s.usedp m1 hum hmw
      have hR1 := hR.with_marks m1 g1
      have g2 := scanWords_same E F U k ws { s with mem := m1 } m' hR1 hum h
      rcases List.mem_cons.1 hv with h1 | h1
      · have hmark : markBit (getNext m1 b) = 1 := by
          have hhd : s.usedp = U.headD 0 := hR.used.head
          have hcall : markWalk k s.mem s.usedp v (U.headD 0) = some m1 := by
            rw [← hhd, h1]; exact hmw
          exact markWalk_hit E s F U hR v b hb hh U [] k m1 rfl hb hcall
        exact g2.mark_mono b hb hmark
      · refine ih { s with mem := m1 } m' hR1 hu h1 ?_ h
        have e := g1.size_eq hR b hb
        unfold hits at hh ⊢
        show padd b 1 ≤ v ∧ v < padd b (1 + getSize m1 b)
        rw [e]; exact hh

theorem scan_region_hit (E : Env) (s s' : State) (F U : List Nat) (k v b : Nat) (ws : List Nat)
    (hR : Rep E s F U) (hu : s.usedp ≠ 0) (hb : b ∈ U) (hv : v ∈ ws) (hh : hits s.mem b v)
    (h : scan_region k s ws = some s') : markBit (getNext s'.mem b) = 1 := by
  unfold scan_region at h
  cases hm : scanWords k s.mem s.usedp ws with
  | none => rw [hm] at h; cases h
  | some m1 =>
    rw [hm] at h
    cases h
    exact scanWords_hit E F U k v b hb ws s m1 hR hu hv hh hm

/-- The phases of a collection of a non-empty registry. -/
theorem GC_collect_stages (k : Nat) (s s' : State) (statics stack l : List Nat)
    (hu : s.usedp ≠ 0) (h : GC_collect k s statics stack = some (s', l)) :
    ∃ s1 s2 s3, scan_region k s statics = some s1 ∧ scan_region k s1 stack = some s2 ∧
      scan_heap k s2 = some s3 ∧
      sweep k s3 s3.usedp (UNTAG (getNext s3.mem s3.usedp)) = some (s', l) := by
  unfold GC_collect at h
  rw [if_neg hu] at h
  cases h1 : scan_region k s statics with
  | none => rw [h1] at h; cases h
  | some s1 =>
    rw [h1] at h
    simp only [] at h
    cases h2 : scan_region k s1 stack with
    | none => rw [h2] at h; cases h
    | some s2 =>
      rw [h2] at h
      simp only [] at h
      cases h3 : scan_heap k s2 with
      | none => rw [h3] at h; cases h
      | some s3 =>
        rw [h3] at h
        exact ⟨s1, s2, s3, rfl, h2, h3, h⟩

/-- The blocks a collection reclaims are registered blocks that are unmarked when
the sweep starts. -/
theorem GC_collect_reclaims (E : Env) (k : Nat) (s s' : State) (statics stack l : List Nat)
    (F U : List Nat) (hR : Rep E s F U) (hu : s.usedp ≠ 0)
    (h : GC_collect k s statics stack = some (s', l)) :
    ∃ s1 s2 s3, scan_region k s statics = some s1 ∧ scan_region k s1 stack = some s2 ∧
      scan_heap k s2 = some s3 ∧ Rep E s1 F U ∧ Rep E s2 F U ∧ Rep E s3 F U ∧
      SameLinks U s.mem s1.mem ∧ SameLinks U s1.mem s2.mem ∧ SameLinks U s2.mem s3.mem ∧
      s1.usedp = s.usedp ∧ s2.usedp = s.usedp ∧
      ∀ b ∈ l, b ∈ U ∧ markBit (getNext s3.mem b) = 0 := by
  obtain ⟨s1, s2, s3, h1, h2, h3, h4⟩ := GC_collect_stages k s s' statics stack l hu h
  obtain ⟨r1, l1, u1, _⟩ := scan_region_Rep E s s1 F U k statics hR hu h1
  obtain ⟨r2, l2, u2, _⟩ := scan_region_Rep E s1 s2 F U k stack r1 (by rw [u1]; exact hu) h2
  obtain ⟨r3, l3, u3, _⟩ := scan_heap_Rep E s2 s3 F U k r2 (by rw [u2, u1]; exact hu) h3
  refine ⟨s1, s2, s3, h1, h2, h3, r1, r2, r3, l1, l2, l3, u1, by rw [u2, u1], ?_⟩
  cases hUc : U with
  | nil =>
    have := hR.used.head
    rw [hUc] at this
    exact absurd this hu
  | cons u0 R =>
    rw [hUc] at r3
    have hus : s3.usedp = u0 := r3.used.head
    have hl : lnk s3.mem u0 (R.headD u0) := r3.used.links.1
    have hev : R.headD u0 % 16 = 0 := by
      cases R with
      | nil => exact (r3.used.blk u0 (List.mem_cons_self _ _)).1
      | cons c t => exact (r3.used.blk c (by simp)).1
    rw [hus, lnk_untag hl hev] at h4
    have hcall : sweep k s3 (([] : List Nat).getLastD u0) (R.headD u0) = some (s', l) := h4
    obtain ⟨_, _, _, _, _, _, _, j6, _⟩ :=
      sweep_spec E k s3 F [] R u0 s' l r3 (fun x hx => by simp at hx) hcall
    intro b hb
    exact j6 b hb

/-! ## Outcomes of `GC_malloc` when no size field wraps -/

theorem exists_max_of_ne_nil : ∀ (l : List Nat), l ≠ [] → ∃ M ∈ l, ∀ x ∈ l, x ≤ M
  | [], h => absurd rfl h
  | [a], _ => ⟨a, by simp, by simp⟩
  | a :: b :: t, _ => by
    obtain ⟨M, hM, hmax⟩ := exists_max_of_ne_nil (b :: t) (by simp)
    by_cases h : a ≤ M
    · refine ⟨M, List.mem_cons_of_mem _ hM, ?_⟩
      intro x hx
      rcases List.mem_cons.1 hx with h1 | h1
      · omega
      · exact hmax x h1
    · refine ⟨a, List.mem_cons_self _ _, ?_⟩
      intro x hx
      rcases List.mem_cons.1 hx with h1 | h1
      · omega
      · have := hmax x h1; omega

/-- Pairwise disjoint blocks inside `[lo, hi)` have a total size of at most
`hi - lo` bytes. -/
theorem packing (m : Mem) : ∀ (n : Nat) (l : List Nat) (lo hi : Nat), l.length = n → l.Nodup →
    lo ≤ hi → (∀ x ∈ l, lo ≤ x ∧ x + 16 * getSize m x ≤ hi) →
    (∀ x ∈ l, ∀ y ∈ l, x < y → x + 16 * getSize m x ≤ y) → lo + 16 * sizeSum m l ≤ hi := by
  intro n
  induction n with
  | zero =>
    intro l lo hi hlen _ hle _ _
    have : l = [] := List.length_eq_zero.1 hlen
    subst this
    simp [sizeSum]; exact hle
  | succ n ih =>
    intro l lo hi hlen hnd _ hin hdis
    have hne : l ≠ [] := by intro e; rw [e] at hlen; simp at hlen
    obtain ⟨M, hM, hmax⟩ := exists_max_of_ne_nil l hne
    have hmem : ∀ z, z ∈ l.erase M ↔ z ≠ M ∧ z ∈ l := fun z => hnd.mem_erase_iff
    have h1 := ih (l.erase M) lo M (by rw [List.length_erase_of_mem hM, hlen]; rfl)
      (hnd.erase M) (hin M hM).1
      (fun x hx => by
        have hx' := (hmem x).1 hx
        have := hmax x hx'.2
        exact ⟨(hin x hx'.2).1, hdis x hx'.2 M hM (by omega)⟩)
      (fun x hx y hy hxy => hdis x ((hmem x).1 hx).2 y ((hmem y).1 hy).2 hxy)
    have h2 := sizeSum_erase m M l hM
    have h3 := (hin M hM).2
    omega

/-- The free blocks fit between the sentinel and the break. -/
theorem FRep.sizeSum_le {E : Env} {s : State} {F : List Nat} (hF : FRep E s F)
    (hb : E.base + 16 ≤ s.brk) : E.base + 16 + 16 * sizeSum s.mem F ≤ s.brk := by
  refine packing s.mem F.length F (E.base + 16) s.brk rfl hF.nodup hb ?_ ?_
  · intro x hx
    have := hF.blk x hx
    exact ⟨this.2.1, this.2.2.2⟩
  · intro x hx y hy hxy
    have := hF.disj x hx y hy hxy
    omega

/-- How the search loop of `GC_malloc` ends: it takes a block from a node it
reached, or the first extension request is refused, or it is granted and the
loop goes on in the extended heap. -/
theorem mallocLoop_cases (E : Env) (num : Nat) :
    ∀ (k : Nat) (s : State) (F : List Nat) (prevp p : Nat) (s' : State) (r : Nat),
      FRep E s F → (prevp = E.base ∨ prevp ∈ F) → p = getNext s.mem prevp →
      mallocLoop k E s num prevp p = some (s', r) →
      (∃ prevp' p', (prevp' = E.base ∨ prevp' ∈ F) ∧ p' = getNext s.mem prevp' ∧
          num ≤ getSize s.mem p' ∧ takeBlock s num prevp' p' = (s', r)) ∨
        (∃ k', morecore k' E s num = some none ∧ s' = s ∧ r = 0) ∨
        (∃ k' s1, morecore k' E s num = some (some s1) ∧
          mallocLoop k' E s1 num s1.freep (getNext s1.mem s1.freep) = some (s', r)) := by
  intro k
  induction k with
  | zero => intro s F prevp p s' r _ _ _ h; simp [mallocLoop] at h
  | succ k ih =>
    intro s F prevp p s' r hF hpp hp h
    unfold mallocLoop at h
    by_cases hsz : getSize s.mem p ≥ num
    · rw [if_pos hsz] at h
      exact Or.inl ⟨prevp, p, hpp, hp, hsz, Option.some.inj h⟩
    · rw [if_neg hsz] at h
      by_cases hpf : p = s.freep
      · rw [if_pos hpf] at h
        cases hmc : morecore k E s num with
        | none => rw [hmc] at h; cases h
        | some o =>
          cases o with
          | none =>
            rw [hmc] at h
            have h0 := Option.some.inj h
            exact Or.inr (Or.inl ⟨k, hmc, (congrArg Prod.fst h0).symm,
              (congrArg Prod.snd h0).symm⟩)
          | some s1 =>
            rw [hmc] at h
            exact Or.inr (Or.inr ⟨k, s1, hmc, h⟩)
      · rw [if_neg hpf] at h
        have hpn : p = E.base ∨ p ∈ F := by rw [hp]; exact hF.next_mem prevp hpp
        exact ih s F p _ s' r hF hpn rfl h

/-- When the cursor or the current node is large enough, the search loop ends by
taking a block, without any extension request. -/
theorem mallocLoop_found (E : Env) (num : Nat) :
    ∀ (k : Nat) (s : State) (F : List Nat) (prevp p : Nat) (s' : State) (r : Nat),
      FRep E s F → (prevp = E.base ∨ prevp ∈ F) → p = getNext s.mem prevp →
      (num ≤ getSize s.mem s.freep ∨ num ≤ getSize s.mem p) →
      mallocLoop k E s num prevp p = some (s', r) →
      ∃ prevp' p', (prevp' = E.base ∨ prevp' ∈ F) ∧ p' = getNext s.mem prevp' ∧
        num ≤ getSize s.mem p' ∧ takeBlock s num prevp' p' = (s', r) := by
  intro k
  induction k with
  | zero => intro s F prevp p s' r _ _ _ _ h; simp [mallocLoop] at h
  | succ k ih =>
    intro s F prevp p s' r hF hpp hp hg h
    unfold mallocLoop at h
    by_cases hsz : getSize s.mem p ≥ num
    · rw [if_pos hsz] at h
      exact ⟨prevp, p, hpp, hp, hsz, Option.some.inj h⟩
    · rw [if_neg hsz] at h
      have hgf : num ≤ getSize s.mem s.freep := by
        rcases hg with h1 | h1
        · exact h1
        · omega
      by_cases hpf : p = s.freep
      · rw [hpf] at hsz; omega
      · rw [if_neg hpf] at h
        have hpn : p = E.base ∨ p ∈ F := by rw [hp]; exact hF.next_mem prevp hpp
        exact ih s F p _ s' r hF hpn rfl (Or.inl hgf) h

/-- The outcomes of `GC_malloc` in a state that satisfies the invariant, when the
heap with the extension that may be requested spans less than `2^32` units above
the sentinel: (a) a block is found without extension, (b) the first extension
request is refused and nothing has changed, (c) one extension is granted and a
block is found. -/
theorem GC_malloc_outcome (E : Env) (hW : WellBehaved E) (k : Nat) (s s' : State) (n r : Nat)
    (F U : List Nat) (hR : Rep E s F U)
    (hspan : s.brk + 16 * (if num_units n < MIN_UNITS then MIN_UNITS else num_units n) <
      E.base + 68719476736)
    (h : GC_malloc k E s n = some (s', r)) :
    (∃ F' q, Rep E s' F' (regInsert U q) ∧ r = q + 16 ∧ s'.brk = s.brk ∧
        sizeSum s'.mem F' + num_units n = sizeSum s.mem F) ∨
      (s' = s ∧ r = 0 ∧
        E.grant s.brk (16 * (if num_units n < MIN_UNITS then MIN_UNITS else num_units n)) =
          false) ∨
      (∃ F' q, Rep E s' F' (regInsert U q) ∧ r = q + 16 ∧
        s'.brk = s.brk + 16 * (if num_units n < MIN_UNITS then MIN_UNITS else num_units n) ∧
        E.grant s.brk (16 * (if num_units n < MIN_UNITS then MIN_UNITS else num_units n)) =
          true ∧
        sizeSum s'.mem F' + num_units n = sizeSum s.mem F +
          (if num_units n < MIN_UNITS then MIN_UNITS else num_units n)) := by
  obtain ⟨nu, hnu⟩ : ∃ nu, nu = (if num_units n < MIN_UNITS then MIN_UNITS else num_units n) :=
    ⟨_, rfl⟩
  rw [← hnu] at hspan ⊢
  have hnum := (num_units_bounds n).1
  have hpk := hR.free.sizeSum_le hR.base_lt
  have hinc : (nu * 16) % 18446744073709551616 = 16 * nu := by
    have := hR.base_lt
    have := hR.free.brk_le
    omega
  unfold GC_malloc at h
  have hfp : s.freep ≠ 0 := by
    rcases hR.free.freep_mem with h1 | h1
    · have := hR.base_pos; omega
    · have := hR.free.blk _ h1; omega
  simp only [if_neg hfp] at h
  rcases mallocLoop_cases E (num_units n) k s F s.freep _ s' r hR.free hR.free.freep_mem rfl h
    with ⟨prevp, p, c1, c2, c3, c4⟩ | ⟨k', c1, c2, c3⟩ | ⟨k', s1, c1, c2⟩
  · left
    obtain ⟨F', q, t1, t2, _, _, _, t6, _, _, t9, _⟩ :=
      takeBlock_spec E s F U hR (num_units n) prevp p hnum c1 c2 c3
    rw [c4] at t1 t2 t6 t9
    exact ⟨F', q, t1, t2, t6, t9⟩
  · right; left
    have := morecore_refused k' E s (num_units n) c1
    rw [← hnu, hinc] at this
    exact ⟨c2, c3, this⟩
  · right; right
    obtain ⟨F1, m1, _, _, _, _, m6, m7, _, m9⟩ :=
      morecore_spec E s F U hR hW k' (num_units n) s1 c1
    rw [← hnu] at m6 m7 m9
    rw [hinc] at m6 m7
    obtain ⟨g1, g2⟩ := m9 (by omega)
    obtain ⟨prevp, p, d1, d2, d3, d4⟩ := mallocLoop_found E (num_units n) k' s1 F1 s1.freep _
      s' r m1.free m1.free.freep_mem rfl g2 c2
    obtain ⟨F', q, t1, t2, _, _, _, t6, _, _, t9, _⟩ :=
      takeBlock_spec E s1 F1 U m1 (num_units n) prevp p hnum d1 d2 d3
    rw [d4] at t1 t2 t6 t9
    exact ⟨F', q, t1, t2, by rw [t6, m7], m6, by rw [t9, g1]⟩

/-! ## An environment with a larger address space -/

theorem bigEnv_wellBehaved : WellBehaved bigEnv := by
  intro b inc h
  simp only [bigEnv, decide_eq_true_eq] at h
  omega

theorem bigInit_reach : Reach bigEnv bigInit :=
  Reach.init _ 8192 0 (by decide) (by decide) (by decide) (by decide)

/-! ## The free list as a sorted chain -/

/-- From a node `a`, the links run through the free blocks above `a` in
increasing address order and end at the sentinel. -/
theorem FRep.chain_above {E : Env} {s : State} {F : List Nat} (hF : FRep E s F) :
    ∀ (L : List Nat) (a : Nat), (a = E.base ∨ a ∈ F) → List.Sorted (fun x y => x < y) L →
      (∀ x ∈ L, x ∈ F ∧ a < x) → (∀ z ∈ F, a < z → z ∈ L) →
      ExactLinks s.mem (a :: L) E.base := by
  intro L
  induction L with
  | nil =>
    intro a ha _ _ hall
    refine ⟨?_, trivial⟩
    show getNext s.mem a = E.base
    rcases hF.next_ord a ha with ⟨h1, _⟩ | ⟨h1, _⟩
    · rcases hF.next_mem a ha with h2 | h2
      · exact h2
      · have := hall _ h2 h1
        simp at this
    · exact h1
  | cons x L ih =>
    intro a ha hs hin hall
    have hs' := List.sorted_cons.1 hs
    have hx := hin x (List.mem_cons_self _ _)
    refine ⟨?_, ih x (Or.inr hx.1) hs'.2 ?_ ?_⟩
    · show getNext s.mem a = x
      rcases hF.next_ord a ha with ⟨h1, h2⟩ | ⟨_, h2⟩
      · rcases hF.next_mem a ha with h3 | h3
        · rcases ha with h4 | h4
          · omega
          · have := hF.blk a h4; omega
        · rcases List.mem_cons.1 (hall _ h3 h1) with h4 | h4
          · exact h4
          · have h5 := hs'.1 _ h4
            have h6 := h2 x hx.1
            omega
      · have := h2 x hx.1
        omega
    · intro y hy
      exact ⟨(hin y (List.mem_cons_of_mem _ hy)).1, hs'.1 y hy⟩
    · intro z hz hxz
      rcases List.mem_cons.1 (hall z hz (by omega)) with h4 | h4
      · omega
      · exact h4

/-- The free blocks, sorted by address, are linked in this order from the sentinel
and back to it. -/
theorem FRep.sorted_chain {E : Env} {s : State} {F : List Nat} (hF : FRep E s F) :
    ∃ L : List Nat, L.Perm F ∧ List.Sorted (fun x y => x < y) L ∧
      ExactLinks s.mem (E.base :: L) E.base := by
  have hp := List.perm_insertionSort (fun x y : Nat => x ≤ y) F
  have hs := List.sorted_insertionSort (fun x y : Nat => x ≤ y) F
  have hn : (List.insertionSort (fun x y : Nat => x ≤ y) F).Nodup := hp.nodup_iff.2 hF.nodup
  have hlt := hs.lt_of_le hn
  refine ⟨_, hp, hlt, hF.chain_above _ E.base (Or.inl rfl) hlt ?_ ?_⟩
  · intro x hx
    have hxF := hp.mem_iff.1 hx
    have := hF.blk x hxF
    exact ⟨hxF, by omega⟩
  · intro z hz _
    exact hp.mem_iff.2 hz

theorem sumFrom_chain (m : Mem) (stop : Nat) :
    ∀ (L : List Nat) (k : Nat), ExactLinks m L stop → (∀ x ∈ L, x ≠ stop) →
      sumFrom m stop k (L.headD stop) = if L.length < k then some (sizeSum m L) else none := by
  intro L
  induction L with
  | nil =>
    intro k _ _
    cases k with
    | zero => rfl
    | succ k => simp [sumFrom, sizeSum]
  | cons x L ih =>
    intro k hl hne
    cases k with
    | zero => rfl
    | succ k =>
      have hx : x ≠ stop := hne x (List.mem_cons_self _ _)
      show sumFrom m stop (k + 1) x = _
      unfold sumFrom
      rw [if_neg hx, hl.1, ih k hl.2 (fun y hy => hne y (List.mem_cons_of_mem _ hy))]
      by_cases hk : L.length < k
      · rw [if_pos hk, if_pos (by simp only [List.length_cons]; omega), sizeSum_cons]
        rfl
      · rw [if_neg hk, if_neg (by simp only [List.length_cons]; omega)]
        rfl

/-- The walk `freeTotal` returns the sum of the sizes of the free blocks as soon
as its fuel exceeds their number. -/
theorem freeTotal_eq {E : Env} {s : State} {F : List Nat} (hF : FRep E s F) (k : Nat) :
    freeTotal k E s = if F.length < k then some (sizeSum s.mem F) else none := by
  obtain ⟨L, hp, _, hl⟩ := hF.sorted_chain
  have h1 := sumFrom_chain s.mem E.base L k hl.2 (fun x hx => by
    have := hF.blk x (hp.mem_iff.1 hx)
    omega)
  have h2 : getNext s.mem E.base = L.headD E.base := hl.1
  unfold freeTotal
  rw [h2, h1, hp.length_eq]
  have : sizeSum s.mem L = sizeSum s.mem F := (hp.map _).sum_eq
  rw [this]

/-! ## A collection that reclaims nothing leaves the free list alone -/

theorem MarkEq.comp {U : List Nat} {m1 m2 m3 : Mem} (h1 : MarkEq U m1 m2) (h2 : MarkEq U m2 m3) :
    MarkEq U m1 m3 :=
  ⟨fun a ha => by rw [h2.1 a ha, h1.1 a ha], fun x hx => by rw [h2.2 x hx, h1.2 x hx]⟩

/-- A sweep that reclaims no block changes mark bits only. -/
theorem sweep_nil (E : Env) :
    ∀ (k : Nat) (s : State) (F U : List Nat) (prevp p : Nat) (s' : State),
      Rep E s F U → p ∈ U → sweep k s prevp p = some (s', []) →
      MarkEq U s.mem s'.mem ∧ s'.freep = s.freep ∧ s'.brk = s.brk ∧ s'.usedp = s.usedp := by
  intro k
  induction k with
  | zero => intro s F U prevp p s' _ _ h; simp [sweep] at h
  | succ k ih =>
    intro s F U prevp p s' hR hp h
    unfold sweep at h
    by_cases hm : markBit (getNext s.mem p) = 0
    · rw [if_pos hm] at h
      cases hadd : add_to_free_list k s p with
      | none => rw [hadd] at h; cases h
      | some s1 =>
        rw [hadd] at h
        by_cases hs1 : s1.usedp = p
        · simp only [if_pos hs1] at h
          have h0 := congrArg Prod.snd (Option.some.inj h)
          simp at h0
        · simp only [if_neg hs1] at h
          cases hrec : sweep k { s1 with mem := setNext s1.mem prevp (orBit (UNTAG (getNext s.mem p)) (markBit (getNext s1.mem prevp))) } prevp (UNTAG (getNext s.mem p)) with
          | none => rw [hrec] at h; cases h
          | some res =>
            rw [hrec] at h
            have h0 := congrArg Prod.snd (Option.some.inj h)
            simp at h0
    · rw [if_neg hm] at h
      have hME := MarkEq.clear U s.mem p hp (by have := hR.next_lt p hp; omega)
      by_cases hpu : p = s.usedp
      · simp only [if_pos hpu] at h
        have e1 := congrArg Prod.fst (Option.some.inj h)
        simp only at e1
        subst e1
        exact ⟨hME, rfl, rfl, rfl⟩
      · simp only [if_neg hpu] at h
        obtain ⟨m2, hm2⟩ : ∃ m2, m2 = setNext s.mem p (clearMark (getNext s.mem p)) := ⟨_, rfl⟩
        rw [← hm2] at h hME
        have hR2 : Rep E { s with mem := m2 } F U := hR.of_markEq hME rfl rfl rfl
        obtain ⟨i1, i2, i3, i4⟩ := ih _ F U p _ s' hR2 (hR2.used.untag_next_mem p hp) h
        exact ⟨hME.comp i1, i2, i3, i4⟩

/-- A `GC_collect` that reclaims no block keeps the free list: the same blocks
with the same sizes. -/
theorem GC_collect_keeps_free (E : Env) (k : Nat) (s s' : State) (statics stack : List Nat)
    (F U : List Nat) (hR : Rep E s F U) (h : GC_collect k s statics stack = some (s', [])) :
    Rep E s' F U ∧ sizeSum s'.mem F = sizeSum s.mem F := by
  by_cases hu : s.usedp = 0
  · unfold GC_collect at h
    rw [if_pos hu] at h
    have e1 := congrArg Prod.fst (Option.some.inj h)
    simp only at e1
    subst e1
    exact ⟨hR, rfl⟩
  · obtain ⟨s1, s2, s3, h1, h2, h3, h4⟩ := GC_collect_stages k s s' statics stack [] hu h
    obtain ⟨r1, l1, u1, f1, b1, _⟩ := scan_region_Rep E s s1 F U k statics hR hu h1
    obtain ⟨r2, l2, u2, f2, b2, _⟩ := scan_region_Rep E s1 s2 F U k stack r1 (by rw [u1]; exact hu) h2
    obtain ⟨r3, l3, u3, f3, b3, _⟩ := scan_heap_Rep E s2 s3 F U k r2 (by rw [u2, u1]; exact hu) h3
    have hu3 : s3.usedp ≠ 0 := by rw [u3, u2, u1]; exact hu
    have hum := r3.used.usedp_mem hu3
    obtain ⟨i1, i2, i3, i4⟩ := sweep_nil E k s3 F U _ _ s' r3 (r3.used.untag_next_mem _ hum) h4
    have hME : MarkEq U s.mem s'.mem :=
      ((l1.toMarkEq.comp l2.toMarkEq).comp l3.toMarkEq).comp i1
    refine ⟨hR.of_markEq hME (by rw [i2, f3, f2, f1]) (by rw [i4, u3, u2, u1])
      (by rw [i3, b3, b2, b1]), sizeSum_congr _ _ _ ?_⟩
    intro x hx
    unfold getSize
    rw [hME.1 x]
    intro u hu'
    have := (hR.free.blk x hx).1
    have := (hR.used.blk u hu').1
    omega

/-! ## The total of the free list along allocations -/

theorem freeTotal_some {E : Env} {s : State} {F : List Nat} (hF : FRep E s F) {f t : Nat}
    (h : freeTotal f E s = some t) : t = sizeSum s.mem F := by
  rw [freeTotal_eq hF f] at h
  by_cases hk : F.length < f
  · rw [if_pos hk] at h
    exact (Option.some.inj h).symm
  · rw [if_neg hk] at h
    cases h

theorem freeTotal_enough {E : Env} {s : State} {F : List Nat} (hF : FRep E s F) :
    freeTotal (F.length + 1) E s = some (sizeSum s.mem F) := by
  rw [freeTotal_eq hF, if_pos (Nat.lt_succ_self _)]

theorem GC_malloc_brk_le (E : Env) (hW : WellBehaved E) (k : Nat) (s s' : State) (n r : Nat)
    (hI : Inv E s) (h : GC_malloc k E s n = some (s', r)) : s.brk ≤ s'.brk := by
  obtain ⟨F, U, hR, hC⟩ := hI
  unfold GC_malloc at h
  have hfp : s.freep ≠ 0 := by
    rcases hR.free.freep_mem with h1 | h1
    · have := hR.base_pos; omega
    · have := hR.free.blk _ h1; omega
  simp only [if_neg hfp] at h
  obtain ⟨F', U', _, _, _, _, h5, _⟩ := mallocLoop_Rep E hW (num_units n) (num_units_bounds n).1
    k s F U s.freep _ s' r hR hC hR.free.freep_mem rfl h
  exact h5

/-- One successful `GC_malloc`: the total of the free list grows by the units
obtained from the extension and shrinks by the units of the request. -/
theorem GC_malloc_total (E : Env) (hW : WellBehaved E) (s s' : State) (k n r : Nat)
    (h : Reach E s)
    (hspan : s.brk + 16 * (if num_units n < MIN_UNITS then MIN_UNITS else num_units n) <
      E.base + 68719476736)
    (hm : GC_malloc k E s n = some (s', r)) (hr : r ≠ 0) (f f' t t' : Nat)
    (ht : freeTotal f E s = some t) (ht' : freeTotal f' E s' = some t') :
    t' + num_units n = t + (s'.brk - s.brk) / 16 := by
  obtain ⟨F, U, hR, _⟩ := (h.inv hW).1
  have e1 := freeTotal_some hR.free ht
  obtain ⟨nu, hnu⟩ : ∃ nu, nu = (if num_units n < MIN_UNITS then MIN_UNITS else num_units n) :=
    ⟨_, rfl⟩
  have hout := GC_malloc_outcome E hW k s s' n r F U hR hspan hm
  rw [← hnu] at hout
  rcases hout with ⟨F', q, a1, _, a3, a4⟩ | ⟨_, a2, _⟩ | ⟨F', q, a1, _, a3, _, a5⟩
  · have e2 := freeTotal_some a1.free ht'
    omega
  · exact absurd a2 hr
  · have e2 := freeTotal_some a1.free ht'
    omega

theorem allocRun_reach (E : Env) (hW : WellBehaved E) (k n : Nat) :
    ∀ (c : Nat) (s s' : State), Reach E s → allocRun k E n c s = some s' →
      Reach E s' ∧ s.brk ≤ s'.brk := by
  intro c
  induction c with
  | zero =>
    intro s s' h hr
    have : s = s' := Option.some.inj hr
    subst this
    exact ⟨h, le_refl _⟩
  | succ c ih =>
    intro s s' h hr
    unfold allocRun at hr
    cases h1 : allocRun k E n c s with
    | none => rw [h1] at hr; cases hr
    | some s1 =>
      simp only [h1] at hr
      obtain ⟨i1, i2⟩ := ih s s1 h h1
      cases h2 : GC_malloc k E s1 n with
      | none => simp only [h2] at hr; cases hr
      | some res =>
        obtain ⟨s2, r⟩ := res
        simp only [h2] at hr
        by_cases hr0 : r = 0
        · simp only [if_pos hr0] at hr; cases hr
        · simp only [if_neg hr0] at hr
          have : s2 = s' := Option.some.inj hr
          subst this
          have := GC_malloc_brk_le E hW k s1 s2 n r (i1.inv hW).1 h2
          exact ⟨Reach.malloc s1 s2 k n r i1 h2, by omega⟩

/-- After `c` successful calls `GC_malloc(n)` the total of the free list is the
old total plus the units obtained from extension minus `c` times the units of
the request. -/
theorem allocRun_total (E : Env) (hW : WellBehaved E) (k n : Nat) :
    ∀ (c : Nat) (s s' : State), Reach E s → allocRun k E n c s = some s' →
      s'.brk + 16 * (if num_units n < MIN_UNITS then MIN_UNITS else num_units n) <
        E.base + 68719476736 →
      ∀ (f f' t t' : Nat), freeTotal f E s = some t → freeTotal f' E s' = some t' →
        t' + c * num_units n = t + (s'.brk - s.brk) / 16 := by
  intro c
  induction c with
  | zero =>
    intro s s' h hr _ f f' t t' ht ht'
    have : s = s' := Option.some.inj hr
    subst this
    obtain ⟨F, U, hR, _⟩ := (h.inv hW).1
    have e1 := freeTotal_some hR.free ht
    have e2 := freeTotal_some hR.free ht'
    omega
  | succ c ih =>
    intro s s' h hr hb f f' t t' ht ht'
    unfold allocRun at hr
    cases h1 : allocRun k E n c s with
    | none => rw [h1] at hr; cases hr
    | some s1 =>
      simp only [h1] at hr
      obtain ⟨i1, i2⟩ := allocRun_reach E hW k n c s s1 h h1
      cases h2 : GC_malloc k E s1 n with
      | none => simp only [h2] at hr; cases hr
      | some res =>
        obtain ⟨s2, r⟩ := res
        simp only [h2] at hr
        by_cases hr0 : r = 0
        · simp only [if_pos hr0] at hr; cases hr
        · simp only [if_neg hr0] at hr
          have : s2 = s' := Option.some.inj hr
          subst this
          have hle := GC_malloc_brk_le E hW k s1 s2 n r (i1.inv hW).1 h2
          obtain ⟨F1, U1, hR1, _⟩ := (i1.inv hW).1
          obtain ⟨F0, U0, hR0, _⟩ := (h.inv hW).1
          obtain ⟨F2, U2, hR2, _⟩ := ((Reach.malloc s1 s2 k n r i1 h2).inv hW).1
          have ht1 := freeTotal_enough hR1.free
          have j1 := ih s s1 h h1 (by omega) f _ t _ ht ht1
          have j2 := GC_malloc_total E hW s1 s2 k n r i1 (by omega) h2 hr0 _ f' _ t' ht1 ht'
          have := hR0.brk_al
          have := hR1.brk_al
          have := hR2.brk_al
          rw [Nat.succ_mul]
          omega

theorem freeTotal_init (E : Env) (m : Mem) (b sb f : Nat) (h1 : E.base + 16 ≤ b)
    (h3 : b ≤ 9223372036854775808) : freeTotal (f + 1) E (GC_init E (boot m b) sb) = some 0 := by
  have h : getNext (GC_init E (boot m b) sb).mem E.base = E.base := by
    show getNext (setSize (setNext m E.base E.base) E.base 0) E.base = E.base
    rw [getNext_setSize _ _ _ _ (by omega), getNext_setNext_same]
    omega
  unfold freeTotal sumFrom
  rw [h, if_pos rfl]

/-! ## Every block of the registry list is reached from the anchor -/

theorem Links.reach_iter {m : Mem} : ∀ (L : List Nat) (e x : Nat), Links m L e →
    (∀ y ∈ L, y % 16 = 0) → e % 16 = 0 → x ∈ L → ∃ i, regIter m i (L.headD e) = x := by
  intro L
  induction L with
  | nil => intro e x _ _ _ hx; simp at hx
  | cons y L ih =>
    intro e x hl hal he hx
    rcases List.mem_cons.1 hx with h1 | h1
    · exact ⟨0, h1.symm⟩
    · obtain ⟨i, hi⟩ := ih e x hl.2 (fun z hz => hal z (List.mem_cons_of_mem _ hz)) he h1
      have hev : L.headD e % 16 = 0 := by
        cases L with
        | nil => exact he
        | cons c t => exact hal c (by simp)
      refine ⟨i + 1, ?_⟩
      show regIter m i (UNTAG (getNext m y)) = x
      rw [lnk_untag hl.1 hev]
      exact hi

theorem URep.inRegistry {E : Env} {s : State} {U : List Nat} (hU : URep E s U) {x : Nat}
    (hx : x ∈ U) (hu : s.usedp ≠ 0) : InRegistry s x := by
  refine ⟨hu, ?_⟩
  cases hUc : U with
  | nil => rw [hUc] at hx; simp at hx
  | cons u R =>
    have hl := hU.links
    have hh := hU.head
    rw [hUc] at hl hh hx
    have hal : ∀ y ∈ u :: R, y % 16 = 0 := fun y hy => (hU.blk y (by rw [hUc]; exact hy)).1
    obtain ⟨i, hi⟩ := Links.reach_iter (u :: R) u x hl hal (hal u (List.mem_cons_self _ _)) hx
    exact ⟨i, by rw [hh]; exact hi⟩

theorem regIter_add (m : Mem) : ∀ (a b p : Nat), regIter m (a + b) p = regIter m b (regIter m a p) := by
  intro a
  induction a with
  | zero => intro b p; rw [Nat.zero_add]; rfl
  | succ a ih =>
    intro b p
    rw [Nat.succ_add]
    exact ih b _

/-- In a registry cycle of length `c` every block is among the first `c` ones. -/
theorem regIter_period (m : Mem) (p c : Nat) (hc : 0 < c) (h : regIter m c p = p) :
    ∀ k, ∃ j, j < c ∧ regIter m k p = regIter m j p := by
  intro k
  induction k using Nat.strong_induction_on with
  | _ k ih =>
    by_cases hk : k < c
    · exact ⟨k, hk, rfl⟩
    · obtain ⟨j, hj, e⟩ := ih (k - c) (by omega)
      refine ⟨j, hj, ?_⟩
      have : k = c + (k - c) := by omega
      rw [this, regIter_add, h, e]

/-! ## C10: allocation accounting -/

/-- C10 (amended): in an environment whose extension call grants only requests it
can serve, (1) for a byte count `n` with `n + 15 < 2^64` and a reachable state
whose heap, with the extension the call may request, spans less than `2^32` units
above the sentinel, a `GC_malloc(n)` that returns an address changes the total of
the free-list sizes to the old total plus the units obtained from extension minus
`ceil(n / 16) + 1`, whether the block is taken whole or split; (2) after
`GC_init` and ten calls `GC_malloc(64)` that return an address, the total is the
units obtained from extension minus `10 * 5`; (3) a `GC_collect` at whose sweep
every registered block is marked reclaims nothing and leaves the total
unchanged. -/
theorem allocation_accounting (E : Env) (hW : WellBehaved E) :
    (∀ (s s' : State) (k n r f f' t t' : Nat), Reach E s → n + 15 < 18446744073709551616 →
      s.brk + 16 * (if num_units n < MIN_UNITS then MIN_UNITS else num_units n) <
        E.base + 68719476736 →
      GC_malloc k E s n = some (s', r) → r ≠ 0 →
      freeTotal f E s = some t → freeTotal f' E s' = some t' →
      t' + ((n + 15) / 16 + 1) = t + (s'.brk - s.brk) / 16) ∧
    (∀ (m : Mem) (b sb k f' t' : Nat) (s' : State), 0 < E.base → E.base + 16 ≤ b →
      b % 16 = 0 → b ≤ 9223372036854775808 →
      allocRun k E 64 10 (GC_init E (boot m b) sb) = some s' →
      s'.brk + 4096 < E.base + 68719476736 → freeTotal f' E s' = some t' →
      t' + 10 * 5 = (s'.brk - b) / 16) ∧
    (∀ (s s1 s2 s3 s' : State) (k : Nat) (statics stack l : List Nat) (f f' t t' : Nat),
      Reach E s → scan_region k s statics = some s1 → scan_region k s1 stack = some s2 →
      scan_heap k s2 = some s3 → (∀ b, InRegistry s b → markBit (getNext s3.mem b) = 1) →
      GC_collect k s statics stack = some (s', l) →
      freeTotal f E s = some t → freeTotal f' E s' = some t' → l = [] ∧ t' = t) := by
  refine ⟨?_, ?_, ?_⟩
  · intro s s' k n r f f' t t' h hn hspan hm hr ht ht'
    have hnu : num_units n = (n + 15) / 16 + 1 := by unfold num_units; omega
    have := GC_malloc_total E hW s s' k n r h hspan hm hr f f' t t' ht ht'
    rw [hnu] at this
    exact this
  · intro m b sb k f' t' s' h0 h1 h2 h3 hrun hb ht'
    have hnu : num_units 64 = 5 := by decide
    have hnu2 : (if num_units 64 < MIN_UNITS then MIN_UNITS else num_units 64) = 256 := by decide
    have := allocRun_total E hW k 64 10 _ s' (Reach.init m b sb h0 h1 h2 h3) hrun
      (by rw [hnu2]; omega) 1 f' 0 t' (freeTotal_init E m b sb 0 h1 h3) ht'
    rw [hnu] at this
    have hb0 : (GC_init E (boot m b) sb).brk = b := rfl
    rw [hb0] at this
    omega
  · intro s s1 s2 s3 s' k statics stack l f f' t t' h g1 g2 g3 hall hc ht ht'
    obtain ⟨F, U, hR, _⟩ := (h.inv hW).1
    have hl : l = [] := by
      by_cases hu : s.usedp = 0
      · unfold GC_collect at hc
        rw [if_pos hu] at hc
        exact (congrArg Prod.snd (Option.some.inj hc)).symm
      · obtain ⟨a1, a2, a3, c1, c2, c3, _, _, _, _, _, _, _, _, c4⟩ :=
          GC_collect_reclaims E k s s' statics stack l F U hR hu hc
        have e1 : a1 = s1 := Option.some.inj (c1.symm.trans g1)
        subst e1
        have e2 : a2 = s2 := Option.some.inj (c2.symm.trans g2)
        subst e2
        have e3 : a3 = s3 := Option.some.inj (c3.symm.trans g3)
        subst e3
        cases l with
        | nil => rfl
        | cons b l0 =>
          obtain ⟨d1, d2⟩ := c4 b (List.mem_cons_self _ _)
          have := hall b (hR.used.inRegistry d1 hu)
          omega
    subst hl
    refine ⟨rfl, ?_⟩
    obtain ⟨r1, r2⟩ := GC_collect_keeps_free E k s s' statics stack F U hR hc
    have e1 := freeTotal_some hR.free ht
    have e2 := freeTotal_some r1.free ht'
    omega

theorem demoAlloc10_reach : Reach demoEnv (demoAlloc 10) :=
  (allocRun_reach demoEnv demoEnv_wellBehaved 8 64 10 demoInit (demoAlloc 10) demoInit_reach rfl).1

theorem demoMarked_all (b : Nat) (h : InRegistry (demoAlloc 10) b) :
    markBit (getNext demoMarked.mem b) = 1 := by
  obtain ⟨_, k, hk⟩ := h
  obtain ⟨j, hj, e⟩ := regIter_period (demoAlloc 10).mem (demoAlloc 10).usedp 10 (by decide)
    (by decide) k
  have hall : ∀ j, j < 10 →
      markBit (getNext demoMarked.mem (regIter (demoAlloc 10).mem j (demoAlloc 10).usedp)) = 1 := by
    decide
  rw [← hk, e]
  exact hall j hj

theorem scan_region_nil (k : Nat) (s : State) : scan_region k s [] = some s := by
  cases k <;> rfl

theorem some_getD_of_isSome {α : Type} (o : Option α) (d : α) (h : o.isSome = true) :
    o = some (o.getD d) := by
  cases o with
  | none => cases h
  | some a => rfl

theorem some_pair_of_isSome {α β : Type} (o : Option (α × β)) (d : α × β)
    (h : o.isSome = true) : o = some ((o.getD d).1, (o.getD d).2) := by
  cases o with
  | none => cases h
  | some a => rfl

theorem allocation_accounting_witness :
    251 + ((64 + 15) / 16 + 1) = 0 + ((demoAlloc 1).brk - demoInit.brk) / 16 ∧
      206 + 10 * 5 = ((demoAlloc 10).brk - 8192) / 16 ∧
      ((GC_collect 32 (demoAlloc 10) [] demoRoots).getD (demoAlloc 10, [])).2 = [] ∧
      (freeTotal 16 demoEnv (collectD 32 (demoAlloc 10) [] demoRoots)).getD 0 =
        (freeTotal 16 demoEnv (demoAlloc 10)).getD 0 :=
  ⟨(allocation_accounting demoEnv demoEnv_wellBehaved).1 demoInit (demoAlloc 1) 8 64 12224 8 8 0
      251 demoInit_reach (by decide) (by decide) demoAlloc_step1 (by decide) (by decide)
      (by decide),
    (allocation_accounting demoEnv demoEnv_wellBehaved).2.1 (fun _ => 0) 8192 0 8 16 206
      (demoAlloc 10) (by decide) (by decide) (by decide) (by decide) rfl (by decide) (by decide),
    (allocation_accounting demoEnv demoEnv_wellBehaved).2.2 (demoAlloc 10) (demoAlloc 10)
      demoScanned demoMarked (collectD 32 (demoAlloc 10) [] demoRoots) 32 [] demoRoots
      ((GC_collect 32 (demoAlloc 10) [] demoRoots).getD (demoAlloc 10, [])).2 16 16
      ((freeTotal 16 demoEnv (demoAlloc 10)).getD 0)
      ((freeTotal 16 demoEnv (collectD 32 (demoAlloc 10) [] demoRoots)).getD 0)
      demoAlloc10_reach (scan_region_nil 32 _) (some_getD_of_isSome _ _ (by decide))
      (some_getD_of_isSome _ _ (by decide)) demoMarked_all
      (some_pair_of_isSome _ _ (by decide)) (by decide) (by decide)⟩

/-! ## Walks along the free list reach every node -/

theorem freeIter_add (m : Mem) :
    ∀ (a b p : Nat), freeIter m (a + b) p = freeIter m b (freeIter m a p) := by
  intro a
  induction a with
  | zero => intro b p; rw [Nat.zero_add]; rfl
  | succ a ih =>
    intro b p
    rw [Nat.succ_add]
    exact ih b _

/-- Along exact links every block of the list is reached from its head. -/
theorem ExactLinks.from_head {m : Mem} : ∀ (L : List Nat) (a e y : Nat),
    ExactLinks m (a :: L) e → y ∈ a :: L → ∃ j, j ≤ L.length ∧ freeIter m j a = y := by
  intro L
  induction L with
  | nil =>
    intro a e y _ hy
    rw [List.mem_singleton] at hy
    exact ⟨0, le_refl _, hy.symm⟩
  | cons b L ih =>
    intro a e y hl hy
    rcases List.mem_cons.1 hy with h1 | h1
    · exact ⟨0, Nat.zero_le _, h1.symm⟩
    · obtain ⟨j, hj, e1⟩ := ih b e y hl.2 h1
      refine ⟨j + 1, by simp only [List.length_cons]; omega, ?_⟩
      show freeIter m j (getNext m a) = y
      have : getNext m a = b := hl.1
      rw [this]
      exact e1

/-- Along exact links the end `e` is reached from every block of the list. -/
theorem ExactLinks.to_end {m : Mem} : ∀ (L : List Nat) (a e x : Nat),
    ExactLinks m (a :: L) e → x ∈ a :: L → ∃ j, j ≤ L.length + 1 ∧ freeIter m j x = e := by
  intro L
  induction L with
  | nil =>
    intro a e x hl hx
    rw [List.mem_singleton] at hx
    refine ⟨1, le_refl _, ?_⟩
    show getNext m x = e
    rw [hx]
    exact hl.1
  | cons b L ih =>
    intro a e x hl hx
    rcases List.mem_cons.1 hx with h1 | h1
    · obtain ⟨j, hj, e1⟩ := ih b e b hl.2 (List.mem_cons_self _ _)
      refine ⟨j + 1, by simp only [List.length_cons]; omega, ?_⟩
      show freeIter m j (getNext m x) = e
      have : getNext m x = b := by rw [h1]; exact hl.1
      rw [this]
      exact e1
    · obtain ⟨j, hj, e1⟩ := ih b e x hl.2 h1
      exact ⟨j, by simp only [List.length_cons]; omega, e1⟩

/-- In the free list every node is reached from every node within
`2 * |F| + 1` steps. -/
theorem FRep.reach {E : Env} {s : State} {F : List Nat} (hF : FRep E s F) (x y : Nat)
    (hx : x = E.base ∨ x ∈ F) (hy : y = E.base ∨ y ∈ F) :
    ∃ j, j ≤ 2 * F.length + 1 ∧ freeIter s.mem j x = y := by
  obtain ⟨L, hp, _, hl⟩ := hF.sorted_chain
  have hmem : ∀ z, (z = E.base ∨ z ∈ F) → z ∈ E.base :: L := by
    intro z hz
    rcases hz with h | h
    · rw [h]; exact List.mem_cons_self _ _
    · exact List.mem_cons_of_mem _ (hp.mem_iff.2 h)
  obtain ⟨j1, h1, e1⟩ := ExactLinks.to_end L E.base E.base x hl (hmem x hx)
  obtain ⟨j2, h2, e2⟩ := ExactLinks.from_head L E.base E.base y hl (hmem y hy)
  refine ⟨j1 + j2, by have := hp.length_eq; omega, ?_⟩
  rw [freeIter_add, e1, e2]

/-! ## `add_to_free_list` and `morecore` return -/

theorem findSlot_walk (m : Mem) (bp : Nat) : ∀ (j k p : Nat), j < k →
    ((bp > freeIter m j p ∧ bp < getNext m (freeIter m j p)) ∨
      (freeIter m j p ≥ getNext m (freeIter m j p) ∧
        (bp > freeIter m j p ∨ bp < getNext m (freeIter m j p)))) →
    ∃ r, findSlot k m bp p = some r := by
  intro j
  induction j with
  | zero =>
    intro k p hk hstop
    obtain ⟨k', rfl⟩ : ∃ k', k = k' + 1 := ⟨k - 1, by omega⟩
    have hstop' : (bp > p ∧ bp < getNext m p) ∨ (p ≥ getNext m p ∧ (bp > p ∨ bp < getNext m p)) :=
      hstop
    unfold findSlot
    by_cases h1 : bp > p ∧ bp < getNext m p
    · rw [if_pos h1]; exact ⟨p, rfl⟩
    · rw [if_neg h1]
      have h2 : p ≥ getNext m p ∧ (bp > p ∨ bp < getNext m p) := by
        rcases hstop' with h | h
        · exact absurd h h1
        · exact h
      rw [if_pos h2]; exact ⟨p, rfl⟩
  | succ j ih =>
    intro k p hk hstop
    obtain ⟨k', rfl⟩ : ∃ k', k = k' + 1 := ⟨k - 1, by omega⟩
    unfold findSlot
    by_cases h1 : bp > p ∧ bp < getNext m p
    · rw [if_pos h1]; exact ⟨p, rfl⟩
    · rw [if_neg h1]
      by_cases h2 : p ≥ getNext m p ∧ (bp > p ∨ bp < getNext m p)
      · rw [if_pos h2]; exact ⟨p, rfl⟩
      · rw [if_neg h2]
        exact ih k' (getNext m p) (by omega) hstop

/-- Some node of the free list satisfies the exit condition of the loop of
`add_to_free_list`: the highest node below `bp`. -/
theorem FRep.slot_exists {E : Env} {s : State} {F : List Nat} (hF : FRep E s F) (bp : Nat)
    (hlo : E.base + 16 ≤ bp) (hnew : bp ∉ F) :
    ∃ t, (t = E.base ∨ t ∈ F) ∧
      ((bp > t ∧ bp < getNext s.mem t) ∨
        (t ≥ getNext s.mem t ∧ (bp > t ∨ bp < getNext s.mem t))) := by
  have hne : (E.base :: F).filter (fun x => decide (x < bp)) ≠ [] := by
    intro e
    have : E.base ∈ (E.base :: F).filter (fun x => decide (x < bp)) :=
      List.mem_filter.2 ⟨List.mem_cons_self _ _, by simp; omega⟩
    rw [e] at this
    simp at this
  obtain ⟨t, ht, hmax⟩ := exists_max_of_ne_nil _ hne
  obtain ⟨ht1, ht2⟩ := List.mem_filter.1 ht
  have htb : t < bp := by simpa using ht2
  have htn : t = E.base ∨ t ∈ F := List.mem_cons.1 ht1
  have hge : E.base ≤ t := by
    rcases htn with h | h
    · omega
    · have := hF.blk t h; omega
  refine ⟨t, htn, ?_⟩
  rcases hF.next_ord t htn with ⟨h1, _⟩ | ⟨h1, _⟩
  · left
    refine ⟨htb, ?_⟩
    rcases hF.next_mem t htn with h3 | h3
    · omega
    · by_cases hlt : getNext s.mem t < bp
      · have hin : getNext s.mem t ∈ (E.base :: F).filter (fun x => decide (x < bp)) :=
          List.mem_filter.2 ⟨List.mem_cons_of_mem _ h3, by simpa using hlt⟩
        have := hmax _ hin
        omega
      · have : getNext s.mem t ≠ bp := fun e => hnew (e ▸ h3)
        omega
  · right
    exact ⟨by omega, Or.inl htb⟩

theorem add_to_free_list_returns (E : Env) (s : State) (F : List Nat) (bp k : Nat)
    (hF : FRep E s F) (hb : Fresh E s F bp) (hk : 2 * F.length + 1 < k) :
    ∃ s', add_to_free_list k s bp = some s' := by
  obtain ⟨t, ht, hstop⟩ := hF.slot_exists bp hb.lo hb.new
  obtain ⟨j, hj, e⟩ := hF.reach s.freep t hF.freep_mem ht
  rw [← e] at hstop
  obtain ⟨r, hr⟩ := findSlot_walk s.mem bp j k s.freep (by omega) hstop
  unfold add_to_free_list
  rw [hr]
  exact ⟨_, rfl⟩

theorem morecore_returns (E : Env) (s : State) (F U : List Nat) (hR : Rep E s F U)
    (hW : WellBehaved E) (k num : Nat) (hk : 2 * F.length + 1 < k) :
    ∃ o, morecore k E s num = some o := by
  have hF := hR.free
  have hbrk := hF.brk_le
  have hal := hR.brk_al
  have hbl := hR.base_lt
  obtain ⟨nu, hnu⟩ : ∃ nu, nu = (if num < MIN_UNITS then MIN_UNITS else num) := ⟨_, rfl⟩
  unfold morecore sbrk
  simp only [← hnu]
  by_cases hg : E.grant s.brk (nu * 16 % 18446744073709551616) = true
  swap
  · rw [if_neg hg]; exact ⟨_, rfl⟩
  rw [if_pos hg]
  simp only []
  obtain ⟨hw1, hw2⟩ := hW _ _ hg
  have hb' : (s.brk + nu * 16 % 18446744073709551616) % 18446744073709551616 =
      s.brk + nu * 16 % 18446744073709551616 := by omega
  rw [hb']
  have hFsep : ∀ x, (x = E.base ∨ x ∈ F) → x ≠ s.brk ∧ x + 8 ≠ s.brk := by
    intro x hx
    rcases hx with h | h
    · omega
    · have := hF.blk x h; omega
  have hF1 : FRep E { mem := setSize s.mem s.brk nu, freep := s.freep, usedp := s.usedp, stack_bottom := s.stack_bottom, initted := s.initted, brk := s.brk + nu * 16 % 18446744073709551616 } F :=
    hF.congr_free (by show s.brk ≤ s.brk + _; omega) hw2 rfl
      (fun x hx => getSize_setSize_ne _ _ _ _ (hFsep x hx).1)
      (fun x hx => getNext_setSize _ _ _ _ (hFsep x hx).2)
  have hsu : getSize (setSize s.mem s.brk nu) s.brk = nu % 4294967296 :=
    getSize_setSize_same _ _ _
  have hfresh : Fresh E { mem := setSize s.mem s.brk nu, freep := s.freep, usedp := s.usedp, stack_bottom := s.stack_bottom, initted := s.initted, brk := s.brk + nu * 16 % 18446744073709551616 } F s.brk := by
    refine ⟨hal, hbl, by show s.brk + 16 ≤ s.brk + _; omega, ?_, ?_, ?_, ?_⟩
    · show s.brk + 16 * getSize (setSize s.mem s.brk nu) s.brk ≤ s.brk + _
      rw [hsu]; omega
    · intro hmem; have := hF.blk _ hmem; omega
    · intro y hy hlt; have := hF.blk y hy; omega
    · intro y hy _
      show y + 16 * getSize (setSize s.mem s.brk nu) y ≤ s.brk
      rw [getSize_setSize_ne _ _ _ _ (hFsep y (Or.inr hy)).1]
      exact (hF.blk y hy).2.2.2
  obtain ⟨s3, h3⟩ := add_to_free_list_returns E _ F s.brk k hF1 hfresh hk
  rw [h3]
  exact ⟨_, rfl⟩

/-! ## The search loop of `GC_malloc` returns -/

/-- The loop returns when a large enough block lies `j` links ahead and the
cursor, if met on the way, is large enough itself. -/
theorem mallocLoop_walk_found (E : Env) (num : Nat) (s : State) : ∀ (j k prevp p : Nat), j < k →
    num ≤ getSize s.mem (freeIter s.mem j p) →
    (∀ i, i ≤ j → freeIter s.mem i p = s.freep → num ≤ getSize s.mem s.freep) →
    ∃ res, mallocLoop k E s num prevp p = some res := by
  intro j
  induction j with
  | zero =>
    intro k prevp p hk hsz _
    obtain ⟨k', rfl⟩ : ∃ k', k = k' + 1 := ⟨k - 1, by omega⟩
    have hsz' : getSize s.mem p ≥ num := hsz
    unfold mallocLoop
    rw [if_pos hsz']
    exact ⟨_, rfl⟩
  | succ j ih =>
    intro k prevp p hk hsz hcur
    obtain ⟨k', rfl⟩ : ∃ k', k = k' + 1 := ⟨k - 1, by omega⟩
    unfold mallocLoop
    by_cases h1 : getSize s.mem p ≥ num
    · rw [if_pos h1]; exact ⟨_, rfl⟩
    · rw [if_neg h1]
      have hpf : p ≠ s.freep := by
        intro e
        have := hcur 0 (Nat.zero_le _) e
        rw [← e] at this
        omega
      rw [if_neg hpf]
      exact ih k' p (getNext s.mem p) (by omega) hsz
        (fun i hi e => hcur (i + 1) (by omega) e)

/-- The loop returns when the cursor lies `j` links ahead and what follows the
extension request returns for every fuel from `K` on. -/
theorem mallocLoop_walk (E : Env) (num K : Nat) (s : State)
    (hK : ∀ k, K ≤ k → ∃ res,
      (match morecore k E s num with
        | none => none
        | some none => some (s, 0)
        | some (some s1) => mallocLoop k E s1 num s1.freep (getNext s1.mem s1.freep)) =
        some res) :
    ∀ (j k prevp p : Nat), j + K < k → freeIter s.mem j p = s.freep →
      ∃ res, mallocLoop k E s num prevp p = some res := by
  intro j
  induction j with
  | zero =>
    intro k prevp p hk hcur
    obtain ⟨k', rfl⟩ : ∃ k', k = k' + 1 := ⟨k - 1, by omega⟩
    have hpf : p = s.freep := hcur
    unfold mallocLoop
    by_cases h1 : getSize s.mem p ≥ num
    · rw [if_pos h1]; exact ⟨_, rfl⟩
    · rw [if_neg h1, if_pos hpf]
      exact hK k' (by omega)
  | succ j ih =>
    intro k prevp p hk hcur
    obtain ⟨k', rfl⟩ : ∃ k', k = k' + 1 := ⟨k - 1, by omega⟩
    unfold mallocLoop
    by_cases h1 : getSize s.mem p ≥ num
    · rw [if_pos h1]; exact ⟨_, rfl⟩
    · rw [if_neg h1]
      by_cases hpf : p = s.freep
      · rw [if_pos hpf]
        exact hK k' (by omega)
      · rw [if_neg hpf]
        exact ih k' p (getNext s.mem p) (by omega) hcur

/-- With enough fuel `GC_malloc` returns, when no size field can wrap. -/
theorem GC_malloc_returns (E : Env) (hW : WellBehaved E) (s : State) (n : Nat)
    (F U : List Nat) (hR : Rep E s F U)
    (hspan : s.brk + 16 * (if num_units n < MIN_UNITS then MIN_UNITS else num_units n) <
      E.base + 68719476736) :
    ∀ k, 4 * F.length + 8 ≤ k → ∃ res, GC_malloc k E s n = some res := by
  intro k hk
  obtain ⟨nu, hnu⟩ : ∃ nu, nu = (if num_units n < MIN_UNITS then MIN_UNITS else num_units n) :=
    ⟨_, rfl⟩
  rw [← hnu] at hspan
  have hpk := hR.free.sizeSum_le hR.base_lt
  have hfp : s.freep ≠ 0 := by
    rcases hR.free.freep_mem with h1 | h1
    · have := hR.base_pos; omega
    · have := hR.free.blk _ h1; omega
  unfold GC_malloc
  simp only [if_neg hfp]
  have hp0 := hR.free.next_mem s.freep hR.free.freep_mem
  obtain ⟨j, hj, e⟩ := hR.free.reach _ s.freep hp0 hR.free.freep_mem
  refine mallocLoop_walk E (num_units n) (2 * F.length + 5) s ?_ j k s.freep _ (by omega) e
  intro k' hk'
  obtain ⟨o, ho⟩ := morecore_returns E s F U hR hW k' (num_units n) (by omega)
  rw [ho]
  cases o with
  | none => exact ⟨_, rfl⟩
  | some s1 =>
    show ∃ res, mallocLoop k' E s1 (num_units n) s1.freep (getNext s1.mem s1.freep) = some res
    obtain ⟨F1, m1, _, _, _, _, _, _, m8, m9⟩ :=
      morecore_spec E s F U hR hW k' (num_units n) s1 ho
    rw [← hnu] at m9
    obtain ⟨_, g2⟩ := m9 (by omega)
    have hlen : F1.length ≤ F.length + 1 := by
      have hsub : F1 ⊆ s.brk :: F := by
        intro y hy
        rcases m8 y hy with h | h
        · rw [h]; exact List.mem_cons_self _ _
        · exact List.mem_cons_of_mem _ h
      have := (List.subperm_of_subset m1.free.nodup hsub).length_le
      simpa using this
    have hq0 := m1.free.next_mem s1.freep m1.free.freep_mem
    rcases g2 with g | g
    · obtain ⟨j2, hj2, e2⟩ := m1.free.reach _ s1.freep hq0 m1.free.freep_mem
      exact mallocLoop_walk_found E (num_units n) s1 j2 k' s1.freep _ (by omega)
        (by rw [e2]; exact g) (fun _ _ _ => g)
    · refine mallocLoop_walk_found E (num_units n) s1 0 k' s1.freep _ (by omega) g ?_
      intro i hi e0
      have hi0 : i = 0 := by omega
      rw [hi0] at e0
      have e1 : getNext s1.mem s1.freep = s1.freep := e0
      rw [e1] at g
      exact g

/-- The search loop returns the null pointer only from the branch in which the
extension request is refused; no state has changed since the request, and the
registry has not changed at all. -/
theorem mallocLoop_null (E : Env) (hW : WellBehaved E) (num : Nat) (hnum : 1 ≤ num) :
    ∀ (k : Nat) (s : State) (F U : List Nat) (prevp p : Nat) (s' : State),
      Rep E s F U → (prevp = E.base ∨ prevp ∈ F) → p = getNext s.mem prevp →
      mallocLoop k E s num prevp p = some (s', 0) →
      E.grant s'.brk (((if num < MIN_UNITS then MIN_UNITS else num) * 16) %
        18446744073709551616) = false ∧
      s'.usedp = s.usedp ∧
      ∀ x ∈ U, getSize s'.mem x = getSize s.mem x ∧ getNext s'.mem x = getNext s.mem x := by
  intro k
  induction k with
  | zero => intro s F U prevp p s' _ _ _ h; simp [mallocLoop] at h
  | succ k ih =>
    intro s F U prevp p s' hR hpp hp h
    unfold mallocLoop at h
    by_cases hsz : getSize s.mem p ≥ num
    · rw [if_pos hsz] at h
      have e2 : (takeBlock s num prevp p).2 = 0 := congrArg Prod.snd (Option.some.inj h)
      obtain ⟨F', q, _, t2, _⟩ := takeBlock_spec E s F U hR num prevp p hnum hpp hp hsz
      omega
    · rw [if_neg hsz] at h
      by_cases hpf : p = s.freep
      · rw [if_pos hpf] at h
        cases hmc : morecore k E s num with
        | none => rw [hmc] at h; cases h
        | some o =>
          cases o with
          | none =>
            rw [hmc] at h
            have e1 : s = s' := congrArg Prod.fst (Option.some.inj h)
            rw [← e1]
            exact ⟨morecore_refused k E s num hmc, rfl, fun _ _ => ⟨rfl, rfl⟩⟩
          | some s1 =>
            rw [hmc] at h
            obtain ⟨F1, m1, m2, m3, _⟩ := morecore_spec E s F U hR hW k num s1 hmc
            obtain ⟨i1, i2, i3⟩ := ih s1 F1 U s1.freep _ s' m1 m1.free.freep_mem rfl h
            refine ⟨i1, by rw [i2, m3], ?_⟩
            intro x hx
            rw [(i3 x hx).1, (i3 x hx).2]
            exact m2 x hx
      · rw [if_neg hpf] at h
        have hpn : p = E.base ∨ p ∈ F := by rw [hp]; exact hR.free.next_mem prevp hpp
        exact ih s F U p _ s' hR hpn rfl h

/-- A `GC_malloc` that returns the null pointer: its last extension request was
refused and the registry is untouched. -/
theorem GC_malloc_null (E : Env) (hW : WellBehaved E) (s s' : State) (F U : List Nat)
    (hR : Rep E s F U) (k n : Nat) (hm : GC_malloc k E s n = some (s', 0)) :
    E.grant s'.brk (((if num_units n < MIN_UNITS then MIN_UNITS else num_units n) * 16) %
        18446744073709551616) = false ∧
      s'.usedp = s.usedp ∧
      ∀ x ∈ U, getSize s'.mem x = getSize s.mem x ∧ getNext s'.mem x = getNext s.mem x := by
  unfold GC_malloc at hm
  have hfp : s.freep ≠ 0 := by
    rcases hR.free.freep_mem with h1 | h1
    · have := hR.base_pos; omega
    · have := hR.free.blk _ h1; omega
  simp only [if_neg hfp] at hm
  exact mallocLoop_null E hW (num_units n) (num_units_bounds n).1 k s F U s.freep _ s' hR
    hR.free.freep_mem rfl hm

/-! ## What the single pass of `scan_heap` marks -/

theorem heapMark_hit (E : Env) (s : State) (F U : List Nat) (hR : Rep E s F U) (a v b : Nat)
    (hb : b ∈ U) (hba : b ≠ a) (hh : hits s.mem b v) :
    ∀ (l done : List Nat) (k : Nat) (m' : Mem), U = done ++ l → done ≠ [] → b ∈ l →
      heapMark k s.mem s.usedp a v (l.headD 0) = some m' → markBit (getNext m' b) = 1 := by
  intro l
  induction l with
  | nil => intro done k m' _ _ hbl _; simp at hbl
  | cons bp rest ih =>
    intro done k m' hUl hdone hbl h
    have hU := hR.used
    have hbpU : bp ∈ U := by rw [hUl]; simp
    cases k with
    | zero => simp [heapMark] at h
    | succ k =>
      simp only [List.headD_cons] at h
      unfold heapMark at h
      by_cases hhit : bp ≠ a ∧ hits s.mem bp v
      · rw [if_pos hhit] at h
        have hm := Option.some.inj h
        have hbe : bp = b := hR.hits_unique bp b v hbpU hb hhit.2 hh
        rw [← hm, ← hbe, getNext_setNext_same]
        have := hR.next_lt bp hbpU
        unfold markBit setMark
        omega
      · rw [if_neg hhit] at h
        have hne : b ≠ bp := fun e => hhit ⟨e ▸ hba, e ▸ hh⟩
        have hbr : b ∈ rest := by
          rcases List.mem_cons.1 hbl with h1 | h1
          · exact absurd h1 hne
          · exact h1
        cases rest with
        | nil => simp at hbr
        | cons c rest' =>
          have hcU : c ∈ U := by rw [hUl]; simp
          have hL : Links s.mem U (U.headD 0) := hU.links
          have hL' : Links s.mem (done ++ bp :: c :: rest') (U.headD 0) := by rw [← hUl]; exact hL
          rw [Links.append] at hL'
          have hl : lnk s.mem bp c := hL'.2.1
          have hnx : UNTAG (getNext s.mem bp) = c := lnk_untag hl (hU.blk c hcU).1
          have hcu : c ≠ s.usedp := by
            intro e
            have hnd : (done ++ bp :: c :: rest').Nodup := by rw [← hUl]; exact hU.nodup
            have hhead : s.usedp = (done ++ bp :: c :: rest').headD 0 := by
              rw [← hUl]; exact hU.head
            rw [List.nodup_append] at hnd
            cases done with
            | nil => exact hdone rfl
            | cons d done' =>
              simp only [List.cons_append, List.headD_cons] at hhead
              exact hnd.2.2 (by rw [← hhead, ← e]; exact List.mem_cons_self _ _)
                (List.mem_cons_of_mem _ (List.mem_cons_self _ _))
          rw [hnx, if_pos hcu] at h
          exact ih (done ++ [bp]) k m' (by rw [hUl]; simp) (by simp) hbr h

/-- A payload word is not the `next` field of a registered block. -/
theorem Rep.payload_word {E : Env} {s : State} {F U : List Nat} (hR : Rep E s F U) (a w : Nat)
    (ha : a ∈ U) (h1 : a + 16 ≤ w) (h2 : w + 8 ≤ a + 16 * getSize s.mem a) :
    ∀ x ∈ U, w ≠ x + 8 := by
  intro x hx
  have hxb := hR.used.blk x hx
  by_cases hlt : x < a
  · have := hR.used.disj x hx a ha hlt; omega
  · by_cases hgt : a < x
    · have := hR.used.disj a ha x hx hgt; omega
    · omega

/-- The state of a reference from the payload of `a` into the payload of `b`
under marking. -/
theorem SameLinks.keep_ref {E : Env} {s : State} {F U : List Nat} (hR : Rep E s F U) {m' : Mem}
    (hS : SameLinks U s.mem m') (a w b : Nat) (ha : a ∈ U) (hb : b ∈ U) (h1 : a + 16 ≤ w)
    (h2 : w + 8 ≤ a + 16 * getSize s.mem a) (hh : hits s.mem b (s.mem w)) :
    w + 8 ≤ a + 16 * getSize m' a ∧ hits m' b (m' w) := by
  have e1 := hS.size_eq hR a ha
  have e2 := hS.size_eq hR b hb
  have e3 : m' w = s.mem w := hS.1 w (hR.payload_word a w ha h1 h2)
  refine ⟨by rw [e1]; exact h2, ?_⟩
  unfold hits at hh ⊢
  rw [e2, e3]
  exact hh

theorem Rep.padd_end {E : Env} {s : State} {F U : List Nat} (hR : Rep E s F U) (a : Nat)
    (ha : a ∈ U) : padd a (1 + getSize s.mem a) = a + 16 + 16 * getSize s.mem a ∧
      padd a 1 = a + 16 := by
  have := hR.used.blk a ha
  have := hR.free.brk_le
  unfold padd
  constructor <;> omega

/-- The anchor is not among the blocks behind a non-empty front part of the
registry list. -/
theorem URep.tail_ne_anchor {E : Env} {s : State} {U : List Nat} (hU : URep E s U)
    (done l : List Nat) (hUl : U = done ++ l) (hdone : done ≠ []) (x : Nat) (hx : x ∈ l) :
    x ≠ s.usedp := by
  intro e
  have hnd : (done ++ l).Nodup := by rw [← hUl]; exact hU.nodup
  have hhead : s.usedp = (done ++ l).headD 0 := by rw [← hUl]; exact hU.head
  rw [List.nodup_append] at hnd
  cases done with
  | nil => exact hdone rfl
  | cons d done' =>
    simp only [List.cons_append, List.headD_cons] at hhead
    exact hnd.2.2 (by rw [← hhead, ← e]; exact List.mem_cons_self _ _) hx

/-- The first block behind the anchor. -/
theorem URep.anchor_next {E : Env} {s : State} {U : List Nat} (hU : URep E s U) (u0 c : Nat)
    (R : List Nat) (hUc : U = u0 :: c :: R) : UNTAG (getNext s.mem s.usedp) = c := by
  have hl := hU.links
  have hh := hU.head
  rw [hUc] at hl hh
  have hc : c ∈ U := by rw [hUc]; simp
  have : s.usedp = u0 := hh
  rw [this]
  exact lnk_untag hl.1 (hU.blk c hc).1

/-- Scanning the words of block `a` marks the block `b` that one of its payload
words points into. -/
theorem heapWords_hit (E : Env) (F U : List Nat) (a b w u0 : Nat) (R : List Nat)
    (hUc : U = u0 :: R) (ha : a ∈ U) (hbR : b ∈ R) (hba : b ≠ a) :
    ∀ (k : Nat) (s : State) (vp : Nat) (m' : Mem), Rep E s F U → a + 16 ≤ vp → vp ≤ w →
      (w - vp) % 8 = 0 → w + 8 ≤ a + 16 * getSize s.mem a → hits s.mem b (s.mem w) →
      heapWords k s.mem s.brk s.usedp a vp = some m' → markBit (getNext m' b) = 1 := by
  have hb : b ∈ U := by rw [hUc]; exact List.mem_cons_of_mem _ hbR
  intro k
  induction k with
  | zero => intro s vp m' _ _ _ _ _ _ h; simp [heapWords] at h
  | succ k ih =>
    intro s vp m' hR hlo hle hal hw hh h
    have hu : s.usedp ∈ U := by
      have := hR.used.head
      rw [hUc] at this
      rw [this, hUc]
      exact List.mem_cons_self _ _
    have hend := (hR.padd_end a ha).1
    have hbrk := hR.free.brk_le
    have hab := hR.used.blk a ha
    unfold heapWords at h
    rw [hend, if_pos (by omega)] at h
    by_cases hg : vp + 8 ≤ s.brk
    swap
    · rw [if_neg hg] at h; cases h
    rw [if_pos hg] at h
    cases hm : heapMark k s.mem s.usedp a (s.mem vp) (UNTAG (getNext s.mem s.usedp)) with
    | none => rw [hm] at h; cases h
    | some m1 =>
      rw [hm] at h
      have g1 := heapMark_same E s F U hR a (s.mem vp) k _ m1 (hR.used.untag_next_mem _ hu) hm
      have hR1 := hR.with_marks m1 g1
      by_cases hvw : vp = w
      · have hmark : markBit (getNext m1 b) = 1 := by
          cases R with
          | nil => simp at hbR
          | cons c R' =>
            have hst := hR.used.anchor_next u0 c R' hUc
            rw [hst, hvw] at hm
            exact heapMark_hit E s F U hR a (s.mem w) b hb hba hh (c :: R') [u0] k m1
              (by rw [hUc]; rfl) (by simp) hbR hm
        have g2 := heapWords_same E F U a k { s with mem := m1 } _ m' hR1 hu h
        exact g2.mark_mono b hb hmark
      · obtain ⟨k1, k2⟩ := g1.keep_ref hR a w b ha hb (by omega) hw hh
        have hnext : (vp + 8) % 18446744073709551616 = vp + 8 := by omega
        rw [hnext] at h
        exact ih { s with mem := m1 } (vp + 8) m' hR1 (by omega) (by omega) (by omega) k1 k2 h

/-- The pass of `scan_heap` marks the block `b` when it visits a marked block `a`
one of whose payload words points into `b`. -/
theorem heapBlocks_hit (E : Env) (F U : List Nat) (a b w u0 : Nat) (R : List Nat)
    (hUc : U = u0 :: R) (hbR : b ∈ R) (hba : b ≠ a) (hw0 : w % 8 = 0) (hw1 : a + 16 ≤ w) :
    ∀ (l done : List Nat) (k : Nat) (s : State) (m' : Mem), Rep E s F U → U = done ++ l →
      done ≠ [] → a ∈ l → markBit (getNext s.mem a) = 1 →
      w + 8 ≤ a + 16 * getSize s.mem a → hits s.mem b (s.mem w) →
      heapBlocks k s.mem s.brk s.usedp (l.headD 0) = some m' → markBit (getNext m' b) = 1 := by
  have hb : b ∈ U := by rw [hUc]; exact List.mem_cons_of_mem _ hbR
  intro l
  induction l with
  | nil => intro done k s m' _ _ _ hal _ _ _ _; simp at hal
  | cons bp rest ih =>
    intro done k s m' hR hUl hdone hal hma hw hh h
    have hu : s.usedp ∈ U := by
      have := hR.used.head
      rw [hUc] at this
      rw [this, hUc]
      exact List.mem_cons_self _ _
    have hbpU : bp ∈ U := by rw [hUl]; simp
    have haU : a ∈ U := by rw [hUl]; exact List.mem_append_right _ hal
    have hbpu : bp ≠ s.usedp :=
      hR.used.tail_ne_anchor done (bp :: rest) hUl hdone bp (List.mem_cons_self _ _)
    cases k with
    | zero => simp [heapBlocks] at h
    | succ k =>
      simp only [List.headD_cons] at h
      unfold heapBlocks at h
      rw [if_pos hbpu] at h
      by_cases hbpa : bp = a
      · have hnz : ¬ markBit (getNext s.mem bp) = 0 := by rw [hbpa, hma]; omega
        rw [if_neg hnz] at h
        cases hm : heapWords k s.mem s.brk s.usedp bp (padd bp 1) with
        | none => rw [hm] at h; cases h
        | some m1 =>
          rw [hm] at h
          have g1 := heapWords_same E F U bp k s _ m1 hR hu hm
          have hR1 := hR.with_marks m1 g1
          rw [hbpa, (hR.padd_end a haU).2] at hm
          have haal := (hR.used.blk a haU).1
          have hmark := heapWords_hit E F U a b w u0 R hUc haU hbR hba k s (a + 16) m1 hR
            (le_refl _) hw1 (by omega) hw hh hm
          have hmem : UNTAG (getNext m1 bp) ∈ U := by
            rw [hR.untag_same m1 g1 bp hbpU]
            exact hR.used.untag_next_mem bp hbpU
          have g2 := heapBlocks_same E F U k { s with mem := m1 } _ m' hR1 hu hmem h
          exact g2.mark_mono b hb hmark
      · have har : a ∈ rest := by
          rcases List.mem_cons.1 hal with h1 | h1
          · exact absurd h1.symm hbpa
          · exact h1
        cases rest with
        | nil => simp at har
        | cons c rest' =>
          have hcU : c ∈ U := by rw [hUl]; simp
          have hL' : Links s.mem (done ++ bp :: c :: rest') (U.headD 0) := by
            rw [← hUl]; exact hR.used.links
          rw [Links.append] at hL'
          have hnx : UNTAG (getNext s.mem bp) = c := lnk_untag hL'.2.1 (hR.used.blk c hcU).1
          by_cases hmz : markBit (getNext s.mem bp) = 0
          · rw [if_pos hmz, hnx] at h
            exact ih (done ++ [bp]) k s m' hR (by rw [hUl]; simp) (by simp) har hma hw hh h
          · rw [if_neg hmz] at h
            cases hm : heapWords k s.mem s.brk s.usedp bp (padd bp 1) with
            | none => rw [hm] at h; cases h
            | some m1 =>
              rw [hm] at h
              simp only [] at h
              have g1 := heapWords_same E F U bp k s _ m1 hR hu hm
              have hR1 := hR.with_marks m1 g1
              rw [hR.untag_same m1 g1 bp hbpU, hnx] at h
              obtain ⟨k1, k2⟩ := g1.keep_ref hR a w b haU hb hw1 hw hh
              exact ih (done ++ [bp]) k { s with mem := m1 } m' hR1 (by rw [hUl]; simp) (by simp)
                har (g1.mark_mono a haU hma) k1 k2 h

/-! ## C6: a failing `GC_malloc` -/

/-- C6 (amended): in a reachable state, (1) for every byte count a `GC_malloc`
that returns the null pointer leaves the live registry as it was (the anchor
`usedp` and the `size` and `next` fields of every registered block); (2) for a
byte count whose request, added to the present heap, stays below `2^36` bytes
above the sentinel, it leaves the whole state (memory, hence the free list with
its sizes and links and the registry, the cursor `freep`, the anchor `usedp` and
the break) exactly as it was. -/
theorem allocate_failure_atomic (E : Env) (hW : WellBehaved E) (s : State) (h : Reach E s)
    (k n : Nat) (s' : State) (hm : GC_malloc k E s n = some (s', 0)) :
    (s'.usedp = s.usedp ∧ ∀ x, InRegistry s x →
      getSize s'.mem x = getSize s.mem x ∧ getNext s'.mem x = getNext s.mem x) ∧
    (s.brk + 16 * (if num_units n < MIN_UNITS then MIN_UNITS else num_units n) <
      E.base + 68719476736 → s' = s) := by
  obtain ⟨F, U, hR, _⟩ := (h.inv hW).1
  obtain ⟨_, g2, g3⟩ := GC_malloc_null E hW s s' F U hR k n hm
  refine ⟨⟨g2, fun x hx => g3 x (hx.mem_reg hR.used)⟩, ?_⟩
  intro hspan
  rcases GC_malloc_outcome E hW k s s' n 0 F U hR hspan hm with
    ⟨_, q, _, h1, _⟩ | ⟨h1, _⟩ | ⟨_, q, _, h1, _⟩
  · omega
  · exact h1
  · omega

theorem some_null_of_isSome (o : Option (State × Nat)) (d : State × Nat)
    (h : o.isSome = true) (h0 : (o.getD d).2 = 0) : o = some ((o.getD d).1, 0) := by
  cases o with
  | none => cases h
  | some a =>
    obtain ⟨a1, a2⟩ := a
    simp only [Option.getD_some] at h0 ⊢
    rw [h0]

theorem allocate_failure_atomic_witness :
    ((demoAlloc 2).usedp = 12208 ∧ InRegistry (demoAlloc 2) 12128 ∧
      getSize (demoAlloc 2).mem 12128 = 5 ∧ (demoAlloc 2).freep = 1024 ∧
      getNext (demoAlloc 2).mem 1024 = 8192 ∧ getSize (demoAlloc 2).mem 8192 = 246 ∧
      getNext (demoAlloc 2).mem 8192 = 1024) ∧
    (GC_malloc 8 demoEnv (demoAlloc 2) 1048576).map (fun r => r.2) = some 0 ∧
    (((GC_malloc 8 demoEnv (demoAlloc 2) 1048576).getD (demoInit, 0)).1.usedp =
        (demoAlloc 2).usedp ∧
      getSize ((GC_malloc 8 demoEnv (demoAlloc 2) 1048576).getD (demoInit, 0)).1.mem 12128 =
        getSize (demoAlloc 2).mem 12128 ∧
      getNext ((GC_malloc 8 demoEnv (demoAlloc 2) 1048576).getD (demoInit, 0)).1.mem 12128 =
        getNext (demoAlloc 2).mem 12128) ∧
    ((GC_malloc 8 demoEnv (demoAlloc 2) 1048576).getD (demoInit, 0)).1 = demoAlloc 2 :=
  ⟨⟨by decide, ⟨by decide, 1, by decide⟩, by decide, by decide, by decide, by decide,
      by decide⟩,
    by decide,
    ⟨(allocate_failure_atomic demoEnv demoEnv_wellBehaved (demoAlloc 2) demoAlloc2_reach 8
        1048576 _ (some_null_of_isSome _ (demoInit, 0) (by decide) (by decide))).1.1,
      (allocate_failure_atomic demoEnv demoEnv_wellBehaved (demoAlloc 2) demoAlloc2_reach 8
        1048576 _ (some_null_of_isSome _ (demoInit, 0) (by decide) (by decide))).1.2 12128
        ⟨by decide, 1, by decide⟩⟩,
    (allocate_failure_atomic demoEnv demoEnv_wellBehaved (demoAlloc 2) demoAlloc2_reach 8
      1048576 _ (some_null_of_isSome _ (demoInit, 0) (by decide) (by decide))).2 (by decide)⟩

/-- C6 (counterexample): in the reachable state `bigInit`, whose free list holds
the sentinel alone, `GC_malloc(2^36)` returns the null pointer because its second
extension request is refused; the first one was granted, so the break has moved
by `2^36 + 16` bytes and the free list has the new member `8192`, whose 32-bit
size field holds `1`. -/
theorem failed_allocate_changes_free_list :
    WellBehaved bigEnv ∧ Reach bigEnv bigInit ∧ getNext bigInit.mem 1024 = 1024 ∧ bigInit.brk = 8192 ∧
      (GC_malloc 8 bigEnv bigInit 68719476736).map
        (fun x => (x.2, getNext x.1.mem 1024, getSize x.1.mem 8192, x.1.brk, x.1.freep)) =
        some (0, 8192, 1, 68719484944, 1024) :=
  ⟨bigEnv_wellBehaved, bigInit_reach, by decide, by decide, by decide⟩

/-! ## The scans return -/

/-- The last block of the registry list links back to the anchor. -/
theorem URep.last_next {E : Env} {s : State} {U : List Nat} (hU : URep E s U) (done : List Nat)
    (bp : Nat) (hUl : U = done ++ [bp]) : UNTAG (getNext s.mem bp) = s.usedp := by
  have hL : Links s.mem (done ++ [bp]) (U.headD 0) := by rw [← hUl]; exact hU.links
  rw [Links.append] at hL
  have hl : lnk s.mem bp (U.headD 0) := hL.2.1
  have hmem : U.headD 0 ∈ U := by
    cases hUc : U with
    | nil => rw [hUc] at hUl; simp at hUl
    | cons a t => simp
  rw [hU.head]
  exact lnk_untag hl (hU.blk _ hmem).1

/-- The successor of a block that is not the last one of the registry list. -/
theorem URep.mid_next {E : Env} {s : State} {U : List Nat} (hU : URep E s U) (done : List Nat)
    (bp c : Nat) (rest : List Nat) (hUl : U = done ++ bp :: c :: rest) :
    UNTAG (getNext s.mem bp) = c := by
  have hL : Links s.mem (done ++ bp :: c :: rest) (U.headD 0) := by rw [← hUl]; exact hU.links
  rw [Links.append] at hL
  have hc : c ∈ U := by rw [hUl]; simp
  exact lnk_untag hL.2.1 (hU.blk c hc).1

theorem markWalk_returns (E : Env) (s : State) (F U : List Nat) (hR : Rep E s F U) (v : Nat) :
    ∀ (l done : List Nat) (k : Nat), U = done ++ l → l ≠ [] → l.length ≤ k →
      ∃ m', markWalk k s.mem s.usedp v (l.headD 0) = some m' := by
  intro l
  induction l with
  | nil => intro done k _ hne _; exact absurd rfl hne
  | cons bp rest ih =>
    intro done k hUl _ hk
    obtain ⟨k', rfl⟩ : ∃ k', k = k' + 1 := ⟨k - 1, by simp only [List.length_cons] at hk; omega⟩
    simp only [List.headD_cons]
    unfold markWalk
    by_cases hhit : hits s.mem bp v
    · rw [if_pos hhit]; exact ⟨_, rfl⟩
    · rw [if_neg hhit]
      by_cases hnx : UNTAG (getNext s.mem bp) ≠ s.usedp
      · rw [if_pos hnx]
        cases rest with
        | nil => exact absurd (hR.used.last_next done bp hUl) hnx
        | cons c rest' =>
          rw [hR.used.mid_next done bp c rest' hUl]
          have := ih (done ++ [bp]) k' (by rw [hUl]; simp) (by simp)
            (by simp only [List.length_cons] at hk ⊢; omega)
          simpa using this
      · rw [if_neg hnx]; exact ⟨_, rfl⟩

theorem heapMark_returns (E : Env) (s : State) (F U : List Nat) (hR : Rep E s F U) (a v : Nat) :
    ∀ (l done : List Nat) (k : Nat), U = done ++ l → l ≠ [] → l.length ≤ k →
      ∃ m', heapMark k s.mem s.usedp a v (l.headD 0) = some m' := by
  intro l
  induction l with
  | nil => intro done k _ hne _; exact absurd rfl hne
  | cons bp rest ih =>
    intro done k hUl _ hk
    obtain ⟨k', rfl⟩ : ∃ k', k = k' + 1 := ⟨k - 1, by simp only [List.length_cons] at hk; omega⟩
    simp only [List.headD_cons]
    unfold heapMark
    by_cases hhit : bp ≠ a ∧ hits s.mem bp v
    · rw [if_pos hhit]; exact ⟨_, rfl⟩
    · rw [if_neg hhit]
      by_cases hnx : UNTAG (getNext s.mem bp) ≠ s.usedp
      · rw [if_pos hnx]
        cases rest with
        | nil => exact absurd (hR.used.last_next done bp hUl) hnx
        | cons c rest' =>
          rw [hR.used.mid_next done bp c rest' hUl]
          have := ih (done ++ [bp]) k' (by rw [hUl]; simp) (by simp)
            (by simp only [List.length_cons] at hk ⊢; omega)
          simpa using this
      · rw [if_neg hnx]; exact ⟨_, rfl⟩

/-- A walk that starts at any registered block returns within `|U|` steps. -/
theorem split_at_mem (U : List Nat) (x : Nat) (hx : x ∈ U) :
    ∃ done l, U = done ++ l ∧ l ≠ [] ∧ l.headD 0 = x ∧ l.length ≤ U.length := by
  obtain ⟨d, t, e⟩ := List.append_of_mem hx
  refine ⟨d, x :: t, e, by simp, rfl, ?_⟩
  rw [e]
  simp

theorem scanWords_returns (E : Env) (F U : List Nat) (k : Nat) (hk : U.length ≤ k) :
    ∀ (ws : List Nat) (s : State), Rep E s F U → s.usedp ≠ 0 →
      ∃ m', scanWords k s.mem s.usedp ws = some m' := by
  intro ws
  induction ws with
  | nil => intro s _ _; exact ⟨_, rfl⟩
  | cons v vs ih =>
    intro s hR hu
    have hum := hR.used.usedp_mem hu
    obtain ⟨done, l, e1, e2, e3, e4⟩ := split_at_mem U s.usedp hum
    obtain ⟨m1, hm1⟩ := markWalk_returns E s F U hR v l done k e1 e2 (by omega)
    rw [e3] at hm1
    have g1 := markWalk_same E s F U hR v k s.usedp m1 hum hm1
    obtain ⟨m2, hm2⟩ := ih { s with mem := m1 } (hR.with_marks m1 g1) hu
    refine ⟨m2, ?_⟩
    simp only [scanWords, hm1]
    exact hm2

theorem scan_region_returns (E : Env) (s : State) (F U : List Nat) (k : Nat) (ws : List Nat)
    (hR : Rep E s F U) (hu : s.usedp ≠ 0) (hk : U.length ≤ k) :
    ∃ s', scan_region k s ws = some s' := by
  obtain ⟨m', hm⟩ := scanWords_returns E F U k hk ws s hR hu
  unfold scan_region
  rw [hm]
  exact ⟨_, rfl⟩

theorem heapWords_returns (E : Env) (F U : List Nat) (a : Nat) (ha : a ∈ U) :
    ∀ (n k : Nat) (s : State) (vp : Nat), Rep E s F U → s.usedp ≠ 0 →
      a + 16 * getSize s.mem a + 16 ≤ s.brk → (a + 16 + 16 * getSize s.mem a - vp) % 8 = 0 →
      a + 16 + 16 * getSize s.mem a ≤ vp + 8 * n → vp ≤ a + 16 + 16 * getSize s.mem a + 8 →
      n + U.length < k →
      ∃ m', heapWords k s.mem s.brk s.usedp a vp = some m' := by
  intro n
  induction n with
  | zero =>
    intro k s vp hR _ _ _ hn _ hk
    obtain ⟨k', rfl⟩ : ∃ k', k = k' + 1 := ⟨k - 1, by omega⟩
    unfold heapWords
    rw [(hR.padd_end a ha).1, if_neg (by omega)]
    exact ⟨_, rfl⟩
  | succ n ih =>
    intro k s vp hR hu hin hal hn hvp hk
    obtain ⟨k', rfl⟩ : ∃ k', k = k' + 1 := ⟨k - 1, by omega⟩
    have hum := hR.used.usedp_mem hu
    unfold heapWords
    rw [(hR.padd_end a ha).1]
    by_cases hlt : vp < a + 16 + 16 * getSize s.mem a
    · rw [if_pos hlt, if_pos (by omega)]
      have hst := hR.used.untag_next_mem _ hum
      obtain ⟨done, l, e1, e2, e3, e4⟩ := split_at_mem U _ hst
      obtain ⟨m1, hm1⟩ := heapMark_returns E s F U hR a (s.mem vp) l done k' e1 e2 (by omega)
      rw [e3] at hm1
      rw [hm1]
      have g1 := heapMark_same E s F U hR a (s.mem vp) k' _ m1 hst hm1
      have hR1 := hR.with_marks m1 g1
      have esz := g1.size_eq hR a ha
      have hab := hR.used.blk a ha
      have hbrk := hR.free.brk_le
      have hnext : (vp + 8) % 18446744073709551616 = vp + 8 := by omega
      rw [hnext]
      exact ih k' { s with mem := m1 } (vp + 8) hR1 hu
        (by show a + 16 * getSize m1 a + 16 ≤ s.brk; rw [esz]; exact hin)
        (by show (a + 16 + 16 * getSize m1 a - (vp + 8)) % 8 = 0; rw [esz]; omega)
        (by show a + 16 + 16 * getSize m1 a ≤ _; rw [esz]; omega)
        (by show _ ≤ a + 16 + 16 * getSize m1 a + 8; rw [esz]; omega) (by omega)
    · rw [if_neg hlt]
      exact ⟨_, rfl⟩

theorem heapBlocks_returns (E : Env) (F U : List Nat) :
    ∀ (l done : List Nat) (k : Nat) (s : State), Rep E s F U → s.usedp ≠ 0 → U = done ++ l →
      (l = [] → done ≠ []) →
      (∀ x ∈ U, x ≠ s.usedp → x + 16 * getSize s.mem x + 16 ≤ s.brk) →
      l.length + 8589934594 + U.length < k →
      ∃ m', heapBlocks k s.mem s.brk s.usedp (l.headD s.usedp) = some m' := by
  intro l
  induction l with
  | nil =>
    intro done k s _ _ _ _ _ hk
    obtain ⟨k', rfl⟩ : ∃ k', k = k' + 1 := ⟨k - 1, by omega⟩
    simp only [List.headD_nil]
    unfold heapBlocks
    rw [if_neg (by simp)]
    exact ⟨_, rfl⟩
  | cons bp rest ih =>
    intro done k s hR hu hUl _ hB hk
    obtain ⟨k', rfl⟩ : ∃ k', k = k' + 1 := ⟨k - 1, by omega⟩
    have hum := hR.used.usedp_mem hu
    have hbpU : bp ∈ U := by rw [hUl]; simp
    simp only [List.headD_cons]
    unfold heapBlocks
    by_cases hbpu : bp ≠ s.usedp
    · rw [if_pos hbpu]
      have hnext : UNTAG (getNext s.mem bp) = rest.headD s.usedp := by
        cases rest with
        | nil => exact hR.used.last_next done bp hUl
        | cons c rest' => exact hR.used.mid_next done bp c rest' hUl
      by_cases hmz : markBit (getNext s.mem bp) = 0
      · rw [if_pos hmz, hnext]
        exact ih (done ++ [bp]) k' s hR hu (by rw [hUl]; simp) (fun _ => by simp) hB
          (by simp only [List.length_cons] at hk; omega)
      · rw [if_neg hmz]
        have hbb := hR.used.blk bp hbpU
        have hsz := getSize_lt s.mem bp
        obtain ⟨m1, hm1⟩ := heapWords_returns E F U bp hbpU (2 * getSize s.mem bp) k' s
          (padd bp 1) hR hu (hB bp hbpU hbpu) (by rw [(hR.padd_end bp hbpU).2]; omega)
          (by rw [(hR.padd_end bp hbpU).2]; omega)
          (by rw [(hR.padd_end bp hbpU).2]; omega)
          (by simp only [List.length_cons] at hk; omega)
        rw [hm1]
        have g1 := heapWords_same E F U bp k' s _ m1 hR hum hm1
        have hR1 := hR.with_marks m1 g1
        show ∃ m', heapBlocks k' m1 s.brk s.usedp (UNTAG (getNext m1 bp)) = some m'
        rw [hR.untag_same m1 g1 bp hbpU, hnext]
        exact ih (done ++ [bp]) k' { s with mem := m1 } hR1 hu (by rw [hUl]; simp)
          (fun _ => by simp)
          (fun x hx hxu => by
            show x + 16 * getSize m1 x + 16 ≤ s.brk
            rw [g1.size_eq hR x hx]
            exact hB x hx hxu)
          (by simp only [List.length_cons] at hk; omega)
    · rw [if_neg hbpu]
      exact ⟨_, rfl⟩

theorem scan_heap_returns (E : Env) (s : State) (F U : List Nat) (k : Nat)
    (hR : Rep E s F U) (hu : s.usedp ≠ 0)
    (hB : ∀ x ∈ U, x ≠ s.usedp → x + 16 * getSize s.mem x + 16 ≤ s.brk)
    (hk : 2 * U.length + 8589934594 < k) :
    ∃ s', scan_heap k s = some s' := by
  have hum := hR.used.usedp_mem hu
  have hst := hR.used.untag_next_mem _ hum
  obtain ⟨done, l, e1, e2, e3, e4⟩ := split_at_mem U _ hst
  have e5 : l.headD s.usedp = UNTAG (getNext s.mem s.usedp) := by
    cases l with
    | nil => exact absurd rfl e2
    | cons c t => exact e3
  obtain ⟨m', hm⟩ := heapBlocks_returns E F U l done k s hR hu e1 (fun h => absurd h e2) hB
    (by omega)
  rw [e5] at hm
  unfold scan_heap
  rw [hm]
  exact ⟨_, rfl⟩

/-! ## The sweep and `GC_collect` return -/

theorem sweep_returns (E : Env) :
    ∀ (Q : List Nat) (k : Nat) (s : State) (F K : List Nat) (u0 : Nat),
      Rep E s F (u0 :: K ++ Q) → (∀ x ∈ K, markBit (getNext s.mem x) = 0) →
      3 * Q.length + 2 * F.length + 4 ≤ k →
      ∃ res, sweep k s (K.getLastD u0) (Q.headD u0) = some res := by
  intro Q
  induction Q with
  | nil =>
    intro k s F K u0 hR _ hk
    obtain ⟨k', rfl⟩ : ∃ k', k = k' + 1 := ⟨k - 1, by omega⟩
    have hus : s.usedp = u0 := hR.used.head
    have hu0 : u0 ∈ u0 :: K ++ [] := List.mem_cons_self _ _
    simp only [List.headD_nil]
    unfold sweep
    by_cases hm : markBit (getNext s.mem u0) = 0
    · rw [if_pos hm]
      obtain ⟨s1, hadd⟩ := add_to_free_list_returns E s F u0 k' hR.free (hR.fresh u0 hu0)
        (by simp only [List.length_nil] at hk; omega)
      obtain ⟨F1, _, f2, _⟩ := add_to_free_list_spec E s s1 F u0 k' hR.free (hR.fresh u0 hu0) hadd
      have hs1 : s1.usedp = u0 := by rw [f2]; exact hus
      rw [hadd]
      simp only [if_pos hs1]
      exact ⟨_, rfl⟩
    · rw [if_neg hm]
      simp only [if_pos hus.symm]
      exact ⟨_, rfl⟩
  | cons a Q' ih =>
    intro k s F K u0 hR hK hk
    obtain ⟨k', rfl⟩ : ∃ k', k = k' + 1 := ⟨k - 1, by omega⟩
    have hU := hR.used
    have hus : s.usedp = u0 := hU.head
    have haU : a ∈ u0 :: K ++ a :: Q' := by simp
    have hau : a ≠ u0 := by
      intro e
      have hnd : ((u0 :: K) ++ a :: Q').Nodup := hU.nodup
      rw [List.nodup_append] at hnd
      exact hnd.2.2 (List.mem_cons_self _ _) (by rw [e]; exact List.mem_cons_self _ _)
    simp only [List.headD_cons]
    simp only [List.length_cons] at hk
    unfold sweep
    by_cases hm : markBit (getNext s.mem a) = 0
    · rw [if_pos hm]
      obtain ⟨s1, hadd⟩ := add_to_free_list_returns E s F a k' hR.free (hR.fresh a haU)
        (by omega)
      obtain ⟨F1, g1, g2, g3, g4, _, _, _, _, _, glen, _⟩ :=
        sweep_free_step E s s1 F K Q' u0 a k' hR hK hadd
      have hs1 : ¬ s1.usedp = a := by rw [g4]; exact fun e => hau e.symm
      rw [hadd]
      simp only [if_neg hs1]
      rw [g3] at g1 g2 ⊢
      obtain ⟨res, hres⟩ := ih k' _ F1 K u0 g1 g2 (by omega)
      rw [hres]
      exact ⟨_, rfl⟩
    · rw [if_neg hm]
      have hne : ¬ a = s.usedp := by rw [hus]; exact hau
      simp only [if_neg hne]
      have hME := MarkEq.clear (u0 :: K ++ a :: Q') s.mem a haU
        (by have := hR.next_lt a haU; omega)
      have hR2 : Rep E { s with mem := setNext s.mem a (clearMark (getNext s.mem a)) } F
          (u0 :: (K ++ [a]) ++ Q') := by
        have : u0 :: (K ++ [a]) ++ Q' = u0 :: K ++ a :: Q' := by simp
        rw [this]
        exact hR.of_markEq hME rfl rfl rfl
      have hL : Links s.mem ((u0 :: K) ++ a :: Q') u0 := hU.links
      rw [Links.append] at hL
      have hq : UNTAG (getNext (setNext s.mem a (clearMark (getNext s.mem a))) a) =
          Q'.headD u0 := by
        have hl := hL.2.1
        have hev : Q'.headD u0 % 16 = 0 := by
          cases Q' with
          | nil => exact (hU.blk u0 (List.mem_cons_self _ _)).1
          | cons c t =>
            exact (hU.blk c (List.mem_append_right _ (List.mem_cons_of_mem _
              (List.mem_cons_self _ _)))).1
        have hlt := hR.next_lt a haU
        rw [getNext_setNext_same]
        unfold lnk at hl
        unfold UNTAG clearMark
        rcases hl with h1 | h1 <;> rw [h1] <;> omega
      rw [hq]
      have hK2 : ∀ x ∈ K ++ [a],
          markBit (getNext (setNext s.mem a (clearMark (getNext s.mem a))) x) = 0 := by
        intro x hx
        by_cases hxa : x = a
        · rw [hxa, getNext_setNext_same]
          unfold markBit clearMark; omega
        · rw [getNext_setNext_ne _ _ _ _ hxa]
          rcases List.mem_append.1 hx with h1 | h1
          · exact hK x h1
          · rw [List.mem_singleton] at h1; exact absurd h1 hxa
      have := ih k' _ F (K ++ [a]) u0 hR2 hK2 (by omega)
      rw [getLastD_append_singleton] at this
      exact this

/-- With enough fuel `GC_collect` returns in every state that satisfies the
invariant and in which no registered block other than the anchor ends at the
break, so that `scan_heap` reads inside the heap only. -/
theorem GC_collect_returns (E : Env) (s : State) (F U : List Nat) (hR : Rep E s F U)
    (hB : ∀ x ∈ U, x ≠ s.usedp → x + 16 * getSize s.mem x + 16 ≤ s.brk)
    (statics stack : List Nat) (k : Nat) (hk : 3 * U.length + 2 * F.length + 8589934600 ≤ k) :
    ∃ res, GC_collect k s statics stack = some res := by
  unfold GC_collect
  by_cases hu : s.usedp = 0
  · rw [if_pos hu]; exact ⟨_, rfl⟩
  · rw [if_neg hu]
    obtain ⟨s1, h1⟩ := scan_region_returns E s F U k statics hR hu (by omega)
    obtain ⟨r1, l1, u1, _, b1, _⟩ := scan_region_Rep E s s1 F U k statics hR hu h1
    have hu1 : s1.usedp ≠ 0 := by rw [u1]; exact hu
    obtain ⟨s2, h2⟩ := scan_region_returns E s1 F U k stack r1 hu1 (by omega)
    obtain ⟨r2, l2, u2, _, b2, _⟩ := scan_region_Rep E s1 s2 F U k stack r1 hu1 h2
    have hu2 : s2.usedp ≠ 0 := by rw [u2]; exact hu1
    have hB2 : ∀ x ∈ U, x ≠ s2.usedp → x + 16 * getSize s2.mem x + 16 ≤ s2.brk := by
      intro x hx hxu
      rw [l2.size_eq r1 x hx, l1.size_eq hR x hx, b2, b1]
      exact hB x hx (by rw [u2, u1] at hxu; exact hxu)
    obtain ⟨s3, h3⟩ := scan_heap_returns E s2 F U k r2 hu2 hB2 (by omega)
    obtain ⟨r3, _, u3, _⟩ := scan_heap_Rep E s2 s3 F U k r2 hu2 h3
    rw [h1]
    simp only []
    rw [h2]
    simp only []
    rw [h3]
    simp only []
    cases hUc : U with
    | nil =>
      have := hR.used.head
      rw [hUc] at this
      exact absurd this hu
    | cons u0 R =>
      rw [hUc] at r3
      have hus : s3.usedp = u0 := r3.used.head
      have hl : lnk s3.mem u0 (R.headD u0) := r3.used.links.1
      have hev : R.headD u0 % 16 = 0 := by
        cases R with
        | nil => exact (r3.used.blk u0 (List.mem_cons_self _ _)).1
        | cons c t => exact (r3.used.blk c (by simp)).1
      rw [hus, lnk_untag hl hev]
      have := sweep_returns E R k s3 F [] u0 r3 (fun x hx => by simp at hx)
        (by rw [hUc] at hk; simp only [List.length_cons] at hk; omega)
      exact this

/-- The entry of the walks that start behind the anchor. -/
theorem sweep_entry (E : Env) (s : State) (F U : List Nat) (hR : Rep E s F U)
    (hu : s.usedp ≠ 0) :
    ∃ u0 R, U = u0 :: R ∧ s.usedp = u0 ∧ UNTAG (getNext s.mem s.usedp) = R.headD u0 := by
  cases hUc : U with
  | nil =>
    have := hR.used.head
    rw [hUc] at this
    exact absurd this hu
  | cons u0 R =>
    rw [hUc] at hR
    have hus : s.usedp = u0 := hR.used.head
    have hl : lnk s.mem u0 (R.headD u0) := hR.used.links.1
    have hev : R.headD u0 % 16 = 0 := by
      cases R with
      | nil => exact (hR.used.blk u0 (List.mem_cons_self _ _)).1
      | cons c t => exact (hR.used.blk c (by simp)).1
    exact ⟨u0, R, rfl, hus, by rw [hus, lnk_untag hl hev]⟩

/-! ## C1: which referenced blocks survive a collection -/

/-- A block referenced from the roots is marked when the root scans are done. -/
theorem RootRef.marked {E : Env} {s s1 s2 : State} {F U : List Nat} (hR : Rep E s F U)
    (k : Nat) (statics stack : List Nat) (b : Nat) (hb : RootRef s (statics ++ stack) b)
    (g1 : scan_region k s statics = some s1) (g2 : scan_region k s1 stack = some s2) :
    markBit (getNext s2.mem b) = 1 := by
  obtain ⟨hreg, v, hv, h1, h2⟩ := hb
  have hu : s.usedp ≠ 0 := hreg.1
  have hbU := hreg.mem_reg hR.used
  obtain ⟨r1, l1, u1, _⟩ := scan_region_Rep E s s1 F U k statics hR hu g1
  obtain ⟨_, l2, _⟩ := scan_region_Rep E s1 s2 F U k stack r1 (by rw [u1]; exact hu) g2
  have hh : hits s.mem b v := by
    rw [hR.hits_iff b v hbU]; omega
  rcases List.mem_append.1 hv with hv1 | hv1
  · have := scan_region_hit E s s1 F U k v b statics hR hu hbU hv1 hh g1
    exact l2.mark_mono b hbU this
  · have hh1 : hits s1.mem b v := by
      rw [r1.hits_iff b v hbU, l1.size_eq hR b hbU]
      rw [hR.hits_iff b v hbU] at hh
      exact hh
    exact scan_region_hit E s1 s2 F U k v b stack r1 (by rw [u1]; exact hu) hbU hv1 hh1 g2

/-- The blocks of the registry list are the successive successors of the anchor. -/
theorem URep.regIter_at {E : Env} {s : State} {U : List Nat} (hU : URep E s U) :
    ∀ (n : Nat) (done l : List Nat), done.length = n → U = done ++ l → l ≠ [] →
      regIter s.mem n s.usedp = l.headD 0 := by
  intro n
  induction n with
  | zero =>
    intro done l hlen hUl _
    have hd : done = [] := List.length_eq_zero.1 hlen
    rw [hd, List.nil_append] at hUl
    rw [← hUl]
    exact hU.head
  | succ n ih =>
    intro done l hlen hUl hl
    rcases List.eq_nil_or_concat done with hd | ⟨done1, x, hd⟩
    · rw [hd] at hlen; simp at hlen
    · rw [List.concat_eq_append] at hd
      rw [hd] at hlen hUl
      have hlen1 : done1.length = n := by simpa using hlen
      have hUl1 : U = done1 ++ x :: l := by rw [hUl]; simp
      have h1 := ih done1 (x :: l) hlen1 hUl1 (by simp)
      simp only [List.headD_cons] at h1
      have e : n + 1 = n + 1 := rfl
      rw [regIter_add s.mem n 1 s.usedp, h1]
      cases l with
      | nil => exact absurd rfl hl
      | cons c rest => exact hU.mid_next done1 x c rest hUl1

/-- After as many steps as the registry has blocks the walk is back at the anchor. -/
theorem URep.regIter_wrap {E : Env} {s : State} {U : List Nat} (hU : URep E s U)
    (hne : U ≠ []) : regIter s.mem U.length s.usedp = s.usedp := by
  rcases List.eq_nil_or_concat U with hd | ⟨done1, x, hd⟩
  · exact absurd hd hne
  · rw [List.concat_eq_append] at hd
    have h1 := hU.regIter_at done1.length done1 [x] rfl hd (by simp)
    simp only [List.headD_cons] at h1
    have hl : U.length = done1.length + 1 := by rw [hd]; simp
    rw [hl, regIter_add s.mem done1.length 1 s.usedp, h1]
    exact hU.last_next done1 x hd

/-- A position of the pass of `scan_heap` is an index of the registry list. -/
theorem WalkAt.index {E : Env} {s : State} {U : List Nat} (hU : URep E s U) (hne : U ≠ [])
    {i a : Nat} (h : WalkAt s i a) :
    i < U.length ∧ ∀ done l, U = done ++ l → done.length = i → l.headD 0 = a ∧ l ≠ [] := by
  obtain ⟨h1, h2, h3⟩ := h
  have hlen : 1 ≤ U.length := by
    cases U with
    | nil => exact absurd rfl hne
    | cons x t => simp
  have hi : i < U.length := by
    by_contra hge
    exact h3 U.length hlen (by omega) (hU.regIter_wrap hne)
  refine ⟨hi, ?_⟩
  intro done l hUl hd
  have hl : l ≠ [] := by
    intro e
    rw [e, List.append_nil] at hUl
    rw [hUl] at hi
    omega
  refine ⟨?_, hl⟩
  rw [← hU.regIter_at i done l hd hUl hl]
  exact h2

/-- A scan of the words of a block that returns has read inside the heap only:
the block does not end at the break. -/
theorem heapWords_in_heap (E : Env) (F U : List Nat) (a : Nat) (ha : a ∈ U) :
    ∀ (k : Nat) (s : State) (vp : Nat) (m' : Mem), Rep E s F U → s.usedp ∈ U →
      vp < a + 16 + 16 * getSize s.mem a → (a + 16 + 16 * getSize s.mem a - vp) % 8 = 0 →
      heapWords k s.mem s.brk s.usedp a vp = some m' →
      a + 16 * getSize s.mem a + 16 ≤ s.brk := by
  intro k
  induction k with
  | zero => intro s vp m' _ _ _ _ h; simp [heapWords] at h
  | succ k ih =>
    intro s vp m' hR hu hlt hal h
    have hend := (hR.padd_end a ha).1
    have hbrk := hR.free.brk_le
    have hab := hR.used.blk a ha
    unfold heapWords at h
    rw [hend, if_pos hlt] at h
    by_cases hg : vp + 8 ≤ s.brk
    swap
    · rw [if_neg hg] at h; cases h
    rw [if_pos hg] at h
    cases hm : heapMark k s.mem s.usedp a (s.mem vp) (UNTAG (getNext s.mem s.usedp)) with
    | none => rw [hm] at h; cases h
    | some m1 =>
      rw [hm] at h
      have g1 := heapMark_same E s F U hR a (s.mem vp) k _ m1 (hR.used.untag_next_mem _ hu) hm
      have hR1 := hR.with_marks m1 g1
      have esz := g1.size_eq hR a ha
      by_cases hlast : vp + 8 < a + 16 + 16 * getSize s.mem a
      · have hnext : (vp + 8) % 18446744073709551616 = vp + 8 := by omega
        rw [hnext] at h
        have := ih { s with mem := m1 } (vp + 8) m' hR1 hu
          (by show vp + 8 < a + 16 + 16 * getSize m1 a; rw [esz]; exact hlast)
          (by show (a + 16 + 16 * getSize m1 a - (vp + 8)) % 8 = 0; rw [esz]; omega) h
        have e2 : a + 16 * getSize m1 a + 16 ≤ s.brk := this
        rw [esz] at e2
        exact e2
      · omega

/-- The single pass of `scan_heap`, from the position `done.length` on: a block
that is marked when the pass visits it has its payload scanned, so that every
block other than the anchor which it references is marked at the end, and it
does not end at the break. -/
theorem heapBlocks_fwd (E : Env) (F U : List Nat) (s0 : State) (roots : List Nat) (u0 : Nat)
    (R : List Nat) (hUc : U = u0 :: R) (hR0 : Rep E s0 F U) :
    ∀ (l done : List Nat) (k : Nat) (s : State) (m' : Mem), Rep E s F U →
      SameLinks U s0.mem s.mem → s.brk = s0.brk → U = done ++ l → done ≠ [] →
      (∀ b, RootRef s0 roots b → markBit (getNext s.mem b) = 1) →
      (∀ i a b, FwdReach s0 roots i a → i < done.length → HeapRef s0 a b → b ≠ u0 →
        markBit (getNext s.mem b) = 1) →
      heapBlocks k s.mem s.brk s.usedp (l.headD u0) = some m' →
      (∀ i a b, FwdReach s0 roots i a → HeapRef s0 a b → b ≠ u0 →
        markBit (getNext m' b) = 1) ∧
      (∀ i a, FwdReach s0 roots i a → done.length ≤ i →
        a + 16 * getSize s0.mem a + 16 ≤ s0.brk) := by
  have hne : U ≠ [] := by rw [hUc]; simp
  have hwalk : ∀ i a, FwdReach s0 roots i a → WalkAt s0 i a := by
    intro i a h
    cases h with
    | root _ _ hi _ => exact hi
    | step _ _ _ _ _ _ hj _ => exact hj
  intro l
  induction l with
  | nil =>
    intro done k s m' hR hS hbrk hUl hdone hroot hprev h
    rw [List.append_nil] at hUl
    have hus : s.usedp = u0 := by
      have := hR.used.head
      rw [hUc] at this
      exact this
    cases k with
    | zero => simp [heapBlocks] at h
    | succ k =>
      simp only [List.headD_nil] at h
      unfold heapBlocks at h
      rw [if_neg (by rw [hus]; simp)] at h
      have e := Option.some.inj h
      rw [← e]
      refine ⟨?_, ?_⟩
      · intro i a b hfr href hbu
        have hi := ((hwalk i a hfr).index hR0.used hne).1
        exact hprev i a b hfr (by rw [← hUl]; exact hi) href hbu
      · intro i a hfr hle
        have hi := ((hwalk i a hfr).index hR0.used hne).1
        rw [hUl] at hi
        omega
  | cons bp rest ih =>
    intro done k s m' hR hS hbrk hUl hdone hroot hprev h
    have hus : s.usedp = u0 := by
      have := hR.used.head
      rw [hUc] at this
      exact this
    have hum : s.usedp ∈ U := by rw [hus, hUc]; exact List.mem_cons_self _ _
    have hbpU : bp ∈ U := by rw [hUl]; simp
    have hbpu : bp ≠ s.usedp :=
      hR.used.tail_ne_anchor done (bp :: rest) hUl hdone bp (List.mem_cons_self _ _)
    have hnext : UNTAG (getNext s.mem bp) = rest.headD u0 := by
      cases rest with
      | nil => rw [hR.used.last_next done bp hUl, hus]; rfl
      | cons c rest' => exact hR.used.mid_next done bp c rest' hUl
    have hat : ∀ a, FwdReach s0 roots done.length a → a = bp := by
      intro a hfr
      have := (((hwalk _ a hfr).index hR0.used hne).2 done (bp :: rest) hUl rfl).1
      simp only [List.headD_cons] at this
      exact this.symm
    have hUl2 : U = (done ++ [bp]) ++ rest := by rw [hUl]; simp
    have hlen2 : (done ++ [bp]).length = done.length + 1 := by simp
    cases k with
    | zero => simp [heapBlocks] at h
    | succ k =>
      simp only [List.headD_cons] at h
      unfold heapBlocks at h
      rw [if_pos hbpu] at h
      by_cases hmz : markBit (getNext s.mem bp) = 0
      · rw [if_pos hmz, hnext] at h
        have hnot : ∀ a, ¬ FwdReach s0 roots done.length a := by
          intro a hfr
          have hab := hat a hfr
          have hmk : markBit (getNext s.mem a) = 1 := by
            cases hfr with
            | root _ _ _ hr => exact hroot a hr
            | step i a0 _ _ ha0 hij _ hr =>
              exact hprev i a0 a ha0 hij hr (by rw [hab, ← hus]; exact hbpu)
          rw [hab] at hmk
          omega
        obtain ⟨c1, c2⟩ := ih (done ++ [bp]) k s m' hR hS hbrk hUl2 (by simp) hroot
          (by
            intro i a b hfr hi href hbu
            rw [hlen2] at hi
            by_cases hlt : i < done.length
            · exact hprev i a b hfr hlt href hbu
            · have hie : i = done.length := by omega
              rw [hie] at hfr
              exact absurd hfr (hnot a))
          h
        refine ⟨c1, ?_⟩
        intro i a hfr hle
        by_cases hie : i = done.length
        · rw [hie] at hfr
          exact absurd hfr (hnot a)
        · exact c2 i a hfr (by rw [hlen2]; omega)
      · rw [if_neg hmz] at h
        have hmk : markBit (getNext s.mem bp) = 1 := by
          unfold markBit at hmz ⊢
          omega
        cases hm : heapWords k s.mem s.brk s.usedp bp (padd bp 1) with
        | none => rw [hm] at h; cases h
        | some m1 =>
          rw [hm] at h
          simp only [] at h
          have g1 := heapWords_same E F U bp k s _ m1 hR hum hm
          have hR1 := hR.with_marks m1 g1
          have hbb := hR.used.blk bp hbpU
          have hp1 := (hR.padd_end bp hbpU).2
          have hin : bp + 16 * getSize s.mem bp + 16 ≤ s.brk := by
            rw [hp1] at hm
            exact heapWords_in_heap E F U bp hbpU k s (bp + 16) m1 hR hum (by omega)
              (by omega) hm
          have esz0 := hS.size_eq hR0 bp hbpU
          rw [hR.untag_same m1 g1 bp hbpU, hnext] at h
          obtain ⟨c1, c2⟩ := ih (done ++ [bp]) k { s with mem := m1 } m' hR1
            (hS.trans g1) hbrk hUl2 (by simp)
            (by
              intro b hr
              exact g1.mark_mono b (hr.1.mem_reg hR0.used) (hroot b hr))
            (by
              intro i a b hfr hi href hbu
              rw [hlen2] at hi
              have hbU : b ∈ U := href.1.mem_reg hR0.used
              by_cases hlt : i < done.length
              · exact g1.mark_mono b hbU (hprev i a b hfr hlt href hbu)
              · have hie : i = done.length := by omega
                rw [hie] at hfr
                have hab := hat a hfr
                rw [hab] at href
                by_cases hbe : b = bp
                · rw [hbe]
                  exact g1.mark_mono bp hbpU hmk
                · obtain ⟨_, w, hw0, hw1, hw2, hw3, hw4⟩ := href
                  have hh0 : hits s0.mem b (s0.mem w) := by
                    rw [hR0.hits_iff b _ hbU]; omega
                  obtain ⟨k1, k2⟩ := hS.keep_ref hR0 bp w b hbpU hbU hw1 hw2 hh0
                  have hbR : b ∈ R := by
                    rw [hUc] at hbU
                    rcases List.mem_cons.1 hbU with h2 | h2
                    · exact absurd h2 hbu
                    · exact h2
                  rw [hp1] at hm
                  exact heapWords_hit E F U bp b w u0 R hUc hbpU hbR hbe k s (bp + 16) m1 hR
                    (le_refl _) hw1 (by omega) k1 k2 hm)
            h
          refine ⟨c1, ?_⟩
          intro i a hfr hle
          by_cases hie : i = done.length
          · rw [hie] at hfr
            rw [hat a hfr, ← esz0, ← hbrk]
            exact hin
          · exact c2 i a hfr (by rw [hlen2]; omega)

/-- The marking of `GC_collect`: when the sweep starts every block of kind `Kept`
is marked, and every block that the pass of `scan_heap` found marked lies below
the break with the header unit that follows it. -/
theorem GC_collect_marks (E : Env) (s : State) (F U : List Nat) (hR : Rep E s F U) (k : Nat)
    (statics stack : List Nat) (s1 s2 s3 : State) (hu : s.usedp ≠ 0)
    (g1 : scan_region k s statics = some s1) (g2 : scan_region k s1 stack = some s2)
    (g3 : scan_heap k s2 = some s3) :
    (∀ b, Kept s (statics ++ stack) b → markBit (getNext s3.mem b) = 1) ∧
    (∀ i a, FwdReach s (statics ++ stack) i a → a + 16 * getSize s.mem a + 16 ≤ s.brk) := by
  obtain ⟨r1, l1, u1, _, b1, _⟩ := scan_region_Rep E s s1 F U k statics hR hu g1
  have hu1 : s1.usedp ≠ 0 := by rw [u1]; exact hu
  obtain ⟨r2, l2, u2, _, b2, _⟩ := scan_region_Rep E s1 s2 F U k stack r1 hu1 g2
  have hu2 : s2.usedp ≠ 0 := by rw [u2]; exact hu1
  obtain ⟨_, l3, _⟩ := scan_heap_Rep E s2 s3 F U k r2 hu2 g3
  have hroot : ∀ b, RootRef s (statics ++ stack) b → markBit (getNext s2.mem b) = 1 :=
    fun b hb => hb.marked hR k statics stack b g1 g2
  unfold scan_heap at g3
  cases hm : heapBlocks k s2.mem s2.brk s2.usedp (UNTAG (getNext s2.mem s2.usedp)) with
  | none => rw [hm] at g3; cases g3
  | some m3 =>
    rw [hm] at g3
    have e3 : s3.mem = m3 := by
      have := Option.some.inj g3
      rw [← this]
    obtain ⟨u0, R, hUc, hus, hq⟩ := sweep_entry E s2 F U r2 hu2
    rw [hq] at hm
    have hcall : heapBlocks k s2.mem s2.brk s2.usedp (R.headD u0) = some m3 := hm
    obtain ⟨c1, c2⟩ := heapBlocks_fwd E F U s (statics ++ stack) u0 R hUc hR R [u0] k s2 m3 r2
      (l1.trans l2) (by rw [b2, b1]) (by rw [hUc]; rfl) (by simp) hroot
      (by
        intro i a b hfr hi _ _
        have hw : WalkAt s i a := by
          cases hfr with
          | root _ _ hi _ => exact hi
          | step _ _ _ _ _ _ hj _ => exact hj
        have := hw.1
        simp only [List.length_singleton] at hi
        omega)
      hcall
    refine ⟨?_, fun i a hfr => c2 i a hfr (by
      have hw : WalkAt s i a := by
        cases hfr with
        | root _ _ hi _ => exact hi
        | step _ _ _ _ _ _ hj _ => exact hj
      have := hw.1
      simp only [List.length_singleton]
      omega)⟩
    intro b hb
    rw [e3]
    rcases hb with h1 | ⟨hbu, i, a, hfr, href⟩
    · have := hroot b h1
      have hbU := h1.1.mem_reg hR.used
      rw [← e3]
      exact l3.mark_mono b hbU this
    · have hu0 : s.usedp = u0 := by rw [← hus, u2, u1]
      exact c1 i a b hfr href (by rw [← hu0]; exact hbu)

theorem demoAlloc3_reach : Reach demoEnv (demoAlloc 3) :=
  (allocRun_reach demoEnv demoEnv_wellBehaved 8 64 3 demoInit (demoAlloc 3) demoInit_reach rfl).1

theorem refState_reach : Reach demoEnv refState :=
  Reach.store (demoAlloc 3) 12144 12064 demoAlloc3_reach
    ⟨12128, ⟨by decide, 2, by decide⟩, by decide, by decide⟩

/-! ## The concrete states of the failing runs are reachable -/

theorem allocMore_reach (s : State) (h : Reach demoEnv s) : ∀ (n : Nat),
    (∀ i, i < n → (GC_malloc 8 demoEnv (allocMore s i) 64).isSome = true) →
    Reach demoEnv (allocMore s n) := by
  intro n
  induction n with
  | zero => intro _; exact h
  | succ n ih =>
    intro hall
    exact Reach.malloc (allocMore s n) _ 8 64 _
      (ih (fun i hi => hall i (Nat.lt_succ_of_lt hi)))
      (some_pair_of_isSome _ (s, 0) (hall n (Nat.lt_succ_self n)))

theorem gapState_reach : Reach demoEnv gapState :=
  allocMore_reach _
    (Reach.collect (demoAlloc 3) _ 16 [] [12144] _ demoAlloc3_reach
      (some_pair_of_isSome _ (demoAlloc 3, []) (by decide))) 4 (by decide)

theorem anchorState_reach : Reach demoEnv anchorState :=
  Reach.store (demoAlloc 3) 12224 12064 demoAlloc3_reach
    ⟨12208, ⟨by decide, 0, by decide⟩, by decide, by decide⟩

theorem hugeEnv_wellBehaved : WellBehaved hugeEnv := by
  intro b inc h
  simp only [hugeEnv, decide_eq_true_eq] at h
  omega

theorem hugeFreed_reach : Reach hugeEnv hugeFreed :=
  Reach.collect _ _ 16 [] [] _
    (Reach.malloc _ _ 8 64 _
      (Reach.init (fun _ => 0) 8192 0 (by decide) (by decide) (by decide) (by decide))
      (some_pair_of_isSome _ (boot (fun _ => 0) 8192, 0) (by decide)))
    (some_pair_of_isSome _ (boot (fun _ => 0) 8192, []) (by decide))

/-! ## C4: the sweep drops the whole registry when the anchor is unmarked -/

/-- C4 (failing input): in the reachable state `demoAlloc 2` two blocks are
registered, the anchor `12208` and the block `12128`; the only stack word points
into the payload of `12128`.  The root scan marks `12128`, yet after `GC_collect`
the registry is empty (`usedp` is null): only the anchor was handed to
`add_to_free_list`, and the marked block is no longer registered.  The outcome is
the same when the static data holds the allocator's own variables. -/
theorem sweep_drops_marked_block :
    Reach demoEnv (demoAlloc 2) ∧
      (scan_region 16 (demoAlloc 2) [12144]).map (fun s => markBit (getNext s.mem 12128)) =
        some 1 ∧
      (GC_collect 16 (demoAlloc 2) [] [12144]).map (fun r => (r.1.usedp, r.2)) =
        some (0, [12208]) ∧
      (GC_collect 16 (demoAlloc 2) (ownStatics demoEnv (demoAlloc 2)) [12144]).map
        (fun r => (r.1.usedp, r.2)) = some (0, [12208]) :=
  ⟨demoAlloc2_reach, by decide, by decide, by decide⟩

/-! ## C5: an unreferenced block survives through the scan past the block end -/

/-- C5 (failing input): in the reachable state `demoAlloc 3` three blocks `12208`
(anchor), `12128`, `12048` are registered.  The static data holds the allocator's
own variables and a pointer into the payload of `12208`, the stack a pointer into
the payload of `12048`.  No root word and no payload word of the two other blocks
has a value in the payload `[12144, 12208)` of block `12128`, yet `GC_collect`
reclaims nothing and `12128` is still the second successor of the anchor: the
scans test and read one header unit past the end of a block. -/
theorem unreferenced_block_survives :
    Reach demoEnv (demoAlloc 3) ∧
      (∀ v ∈ ownStatics demoEnv (demoAlloc 3) ++ [12224] ++ [12064],
        ¬ (12144 ≤ v ∧ v < 12208)) ∧
      (∀ i, i < 8 →
        ¬ (12144 ≤ (demoAlloc 3).mem (12064 + 8 * i) ∧
          (demoAlloc 3).mem (12064 + 8 * i) < 12208) ∧
        ¬ (12144 ≤ (demoAlloc 3).mem (12224 + 8 * i) ∧
          (demoAlloc 3).mem (12224 + 8 * i) < 12208)) ∧
      (GC_collect 16 (demoAlloc 3) (ownStatics demoEnv (demoAlloc 3) ++ [12224]) [12064]).map
        (fun r => (r.2, regIter r.1.mem 2 r.1.usedp)) = some ([], 12128) ∧
      (GC_collect 16 (demoAlloc 3) [12224] [12064]).map
        (fun r => (r.2, regIter r.1.mem 2 r.1.usedp)) = some ([], 12128) :=
  ⟨demoAlloc3_reach, by decide, by decide, by decide, by decide⟩

/-! ## C9: a second collection reclaims a block the first one kept -/

/-- C9 (failing input): in the reachable state `gapState` the registry holds
`12208` (anchor), `11888`, `11968`, `12048`.  With the same roots (a static word
pointing into `12208`, a stack word pointing into `11888`) the first `GC_collect`
reclaims `12048` only, and a second `GC_collect` reclaims `11968`: the block
`11968` was kept the first time because of the `next` field of `11968` itself,
read past the end of `11888`, which the first sweep then changed.  The outcome is
the same when the static data also holds the allocator's own variables. -/
theorem second_collect_differs :
    Reach demoEnv gapState ∧
    ((GC_collect 16 gapState [12224] [11904]).map (fun r => r.2) = some [12048] ∧
      (GC_collect 16 (collectD 16 gapState [12224] [11904]) [12224] [11904]).map
        (fun r => r.2) = some [11968]) ∧
    ((GC_collect 16 gapState (ownStatics demoEnv gapState ++ [12224]) [11904]).map
        (fun r => r.2) = some [12048] ∧
      (GC_collect 16 (collectD 16 gapState (ownStatics demoEnv gapState ++ [12224]) [11904])
        (ownStatics demoEnv
          (collectD 16 gapState (ownStatics demoEnv gapState ++ [12224]) [11904]) ++ [12224])
        [11904]).map (fun r => r.2) = some [11968]) :=
  ⟨gapState_reach, by decide, by decide⟩

/-! ## C10: the counterexample -/

/-- C10 (counterexample): (1) `GC_malloc(2^64 - 1)` in the initial state returns
an address; the total of the free list goes from 0 to 255 with 256 units obtained
from extension, so one unit was subtracted and not `ceil(n / 16) + 1 = 2^60 + 1`.
(2) In the reachable state `hugeFreed`, with a free block of 256 units ending at
the break, `GC_malloc(2^36 - 32)` (`2^32 - 1` units) returns an address after two
extensions of `2^32 - 1` units each; the total goes from 256 to 255, not to
`256 + 2 * (2^32 - 1) - (2^32 - 1)`: the 32-bit size of the coalesced block
wrapped. -/
theorem allocation_total_wraps :
    (WellBehaved demoEnv ∧ Reach demoEnv demoInit ∧ freeTotal 8 demoEnv demoInit = some 0 ∧
      (GC_malloc 8 demoEnv demoInit 18446744073709551615).map
        (fun x => (x.2, freeTotal 8 demoEnv x.1, (x.1.brk - demoInit.brk) / 16)) =
        some (12288, some 255, 256) ∧
      (255 : Int) ≠ 0 + 256 - ((18446744073709551615 + 15) / 16 + 1)) ∧
    (WellBehaved hugeEnv ∧ Reach hugeEnv hugeFreed ∧ freeTotal 8 hugeEnv hugeFreed = some 256 ∧
      hugeFreed.brk = 12288 ∧
      (GC_malloc 16 hugeEnv hugeFreed 68719476704).map
        (fun x => (x.2, freeTotal 8 hugeEnv x.1, (x.1.brk - hugeFreed.brk) / 16)) =
        some (68719489024, some 255, 8589934590) ∧
      (68719476704 + 15) / 16 + 1 = 4294967295 ∧
      (255 : Int) ≠ 256 + 8589934590 - 4294967295) :=
  ⟨⟨demoEnv_wellBehaved, demoInit_reach, by decide, by decide, by decide⟩,
    ⟨hugeEnv_wellBehaved, hugeFreed_reach, by decide, by decide, by decide, by decide,
      by decide⟩⟩

/-! ## `GC_malloc` returns in every environment with a bounded address space -/

theorem findSlot_mono (m : Mem) (bp : Nat) : ∀ (k p r d : Nat),
    findSlot k m bp p = some r → findSlot (k + d) m bp p = some r := by
  intro k
  induction k with
  | zero => intro p r d h; simp [findSlot] at h
  | succ k ih =>
    intro p r d h
    have e : k + 1 + d = (k + d) + 1 := by omega
    rw [e]
    unfold findSlot at h ⊢
    by_cases h1 : bp > p ∧ bp < getNext m p
    · rw [if_pos h1] at h ⊢; exact h
    · rw [if_neg h1] at h ⊢
      by_cases h2 : p ≥ getNext m p ∧ (bp > p ∨ bp < getNext m p)
      · rw [if_pos h2] at h ⊢; exact h
      · rw [if_neg h2] at h ⊢
        exact ih _ r d h

theorem add_to_free_list_mono (s s' : State) (bp k d : Nat)
    (h : add_to_free_list k s bp = some s') : add_to_free_list (k + d) s bp = some s' := by
  unfold add_to_free_list at h ⊢
  cases hf : findSlot k s.mem bp s.freep with
  | none => rw [hf] at h; cases h
  | some r =>
    rw [hf] at h
    rw [findSlot_mono s.mem bp k s.freep r d hf]
    exact h

theorem morecore_mono (E : Env) (s : State) (num k d : Nat) (o : Option State)
    (h : morecore k E s num = some o) : morecore (k + d) E s num = some o := by
  unfold morecore at h ⊢
  simp only [] at h ⊢
  cases hs : sbrk E s ((if num < MIN_UNITS then MIN_UNITS else num) * 16 %
      18446744073709551616) with
  | none => rw [hs] at h; exact h
  | some res =>
    obtain ⟨up, s1⟩ := res
    rw [hs] at h
    simp only [] at h ⊢
    cases ha : add_to_free_list k { s1 with mem := setSize s1.mem up (if num < MIN_UNITS then MIN_UNITS else num) } up with
    | none => rw [ha] at h; cases h
    | some s2 =>
      rw [ha] at h
      rw [add_to_free_list_mono _ s2 up k d ha]
      exact h

/-- The search loop returns for every sufficient fuel: every granted extension
moves the break up by at least one header, and the break is bounded. -/
theorem mallocLoop_terminates (E : Env) (hW : WellBehaved E) (num : Nat) :
    ∀ (M : Nat) (s : State) (F U : List Nat), Rep E s F U →
      9223372036854775808 - s.brk ≤ M →
      ∃ k0, ∀ k, k0 ≤ k → ∀ prevp p j, j ≤ 2 * F.length + 1 → freeIter s.mem j p = s.freep →
        ∃ res, mallocLoop k E s num prevp p = some res := by
  intro M
  induction M using Nat.strong_induction_on with
  | _ M ih =>
    intro s F U hR hM
    obtain ⟨o, ho⟩ := morecore_returns E s F U hR hW (2 * F.length + 2) num (by omega)
    have hmono : ∀ k, 2 * F.length + 2 ≤ k → morecore k E s num = some o := by
      intro k hk
      have := morecore_mono E s num (2 * F.length + 2) (k - (2 * F.length + 2)) o ho
      have e : 2 * F.length + 2 + (k - (2 * F.length + 2)) = k := by omega
      rw [e] at this
      exact this
    cases o with
    | none =>
      refine ⟨4 * F.length + 5, ?_⟩
      intro k hk prevp p j hj hcur
      refine mallocLoop_walk E num (2 * F.length + 2) s ?_ j k prevp p (by omega) hcur
      intro k' hk'
      rw [hmono k' hk']
      exact ⟨_, rfl⟩
    | some s1 =>
      obtain ⟨F1, m1, _, _, _, _, m6, m7, _⟩ :=
        morecore_spec E s F U hR hW (2 * F.length + 2) num s1 ho
      obtain ⟨hw1, hw2⟩ := hW _ _ m6
      obtain ⟨k1, hk1⟩ := ih (9223372036854775808 - s1.brk) (by rw [m7]; omega) s1 F1 U m1
        (le_refl _)
      obtain ⟨j1, hj1, e1⟩ := m1.free.reach _ s1.freep
        (m1.free.next_mem s1.freep m1.free.freep_mem) m1.free.freep_mem
      refine ⟨4 * F.length + 5 + k1, ?_⟩
      intro k hk prevp p j hj hcur
      refine mallocLoop_walk E num (2 * F.length + 2 + k1) s ?_ j k prevp p (by omega) hcur
      intro k' hk'
      rw [hmono k' (by omega)]
      exact hk1 k' (by omega) s1.freep _ j1 hj1 e1

theorem GC_malloc_terminates (E : Env) (hW : WellBehaved E) (s : State) (F U : List Nat)
    (hR : Rep E s F U) (n : Nat) : ∃ k0, ∀ k, k0 ≤ k → ∃ res, GC_malloc k E s n = some res := by
  obtain ⟨k0, hk0⟩ := mallocLoop_terminates E hW (num_units n) _ s F U hR (le_refl _)
  have hfp : s.freep ≠ 0 := by
    rcases hR.free.freep_mem with h1 | h1
    · have := hR.base_pos; omega
    · have := hR.free.blk _ h1; omega
  obtain ⟨j, hj, e⟩ := hR.free.reach _ s.freep (hR.free.next_mem s.freep hR.free.freep_mem)
    hR.free.freep_mem
  refine ⟨k0, ?_⟩
  intro k hk
  unfold GC_malloc
  simp only [if_neg hfp]
  exact hk0 k hk s.freep _ j hj e

/-- A request of `2^32` units or more fits no size field: the search loop returns
only with the null pointer, after a refused extension request. -/
theorem mallocLoop_no_fit (E : Env) (num : Nat) (hnum : 4294967296 ≤ num) :
    ∀ (k : Nat) (s : State) (prevp p : Nat) (s' : State) (r : Nat),
      mallocLoop k E s num prevp p = some (s', r) →
      r = 0 ∧ ∃ b inc, E.grant b inc = false := by
  intro k
  induction k with
  | zero => intro s prevp p s' r h; simp [mallocLoop] at h
  | succ k ih =>
    intro s prevp p s' r h
    unfold mallocLoop at h
    have hsz : ¬ getSize s.mem p ≥ num := by
      have := getSize_lt s.mem p
      omega
    rw [if_neg hsz] at h
    by_cases hpf : p = s.freep
    · rw [if_pos hpf] at h
      cases hmc : morecore k E s num with
      | none => rw [hmc] at h; cases h
      | some o =>
        cases o with
        | none =>
          rw [hmc] at h
          have h0 := congrArg Prod.snd (Option.some.inj h)
          exact ⟨h0.symm, _, _, morecore_refused k E s num hmc⟩
        | some s1 =>
          rw [hmc] at h
          exact ih s1 _ _ s' r h
    · rw [if_neg hpf] at h
      exact ih s _ _ s' r h

/-- The call `GC_malloc(2^36)` asks for `2^32 + 1` units, which no 32-bit size
field holds.  In no environment and no state does it return an address; in the
environment `freeEnv`, which grants every extension request without any bound,
the call from the initial state does not return at all, whatever the fuel. -/
theorem allocate_huge_never_succeeds :
    (∀ (E : Env) (s s' : State) (k r : Nat),
      GC_malloc k E s 68719476736 = some (s', r) → r = 0) ∧
    Reach freeEnv freeInit ∧ (∀ b inc, freeEnv.grant b inc = true) ∧
    (∀ k, GC_malloc k freeEnv freeInit 68719476736 = none) := by
  have hnum : 4294967296 ≤ num_units 68719476736 := by decide
  refine ⟨?_, Reach.init _ 8192 0 (by decide) (by decide) (by decide) (by decide),
    fun _ _ => rfl, ?_⟩
  · intro E s s' k r h
    unfold GC_malloc at h
    exact (mallocLoop_no_fit E _ hnum k _ _ _ s' r h).1
  · intro k
    cases hres : GC_malloc k freeEnv freeInit 68719476736 with
    | none => rfl
    | some res =>
      obtain ⟨s', r⟩ := res
      unfold GC_malloc at hres
      obtain ⟨_, b, inc, hg⟩ := mallocLoop_no_fit freeEnv _ hnum k _ _ _ s' r hres
      cases hg

/-! ## C11: `GC_init` is idempotent -/

/-- C11 (Initialize is idempotent): a `GC_init` call in a state in which `GC_init`
has run (`initted` is set) returns the state unchanged, whatever the registry and
the free list hold, so that two calls in a row equal one; the first call stores
the stack bottom and resets both lists (null anchor, the sentinel alone in the
free list, linked to itself with size 0). -/
theorem init_idempotent (E : Env) (s : State) (sb sb' : Nat) :
    (s.initted = true → GC_init E s sb' = s) ∧
      GC_init E (GC_init E s sb) sb' = GC_init E s sb ∧
      (s.initted = false →
        (GC_init E s sb).initted = true ∧ (GC_init E s sb).stack_bottom = sb ∧
        (GC_init E s sb).usedp = 0 ∧ (GC_init E s sb).freep = E.base ∧
        getSize (GC_init E s sb).mem E.base = 0 ∧
        getNext (GC_init E s sb).mem E.base = E.base % 18446744073709551616) := by
  refine ⟨?_, ?_, ?_⟩
  · intro h
    unfold GC_init
    rw [if_pos h]
  · by_cases h : s.initted = true
    · have e : GC_init E s sb = s := by unfold GC_init; rw [if_pos h]
      rw [e]
      unfold GC_init
      rw [if_pos h]
    · have e : (GC_init E s sb).initted = true := by
        unfold GC_init
        rw [if_neg h]
      generalize GC_init E s sb = t at e
      unfold GC_init
      rw [if_pos e]
  · intro h
    have hn : ¬ s.initted = true := by rw [h]; simp
    unfold GC_init
    rw [if_neg hn]
    refine ⟨rfl, rfl, rfl, rfl, ?_, ?_⟩
    · show getSize (setSize (setNext s.mem E.base E.base) E.base 0) E.base = 0
      rw [getSize_setSize_same]
    · show getNext (setSize (setNext s.mem E.base E.base) E.base 0) E.base = _
      rw [getNext_setSize _ _ _ _ (by omega), getNext_setNext_same]

theorem init_idempotent_witness :
    GC_init demoEnv (demoAlloc 2) 77 = demoAlloc 2 ∧
      ((GC_init demoEnv (boot (fun _ => 0) 8192) 5).usedp = 0 ∧
        (GC_init demoEnv (boot (fun _ => 0) 8192) 5).stack_bottom = 5) :=
  ⟨(init_idempotent demoEnv (demoAlloc 2) 0 77).1 (by decide),
    ⟨((init_idempotent demoEnv (boot (fun _ => 0) 8192) 5 0).2.2 rfl).2.2.1,
      ((init_idempotent demoEnv (boot (fun _ => 0) 8192) 5 0).2.2 rfl).2.1⟩⟩

/-! ## C17: no mark at rest -/

/-- C17 (mark flags are clear at rest): in every reachable state (after `GC_init`
and any completed `GC_malloc` and `GC_collect` calls with arbitrary roots, and
stores of the program into payloads) the `next` field of every registered block
has its low bit clear. -/
theorem marks_clear_at_rest (E : Env) (hW : WellBehaved E) (s : State) (h : Reach E s)
    (b : Nat) (hb : InRegistry s b) : markBit (getNext s.mem b) = 0 := by
  obtain ⟨F, U, hR, hC⟩ := (h.inv hW).1
  exact hC b (hb.mem_reg hR.used)

/-! ## C18: free blocks and registered blocks never overlap -/

/-- A `GC_malloc` that returns an address has registered a block that was not
registered before. -/
theorem GC_malloc_fresh (E : Env) (hW : WellBehaved E) (k : Nat) (s s' : State) (n r : Nat)
    (F U : List Nat) (hR : Rep E s F U) (hC : Clear s U)
    (h : GC_malloc k E s n = some (s', r)) (hr : r ≠ 0) :
    ∃ F' q, Rep E s' F' (regInsert U q) ∧ r = q + 16 ∧ q ∉ U := by
  unfold GC_malloc at h
  have hfp : s.freep ≠ 0 := by
    rcases hR.free.freep_mem with h1 | h1
    · have := hR.base_pos; omega
    · have := hR.free.blk _ h1; omega
  simp only [if_neg hfp] at h
  obtain ⟨F', U', h1, _, _, _, _, h6⟩ := mallocLoop_Rep E hW (num_units n) (num_units_bounds n).1
    k s F U s.freep _ s' r hR hC hR.free.freep_mem rfl h
  rcases h6 with ⟨h7, _⟩ | ⟨q, h7, h8, h9, _⟩
  · exact absurd h7 hr
  · rw [h8] at h1
    exact ⟨F', q, h1, h7, h9⟩

/-- C18 (free memory never overlaps live memory): in every reachable state the
range of a free-list node and the range `[header, header + 16 * size)` of a
registered block are disjoint; and the block a `GC_malloc` hands out was not
registered before and overlaps no block that was. -/
theorem free_never_overlaps_live (E : Env) (hW : WellBehaved E) (s : State) (h : Reach E s) :
    (∀ x y, InFree s x → InRegistry s y →
      x + 16 * getSize s.mem x ≤ y ∨ y + 16 * getSize s.mem y ≤ x) ∧
    (∀ k n s' r, GC_malloc k E s n = some (s', r) → r ≠ 0 →
      ¬ InRegistry s (r - 16) ∧
      ∀ y, InRegistry s y → InRegistry s' y ∧
        (r - 16 + 16 * getSize s'.mem (r - 16) ≤ y ∨ y + 16 * getSize s'.mem y ≤ r - 16)) := by
  obtain ⟨F, U, hR, hC⟩ := (h.inv hW).1
  refine ⟨?_, ?_⟩
  · intro x y hx hy
    have hyU := hy.mem_reg hR.used
    have hyb := hR.used.blk y hyU
    rcases hx.mem_free hR.free with h1 | h1
    · left
      rw [h1, hR.free.base_size]
      omega
    · by_cases hlt : x < y
      · exact Or.inl (hR.fu x h1 y hyU hlt)
      · have hne : x ≠ y := fun e => hR.ne x h1 (e ▸ hyU)
        exact Or.inr (hR.uf x h1 y hyU (by omega))
  · intro k n s' r hm hr
    obtain ⟨F', q, hR', e, hq⟩ := GC_malloc_fresh E hW k s s' n r F U hR hC hm hr
    have e' : r - 16 = q := by omega
    rw [e']
    refine ⟨fun hin => hq (hin.mem_reg hR.used), ?_⟩
    intro y hy
    have hyU := hy.mem_reg hR.used
    have hyU' : y ∈ regInsert U q := (mem_regInsert U q y).2 (Or.inr hyU)
    have hqU' : q ∈ regInsert U q := (mem_regInsert U q q).2 (Or.inl rfl)
    have hu' : s'.usedp ≠ 0 := (regInsert_inRegistry E s' F' U q hR').1
    refine ⟨hR'.used.inRegistry hyU' hu', ?_⟩
    have hne : q ≠ y := fun e2 => hq (e2 ▸ hyU)
    by_cases hlt : q < y
    · exact Or.inl (hR'.used.disj q hqU' y hyU' hlt)
    · exact Or.inr (hR'.used.disj y hyU' q hqU' (by omega))

/-! ## C19: the sentinel -/

/-- Every block of the free-list representation is reached from the cursor. -/
theorem FRep.inFree {E : Env} {s : State} {F : List Nat} (hF : FRep E s F) (x : Nat)
    (hx : x = E.base ∨ x ∈ F) : InFree s x := by
  obtain ⟨j, _, e⟩ := hF.reach s.freep x hF.freep_mem hx
  exact ⟨j, e⟩

/-- C19 (sentinel invariant): in every reachable state the sentinel `base` is a
node of the free list and its size is 0; no other free-list node ends at the
sentinel or starts where the sentinel ends, so neither merge test of
`add_to_free_list` can involve it, and after `add_to_free_list` of a block above
the sentinel that overlaps no free node the sentinel is still a node of size 0;
the unit count of every request is at least 1 and `GC_malloc` never returns the
payload address of the sentinel. -/
theorem sentinel_invariant (E : Env) (hW : WellBehaved E) (s : State) (h : Reach E s) :
    InFree s E.base ∧ getSize s.mem E.base = 0 ∧
    (∀ x, InFree s x → x ≠ E.base →
      E.base + 16 ≤ x ∧ x + 16 * getSize s.mem x ≠ E.base ∧
        E.base + 16 * getSize s.mem E.base ≠ x) ∧
    (∀ k bp s', bp % 16 = 0 → E.base + 16 ≤ bp → bp + 16 ≤ s.brk →
      bp + 16 * getSize s.mem bp ≤ s.brk → ¬ InFree s bp →
      (∀ y, InFree s y → y + 16 * getSize s.mem y ≤ bp ∨ bp + 16 * getSize s.mem bp ≤ y) →
      add_to_free_list k s bp = some s' →
      padd bp (getSize s.mem bp) ≠ E.base ∧ padd E.base (getSize s.mem E.base) ≠ bp ∧
        InFree s' E.base ∧ getSize s'.mem E.base = 0) ∧
    (∀ n, 1 ≤ num_units n) ∧
    (∀ k n s' r, GC_malloc k E s n = some (s', r) → r ≠ E.base + 16) := by
  obtain ⟨F, U, hR, hC⟩ := (h.inv hW).1
  have hF := hR.free
  refine ⟨hF.inFree E.base (Or.inl rfl), hF.base_size, ?_, ?_, fun n => (num_units_bounds n).1, ?_⟩
  · intro x hx hne
    rcases hx.mem_free hF with h1 | h1
    · exact absurd h1 hne
    · have := hF.blk x h1
      rw [hF.base_size]
      omega
  · intro k bp s' h1 h2 h3 h4 h5 h6 hadd
    have hfresh : Fresh E s F bp := by
      refine ⟨h1, h2, h3, h4, fun hm => h5 (hF.inFree bp (Or.inr hm)), ?_, ?_⟩
      · intro y hy hlt
        have := h6 y (hF.inFree y (Or.inr hy))
        have := hF.blk y hy
        omega
      · intro y hy hlt
        have := h6 y (hF.inFree y (Or.inr hy))
        have := hF.blk y hy
        omega
    obtain ⟨F', f1, _⟩ := add_to_free_list_spec E s s' F bp k hF hfresh hadd
    have hbrk := hF.brk_le
    have hbl := hR.base_lt
    refine ⟨?_, ?_, f1.inFree E.base (Or.inl rfl), f1.base_size⟩
    · unfold padd; omega
    · rw [hF.base_size]; unfold padd; omega
  · intro k n s' r hm
    by_cases hr : r = 0
    · have := hR.base_pos; omega
    · obtain ⟨F', q, hR', e, _⟩ := GC_malloc_fresh E hW k s s' n r F U hR hC hm hr
      have := hR'.used.blk q ((mem_regInsert U q q).2 (Or.inl rfl))
      omega

theorem keptState_reach : Reach demoEnv keptState :=
  Reach.collect (demoAlloc 3) _ 16 [12224] [12064] _ demoAlloc3_reach
    (some_pair_of_isSome _ (demoAlloc 3, []) (by decide))

theorem marks_clear_at_rest_witness :
    (scan_region 16 (demoAlloc 3) [12064]).map (fun t => markBit (getNext t.mem 12048)) =
        some 1 ∧
      InRegistry keptState 12048 ∧ markBit (getNext keptState.mem 12048) = 0 :=
  ⟨by decide, ⟨by decide, 1, by decide⟩,
    marks_clear_at_rest demoEnv demoEnv_wellBehaved keptState keptState_reach 12048
      ⟨by decide, 1, by decide⟩⟩

theorem free_never_overlaps_live_witness :
    8192 + 16 * getSize (demoAlloc 2).mem 8192 ≤ 12128 ∨
      12128 + 16 * getSize (demoAlloc 2).mem 12128 ≤ 8192 :=
  (free_never_overlaps_live demoEnv demoEnv_wellBehaved (demoAlloc 2) demoAlloc2_reach).1
    8192 12128 ⟨1, by decide⟩ ⟨by decide, 1, by decide⟩

theorem sentinel_invariant_witness :
    InFree (demoAlloc 2) 1024 ∧ getSize (demoAlloc 2).mem 1024 = 0 ∧
      (12144 : Nat) ≠ 1024 + 16 :=
  ⟨(sentinel_invariant demoEnv demoEnv_wellBehaved (demoAlloc 2) demoAlloc2_reach).1,
    (sentinel_invariant demoEnv demoEnv_wellBehaved (demoAlloc 2) demoAlloc2_reach).2.1,
    (sentinel_invariant demoEnv demoEnv_wellBehaved (demoAlloc 1)
      (Reach.malloc _ _ 8 64 12224 demoInit_reach demoAlloc_step1)).2.2.2.2.2 8 64
      (demoAlloc 2) 12144 demoAlloc_step2⟩

/-! ## The root scan on a well-formed registry -/

theorem RegOK.of_rep {E : Env} {s : State} {F U : List Nat} (hR : Rep E s F U) : RegOK E s U :=
  ⟨hR.used, hR.free.brk_le⟩

theorem RegOK.hits_range {E : Env} {s : State} {U : List Nat} (hU : RegOK E s U) (b v : Nat)
    (hb : b ∈ U) : hits s.mem b v ↔ b + 16 ≤ v ∧ v < b + 16 + 16 * getSize s.mem b := by
  have hbb := hU.1.blk b hb
  have := hU.2
  unfold hits padd
  constructor <;> intro h <;> omega

/-- The containment test of the scanners holds for at most one block of a
well-formed registry. -/
theorem RegOK.hits_one {E : Env} {s : State} {U : List Nat} (hU : RegOK E s U) (x y v : Nat)
    (hx : x ∈ U) (hy : y ∈ U) (h1 : hits s.mem x v) (h2 : hits s.mem y v) : x = y := by
  rw [hU.hits_range x v hx] at h1
  rw [hU.hits_range y v hy] at h2
  by_cases hlt : x < y
  · have := hU.1.disj x hx y hy hlt; omega
  · by_cases hgt : y < x
    · have := hU.1.disj y hy x hx hgt; omega
    · omega

theorem RegOK.link_lt {E : Env} {s : State} {U : List Nat} (hU : RegOK E s U) (x : Nat)
    (hx : x ∈ U) : getNext s.mem x < 18446744073709551615 := by
  obtain ⟨y, hy, hxy⟩ := hU.1.next_val x hx
  have := hU.1.blk y hy
  have := hU.2
  rcases hxy with h | h <;> omega

theorem RegOK.size_same {E : Env} {s : State} {U : List Nat} (hU : RegOK E s U) {m' : Mem}
    (hS : SameLinks U s.mem m') (b : Nat) (hb : b ∈ U) : getSize m' b = getSize s.mem b := by
  unfold getSize
  rw [hS.1 b (fun y hy => by have := hU.1.blk b hb; have := hU.1.blk y hy; omega)]

/-- A well-formed registry stays well formed when marks are set. -/
theorem RegOK.keep_marks {E : Env} {s : State} {U : List Nat} (hU : RegOK E s U) (m' : Mem)
    (hS : SameLinks U s.mem m') : RegOK E { s with mem := m' } U := by
  refine ⟨⟨hU.1.nodup, ?_, ?_, hU.1.head, ?_⟩, hU.2⟩
  · intro x hx
    show x % 16 = 0 ∧ E.base + 16 ≤ x ∧ x + 16 * getSize m' x ≤ s.brk ∧ 1 ≤ getSize m' x
    rw [hU.size_same hS x hx]
    exact hU.1.blk x hx
  · intro x hx y hy hxy
    show x + 16 * getSize m' x ≤ y
    rw [hU.size_same hS x hx]
    exact hU.1.disj x hx y hy hxy
  · refine Links.mono_links hS.toMarkEq (fun x hx => hx)
      (fun x hx => by have := hU.1.blk x hx; omega) ?_ hU.1.links
    cases hUc : U with
    | nil => simp
    | cons a t =>
      have := hU.1.blk a (by rw [hUc]; simp)
      simp only [List.headD_cons]; omega

theorem markWalk_links (E : Env) (s : State) (U : List Nat) (hU : RegOK E s U) (v : Nat) :
    ∀ (k bp : Nat) (m' : Mem), bp ∈ U → markWalk k s.mem s.usedp v bp = some m' →
      SameLinks U s.mem m' := by
  intro k
  induction k with
  | zero => intro bp m' _ h; simp [markWalk] at h
  | succ k ih =>
    intro bp m' hbp h
    unfold markWalk at h
    split_ifs at h with h1 h2
    · cases h
      exact SameLinks.mark U s.mem bp hbp (hU.link_lt bp hbp)
    · exact ih _ m' (hU.1.untag_next_mem bp hbp) h
    · cases h
      exact SameLinks.refl U s.mem

theorem scanWords_links (E : Env) (U : List Nat) (k : Nat) :
    ∀ (ws : List Nat) (s : State) (m' : Mem), RegOK E s U → s.usedp ∈ U →
      scanWords k s.mem s.usedp ws = some m' → SameLinks U s.mem m' := by
  intro ws
  induction ws with
  | nil =>
    intro s m' _ _ h
    simp only [scanWords] at h
    cases h
    exact SameLinks.refl U s.mem
  | cons v vs ih =>
    intro s m' hU hu h
    simp only [scanWords] at h
    cases hmw : markWalk k s.mem s.usedp v s.usedp with
    | none => rw [hmw] at h; cases h
    | some m1 =>
      rw [hmw] at h
      have h1 := markWalk_links E s U hU v k s.usedp m1 hu hmw
      have h2 := ih { s with mem := m1 } m' (hU.keep_marks m1 h1) hu h
      exact h1.trans h2

theorem markWalk_marks (E : Env) (s : State) (U : List Nat) (hU : RegOK E s U) (v b : Nat)
    (hb : b ∈ U) (hh : hits s.mem b v) :
    ∀ (l done : List Nat) (k : Nat) (m' : Mem), U = done ++ l → b ∈ l →
      markWalk k s.mem s.usedp v (l.headD 0) = some m' → markBit (getNext m' b) = 1 := by
  intro l
  induction l with
  | nil => intro done k m' _ hbl _; simp at hbl
  | cons bp rest ih =>
    intro done k m' hUl hbl h
    have hbpU : bp ∈ U := by rw [hUl]; simp
    cases k with
    | zero => simp [markWalk] at h
    | succ k =>
      simp only [List.headD_cons] at h
      unfold markWalk at h
      by_cases hhit : hits s.mem bp v
      · rw [if_pos hhit] at h
        have hm := Option.some.inj h
        have hbe : bp = b := hU.hits_one bp b v hbpU hb hhit hh
        rw [← hm, ← hbe, getNext_setNext_same]
        have := hU.link_lt bp hbpU
        unfold markBit setMark
        omega
      · rw [if_neg hhit] at h
        have hne : b ≠ bp := fun e => hhit (e ▸ hh)
        have hbr : b ∈ rest := by
          rcases List.mem_cons.1 hbl with h1 | h1
          · exact absurd h1 hne
          · exact h1
        cases rest with
        | nil => simp at hbr
        | cons c rest' =>
          have hnx := hU.1.mid_next done bp c rest' hUl
          have hcu : c ≠ s.usedp := by
            cases done with
            | nil =>
              intro e
              have hnd : (bp :: c :: rest').Nodup := by
                have := hU.1.nodup
                rw [hUl] at this
                exact this
              have hhead : s.usedp = bp := by
                have := hU.1.head
                rw [hUl] at this
                exact this
              have := (List.nodup_cons.1 hnd).1
              apply this
              rw [← hhead, ← e]
              exact List.mem_cons_self _ _
            | cons d done' =>
              exact hU.1.tail_ne_anchor (d :: done') (bp :: c :: rest') hUl (by simp) c
                (by simp)
          rw [hnx, if_pos hcu] at h
          exact ih (done ++ [bp]) k m' (by rw [hUl]; simp) hbr h

theorem scanWords_marks (E : Env) (U : List Nat) (k v b : Nat) (hb : b ∈ U) :
    ∀ (ws : List Nat) (s : State) (m' : Mem), RegOK E s U → s.usedp ≠ 0 → v ∈ ws →
      hits s.mem b v → scanWords k s.mem s.usedp ws = some m' → markBit (getNext m' b) = 1 := by
  intro ws
  induction ws with
  | nil => intro s m' _ _ hv _ _; simp at hv
  | cons w ws ih =>
    intro s m' hU hu hv hh h
    simp only [scanWords] at h
    have hum := hU.1.usedp_mem hu
    cases hmw : markWalk k s.mem s.usedp w s.usedp with
    | none => rw [hmw] at h; cases h
    | some m1 =>
      rw [hmw] at h
      have g1 := markWalk_links E s U hU w k s.usedp m1 hum hmw
      have hU1 := hU.keep_marks m1 g1
      have g2 := scanWords_links E U k ws { s with mem := m1 } m' hU1 hum h
      rcases List.mem_cons.1 hv with h1 | h1
      · have hmark : markBit (getNext m1 b) = 1 := by
          have hhd : s.usedp = U.headD 0 := hU.1.head
          have hcall : markWalk k s.mem s.usedp v (U.headD 0) = some m1 := by
            rw [← hhd, h1]; exact hmw
          exact markWalk_marks E s U hU v b hb hh U [] k m1 rfl hb hcall
        exact g2.mark_mono b hb hmark
      · refine ih { s with mem := m1 } m' hU1 hu h1 ?_ h
        have e := hU.size_same g1 b hb
        unfold hits at hh ⊢
        show padd b 1 ≤ v ∧ v < padd b (1 + getSize m1 b)
        rw [e]; exact hh

theorem markWalk_ends (E : Env) (s : State) (U : List Nat) (hU : RegOK E s U) (v : Nat) :
    ∀ (l done : List Nat) (k : Nat), U = done ++ l → l ≠ [] → l.length ≤ k →
      ∃ m', markWalk k s.mem s.usedp v (l.headD 0) = some m' := by
  intro l
  induction l with
  | nil => intro done k _ hne _; exact absurd rfl hne
  | cons bp rest ih =>
    intro done k hUl _ hk
    obtain ⟨k', rfl⟩ : ∃ k', k = k' + 1 := ⟨k - 1, by simp only [List.length_cons] at hk; omega⟩
    simp only [List.headD_cons]
    unfold markWalk
    by_cases hhit : hits s.mem bp v
    · rw [if_pos hhit]; exact ⟨_, rfl⟩
    · rw [if_neg hhit]
      by_cases hnx : UNTAG (getNext s.mem bp) ≠ s.usedp
      · rw [if_pos hnx]
        cases rest with
        | nil => exact absurd (hU.1.last_next done bp hUl) hnx
        | cons c rest' =>
          rw [hU.1.mid_next done bp c rest' hUl]
          have := ih (done ++ [bp]) k' (by rw [hUl]; simp) (by simp)
            (by simp only [List.length_cons] at hk ⊢; omega)
          simpa using this
      · rw [if_neg hnx]; exact ⟨_, rfl⟩

theorem scanWords_ends (E : Env) (U : List Nat) (k : Nat) (hk : U.length ≤ k) :
    ∀ (ws : List Nat) (s : State), RegOK E s U → s.usedp ≠ 0 →
      ∃ m', scanWords k s.mem s.usedp ws = some m' := by
  intro ws
  induction ws with
  | nil => intro s _ _; exact ⟨_, rfl⟩
  | cons v vs ih =>
    intro s hU hu
    have hum := hU.1.usedp_mem hu
    have hhd : s.usedp = U.headD 0 := hU.1.head
    have hne : U ≠ [] := by intro e; rw [e] at hum; simp at hum
    obtain ⟨m1, hm1⟩ := markWalk_ends E s U hU v U [] k rfl hne hk
    rw [← hhd] at hm1
    have g1 := markWalk_links E s U hU v k s.usedp m1 hum hm1
    obtain ⟨m2, hm2⟩ := ih { s with mem := m1 } (hU.keep_marks m1 g1) hu
    refine ⟨m2, ?_⟩
    simp only [scanWords, hm1]
    exact hm2

/-! ## C12: the root scan has no false negatives -/

/-- C12 (ScanRange has no false negatives): for a well-formed non-empty registry
and every list of scanned word values, `scan_region` returns (for every fuel from
the number of blocks on), and every registered block `b`, the anchor included,
whose payload range `[b + 16, b + 16 * size)` contains a scanned value, or whose
payload address `b + 16` is a scanned value, carries the mark afterwards; marks
that were set stay set, and the anchor is unchanged. -/
theorem scan_region_no_false_negative (E : Env) (s : State) (U : List Nat) (hU : RegOK E s U)
    (ws : List Nat) (b v : Nat) (hb : InRegistry s b) (hv : v ∈ ws) (hlo : b + 16 ≤ v)
    (hhi : v < b + 16 * getSize s.mem b ∨ v = b + 16) :
    (∀ k, U.length ≤ k → ∃ s', scan_region k s ws = some s') ∧
    ∀ k s', scan_region k s ws = some s' →
      markBit (getNext s'.mem b) = 1 ∧ s'.usedp = s.usedp ∧
      ∀ x, InRegistry s x → markBit (getNext s.mem x) = 1 → markBit (getNext s'.mem x) = 1 := by
  have hu : s.usedp ≠ 0 := hb.1
  have hbU := hb.mem_reg hU.1
  have hum := hU.1.usedp_mem hu
  refine ⟨?_, ?_⟩
  · intro k hk
    obtain ⟨m', hm⟩ := scanWords_ends E U k hk ws s hU hu
    unfold scan_region
    rw [hm]
    exact ⟨_, rfl⟩
  · intro k s' h
    unfold scan_region at h
    cases hm : scanWords k s.mem s.usedp ws with
    | none => rw [hm] at h; cases h
    | some m1 =>
      rw [hm] at h
      have e : s' = { s with mem := m1 } := (Option.some.inj h).symm
      rw [e]
      have hh : hits s.mem b v := by
        rw [hU.hits_range b v hbU]
        have := hU.1.blk b hbU
        omega
      have g := scanWords_links E U k ws s m1 hU hum hm
      exact ⟨scanWords_marks E U k v b hbU ws s m1 hU hu hv hh hm, rfl,
        fun x hx hmx => g.mark_mono x (hx.mem_reg hU.1) hmx⟩

theorem scan_region_no_false_negative_witness :
    markBit (getNext ((scan_region 16 (demoAlloc 2) [7, 12144]).getD demoInit).mem 12128) = 1 ∧
      markBit (getNext ((scan_region 16 (demoAlloc 2) [12224]).getD demoInit).mem 12208) = 1 :=
  match (demoAlloc2_reach.inv demoEnv_wellBehaved).1 with
  | ⟨_, U, hR, _⟩ =>
    ⟨((scan_region_no_false_negative demoEnv (demoAlloc 2) U (RegOK.of_rep hR) [7, 12144]
        12128 12144 ⟨by decide, 1, by decide⟩ (by decide) (by decide)
        (Or.inr (by decide))).2 16 _ (some_getD_of_isSome _ demoInit (by decide))).1,
      ((scan_region_no_false_negative demoEnv (demoAlloc 2) U (RegOK.of_rep hR) [12224]
        12208 12224 ⟨by decide, 0, by decide⟩ (by decide) (by decide)
        (Or.inl (by decide))).2 16 _ (some_getD_of_isSome _ demoInit (by decide))).1⟩

/-! ## C20: stopping at the first match loses no mark -/

theorem RegOK.untag_keep {E : Env} {s : State} {U : List Nat} (hU : RegOK E s U) (m' : Mem)
    (hS : SameLinks U s.mem m') (x : Nat) (hx : x ∈ U) :
    UNTAG (getNext m' x) = UNTAG (getNext s.mem x) := by
  obtain ⟨y, hy, hxy⟩ := hU.1.next_val x hx
  have hyb := hU.1.blk y hy
  have e := lnk_untag hxy hyb.1
  refine hS.untag x hx (by rw [e]; exact hyb.1) ?_
  rw [e]
  rcases hxy with h | h <;> omega

theorem markIf_links (E : Env) (s : State) (U : List Nat) (hU : RegOK E s U) (bp v : Nat)
    (hbp : bp ∈ U) : SameLinks U s.mem (markIf s.mem bp v) := by
  unfold markIf
  by_cases h : hits s.mem bp v
  · rw [if_pos h]
    exact SameLinks.mark U s.mem bp hbp (hU.link_lt bp hbp)
  · rw [if_neg h]
    exact SameLinks.refl U s.mem

/-- Along blocks none of which matches, the walk that marks every match changes
nothing. -/
theorem markEveryWalk_miss (E : Env) (s : State) (U : List Nat) (hU : RegOK E s U) (v : Nat) :
    ∀ (l done : List Nat) (k : Nat), U = done ++ l → l ≠ [] → l.length ≤ k →
      (∀ x ∈ l, ¬ hits s.mem x v) →
      markEveryWalk k s.mem s.usedp v (l.headD 0) = some s.mem := by
  intro l
  induction l with
  | nil => intro done k _ hne _ _; exact absurd rfl hne
  | cons bp rest ih =>
    intro done k hUl _ hk hmiss
    obtain ⟨k', rfl⟩ : ∃ k', k = k' + 1 := ⟨k - 1, by simp only [List.length_cons] at hk; omega⟩
    simp only [List.headD_cons]
    have hm : markIf s.mem bp v = s.mem := by
      unfold markIf
      rw [if_neg (hmiss bp (List.mem_cons_self _ _))]
    unfold markEveryWalk
    rw [hm]
    cases rest with
    | nil =>
      rw [hU.1.last_next done bp hUl, if_neg (by simp)]
    | cons c rest' =>
      have hcu : c ≠ s.usedp := by
        cases done with
        | nil =>
          intro e
          have hnd : (bp :: c :: rest').Nodup := by
            have := hU.1.nodup
            rw [hUl] at this
            exact this
          have hhead : s.usedp = bp := by
            have := hU.1.head
            rw [hUl] at this
            exact this
          have := (List.nodup_cons.1 hnd).1
          apply this
          rw [← hhead, ← e]
          exact List.mem_cons_self _ _
        | cons d done' =>
          exact hU.1.tail_ne_anchor (d :: done') (bp :: c :: rest') hUl (by simp) c (by simp)
      rw [hU.1.mid_next done bp c rest' hUl, if_pos hcu]
      have := ih (done ++ [bp]) k' (by rw [hUl]; simp) (by simp)
        (by simp only [List.length_cons] at hk ⊢; omega)
        (fun x hx => hmiss x (List.mem_cons_of_mem _ hx))
      simpa using this

/-- On a well-formed registry the walk that stops at the first match and the walk
that marks every match give the same memory. -/
theorem markEveryWalk_eq (E : Env) (s : State) (U : List Nat) (hU : RegOK E s U) (v : Nat) :
    ∀ (l done : List Nat) (k : Nat), U = done ++ l → l ≠ [] → l.length ≤ k →
      markEveryWalk k s.mem s.usedp v (l.headD 0) = markWalk k s.mem s.usedp v (l.headD 0) := by
  intro l
  induction l with
  | nil => intro done k _ hne _; exact absurd rfl hne
  | cons bp rest ih =>
    intro done k hUl _ hk
    obtain ⟨k', rfl⟩ : ∃ k', k = k' + 1 := ⟨k - 1, by simp only [List.length_cons] at hk; omega⟩
    have hbpU : bp ∈ U := by rw [hUl]; simp
    have hcu : ∀ c rest', rest = c :: rest' → c ≠ s.usedp := by
      intro c rest' hr
      rw [hr] at hUl
      cases done with
      | nil =>
        intro e
        have hnd : (bp :: c :: rest').Nodup := by
          have := hU.1.nodup
          rw [hUl] at this
          exact this
        have hhead : s.usedp = bp := by
          have := hU.1.head
          rw [hUl] at this
          exact this
        have := (List.nodup_cons.1 hnd).1
        apply this
        rw [← hhead, ← e]
        exact List.mem_cons_self _ _
      | cons d done' =>
        exact hU.1.tail_ne_anchor (d :: done') (bp :: c :: rest') hUl (by simp) c (by simp)
    simp only [List.headD_cons]
    unfold markEveryWalk markWalk
    by_cases hhit : hits s.mem bp v
    · rw [if_pos hhit]
      have hm : markIf s.mem bp v = setNext s.mem bp (setMark (getNext s.mem bp)) := by
        unfold markIf
        rw [if_pos hhit]
      have g1 := markIf_links E s U hU bp v hbpU
      rw [hU.untag_keep _ g1 bp hbpU]
      cases hr : rest with
      | nil =>
        rw [hr] at hUl
        rw [hU.1.last_next done bp hUl, if_neg (by simp), hm]
      | cons c rest' =>
        have hUl' := hUl
        rw [hr] at hUl'
        rw [hU.1.mid_next done bp c rest' hUl', if_pos (hcu c rest' hr)]
        have hU1 := hU.keep_marks _ g1
        have hnd : (done ++ bp :: c :: rest').Nodup := by rw [← hUl']; exact hU.1.nodup
        have hmiss : ∀ x ∈ c :: rest', ¬ hits (markIf s.mem bp v) x v := by
          intro x hx hhx
          have hxU : x ∈ U := by
            rw [hUl']
            exact List.mem_append_right _ (List.mem_cons_of_mem _ hx)
          have hhx' : hits s.mem x v := by
            unfold hits at hhx ⊢
            rw [hU.size_same g1 x hxU] at hhx
            exact hhx
          have hxb : x = bp := hU.hits_one x bp v hxU hbpU hhx' hhit
          rw [List.nodup_append] at hnd
          exact (List.nodup_cons.1 hnd.2.1).1 (hxb ▸ hx)
        have := markEveryWalk_miss E { s with mem := markIf s.mem bp v } U hU1 v (c :: rest')
          (done ++ [bp]) k' (by rw [hUl']; simp) (by simp)
          (by rw [hr] at hk; simp only [List.length_cons] at hk ⊢; omega) hmiss
        simp only [List.headD_cons] at this
        rw [this, hm]
    · rw [if_neg hhit]
      have hm : markIf s.mem bp v = s.mem := by
        unfold markIf
        rw [if_neg hhit]
      rw [hm]
      cases hr : rest with
      | nil =>
        rw [hr] at hUl
        rw [hU.1.last_next done bp hUl, if_neg (by simp), if_neg (by simp)]
      | cons c rest' =>
        have hUl' := hUl
        rw [hr] at hUl'
        rw [hU.1.mid_next done bp c rest' hUl', if_pos (hcu c rest' hr), if_pos (hcu c rest' hr)]
        have := ih (done ++ [bp]) k' (by rw [hUl]; simp) (by rw [hr]; simp)
          (by simp only [List.length_cons] at hk; omega)
        rw [hr] at this
        simpa using this

theorem scanEveryWords_eq (E : Env) (U : List Nat) (k : Nat) (hk : U.length ≤ k) :
    ∀ (ws : List Nat) (s : State), RegOK E s U → s.usedp ≠ 0 →
      scanEveryWords k s.mem s.usedp ws = scanWords k s.mem s.usedp ws := by
  intro ws
  induction ws with
  | nil => intro s _ _; rfl
  | cons v vs ih =>
    intro s hU hu
    have hum := hU.1.usedp_mem hu
    have hhd : s.usedp = U.headD 0 := hU.1.head
    have hne : U ≠ [] := by intro e; rw [e] at hum; simp at hum
    have e1 := markEveryWalk_eq E s U hU v U [] k rfl hne hk
    rw [← hhd] at e1
    simp only [scanEveryWords, scanWords, e1]
    cases hmw : markWalk k s.mem s.usedp v s.usedp with
    | none => rfl
    | some m1 =>
      have g1 := markWalk_links E s U hU v k s.usedp m1 hum hmw
      exact ih { s with mem := m1 } (hU.keep_marks m1 g1) hu

/-- C20 (first-match scanning loses no mark): in a well-formed non-empty registry
at most one block passes the containment test `bp + 1 <= v < bp + 1 + bp->size`
of `scan_region` and `scan_heap` for a given value, and `scan_region`, which
stops at the first match, returns the same state as the scan that marks every
matching block, for every fuel from the number of blocks on. -/
theorem first_match_loses_no_mark (E : Env) (s : State) (U : List Nat) (hU : RegOK E s U)
    (hu : s.usedp ≠ 0) :
    (∀ v x y, InRegistry s x → InRegistry s y → hits s.mem x v → hits s.mem y v → x = y) ∧
    ∀ ws k, U.length ≤ k →
      ∃ s', scan_region k s ws = some s' ∧ scan_region_every k s ws = some s' := by
  refine ⟨?_, ?_⟩
  · intro v x y hx hy h1 h2
    exact hU.hits_one x y v (hx.mem_reg hU.1) (hy.mem_reg hU.1) h1 h2
  · intro ws k hk
    obtain ⟨m', hm⟩ := scanWords_ends E U k hk ws s hU hu
    refine ⟨{ s with mem := m' }, ?_, ?_⟩
    · unfold scan_region
      rw [hm]
    · unfold scan_region_every
      rw [scanEveryWords_eq E U k hk ws s hU hu, hm]

theorem first_match_loses_no_mark_witness :
    (scan_region_every 16 (demoAlloc 3) [12224, 12208, 12064]).map
        (fun t => (markBit (getNext t.mem 12208), markBit (getNext t.mem 12128),
          markBit (getNext t.mem 12048))) = some (1, 1, 1) ∧
      ∃ s', scan_region 16 (demoAlloc 3) [12224, 12208, 12064] = some s' ∧
        scan_region_every 16 (demoAlloc 3) [12224, 12208, 12064] = some s' :=
  match (demoAlloc3_reach.inv demoEnv_wellBehaved).1 with
  | ⟨_, U, hR, _⟩ =>
    ⟨by decide,
      (first_match_loses_no_mark demoEnv (demoAlloc 3) U (RegOK.of_rep hR) (by decide)).2
        [12224, 12208, 12064] 16 (by
          have hn := hR.used.nodup
          have hsub : ∀ x ∈ U, x ∈ [12208, 12048, 12128] := by
            intro x hx
            have h1 := URep.inRegistry hR.used hx (by decide)
            obtain ⟨_, k, hk⟩ := h1
            obtain ⟨j, hj, e⟩ := regIter_period (demoAlloc 3).mem (demoAlloc 3).usedp 3
              (by decide) (by decide) k
            have hall : ∀ j, j < 3 →
                regIter (demoAlloc 3).mem j (demoAlloc 3).usedp ∈ [12208, 12048, 12128] := by
              decide
            rw [← hk, e]
            exact hall j hj
          have := (List.subperm_of_subset hn hsub).length_le
          simp only [List.length_cons, List.length_nil] at this
          omega)⟩

/-! ## C13: `scan_heap` leaves out the anchor -/

theorem toAnchorState_reach : Reach demoEnv toAnchorState :=
  Reach.store (demoAlloc 3) 12144 12224 demoAlloc3_reach
    ⟨12128, ⟨by decide, 2, by decide⟩, by decide, by decide⟩

/-- C13 (failing input): the registry of the reachable states `anchorState` and
`toAnchorState` holds the three blocks `12208` (anchor), `12048`, `12128` of five
units each.  (1) In `anchorState` the first payload word of the anchor holds
`12064`, a value in the payload of block `12048`; the root scan of the word
`12224` marks the anchor and nothing else, and after `scan_heap` block `12048` is
still unmarked: the outer loop of `scan_heap` never visits the anchor.  (2) In
`toAnchorState` the first payload word of block `12128` holds `12224`, the payload
address of the anchor; the root scan of the word `12144` marks `12128` and nothing
else, and after `scan_heap` the anchor is still unmarked: the inner loop never
tests the anchor. -/
theorem scan_heap_skips_anchor :
    (Reach demoEnv anchorState ∧ anchorState.usedp = 12208 ∧
      anchorState.mem 12224 = 12064 ∧
      (12048 + 16 ≤ 12064 ∧ 12064 < 12048 + 16 * getSize anchorState.mem 12048) ∧
      (scan_region 16 anchorState [12224]).map
        (fun t => (markBit (getNext t.mem 12208), markBit (getNext t.mem 12048),
          markBit (getNext t.mem 12128), t.mem 12224)) = some (1, 0, 0, 12064) ∧
      ((scan_region 16 anchorState [12224]).bind (scan_heap 16)).map
        (fun t => (markBit (getNext t.mem 12208), markBit (getNext t.mem 12048))) =
          some (1, 0)) ∧
    (Reach demoEnv toAnchorState ∧ toAnchorState.usedp = 12208 ∧
      toAnchorState.mem 12144 = 12224 ∧
      (12208 + 16 ≤ 12224 ∧ 12224 < 12208 + 16 * getSize toAnchorState.mem 12208) ∧
      (scan_region 16 toAnchorState [12144]).map
        (fun t => (markBit (getNext t.mem 12128), markBit (getNext t.mem 12208),
          markBit (getNext t.mem 12048), t.mem 12144)) = some (1, 0, 0, 12224) ∧
      ((scan_region 16 toAnchorState [12144]).bind (scan_heap 16)).map
        (fun t => (markBit (getNext t.mem 12128), markBit (getNext t.mem 12208))) =
          some (1, 0)) :=
  ⟨⟨anchorState_reach, by decide, by decide, by decide, by decide, by decide⟩,
    ⟨toAnchorState_reach, by decide, by decide, by decide, by decide, by decide⟩⟩

/-! ## C16: a value past the payload end marks a block -/

/-- C16 (failing input): in the reachable state `demoAlloc 2` the registry holds
the blocks `12208` (anchor) and `12128`, of five units each, both unmarked.  The
value `12208` is the address of the header of the block that follows `12128` in
memory; it lies in the payload of neither block (`[12144, 12208)` and
`[12224, 12288)`), yet `scan_region` on the single word `12208` sets the mark of
block `12128`.  The same happens for the value `12216`, the address of the `next`
field of that header. -/
theorem scan_region_marks_on_header_value :
    Reach demoEnv (demoAlloc 2) ∧
      ((demoAlloc 2).usedp = 12208 ∧ regIter (demoAlloc 2).mem 1 12208 = 12128 ∧
        regIter (demoAlloc 2).mem 2 12208 = 12208) ∧
      (getSize (demoAlloc 2).mem 12128 = 5 ∧ getSize (demoAlloc 2).mem 12208 = 5 ∧
        markBit (getNext (demoAlloc 2).mem 12128) = 0 ∧
        markBit (getNext (demoAlloc 2).mem 12208) = 0) ∧
      (∀ v ∈ [12208, 12216], ∀ b ∈ [12128, 12208],
        ¬ (b + 16 ≤ v ∧ v < b + 16 * getSize (demoAlloc 2).mem b)) ∧
      (scan_region 16 (demoAlloc 2) [12208]).map
        (fun t => (markBit (getNext t.mem 12128), markBit (getNext t.mem 12208))) =
          some (1, 0) ∧
      (scan_region 16 (demoAlloc 2) [12216]).map
        (fun t => (markBit (getNext t.mem 12128), markBit (getNext t.mem 12208))) =
          some (1, 0) :=
  ⟨demoAlloc2_reach, by decide, by decide, by decide, by decide, by decide⟩

/-! ## C15: `add_to_free_list` -/

/-- A free list and a fresh block inside a heap of fewer than `2^32` units have
sizes whose sum fits the 32-bit size field. -/
theorem Fresh.sum_lt {E : Env} {s : State} {F : List Nat} {bp : Nat} (hF : FRep E s F)
    (hb : Fresh E s F bp) (hspan : s.brk < E.base + 68719476736) :
    sizeSum s.mem F + getSize s.mem bp < 4294967296 := by
  have hp := packing s.mem (bp :: F).length (bp :: F) (E.base + 16) s.brk rfl
    (List.nodup_cons.2 ⟨hb.new, hF.nodup⟩) (by have := hb.lo; have := hb.hi; omega) ?_ ?_
  · rw [sizeSum_cons] at hp
    omega
  · intro x hx
    rcases List.mem_cons.1 hx with h | h
    · rw [h]; exact ⟨hb.lo, hb.hi_sz⟩
    · have := hF.blk x h
      exact ⟨this.2.1, this.2.2.2⟩
  · intro x hx y hy hxy
    rcases List.mem_cons.1 hx with h | h <;> rcases List.mem_cons.1 hy with h' | h'
    · omega
    · rw [h]; rw [h] at hxy; exact hb.above y h' hxy
    · rw [h']; rw [h'] at hxy; exact hb.below x h hxy
    · have := hF.disj x h y h' hxy
      omega

/-- After the coalescing steps every block covers only addresses of the inserted
block and of the old free blocks. -/
theorem linkIn_cover_back (E : Env) (s : State) (F : List Nat) (hF : FRep E s F) (bp r : Nat)
    (hb : Fresh E s F bp) (hr : r = E.base ∨ r ∈ F)
    (hx : (bp > r ∧ bp < getNext s.mem r) ∨
        (r ≥ getNext s.mem r ∧ (bp > r ∨ bp < getNext s.mem r)))
    (hsum : sizeSum s.mem F + getSize s.mem bp < 4294967296) :
    ∀ y, (y = bp ∨ y ∈ F) → ∀ a, y ≤ a → a < y + 16 * getSize (linkIn s.mem bp r) y →
      ∃ x, (x = bp ∨ x ∈ F) ∧ x ≤ a ∧ a < x + 16 * getSize s.mem x := by
  obtain ⟨hrb, ha, halt⟩ := slot_place E s F hF bp r hb.lo hr hx
  have hbrk := hF.brk_le
  have hblo := hb.lo
  have hbal := hb.al
  have hbhi := hb.hi
  have hbhs := hb.hi_sz
  have hnx : getNext s.mem r = E.base ∨ getNext s.mem r ∈ F := hF.next_mem r hr
  have hrs := Fresh.sep_node hF hb r hr
  have hns := Fresh.sep_node hF hb _ hnx
  have hrend : r + 16 * getSize s.mem r ≤ bp := by
    rcases hr with h | h
    · have := hF.base_size; rw [← h] at this; omega
    · exact hb.below r h hrb
  obtain ⟨vsb, _, vsr, _⟩ := linkIn_vals s.mem bp r hrs.1 hrs.2.1 (by omega) hns.2.1
  have hpb : padd bp (getSize s.mem bp) = bp + 16 * getSize s.mem bp := by
    unfold padd; omega
  have hpr : padd r (getSize s.mem r) = r + 16 * getSize s.mem r := by
    unfold padd; omega
  rw [hpb] at vsb vsr; rw [hpr] at vsr
  have hfr : ∀ x, (x = E.base ∨ x ∈ F) → x ≠ r →
      getSize (linkIn s.mem bp r) x = getSize s.mem x := by
    intro x hx hxr
    have h1 := Fresh.sep_node hF hb x hx
    have h2 := hF.node_sep x r hx hr
    unfold getSize
    rw [linkIn_frame _ _ _ _ h1.1 h1.2.2 hxr h2.2]
  have hup_mem : bp + 16 * getSize s.mem bp = getNext s.mem r → getNext s.mem r ∈ F := by
    intro hup
    rcases hnx with h | h
    · omega
    · exact h
  intro y hy a h1 h2
  by_cases hyb : y = bp
  · rw [hyb] at h1 h2
    rw [vsb] at h2
    by_cases hup : bp + 16 * getSize s.mem bp = getNext s.mem r
    · rw [if_pos hup] at h2
      have hnF := hup_mem hup
      have hle := sizeSum_mem_le s.mem _ F hnF
      rw [Nat.mod_eq_of_lt (by omega)] at h2
      by_cases hab : a < bp + 16 * getSize s.mem bp
      · exact ⟨bp, Or.inl rfl, h1, hab⟩
      · exact ⟨getNext s.mem r, Or.inr hnF, by omega, by omega⟩
    · rw [if_neg hup] at h2
      exact ⟨bp, Or.inl rfl, h1, h2⟩
  · have hyF : y ∈ F := by
      rcases hy with h | h
      · exact absurd h hyb
      · exact h
    by_cases hyr : y = r
    · rw [hyr] at h1 h2 hyF
      rw [vsr] at h2
      by_cases hdn : r + 16 * getSize s.mem r = bp
      · rw [if_pos hdn] at h2
        have hler := sizeSum_mem_le s.mem r F hyF
        by_cases hup : bp + 16 * getSize s.mem bp = getNext s.mem r
        · rw [if_pos hup] at h2
          have hnF := hup_mem hup
          have e1 := sizeSum_erase s.mem r F hyF
          have hne : getNext s.mem r ∈ F.erase r :=
            (hF.nodup.mem_erase_iff).2 ⟨by omega, hnF⟩
          have e2 := sizeSum_mem_le s.mem _ (F.erase r) hne
          rw [Nat.mod_eq_of_lt (a := getSize s.mem bp + getSize s.mem (getNext s.mem r))
            (by omega), Nat.mod_eq_of_lt (by omega)] at h2
          by_cases hab : a < bp
          · exact ⟨r, Or.inr hyF, h1, by omega⟩
          · by_cases hab2 : a < bp + 16 * getSize s.mem bp
            · exact ⟨bp, Or.inl rfl, by omega, hab2⟩
            · exact ⟨getNext s.mem r, Or.inr hnF, by omega, by omega⟩
        · rw [if_neg hup] at h2
          rw [Nat.mod_eq_of_lt (by omega)] at h2
          by_cases hab : a < bp
          · exact ⟨r, Or.inr hyF, h1, by omega⟩
          · exact ⟨bp, Or.inl rfl, by omega, by omega⟩
      · rw [if_neg hdn] at h2
        exact ⟨r, Or.inr hyF, h1, h2⟩
    · rw [hfr y (Or.inr hyF) hyr] at h2
      exact ⟨y, Or.inr hyF, h1, h2⟩

/-- C15 (`add_to_free_list`, amended): for every free list that satisfies the
free-list invariant (circular through the zero-size sentinel, address-ordered, no
two blocks adjacent), whatever its cursor, and every aligned block `bp` above the
sentinel that overlaps no free block, when the sizes of the free blocks and of
`bp` add up to less than `2^32`: `add_to_free_list(bp)` returns for every fuel
above `2 * |F| + 1`, the result satisfies the free-list invariant again, the
addresses covered by the free list are the old ones plus the range of `bp`, the
sum of the sizes is the old sum plus the size of `bp`, and the cursor is the old
node that precedes `bp` in address order: afterwards either its successor is the
block `bp` (possibly grown by its upper neighbour), or `bp` has been merged into
the cursor block itself. -/
theorem insert_correct (E : Env) (s : State) (F : List Nat) (bp : Nat) (hF : FRep E s F)
    (hb : Fresh E s F bp) (hsum : sizeSum s.mem F + getSize s.mem bp < 4294967296) :
    (∀ k, 2 * F.length + 1 < k → ∃ s', add_to_free_list k s bp = some s') ∧
    ∀ k s', add_to_free_list k s bp = some s' →
      ∃ F', FRep E s' F' ∧
        (∀ a, FreeCovers s' a ↔
          (FreeCovers s a ∨ (bp ≤ a ∧ a < bp + 16 * getSize s.mem bp))) ∧
        sizeSum s'.mem F' = sizeSum s.mem F + getSize s.mem bp ∧
        InFree s s'.freep ∧ s'.freep < bp ∧
        (∀ z, InFree s z → z ≤ s'.freep ∨ bp < z) ∧
        ((getNext s'.mem s'.freep = bp ∧ getSize s.mem bp ≤ getSize s'.mem bp) ∨
          (s'.freep + 16 * getSize s.mem s'.freep = bp ∧
            getSize s'.mem s'.freep =
              (if bp + 16 * getSize s.mem bp = getNext s.mem s'.freep
                then getSize s.mem s'.freep + getSize s.mem bp +
                  getSize s.mem (getNext s.mem s'.freep)
                else getSize s.mem s'.freep + getSize s.mem bp))) := by
  refine ⟨fun k hk => add_to_free_list_returns E s F bp k hF hb hk, ?_⟩
  intro k s' h
  obtain ⟨F', f1, _, _, _, _, f6, _, _, f9⟩ := add_to_free_list_spec E s s' F bp k hF hb h
  obtain ⟨f10, f11, f12⟩ := f9 hsum
  unfold add_to_free_list at h
  cases hfs : findSlot k s.mem bp s.freep with
  | none => rw [hfs] at h; cases h
  | some r =>
    rw [hfs] at h
    have e : s' = { s with mem := linkIn s.mem bp r, freep := r } := (Option.some.inj h).symm
    obtain ⟨hr, hx⟩ := findSlot_spec E s F hF bp k s.freep r hF.freep_mem hfs
    obtain ⟨hrb, hbetween, halt⟩ := slot_place E s F hF bp r hb.lo hr hx
    have hback := linkIn_cover_back E s F hF bp r hb hr hx hsum
    have hmem : s'.mem = linkIn s.mem bp r := by rw [e]
    have hfp : s'.freep = r := by rw [e]
    refine ⟨F', f1, ?_, f10, ?_, ?_, ?_, ?_⟩
    · intro a
      constructor
      · rintro ⟨y, hy, h1, h2⟩
        rcases hy.mem_free f1 with hy0 | hy0
        · rw [hy0, f1.base_size] at h2
          omega
        · have hy1 := f6 y hy0
          rw [hmem] at h2
          obtain ⟨x, hx1, hx2, hx3⟩ := hback y hy1 a h1 h2
          rcases hx1 with hx1 | hx1
          · right; rw [hx1] at hx2 hx3; exact ⟨hx2, hx3⟩
          · left; exact ⟨x, hF.inFree x (Or.inr hx1), hx2, hx3⟩
      · intro hcov
        have hcase : ∃ x, (x = bp ∨ x ∈ F) ∧ x ≤ a ∧ a < x + 16 * getSize s.mem x := by
          rcases hcov with ⟨x, hx1, hx2, hx3⟩ | ⟨h1, h2⟩
          · rcases hx1.mem_free hF with hx0 | hx0
            · rw [hx0, hF.base_size] at hx3
              omega
            · exact ⟨x, Or.inr hx0, hx2, hx3⟩
          · exact ⟨bp, Or.inl rfl, h1, h2⟩
        obtain ⟨x, hx1, hx2, hx3⟩ := hcase
        obtain ⟨y, hy, hy1, hy2⟩ := f11 x hx1
        exact ⟨y, f1.inFree y (Or.inr hy), by omega, by omega⟩
    · rw [hfp]; exact hF.inFree r hr
    · rw [hfp]; exact hrb
    · intro z hz
      rw [hfp]
      rcases hz.mem_free hF with hz0 | hz0
      · left
        rcases hr with h0 | h0
        · omega
        · have := hF.blk r h0; omega
      · rcases halt with ⟨h1, _⟩ | ⟨_, h2⟩
        · rcases hbetween z hz0 with h3 | h3
          · exact Or.inl h3
          · exact Or.inr (by omega)
        · exact Or.inl (h2 z hz0)
    · rcases f12 with ⟨h1, h2⟩ | ⟨h1, _⟩
      · exact Or.inl ⟨h1, h2⟩
      · right
        refine ⟨h1, ?_⟩
        rw [hfp] at h1 ⊢
        have hrF : r ∈ F := by
          rcases hr with h0 | h0
          · have := hF.base_size; rw [← h0] at this; have := hb.lo; omega
          · exact h0
        have hnx : getNext s.mem r = E.base ∨ getNext s.mem r ∈ F := hF.next_mem r hr
        have hrs := Fresh.sep_node hF hb r hr
        have hns := Fresh.sep_node hF hb _ hnx
        have hbrk := hF.brk_le
        have hbhs := hb.hi_sz
        have hrb2 := hF.blk r hrF
        obtain ⟨_, _, vsr, _⟩ := linkIn_vals s.mem bp r hrs.1 hrs.2.1
          (by have := hb.al; omega) hns.2.1
        have hpb : padd bp (getSize s.mem bp) = bp + 16 * getSize s.mem bp := by
          unfold padd; omega
        have hpr : padd r (getSize s.mem r) = r + 16 * getSize s.mem r := by
          unfold padd; omega
        rw [hpb, hpr, if_pos h1] at vsr
        rw [hmem, vsr]
        have hler := sizeSum_mem_le s.mem r F hrF
        by_cases hup : bp + 16 * getSize s.mem bp = getNext s.mem r
        · rw [if_pos hup, if_pos hup]
          have hnF : getNext s.mem r ∈ F := by
            rcases hnx with h0 | h0
            · have := hb.lo; omega
            · exact h0
          have e1 := sizeSum_erase s.mem r F hrF
          have hne : getNext s.mem r ∈ F.erase r :=
            (hF.nodup.mem_erase_iff).2 ⟨by omega, hnF⟩
          have e2 := sizeSum_mem_le s.mem _ (F.erase r) hne
          rw [Nat.mod_eq_of_lt (a := getSize s.mem bp + getSize s.mem (getNext s.mem r))
            (by omega), Nat.mod_eq_of_lt (by omega)]
          omega
        · rw [if_neg hup, if_neg hup]
          rw [Nat.mod_eq_of_lt (by omega)]

/-! ## The sweep reclaims every unmarked block -/

/-- The sweep hands exactly the unmarked blocks to `add_to_free_list`, each once,
in the order of the walk, and in a heap of fewer than `2^32` units the free list
it leaves covers each of them and every block that was free before. -/
theorem sweep_cover (E : Env) :
    ∀ (k : Nat) (s : State) (F K Q : List Nat) (u0 : Nat) (s' : State) (l : List Nat),
      Rep E s F (u0 :: K ++ Q) → (∀ x ∈ K, markBit (getNext s.mem x) = 0) →
      s.brk < E.base + 68719476736 →
      sweep k s (K.getLastD u0) (Q.headD u0) = some (s', l) →
      l = (Q ++ [u0]).filter (fun b => decide (markBit (getNext s.mem b) = 0)) ∧
      ∃ F' U', Rep E s' F' U' ∧
        ∀ x, (x ∈ l ∨ x ∈ F) → ∃ y ∈ F', y ≤ x ∧
          x + 16 * getSize s.mem x ≤ y + 16 * getSize s'.mem y := by
  intro k
  induction k with
  | zero => intro s F K Q u0 s' l _ _ _ h; simp [sweep] at h
  | succ k ih =>
    intro s F K Q u0 s' l hR hK hspan h
    have hU := hR.used
    have hus : s.usedp = u0 := hU.head
    cases Q with
    | nil =>
      simp only [List.headD_nil, List.append_nil] at h hR hU
      simp only [List.nil_append]
      have hu0 : u0 ∈ u0 :: K := List.mem_cons_self _ _
      have hu0b := hU.blk u0 hu0
      unfold sweep at h
      by_cases hm : markBit (getNext s.mem u0) = 0
      · rw [if_pos hm] at h
        cases hadd : add_to_free_list k s u0 with
        | none => rw [hadd] at h; cases h
        | some s1 =>
          rw [hadd] at h
          obtain ⟨F1, f1, f2, f3, f4, f5, _, _, _, f9⟩ :=
            add_to_free_list_spec E s s1 F u0 k hR.free (hR.fresh u0 hu0) hadd
          have hsum := Fresh.sum_lt hR.free (hR.fresh u0 hu0) hspan
          have hs1 : s1.usedp = u0 := by rw [f2]; exact hus
          simp only [if_pos hs1] at h
          have h0 := Option.some.inj h
          have e1 := congrArg Prod.fst h0
          have e2 := congrArg Prod.snd h0
          simp only at e1 e2
          subst e1 e2
          refine ⟨by simp [hm], F1, [],
            ⟨f1.congr_free (le_refl _) f1.brk_le rfl (fun _ _ => rfl) (fun _ _ => rfl),
            ⟨List.nodup_nil, ?_, ?_, rfl, trivial⟩, ?_, ?_, ?_, ?_, hR.base_pos, ?_⟩, ?_⟩
          · intro x hx; simp at hx
          · intro x hx; simp at hx
          · intro x _ hx; simp at hx
          · intro x _ y hy; simp at hy
          · intro x _ y hy; simp at hy
          · show s1.brk % 16 = 0; rw [f3]; exact hR.brk_al
          · show E.base + 16 ≤ s1.brk; rw [f3]; exact hR.base_lt
          · intro x hx
            refine (f9 hsum).2.1 x ?_
            rcases hx with h1 | h1
            · exact Or.inl (List.mem_singleton.1 h1)
            · exact Or.inr h1
      · rw [if_neg hm] at h
        simp only [if_pos hus.symm] at h
        have h0 := Option.some.inj h
        have e1 := congrArg Prod.fst h0
        have e2 := congrArg Prod.snd h0
        simp only at e1 e2
        subst e1 e2
        have hME := MarkEq.clear (u0 :: K) s.mem u0 hu0 (by have := hR.next_lt u0 hu0; omega)
        refine ⟨by simp [hm], F, u0 :: K, hR.of_markEq hME rfl rfl rfl, ?_⟩
        intro x hx
        rcases hx with h1 | h1
        · simp at h1
        · have hxb := hR.free.blk x h1
          refine ⟨x, h1, le_refl _, ?_⟩
          show x + 16 * getSize s.mem x ≤
            x + 16 * getSize (setNext s.mem u0 (clearMark (getNext s.mem u0))) x
          rw [getSize_setNext _ _ _ _ (by omega)]
    | cons a Q' =>
      simp only [List.headD_cons] at h
      have haU : a ∈ u0 :: K ++ a :: Q' := by simp
      have hab := hU.blk a haU
      have hau : a ≠ u0 := by
        intro e
        have hnd : ((u0 :: K) ++ a :: Q').Nodup := hU.nodup
        rw [List.nodup_append] at hnd
        exact hnd.2.2 (List.mem_cons_self _ _) (by rw [e]; exact List.mem_cons_self _ _)
      have hnd : ((u0 :: K) ++ a :: Q').Nodup := hU.nodup
      have hrest : ∀ b, b ∈ Q' ++ [u0] → b ∈ u0 :: K ++ Q' ∧ b ≠ a ∧ b ∈ u0 :: K ++ a :: Q' := by
        intro b hb
        rw [List.nodup_append] at hnd
        rcases List.mem_append.1 hb with h1 | h1
        · refine ⟨List.mem_append_right _ h1, ?_,
            List.mem_append_right _ (List.mem_cons_of_mem _ h1)⟩
          intro e
          exact (List.nodup_cons.1 hnd.2.1).1 (e ▸ h1)
        · rw [List.mem_singleton] at h1
          rw [h1]
          exact ⟨List.mem_cons_self _ _, fun e => hau e.symm, List.mem_cons_self _ _⟩
      unfold sweep at h
      by_cases hm : markBit (getNext s.mem a) = 0
      · rw [if_pos hm] at h
        cases hadd : add_to_free_list k s a with
        | none => rw [hadd] at h; cases h
        | some s1 =>
          rw [hadd] at h
          obtain ⟨F1, g1, g2, g3, g4, g5, g6, g7, g8, g9, _, g11, g12⟩ :=
            sweep_free_step E s s1 F K Q' u0 a k hR hK hadd
          have hsum := Fresh.sum_lt hR.free (hR.fresh a haU) hspan
          have hs1 : ¬ s1.usedp = a := by rw [g4]; exact fun e => hau e.symm
          simp only [if_neg hs1] at h
          rw [g3] at h g1 g2 g6 g11 g12
          cases hrec : sweep k { s1 with mem := setNext s1.mem (K.getLastD u0) (orBit (Q'.headD u0) (markBit (getNext s1.mem (K.getLastD u0)))) } (K.getLastD u0) (Q'.headD u0) with
          | none => rw [hrec] at h; cases h
          | some res =>
            rw [hrec] at h
            obtain ⟨s2, l2⟩ := res
            have h0 := Option.some.inj h
            have e1 := congrArg Prod.fst h0
            have e2 := congrArg Prod.snd h0
            simp only at e1 e2
            subst e1 e2
            obtain ⟨il, F', U', i1, i2⟩ := ih _ F1 K Q' u0 s2 l2 g1 g2
              (by show s1.brk < _; rw [g7]; exact hspan) hrec
            have hl2 : l2 = (Q' ++ [u0]).filter
                (fun b => decide (markBit (getNext s.mem b) = 0)) := by
              rw [il]
              apply List.filter_congr
              intro b hb
              simp only []
              rw [g6 b (hrest b hb).1]
            refine ⟨?_, F', U', i1, ?_⟩
            · rw [List.cons_append, List.filter_cons_of_pos (by simp [hm]), hl2]
            · intro x hx
              have hvia : ∀ y1 ∈ F1, ∀ t, t ≤ y1 + 16 * getSize
                  (setNext s1.mem (K.getLastD u0) (orBit (Q'.headD u0)
                    (markBit (getNext s1.mem (K.getLastD u0))))) y1 → y1 ≤ x →
                  ∃ y ∈ F', y ≤ x ∧ t ≤ y + 16 * getSize s2.mem y := by
                intro y1 hy1 t ht hle
                obtain ⟨y, hy, j1, j2⟩ := i2 y1 (Or.inr hy1)
                dsimp only at j2
                exact ⟨y, hy, by omega, by omega⟩
              have hfirst : (x = a ∨ x ∈ F) → ∃ y ∈ F', y ≤ x ∧
                  x + 16 * getSize s.mem x ≤ y + 16 * getSize s2.mem y := by
                intro hx1
                obtain ⟨y1, hy1, j1, j2⟩ := g12 hsum x hx1
                exact hvia y1 hy1 _ j2 j1
              rcases hx with h1 | h1
              · rcases List.mem_cons.1 h1 with h2 | h2
                · exact hfirst (Or.inl h2)
                · have hxq : x ∈ Q' ++ [u0] := by
                    rw [hl2] at h2
                    exact (List.mem_filter.1 h2).1
                  obtain ⟨y, hy, j1, j2⟩ := i2 x (Or.inl h2)
                  rw [show getSize ({ s1 with mem := setNext s1.mem (K.getLastD u0) (orBit (Q'.headD u0) (markBit (getNext s1.mem (K.getLastD u0)))) } : State).mem x = getSize s.mem x from g11 x (hrest x hxq).1] at j2
                  exact ⟨y, hy, j1, j2⟩
              · exact hfirst (Or.inr h1)
      · rw [if_neg hm] at h
        have hne : ¬ a = s.usedp := by rw [hus]; exact hau
        simp only [if_neg hne] at h
        have hME := MarkEq.clear (u0 :: K ++ a :: Q') s.mem a haU
          (by have := hR.next_lt a haU; omega)
        have hR2 : Rep E { s with mem := setNext s.mem a (clearMark (getNext s.mem a)) } F
            (u0 :: (K ++ [a]) ++ Q') := by
          have : u0 :: (K ++ [a]) ++ Q' = u0 :: K ++ a :: Q' := by simp
          rw [this]
          exact hR.of_markEq hME rfl rfl rfl
        have hL : Links s.mem ((u0 :: K) ++ a :: Q') u0 := hU.links
        rw [Links.append] at hL
        have hq : UNTAG (getNext (setNext s.mem a (clearMark (getNext s.mem a))) a) =
            Q'.headD u0 := by
          have hl := hL.2.1
          have hev : Q'.headD u0 % 16 = 0 := by
            cases Q' with
            | nil => exact (hU.blk u0 (List.mem_cons_self _ _)).1
            | cons c t =>
              exact (hU.blk c (List.mem_append_right _ (List.mem_cons_of_mem _
                (List.mem_cons_self _ _)))).1
          have hlt := hR.next_lt a haU
          rw [getNext_setNext_same]
          unfold lnk at hl
          unfold UNTAG clearMark
          rcases hl with h1 | h1 <;> rw [h1] <;> omega
        rw [hq] at h
        have hK2 : ∀ x ∈ K ++ [a],
            markBit (getNext (setNext s.mem a (clearMark (getNext s.mem a))) x) = 0 := by
          intro x hx
          by_cases hxa : x = a
          · rw [hxa, getNext_setNext_same]
            unfold markBit clearMark; omega
          · rw [getNext_setNext_ne _ _ _ _ hxa]
            rcases List.mem_append.1 hx with h1 | h1
            · exact hK x h1
            · rw [List.mem_singleton] at h1; exact absurd h1 hxa
        have hcall : sweep k { s with mem := setNext s.mem a (clearMark (getNext s.mem a)) }
            ((K ++ [a]).getLastD u0) (Q'.headD u0) = some (s', l) := by
          rw [getLastD_append_singleton]; exact h
        obtain ⟨il, F', U', i1, i2⟩ := ih _ F (K ++ [a]) Q' u0 s' l hR2 hK2 hspan hcall
        have hl : l = (Q' ++ [u0]).filter
            (fun b => decide (markBit (getNext s.mem b) = 0)) := by
          rw [il]
          apply List.filter_congr
          intro b hb
          simp only []
          rw [getNext_setNext_ne _ _ _ _ (hrest b hb).2.1]
        refine ⟨?_, F', U', i1, ?_⟩
        · rw [List.cons_append, List.filter_cons_of_neg (by simp [hm]), hl]
        · intro x hx
          have hxal : x % 16 = 0 := by
            rcases hx with h1 | h1
            · rw [hl] at h1
              exact (hU.blk x (hrest x (List.mem_filter.1 h1).1).2.2).1
            · exact (hR.free.blk x h1).1
          obtain ⟨y, hy, j1, j2⟩ := i2 x hx
          rw [show getSize ({ s with mem := setNext s.mem a (clearMark (getNext s.mem a)) } : State).mem x = getSize s.mem x from getSize_setNext _ _ _ _ (by omega)] at j2
          exact ⟨y, hy, j1, j2⟩

/-- The outcome of the sweep in a heap of fewer than `2^32` units. -/
theorem sweep_reclaims (E : Env) (s : State) (F U : List Nat) (hR : Rep E s F U)
    (hu : s.usedp ≠ 0) (hspan : s.brk < E.base + 68719476736) (k : Nat) (s' : State)
    (l : List Nat) (h : sweep k s s.usedp (UNTAG (getNext s.mem s.usedp)) = some (s', l)) :
    Reclaims s s' l := by
  obtain ⟨u0, R, hUc, hus, hq⟩ := sweep_entry E s F U hR hu
  rw [hq, hus] at h
  have hR0 := hR
  rw [hUc] at hR0
  have hcall : sweep k s (([] : List Nat).getLastD u0) (R.headD u0) = some (s', l) := h
  obtain ⟨hl, F', U', hR', hcov⟩ :=
    sweep_cover E k s F [] R u0 s' l hR0 (fun x hx => by simp at hx) hspan hcall
  have hmem : ∀ b, b ∈ l ↔ (b ∈ U ∧ markBit (getNext s.mem b) = 0) := by
    intro b
    rw [hl, hUc, List.mem_filter]
    simp [or_comm]
  refine ⟨?_, ?_, ?_⟩
  · rw [hl]
    apply List.Nodup.filter
    have hnd : ([u0] ++ R).Nodup := hR0.used.nodup
    exact List.nodup_append_comm.1 hnd
  · intro b
    rw [hmem b]
    constructor
    · rintro ⟨h1, h2⟩
      exact ⟨hR.used.inRegistry h1 hu, h2⟩
    · rintro ⟨h1, h2⟩
      exact ⟨h1.mem_reg hR.used, h2⟩
  · intro b hb
    obtain ⟨y, hy, h1, h2⟩ := hcov b (Or.inl hb)
    have hbU := ((hmem b).1 hb).1
    have hbb := hR.used.blk b hbU
    refine ⟨?_, y, hR'.free.inFree y (Or.inr hy), h1, h2⟩
    intro hreg
    have hbU' := hreg.mem_reg hR'.used
    have hne : y ≠ b := fun e => hR'.ne y hy (e ▸ hbU')
    have := hR'.fu y hy b hbU' (by omega)
    omega

/-- C14 (the sweep reclaims every unmarked block, amended): in every state that
satisfies the allocator invariant, with a non-empty registry, whatever the mark
flags, and with a heap of fewer than `2^32` units between the sentinel and the
break: the sweep loop returns for every fuel from `3 * |U| + 2 * |F| + 4` on; the
blocks it hands to `add_to_free_list` are exactly the registered blocks whose
mark is unset (the anchor included), each once; none of them is registered
afterwards and a node of the free list covers the memory of each.  The same
holds for every `GC_collect` that returns, which ends with this sweep, for the
marks left by its scans; and `GC_collect` returns for every sufficient fuel when
no registered block other than the anchor ends at the break (`scan_heap` reads
the header unit that follows a marked block, and the call has no result when
that unit lies outside the heap). -/
theorem sweep_reclaims_unmarked (E : Env) (s : State) (F U : List Nat) (hR : Rep E s F U)
    (hu : s.usedp ≠ 0) (hspan : s.brk < E.base + 68719476736) :
    (∀ k, 3 * U.length + 2 * F.length + 4 ≤ k →
      ∃ res, sweep k s s.usedp (UNTAG (getNext s.mem s.usedp)) = some res) ∧
    (∀ k s' l, sweep k s s.usedp (UNTAG (getNext s.mem s.usedp)) = some (s', l) →
      Reclaims s s' l) ∧
    ∀ statics stack,
      ((∀ x, InRegistry s x → x ≠ s.usedp → x + 16 * getSize s.mem x + 16 ≤ s.brk) →
        ∀ k, 3 * U.length + 2 * F.length + 8589934600 ≤ k →
          ∃ res, GC_collect k s statics stack = some res) ∧
      ∀ k s' l, GC_collect k s statics stack = some (s', l) →
        ∃ s1 s2 s3, scan_region k s statics = some s1 ∧ scan_region k s1 stack = some s2 ∧
          scan_heap k s2 = some s3 ∧ (∀ b, InRegistry s3 b ↔ InRegistry s b) ∧
          (∀ b, InRegistry s b → getSize s3.mem b = getSize s.mem b) ∧
          Reclaims s3 s' l := by
  refine ⟨?_, fun k s' l h => sweep_reclaims E s F U hR hu hspan k s' l h, ?_⟩
  · intro k hk
    obtain ⟨u0, R, hUc, hus, hq⟩ := sweep_entry E s F U hR hu
    rw [hq, hus]
    have hR0 := hR
    rw [hUc] at hR0
    exact sweep_returns E R k s F [] u0 hR0 (fun x hx => by simp at hx)
      (by rw [hUc] at hk; simp only [List.length_cons] at hk; omega)
  · intro statics stack
    refine ⟨fun hB k hk => GC_collect_returns E s F U hR
      (fun x hx hxu => hB x (hR.used.inRegistry hx hu) hxu) statics stack k hk, ?_⟩
    intro k s' l h
    obtain ⟨s1, s2, s3, h1, h2, h3, h4⟩ := GC_collect_stages k s s' statics stack l hu h
    obtain ⟨r1, l1, u1, _, b1, _⟩ := scan_region_Rep E s s1 F U k statics hR hu h1
    have hu1 : s1.usedp ≠ 0 := by rw [u1]; exact hu
    obtain ⟨r2, l2, u2, _, b2, _⟩ := scan_region_Rep E s1 s2 F U k stack r1 hu1 h2
    have hu2 : s2.usedp ≠ 0 := by rw [u2]; exact hu1
    obtain ⟨r3, l3, u3, _, b3, _⟩ := scan_heap_Rep E s2 s3 F U k r2 hu2 h3
    have hu3 : s3.usedp ≠ 0 := by rw [u3]; exact hu2
    refine ⟨s1, s2, s3, h1, h2, h3, ?_, ?_,
      sweep_reclaims E s3 F U r3 hu3 (by rw [b3, b2, b1]; exact hspan) k s' l h4⟩
    · intro b
      constructor
      · intro hb; exact hR.used.inRegistry (hb.mem_reg r3.used) hu
      · intro hb; exact r3.used.inRegistry (hb.mem_reg hR.used) hu3
    · intro b hb
      have hbU := hb.mem_reg hR.used
      rw [SameLinks.size_eq r2 l3 b hbU, SameLinks.size_eq r1 l2 b hbU,
        SameLinks.size_eq hR l1 b hbU]

theorem sweep_reclaims_unmarked_witness :
    Reclaims anchorMarked
        ((sweep 16 anchorMarked anchorMarked.usedp
          (UNTAG (getNext anchorMarked.mem anchorMarked.usedp))).getD (demoInit, [])).1
        ((sweep 16 anchorMarked anchorMarked.usedp
          (UNTAG (getNext anchorMarked.mem anchorMarked.usedp))).getD (demoInit, [])).2 ∧
      (sweep 16 anchorMarked anchorMarked.usedp
        (UNTAG (getNext anchorMarked.mem anchorMarked.usedp))).map
          (fun r => (r.2, r.1.usedp)) = some ([12048, 12128], 12208) ∧
      ∃ k0, ∀ k, k0 ≤ k → ∃ res, GC_collect k anchorMarked [] [] = some res := by
  obtain ⟨F, U, hR, _⟩ := (demoAlloc3_reach.inv demoEnv_wellBehaved).1
  have hR1 := (scan_region_Rep demoEnv (demoAlloc 3) anchorMarked F U 16 [12224] hR (by decide)
    (some_getD_of_isSome _ demoInit (by decide))).1
  have hB : ∀ x, InRegistry anchorMarked x → x ≠ anchorMarked.usedp →
      x + 16 * getSize anchorMarked.mem x + 16 ≤ anchorMarked.brk := by
    rintro x ⟨_, k, hk⟩ hx
    obtain ⟨j, hj, e⟩ := regIter_period anchorMarked.mem anchorMarked.usedp 3 (by decide)
      (by decide) k
    have hall : ∀ j, j < 3 → regIter anchorMarked.mem j anchorMarked.usedp ≠ anchorMarked.usedp →
        regIter anchorMarked.mem j anchorMarked.usedp +
          16 * getSize anchorMarked.mem (regIter anchorMarked.mem j anchorMarked.usedp) + 16 ≤
            anchorMarked.brk := by decide
    rw [← hk, e] at hx ⊢
    exact hall j hj hx
  exact ⟨(sweep_reclaims_unmarked demoEnv anchorMarked F U hR1 (by decide) (by decide)).2.1 16
      _ _ (some_pair_of_isSome _ (demoInit, []) (by decide)),
    by decide,
    3 * U.length + 2 * F.length + 8589934600,
    ((sweep_reclaims_unmarked demoEnv anchorMarked F U hR1 (by decide) (by decide)).2.2
      [] []).1 hB⟩

/-! ## C14 and C15: witness and counterexamples -/

/-- In a free-list cycle of length `c` every node is among the first `c` ones. -/
theorem freeIter_period (m : Mem) (p c : Nat) (hc : 0 < c) (h : freeIter m c p = p) :
    ∀ k, ∃ j, j < c ∧ freeIter m k p = freeIter m j p := by
  intro k
  induction k using Nat.strong_induction_on with
  | _ k ih =>
    by_cases hk : k < c
    · exact ⟨k, hk, rfl⟩
    · obtain ⟨j, hj, e⟩ := ih (k - c) (by omega)
      refine ⟨j, hj, ?_⟩
      have : k = c + (k - c) := by omega
      rw [this, freeIter_add, h, e]

theorem hugeTwo_reach : Reach hugeEnv hugeTwo :=
  Reach.malloc _ _ 8 68719476704 _
    (Reach.malloc _ _ 8 64 _
      (Reach.init (fun _ => 0) 8192 0 (by decide) (by decide) (by decide) (by decide))
      (some_pair_of_isSome _ (boot (fun _ => 0) 8192, 0) (by decide)))
    (some_pair_of_isSome _ (hugeOne, 0) (by decide))

theorem insert_correct_witness :
    ∃ F', FRep demoEnv ((add_to_free_list 8 (demoAlloc 3) 12208).getD demoInit) F' ∧
      (∀ a, FreeCovers ((add_to_free_list 8 (demoAlloc 3) 12208).getD demoInit) a ↔
        (FreeCovers (demoAlloc 3) a ∨
          (12208 ≤ a ∧ a < 12208 + 16 * getSize (demoAlloc 3).mem 12208))) ∧
      getNext ((add_to_free_list 8 (demoAlloc 3) 12208).getD demoInit).mem
        ((add_to_free_list 8 (demoAlloc 3) 12208).getD demoInit).freep = 12208 :=
  match (demoAlloc3_reach.inv demoEnv_wellBehaved).1 with
  | ⟨F, U, hR, _⟩ =>
    match (insert_correct demoEnv (demoAlloc 3) F 12208 hR.free
        (hR.fresh 12208 (InRegistry.mem_reg hR.used ⟨by decide, 0, by decide⟩))
        (Fresh.sum_lt hR.free
          (hR.fresh 12208 (InRegistry.mem_reg hR.used ⟨by decide, 0, by decide⟩))
          (by decide))).2 8 _ (some_getD_of_isSome _ demoInit (by decide)) with
    | ⟨F', h1, h2, _⟩ => ⟨F', h1, h2, by decide⟩

/-- C15 (counterexample): (1) in the reachable state `demoAlloc 2` the free list
holds the block `8192` of 246 units, which ends at `12128`; `add_to_free_list` of
the block `12128` (5 units) merges it into `8192`, and the cursor afterwards is
the merged block `8192` itself, whose predecessor in the list is the sentinel
`1024`.  (2) In the state `hugeMid` the free list holds the blocks `8192` (251
units) and `12288` (`2^32 - 1` units); `add_to_free_list` of the block `12208`
(5 units), which lies between them and touches both, leaves the single block
`8192` with size 255: the sum of the sizes is not the old sum plus 5, and the
address `12288`, covered before, is covered no more. -/
theorem insert_cursor_and_size_wrap :
    ((∃ F, FRep demoEnv (demoAlloc 2) F ∧ Fresh demoEnv (demoAlloc 2) F 12128) ∧
      getSize (demoAlloc 2).mem 12128 = 5 ∧
      (add_to_free_list 8 (demoAlloc 2) 12128).map
        (fun t => (t.freep, getSize t.mem 8192, getNext t.mem 8192, getNext t.mem 1024)) =
          some (8192, 251, 1024, 8192)) ∧
    ((∃ F, FRep hugeEnv hugeMid F ∧ Fresh hugeEnv hugeMid F 12208 ∧
        sizeSum hugeMid.mem F = 251 + 4294967295) ∧
      getSize hugeMid.mem 12208 = 5 ∧ FreeCovers hugeMid 12288 ∧
      (add_to_free_list 8 hugeMid 12208).map
        (fun t => (t.freep, getNext t.mem 1024, getSize t.mem 8192, getNext t.mem 8192)) =
          some (8192, 8192, 255, 1024) ∧
      ¬ FreeCovers ((add_to_free_list 8 hugeMid 12208).getD hugeMid) 12288) := by
  refine ⟨⟨?_, by decide, by decide⟩, ⟨?_, by decide, ?_, by decide, ?_⟩⟩
  · obtain ⟨F, U, hR, _⟩ := (demoAlloc2_reach.inv demoEnv_wellBehaved).1
    exact ⟨F, hR.free, hR.fresh 12128 (InRegistry.mem_reg hR.used ⟨by decide, 1, by decide⟩)⟩
  · obtain ⟨F, U, hR, _⟩ := (hugeTwo_reach.inv hugeEnv_wellBehaved).1
    have hp : 12288 ∈ U := InRegistry.mem_reg hR.used ⟨by decide, 1, by decide⟩
    obtain ⟨F', f1, _⟩ := add_to_free_list_spec hugeEnv hugeTwo hugeMid F 12288 8 hR.free
      (hR.fresh 12288 hp) (some_getD_of_isSome _ hugeTwo (by decide))
    have hnodes : ∀ y, InFree hugeMid y → y = 8192 ∨ y = 12288 ∨ y = 1024 := by
      rintro y ⟨k, hk⟩
      obtain ⟨j, hj, e⟩ := freeIter_period hugeMid.mem hugeMid.freep 3 (by decide)
        (by decide) k
      have hall : ∀ j, j < 3 → freeIter hugeMid.mem j hugeMid.freep = 8192 ∨
          freeIter hugeMid.mem j hugeMid.freep = 12288 ∨
          freeIter hugeMid.mem j hugeMid.freep = 1024 := by decide
      rw [← hk, e]
      exact hall j hj
    have hF' : ∀ y ∈ F', y = 8192 ∨ y = 12288 := by
      intro y hy
      have hb := f1.blk y hy
      have hbase : hugeEnv.base = 1024 := rfl
      rcases hnodes y (f1.inFree y (Or.inr hy)) with h | h | h
      · exact Or.inl h
      · exact Or.inr h
      · omega
    have h1 : (8192 : Nat) ∈ F' := by
      rcases InFree.mem_free f1 (⟨0, by decide⟩ : InFree hugeMid 8192) with h | h
      · exact absurd h (by decide)
      · exact h
    have h2 : (12288 : Nat) ∈ F' := by
      rcases InFree.mem_free f1 (⟨1, by decide⟩ : InFree hugeMid 12288) with h | h
      · exact absurd h (by decide)
      · exact h
    have hs1 : getSize hugeMid.mem 8192 = 251 := by decide
    have hs2 : getSize hugeMid.mem 12288 = 4294967295 := by decide
    have hs3 : getSize hugeMid.mem 12208 = 5 := by decide
    refine ⟨F', f1, ⟨by decide, by decide, by decide, by decide, ?_, ?_, ?_⟩, ?_⟩
    · intro h
      rcases hF' _ h with h | h <;> omega
    · intro y hy hlt
      rcases hF' y hy with h | h
      · omega
      · rw [h, hs3]
    · intro y hy hlt
      rcases hF' y hy with h | h
      · rw [h, hs1]
      · omega
    · have e1 := sizeSum_erase hugeMid.mem 8192 F' h1
      have h2' : (12288 : Nat) ∈ F'.erase 8192 := (f1.nodup.mem_erase_iff).2 ⟨by decide, h2⟩
      have e2 := sizeSum_erase hugeMid.mem 12288 (F'.erase 8192) h2'
      have hnil : (F'.erase 8192).erase 12288 = [] := by
        apply List.eq_nil_iff_forall_not_mem.2
        intro y hy
        have hy1 := ((f1.nodup.erase 8192).mem_erase_iff).1 hy
        have hy2 := (f1.nodup.mem_erase_iff).1 hy1.2
        rcases hF' y hy2.2 with h | h
        · exact hy2.1 h
        · exact hy1.1 h
      rw [hnil] at e2
      have e3 : sizeSum hugeMid.mem [] = 0 := rfl
      omega
  · exact ⟨12288, ⟨1, by decide⟩, le_refl _, by
      have hs2 : getSize hugeMid.mem 12288 = 4294967295 := by decide
      rw [hs2]; omega⟩
  · rintro ⟨x, ⟨k, hk⟩, h1, h2⟩
    obtain ⟨j, hj, e⟩ := freeIter_period
      ((add_to_free_list 8 hugeMid 12208).getD hugeMid).mem
      ((add_to_free_list 8 hugeMid 12208).getD hugeMid).freep 2 (by decide) (by decide) k
    have hall : ∀ j, j < 2 →
        freeIter ((add_to_free_list 8 hugeMid 12208).getD hugeMid).mem j
            ((add_to_free_list 8 hugeMid 12208).getD hugeMid).freep +
          16 * getSize ((add_to_free_list 8 hugeMid 12208).getD hugeMid).mem
            (freeIter ((add_to_free_list 8 hugeMid 12208).getD hugeMid).mem j
              ((add_to_free_list 8 hugeMid 12208).getD hugeMid).freep) ≤ 12288 := by decide
    have := hall j hj
    rw [← e, hk] at this
    omega

/-- C14 (counterexample): in the reachable state `hugeTwo` the registry holds the
unmarked blocks `12208` (5 units, the anchor) and `12288` (`2^32 - 1` units).
`GC_collect` with no root, or with the allocator's own variables as the only
static data, hands both to `add_to_free_list`; the second call merges `12208`
with both neighbours and the 32-bit size wraps, so that the free list ends up
with the single block `8192` of 255 units: the memory of the block `12288` is
not covered by the free list. -/
theorem sweep_loses_block_on_size_wrap :
    Reach hugeEnv hugeTwo ∧
      (InRegistry hugeTwo 12288 ∧ markBit (getNext hugeTwo.mem 12288) = 0 ∧
        getSize hugeTwo.mem 12288 = 4294967295) ∧
      ((GC_collect 16 hugeTwo [] []).map (fun r => r.2) = some [12288, 12208] ∧
        ¬ FreeCovers (collectD 16 hugeTwo [] []) 12288) ∧
      ((GC_collect 16 hugeTwo (ownStatics hugeEnv hugeTwo) []).map (fun r => r.2) =
          some [12288, 12208] ∧
        ¬ FreeCovers (collectD 16 hugeTwo (ownStatics hugeEnv hugeTwo) []) 12288) := by
  refine ⟨hugeTwo_reach, ⟨⟨by decide, 1, by decide⟩, by decide, by decide⟩,
    ⟨by decide, ?_⟩, ⟨by decide, ?_⟩⟩
  · rintro ⟨x, ⟨k, hk⟩, h1, h2⟩
    obtain ⟨j, hj, e⟩ := freeIter_period (collectD 16 hugeTwo [] []).mem
      (collectD 16 hugeTwo [] []).freep 2 (by decide) (by decide) k
    have hall : ∀ j, j < 2 →
        freeIter (collectD 16 hugeTwo [] []).mem j (collectD 16 hugeTwo [] []).freep +
          16 * getSize (collectD 16 hugeTwo [] []).mem
            (freeIter (collectD 16 hugeTwo [] []).mem j (collectD 16 hugeTwo [] []).freep)
          ≤ 12288 := by decide
    have := hall j hj
    rw [← e, hk] at this
    omega
  · rintro ⟨x, ⟨k, hk⟩, h1, h2⟩
    obtain ⟨j, hj, e⟩ := freeIter_period
      (collectD 16 hugeTwo (ownStatics hugeEnv hugeTwo) []).mem
      (collectD 16 hugeTwo (ownStatics hugeEnv hugeTwo) []).freep 2 (by decide) (by decide) k
    have hall : ∀ j, j < 2 →
        freeIter (collectD 16 hugeTwo (ownStatics hugeEnv hugeTwo) []).mem j
            (collectD 16 hugeTwo (ownStatics hugeEnv hugeTwo) []).freep +
          16 * getSize (collectD 16 hugeTwo (ownStatics hugeEnv hugeTwo) []).mem
            (freeIter (collectD 16 hugeTwo (ownStatics hugeEnv hugeTwo) []).mem j
              (collectD 16 hugeTwo (ownStatics hugeEnv hugeTwo) []).freep)
          ≤ 12288 := by decide
    have := hall j hj
    rw [← e, hk] at this
    omega

/-! ## C1: witness and counterexample -/

theorem edgeState_reach : Reach demoEnv edgeState :=
  Reach.malloc _ _ 8 64 _
    (Reach.malloc _ _ 8 4080 _ demoInit_reach
      (some_pair_of_isSome _ (demoInit, 0) (by decide)))
    (some_pair_of_isSome _ (demoInit, 0) (by decide))

/-- In the reachable state `edgeState` the registry holds the anchor `8192` and the
block `16304` of five units, which ends at the break `16384`.  With a root word
that points into the payload of `16304` the pass of `scan_heap` finds this block
marked and reads the two words at `16384` and `16392`, outside the heap:
`GC_collect` has no result, whatever the fuel.  With no root it returns and
reclaims both blocks. -/
theorem collect_reads_past_break :
    Reach demoEnv edgeState ∧ edgeState.brk = 16384 ∧ edgeState.usedp = 8192 ∧
      regIter edgeState.mem 1 8192 = 16304 ∧ getSize edgeState.mem 16304 = 5 ∧
      (∀ k, GC_collect k edgeState [] [16320] = none) ∧
      (GC_collect 16 edgeState [] []).map (fun r => r.2) = some [16304, 8192] := by
  refine ⟨edgeState_reach, by decide, by decide, by decide, by decide, ?_, by decide⟩
  intro k
  cases hc : GC_collect k edgeState [] [16320] with
  | none => rfl
  | some res =>
    obtain ⟨s', l⟩ := res
    obtain ⟨F, U, hR, _⟩ := (edgeState_reach.inv demoEnv_wellBehaved).1
    have hu : edgeState.usedp ≠ 0 := by decide
    obtain ⟨s1, s2, s3, g1, g2, g3, _⟩ := GC_collect_stages k edgeState s' [] [16320] l hu hc
    have hw : WalkAt edgeState 1 16304 := by
      refine ⟨by decide, by decide, ?_⟩
      intro j h1 h2
      have hall : ∀ j, j < 2 → 1 ≤ j →
          regIter edgeState.mem j edgeState.usedp ≠ edgeState.usedp := by decide
      exact hall j (by omega) h1
    have := (GC_collect_marks demoEnv edgeState F U hR k [] [16320] s1 s2 s3 hu g1 g2 g3).2
      1 16304 (FwdReach.root 1 16304 hw
        ⟨⟨by decide, 1, by decide⟩, 16320, by decide, by decide, by decide⟩)
    have hs : getSize edgeState.mem 16304 = 5 := by decide
    have hb : edgeState.brk = 16384 := by decide
    rw [hs, hb] at this
    omega

/-! ## C7: `GC_malloc` fails only when the extension is refused -/

theorem restrictEnv_wellBehaved (E : Env) (hB : Bounded E) : WellBehaved (restrictEnv E) := by
  intro b inc h
  simp only [restrictEnv, Bool.and_eq_true, decide_eq_true_eq] at h
  exact ⟨h.2, hB b inc h.1⟩

theorem FRep.free_restrict {E : Env} {s : State} {F : List Nat} (h : FRep E s F) :
    FRep (restrictEnv E) s F :=
  ⟨h.brk_le, h.nodup, h.blk, h.disj, h.base_size, h.freep_mem, h.next_mem, h.next_ord⟩

theorem FRep.free_unrestrict {E : Env} {s : State} {F : List Nat} (h : FRep (restrictEnv E) s F) :
    FRep E s F :=
  ⟨h.brk_le, h.nodup, h.blk, h.disj, h.base_size, h.freep_mem, h.next_mem, h.next_ord⟩

theorem Rep.rep_restrict {E : Env} {s : State} {F U : List Nat} (h : Rep E s F U) :
    Rep (restrictEnv E) s F U :=
  ⟨h.free.free_restrict, ⟨h.used.nodup, h.used.blk, h.used.disj, h.used.head, h.used.links⟩,
    h.ne, h.fu, h.uf, h.brk_al, h.base_pos, h.base_lt⟩

theorem Rep.rep_unrestrict {E : Env} {s : State} {F U : List Nat} (h : Rep (restrictEnv E) s F U) :
    Rep E s F U :=
  ⟨h.free.free_unrestrict, ⟨h.used.nodup, h.used.blk, h.used.disj, h.used.head, h.used.links⟩,
    h.ne, h.fu, h.uf, h.brk_al, h.base_pos, h.base_lt⟩

/-- The request of `GC_malloc` is a multiple of 16 bytes: it is zero or at least 16. -/
theorem request_cases (n : Nat) : request n = 0 ∨ 16 ≤ request n := by
  unfold request
  omega

/-- A zero-byte request comes from a unit count of `2^60`. -/
theorem request_zero (n : Nat) (h : request n = 0) :
    4294967296 ≤ num_units n ∧
      (if num_units n < MIN_UNITS then MIN_UNITS else num_units n) = num_units n := by
  have hb := (num_units_bounds n).2
  unfold request at h
  unfold MIN_UNITS at h ⊢
  split_ifs at h ⊢ with h1
  omega

/-- The extension requests of the search loop are answered alike by `E` and by
`restrictEnv E`, when the request has at least 16 bytes, or when it is refused
at the present break. -/
theorem mallocLoop_restrict (E : Env) (num : Nat) :
    ∀ (k : Nat) (s : State) (prevp p : Nat),
      (16 ≤ ((if num < MIN_UNITS then MIN_UNITS else num) * 16) % 18446744073709551616 ∨
        E.grant s.brk
          (((if num < MIN_UNITS then MIN_UNITS else num) * 16) % 18446744073709551616) = false) →
      mallocLoop k E s num prevp p = mallocLoop k (restrictEnv E) s num prevp p := by
  intro k
  induction k with
  | zero => intro s prevp p _; rfl
  | succ k ih =>
    intro s prevp p hreq
    unfold mallocLoop
    by_cases hsz : getSize s.mem p ≥ num
    · rw [if_pos hsz, if_pos hsz]
    · rw [if_neg hsz, if_neg hsz]
      by_cases hpf : p = s.freep
      · rw [if_pos hpf, if_pos hpf]
        rcases hreq with h16 | href
        · have hmc : morecore k (restrictEnv E) s num = morecore k E s num := by
            unfold morecore sbrk
            simp only [restrictEnv, h16, decide_True, Bool.and_true]
          rw [hmc]
          cases hm : morecore k E s num with
          | none => rfl
          | some o =>
            cases o with
            | none => rfl
            | some s1 => exact ih s1 _ _ (Or.inl h16)
        · have hmc1 : morecore k E s num = some none := by
            unfold morecore sbrk
            simp only [href]
            rfl
          have hmc2 : morecore k (restrictEnv E) s num = some none := by
            unfold morecore sbrk
            simp only [restrictEnv, href, Bool.false_and]
            rfl
          rw [hmc1, hmc2]
      · rw [if_neg hpf, if_neg hpf]
        exact ih s _ _ hreq

theorem GC_malloc_restrict (E : Env) (s : State) (n k : Nat)
    (h : 16 ≤ request n ∨ E.grant s.brk (request n) = false) :
    GC_malloc k E s n = GC_malloc k (restrictEnv E) s n := by
  unfold GC_malloc
  simp only []
  by_cases hf : s.freep = 0
  · simp only [if_pos hf]
    exact mallocLoop_restrict E (num_units n) k _ _ _ h
  · simp only [if_neg hf]
    exact mallocLoop_restrict E (num_units n) k _ _ _ h

/-- A request of zero bytes that is granted leaves the break where it is, and the
search loop goes on for ever: a result comes only after a refusal, in the state
in which the loop was entered. -/
theorem mallocLoop_zero (E : Env) (num : Nat) (hnum : 4294967296 ≤ num)
    (hreq : ((if num < MIN_UNITS then MIN_UNITS else num) * 16) % 18446744073709551616 = 0) :
    ∀ (k : Nat) (s : State) (prevp p : Nat) (s' : State) (r : Nat),
      s.brk < 18446744073709551616 →
      mallocLoop k E s num prevp p = some (s', r) →
      E.grant s.brk 0 = false ∧ s' = s ∧ r = 0 := by
  intro k
  induction k with
  | zero => intro s prevp p s' r _ h; simp [mallocLoop] at h
  | succ k ih =>
    intro s prevp p s' r hbrk h
    unfold mallocLoop at h
    have hsz : ¬ getSize s.mem p ≥ num := by
      have := getSize_lt s.mem p
      omega
    rw [if_neg hsz] at h
    by_cases hpf : p = s.freep
    · rw [if_pos hpf] at h
      by_cases hg : E.grant s.brk 0 = true
      · exfalso
        unfold morecore sbrk at h
        simp only [hreq, hg, if_true] at h
        cases hadd : add_to_free_list k { mem := setSize s.mem s.brk (if num < MIN_UNITS then MIN_UNITS else num), freep := s.freep, usedp := s.usedp, stack_bottom := s.stack_bottom, initted := s.initted, brk := (s.brk + 0) % 18446744073709551616 } s.brk with
        | none => rw [hadd] at h; cases h
        | some s2 =>
          rw [hadd] at h
          simp only [] at h
          have hb2 : s2.brk = s.brk := by
            unfold add_to_free_list at hadd
            cases hfs : findSlot k (setSize s.mem s.brk (if num < MIN_UNITS then MIN_UNITS else num)) s.brk s.freep with
            | none => simp only [hfs] at hadd; cases hadd
            | some q =>
              simp only [hfs] at hadd
              have := Option.some.inj hadd
              rw [← this]
              show (s.brk + 0) % 18446744073709551616 = s.brk
              omega
          have := (ih s2 _ _ s' r (by rw [hb2]; exact hbrk) h).1
          rw [hb2, hg] at this
          cases this
      · have hgf : E.grant s.brk 0 = false := by simpa using hg
        have hmc : morecore k E s num = some none := by
          unfold morecore sbrk
          simp only [hreq, hgf]
          rfl
        rw [hmc] at h
        have h0 := Option.some.inj h
        exact ⟨hgf, (congrArg Prod.fst h0).symm, (congrArg Prod.snd h0).symm⟩
    · rw [if_neg hpf] at h
      exact ih s _ _ s' r hbrk h

/-- A zero-byte request: `GC_malloc` has a result only when the request is refused,
and the result is the null pointer in the unchanged state. -/
theorem GC_malloc_zero (E : Env) (s : State) (F U : List Nat) (hR : Rep E s F U) (n : Nat)
    (hreq : request n = 0) (k : Nat) (s' : State) (r : Nat)
    (h : GC_malloc k E s n = some (s', r)) :
    E.grant s.brk 0 = false ∧ s' = s ∧ r = 0 := by
  obtain ⟨hnum, hnu⟩ := request_zero n hreq
  have hfp : s.freep ≠ 0 := by
    rcases hR.free.freep_mem with h1 | h1
    · have := hR.base_pos; omega
    · have := hR.free.blk _ h1; omega
  unfold GC_malloc at h
  simp only [if_neg hfp] at h
  have hb := hR.free.brk_le
  exact mallocLoop_zero E (num_units n) hnum hreq k s _ _ s' r (by omega) h

/-- A call of `GC_malloc` that returns in `E` returns the same in `restrictEnv E`. -/
theorem GC_malloc_to_restrict (E : Env) (s : State) (F U : List Nat) (hR : Rep E s F U)
    (n k : Nat) (s' : State) (r : Nat) (h : GC_malloc k E s n = some (s', r)) :
    GC_malloc k (restrictEnv E) s n = some (s', r) := by
  rcases request_cases n with h0 | h16
  · obtain ⟨hg, _, _⟩ := GC_malloc_zero E s F U hR n h0 k s' r h
    rw [← GC_malloc_restrict E s n k (Or.inr (by rw [h0]; exact hg))]
    exact h
  · rw [← GC_malloc_restrict E s n k (Or.inl h16)]
    exact h

/-- The states reachable in an environment that grants only requests inside the
address space are reachable when requests of fewer than 16 bytes are refused. -/
theorem Reach.reach_restrict {E : Env} (hB : Bounded E) {s : State} (h : Reach E s) :
    Reach (restrictEnv E) s := by
  induction h with
  | init m b sb h0 h1 h2 h3 => exact Reach.init m b sb h0 h1 h2 h3
  | reinit s sb _ ih => exact Reach.reinit s sb ih
  | malloc s s' k n r _ hm ih =>
    obtain ⟨F, U, hR, _⟩ := (ih.inv (restrictEnv_wellBehaved E hB)).1
    exact Reach.malloc s s' k n r ih (GC_malloc_to_restrict E s F U hR.rep_unrestrict n k s' r hm)
  | collect s s' k statics stack l _ hc ih => exact Reach.collect s s' k statics stack l ih hc
  | store s a v _ ha ih => exact Reach.store s a v ih ha

/-- C7 (amended): with an extension call that grants only requests ending inside
the address space (below `2^63`), in every reachable state and for every byte
count `n`: (1) `GC_malloc(n)` returns the null pointer only when an extension
request it made (of `request n` bytes at the break of that moment) was refused;
(2) `GC_malloc(n)` returns for every sufficient fuel, unless its request is the
zero-byte request and the environment grants it at the present break, in which
case it has no result, whatever the fuel (the request is zero for the sixteen
byte counts whose unit count is `2^60`, all other requests have at least 16
bytes); (3) when the heap, with the extension the call may request, spans less
than `2^32` units above the sentinel, it makes at most one extension request:
the break is unchanged or has grown by this request, and the null pointer is
returned only if this request is refused. -/
theorem allocate_fails_only_when_refused (E : Env) (hB : Bounded E) (s : State)
    (h : Reach E s) (n : Nat) :
    (∀ k s', GC_malloc k E s n = some (s', 0) → E.grant s'.brk (request n) = false) ∧
    ((16 ≤ request n ∨ E.grant s.brk (request n) = false) →
      ∃ k0, ∀ k, k0 ≤ k → ∃ s' r, GC_malloc k E s n = some (s', r)) ∧
    (request n = 0 → E.grant s.brk 0 = true → ∀ k, GC_malloc k E s n = none) ∧
    (request n = 0 ↔ 1152921504606846976 ≤ num_units n) ∧
    (s.brk + 16 * (if num_units n < MIN_UNITS then MIN_UNITS else num_units n) <
        E.base + 68719476736 →
      ∀ k s' r, GC_malloc k E s n = some (s', r) →
        (r = 0 → E.grant s.brk
          (16 * (if num_units n < MIN_UNITS then MIN_UNITS else num_units n)) = false) ∧
        (s'.brk = s.brk ∨
          s'.brk = s.brk +
            16 * (if num_units n < MIN_UNITS then MIN_UNITS else num_units n))) := by
  have hW := restrictEnv_wellBehaved E hB
  have h' := h.reach_restrict hB
  obtain ⟨F, U, hR', _⟩ := (h'.inv hW).1
  have hR := hR'.rep_unrestrict
  refine ⟨?_, ?_, ?_, ?_, ?_⟩
  · intro k s' hm
    rcases request_cases n with h0 | h16
    · obtain ⟨hg, hs, _⟩ := GC_malloc_zero E s F U hR n h0 k s' 0 hm
      rw [h0, hs]
      exact hg
    · have hm' := GC_malloc_to_restrict E s F U hR n k s' 0 hm
      have hn : (restrictEnv E).grant s'.brk (request n) = false :=
        (GC_malloc_null (restrictEnv E) hW s s' F U hR' k n hm').1
      have e : (restrictEnv E).grant s'.brk (request n) =
          (E.grant s'.brk (request n) && decide (16 ≤ request n)) := rfl
      rw [e, decide_eq_true h16, Bool.and_true] at hn
      exact hn
  · intro hreq
    obtain ⟨k0, hk0⟩ := GC_malloc_terminates (restrictEnv E) hW s F U hR' n
    refine ⟨k0, ?_⟩
    intro k hk
    obtain ⟨res, hres⟩ := hk0 k hk
    rw [GC_malloc_restrict E s n k hreq]
    exact ⟨res.1, res.2, hres⟩
  · intro h0 hg k
    cases hres : GC_malloc k E s n with
    | none => rfl
    | some res =>
      obtain ⟨s', r⟩ := res
      have := (GC_malloc_zero E s F U hR n h0 k s' r hres).1
      rw [hg] at this
      cases this
  · have hb := num_units_bounds n
    unfold request MIN_UNITS
    constructor
    · intro h0
      split_ifs at h0 with h1
      omega
    · intro hge
      rw [if_neg (by omega)]
      omega
  · intro hspan k s' r hres
    have hres' := GC_malloc_to_restrict E s F U hR n k s' r hres
    rcases GC_malloc_outcome (restrictEnv E) hW k s s' n r F U hR' hspan hres' with
      ⟨_, q, _, a2, a3, _⟩ | ⟨a1, _, a3⟩ | ⟨_, q, _, a2, a3, _⟩
    · exact ⟨fun h0 => by omega, Or.inl a3⟩
    · refine ⟨fun _ => ?_, Or.inl (by rw [a1])⟩
      have e : (restrictEnv E).grant s.brk
          (16 * (if num_units n < MIN_UNITS then MIN_UNITS else num_units n)) =
          (E.grant s.brk (16 * (if num_units n < MIN_UNITS then MIN_UNITS else num_units n)) &&
            decide (16 ≤ 16 * (if num_units n < MIN_UNITS then MIN_UNITS else num_units n))) :=
        rfl
      have h16 : 16 ≤ 16 * (if num_units n < MIN_UNITS then MIN_UNITS else num_units n) := by
        unfold MIN_UNITS
        split_ifs <;> omega
      rw [e, decide_eq_true h16, Bool.and_true] at a3
      exact a3
    · exact ⟨fun h0 => by omega, Or.inr a3⟩

theorem zeroEnv_bounded : Bounded zeroEnv := by
  intro b inc h
  simp only [zeroEnv, decide_eq_true_eq] at h
  omega

theorem zeroInit_reach : Reach zeroEnv zeroInit :=
  Reach.init (fun _ => 0) 8192 0 (by decide) (by decide) (by decide) (by decide)

theorem some_snd_of_isSome (o : Option (State × Nat)) (d : State × Nat) (r : Nat)
    (h : o.isSome = true) (h0 : (o.getD d).2 = r) : o = some ((o.getD d).1, r) := by
  cases o with
  | none => cases h
  | some a =>
    obtain ⟨a1, a2⟩ := a
    simp only [Option.getD_some] at h0 ⊢
    rw [h0]

theorem allocate_fails_only_when_refused_witness :
    (zeroEnv.grant 8192 0 = true ∧ request 64 = 4096) ∧
      (∃ k0, ∀ k, k0 ≤ k → ∃ s' r, GC_malloc k zeroEnv zeroInit 64 = some (s', r)) ∧
      (GC_malloc 8 zeroEnv zeroInit 64).map (fun x => (x.2, x.1.brk)) = some (12224, 12288) ∧
      ((12224 = 0 → zeroEnv.grant zeroInit.brk
          (16 * (if num_units 64 < MIN_UNITS then MIN_UNITS else num_units 64)) = false) ∧
        (((GC_malloc 8 zeroEnv zeroInit 64).getD (zeroInit, 0)).1.brk = zeroInit.brk ∨
          ((GC_malloc 8 zeroEnv zeroInit 64).getD (zeroInit, 0)).1.brk = zeroInit.brk +
            16 * (if num_units 64 < MIN_UNITS then MIN_UNITS else num_units 64))) :=
  ⟨⟨by decide, by decide⟩,
    (allocate_fails_only_when_refused zeroEnv zeroEnv_bounded zeroInit zeroInit_reach 64).2.1
      (Or.inl (by decide)),
    by decide,
    (allocate_fails_only_when_refused zeroEnv zeroEnv_bounded zeroInit zeroInit_reach
      64).2.2.2.2 (by decide) 8 _ 12224
      (some_snd_of_isSome (GC_malloc 8 zeroEnv zeroInit 64) (zeroInit, 0) 12224 (by decide)
        (by decide))⟩

/-- C7 (counterexample): the environment `zeroEnv` grants only requests that end
below one mebibyte and, like the system call `sbrk(0)`, it grants the request
of zero bytes at every break.  `GC_malloc(2^64 - 16)` computes `2^60` units and
asks for `2^60 * 16 = 0` bytes (in `size_t`).  In the reachable initial state
every extension request of this call is granted (each is the zero-byte request,
and the break stays at `8192`), yet the call has no result, whatever the fuel:
it neither returns an address nor terminates. -/
theorem allocate_zero_request_never_returns :
    Bounded zeroEnv ∧ Reach zeroEnv zeroInit ∧ zeroInit.brk = 8192 ∧
      num_units 18446744073709551600 = 1152921504606846976 ∧
      request 18446744073709551600 = 0 ∧
      (∀ b, b ≤ 1048576 → zeroEnv.grant b 0 = true) ∧
      (∀ k, GC_malloc k zeroEnv zeroInit 18446744073709551600 = none) := by
  refine ⟨zeroEnv_bounded, zeroInit_reach, by decide, by decide, by decide, ?_, ?_⟩
  · intro b hb
    simp only [zeroEnv, decide_eq_true_eq]
    omega
  · intro k
    cases hres : GC_malloc k zeroEnv zeroInit 18446744073709551600 with
    | none => rfl
    | some res =>
      obtain ⟨s', r⟩ := res
      obtain ⟨F, U, hR, _⟩ :=
        ((zeroInit_reach.reach_restrict zeroEnv_bounded).inv
          (restrictEnv_wellBehaved zeroEnv zeroEnv_bounded)).1
      have := (GC_malloc_zero zeroEnv zeroInit F U hR.rep_unrestrict 18446744073709551600
        (by decide) k s' r hres).1
      have hg : zeroEnv.grant zeroInit.brk 0 = true := by decide
      rw [hg] at this
      cases this

end GarbageCollector
